import Mathlib

/-!
# Read-in-order matching (optimizeReadInOrder.cpp)

A shallow embedding of the key matchers of
`src/Processors/QueryPlan/Optimizations/optimizeReadInOrder.cpp`.

Expression graphs are arenas: a node is named by its position in the list of
nodes of its graph, and a pointer to a node becomes that position.  Sets of
node pointers become lists of positions used through membership only.
-/

namespace DB

/-! ## Data model -/

/-- Kinds of expression graph nodes (`ActionsDAG::ActionType`). -/
inductive ActionType
  | INPUT
  | ARRAY_JOIN
  | COLUMN
  | ALIAS
  | FUNCTION
deriving DecidableEq, Repr

/-- Modelled from the spec: the column data types, of which the matcher only
asks whether one is nullable, low-cardinality-nullable or floating point
(`IDataType` is declared outside the sources at hand). -/
inductive DataType
  | Int32
  | UInt64
  | Float64
  | FixedString
  | Nullable (nested : DataType)
  | LowCardinality (nested : DataType)
deriving DecidableEq, Repr

/-- Modelled from the spec: `isNullableOrLowCardinalityNullable` holds of a
nullable type and of a low-cardinality wrapper around a nullable type. -/
def isNullableOrLowCardinalityNullable : DataType → Bool
  | .Nullable _ => true
  | .LowCardinality (.Nullable _) => true
  | _ => false

/-- Modelled from the spec: `isFloat` holds of the floating point types. -/
def isFloat : DataType → Bool
  | .Float64 => true
  | _ => false

/-- What the matcher reads of a function (`IFunctionBase`): its name, its
result type, `isInjective({})` and `isDeterministicInScopeOfQuery()`. -/
structure FunctionBase where
  name : String
  result_type : DataType
  is_injective : Bool
  is_deterministic_in_scope_of_query : Bool
deriving DecidableEq, Repr

/-- One node of an expression graph (`ActionsDAG::Node`).  `column` is the
constant value of the node when it has one; `children` are positions of nodes
of the same graph. -/
structure Node where
  type : ActionType
  result_name : String
  result_type : DataType
  column : Option Int
  function_base : Option FunctionBase
  children : List Nat
deriving DecidableEq, Repr

instance : Inhabited Node :=
  ⟨{ type := .INPUT, result_name := "", result_type := .Int32, column := none,
     function_base := none, children := [] }⟩

/-- An expression graph (`ActionsDAG`): the arena of nodes, the inputs and the
outputs. -/
structure ActionsDAG where
  nodes : List Node
  inputs : List Nat
  outputs : List Nat
deriving DecidableEq, Repr

/-- The node a pointer refers to. -/
def ActionsDAG.node (dag : ActionsDAG) (id : Nat) : Node :=
  dag.nodes.getD id default

/-- `ActionsDAG::tryFindInOutputs`: the first output with the given name. -/
def ActionsDAG.tryFindInOutputs (dag : ActionsDAG) (name : String) : Option Nat :=
  dag.outputs.find? (fun id => (dag.node id).result_name == name)

/-- One entry of a sort requirement (`SortColumnDescription`). -/
structure SortColumnDescription where
  column_name : String
  direction : Int
  nulls_direction : Int
  collator : Option String
deriving DecidableEq, Repr

instance : Inhabited SortColumnDescription :=
  ⟨{ column_name := "", direction := 1, nulls_direction := 1, collator := none }⟩

abbrev SortDescription := List SortColumnDescription

/-- The declared sort key of a table (`KeyDescription`): its defining graph,
the key columns in order, the per-column reverse flags (empty when no column
is reversed) and the column types. -/
structure KeyDescription where
  expression : ActionsDAG
  column_names : List String
  reverse_flags : List Bool
  data_types : List DataType
deriving DecidableEq, Repr

/-- `MatchedTrees::Monotonicity`: the matched node is a monotonic function of
the sort key node; `child_node` is the argument the chain goes through, and
the match of that argument is the entry of `child_node` in the matches. -/
structure Monotonicity where
  direction : Int
  strict : Bool
  child_node : Nat
deriving DecidableEq, Repr

/-- `MatchedTrees::Match`: `node` is the matched node of the sort key graph,
absent when there is no match. -/
structure Match where
  node : Option Nat
  monotonicity : Option Monotonicity
deriving DecidableEq, Repr

instance : Inhabited Match := ⟨{ node := none, monotonicity := none }⟩

/-- `MatchedTrees::Matches`: for nodes of the query graph, their match. -/
abbrev Matches := List (Nat × Match)

/-- `matches[node]`: the entry of a node, a default (unmatched) one when the
node has none. -/
def Matches.entry (ms : Matches) (node : Nat) : Match :=
  (ms.lookup node).getD default

/-- `FixedColumns`: a set of node pointers. -/
abbrev FixedColumns := List Nat

/-- `InputOrderInfo`, the result contract of the matchers. -/
structure InputOrderInfo where
  sort_description_for_merging : SortDescription
  used_prefix_of_sorting_key_size : Nat
  direction : Int
  limit : Nat
deriving DecidableEq, Repr

/-! ## appendFixedColumnsFromFilterExpression -/

/-- The `while` loop that follows a chain of injective functions of one
argument down from a fixed column, bounded by a number of turns. -/
def injectiveChain (dag : ActionsDAG) : Nat → Nat → FixedColumns → FixedColumns
  | 0, _, fixed_columns => fixed_columns
  | fuel + 1, maybe_injective, fixed_columns =>
    let node := dag.node maybe_injective
    if node.type = .FUNCTION ∧ node.children.length = 1
        ∧ (node.function_base.map (fun f => f.is_injective)).getD false = true then
      let child := node.children.getD 0 0
      injectiveChain dag fuel child (fixed_columns.insert child)
    else fixed_columns

/-- One turn of the `while (!stack.empty())` loop of
`appendFixedColumnsFromFilterExpression`, on a stack whose top is the head of
the list. -/
def filterExpressionStep (dag : ActionsDAG) (st : List Nat × FixedColumns) : List Nat × FixedColumns :=
  match st.1 with
  | [] => st
  | id :: stack =>
    let node := dag.node id
    if node.type = .FUNCTION then
      let name := (node.function_base.map (fun f => f.name)).getD ""
      if name = "and" then (node.children.reverse ++ stack, st.2)
      else if name = "equals" then
        let maybe_fixed_column := (node.children.filter (fun child => (dag.node child).column.isNone)).getLast?
        let num_constant_columns := (node.children.filter (fun child => (dag.node child).column.isSome)).length
        match maybe_fixed_column with
        | some fixed_column =>
          if num_constant_columns + 1 = node.children.length then
            (stack, injectiveChain dag dag.nodes.length fixed_column (st.2.insert fixed_column))
          else (stack, st.2)
        | none => (stack, st.2)
      else (stack, st.2)
    else (stack, st.2)

/-- The `while (!stack.empty())` loop of `appendFixedColumnsFromFilterExpression`,
bounded by a number of turns. -/
def filterExpressionLoop (dag : ActionsDAG) : Nat → List Nat × FixedColumns → List Nat × FixedColumns
  | 0, st => st
  | fuel + 1, st =>
    if st.1.isEmpty then st else filterExpressionLoop dag fuel (filterExpressionStep dag st)

/-- `appendFixedColumnsFromFilterExpression`: the columns that an equality with
a constant fixes, found under the conjunctions of the filter expression.  The
loop has no visited set, so it takes one turn per path of `and` nodes from
the filter expression; with `n` nodes and `c` child slots in the graph there
are fewer than `(c + 2) ^ (n + 1)` of them in a graph without cycles. -/
def appendFixedColumnsFromFilterExpression (dag : ActionsDAG) (filter_expression : Nat)
    (fixed_columns : FixedColumns) : FixedColumns :=
  (filterExpressionLoop dag
    (((dag.nodes.map (fun node => node.children.length)).sum + 2) ^ (dag.nodes.length + 1))
    ([filter_expression], fixed_columns)).2

/-! ## enrichFixedColumns -/

/-- A frame of the explicit traversal stack of `enrichFixedColumns`. -/
structure Frame where
  node : Nat
  next_child : Nat
deriving DecidableEq, Repr

/-- The local state of `enrichFixedColumns`: the stack, the visited set and
the set of fixed columns being extended. -/
structure EnrichState where
  stack : List Frame
  visited : List Nat
  fixed_columns : FixedColumns
deriving DecidableEq, Repr

/-- The `for` loop that moves `next_child` over the children already visited:
the position of the first child from `next_child` on that is not visited, or
the number of children. -/
def skipVisited (children visited : List Nat) (next_child : Nat) : Nat :=
  next_child + ((children.drop next_child).takeWhile (fun c => visited.contains c)).length

/-- What `enrichFixedColumns` does with a node once all its children are
done.  A constant is left alone; an alias is fixed when its operand is; a
function that is deterministic in the scope of the query is fixed when every
argument is a constant or fixed. -/
def enrichNode (dag : ActionsDAG) (fixed_columns : FixedColumns) (id : Nat) : FixedColumns :=
  let node := dag.node id
  if node.column.isSome then fixed_columns
  else if node.type = .ALIAS then
    match node.children with
    | child :: _ => if fixed_columns.contains child then fixed_columns.insert id else fixed_columns
    | [] => fixed_columns
  else if node.type = .FUNCTION then
    match node.function_base with
    | some function_base =>
      if function_base.is_deterministic_in_scope_of_query then
        let all_args_fixed_or_const :=
          node.children.all (fun child => (dag.node child).column.isSome || fixed_columns.contains child)
        if all_args_fixed_or_const then fixed_columns.insert id else fixed_columns
      else fixed_columns
    | none => fixed_columns
  else fixed_columns

/-- One turn of the `while (!stack.empty())` loop, on a non-empty stack. -/
def enrichStep (dag : ActionsDAG) (st : EnrichState) : EnrichState :=
  match st.stack with
  | [] => st
  | frame :: rest =>
    let children := (dag.node frame.node).children
    let next_child := skipVisited children st.visited frame.next_child
    if next_child < children.length then
      let child := children.getD next_child 0
      { stack := { node := child, next_child := 0 } :: { node := frame.node, next_child := next_child + 1 } :: rest,
        visited := child :: st.visited,
        fixed_columns := st.fixed_columns }
    else
      { stack := rest,
        visited := st.visited,
        fixed_columns := enrichNode dag st.fixed_columns frame.node }

/-- The `while (!stack.empty())` loop, bounded by a number of turns. -/
def enrichWhile (dag : ActionsDAG) : Nat → EnrichState → EnrichState
  | 0, st => st
  | fuel + 1, st => if st.stack.isEmpty then st else enrichWhile dag fuel (enrichStep dag st)

/-- The body of the `for` loop over the nodes of the graph. -/
def enrichRoot (dag : ActionsDAG) (st : EnrichState) (id : Nat) : EnrichState :=
  if st.visited.contains id then st
  else
    enrichWhile dag (2 * dag.nodes.length + 1)
      { stack := [{ node := id, next_child := 0 }],
        visited := id :: st.visited,
        fixed_columns := st.fixed_columns }

/-- `enrichFixedColumns`: add to the fixed columns the aliases of fixed
columns and the deterministic functions of fixed columns and constants.  Every
node is pushed once and popped once, which bounds the turns of the inner
loop by twice the number of nodes. -/
def enrichFixedColumns (dag : ActionsDAG) (fixed_columns : FixedColumns) : FixedColumns :=
  ((List.range dag.nodes.length).foldl (enrichRoot dag)
    { stack := [], visited := [], fixed_columns := fixed_columns }).fixed_columns

/-! ## buildInputOrderFromSortDescription -/

/-- The part of the fixed key columns that `buildInputOrderFromSortDescription`
and `buildInputOrderFromUnorderedKeys` read off the matches: the sort key node
of every direct or strictly monotonic match of a fixed column. -/
def fixedKeyColumnsOfMatches (fixed_columns : FixedColumns) (ms : Matches) : FixedColumns :=
  ms.foldl
    (fun fixed_key_columns entry =>
      if entry.2.monotonicity.all (fun m => m.strict) then
        match entry.2.node with
        | some key_node =>
          if fixed_columns.contains entry.1 then fixed_key_columns.insert key_node
          else fixed_key_columns
        | none => fixed_key_columns
      else fixed_key_columns)
    []

/-- The fixed key columns as both matchers compute them when there is a merged
graph: read off the matches, then enriched over the sort key graph. -/
def fixedKeyColumns (fixed_columns : FixedColumns) (ms : Matches) (sorting_key_dag : ActionsDAG) :
    FixedColumns :=
  enrichFixedColumns sorting_key_dag (fixedKeyColumnsOfMatches fixed_columns ms)

/-- The local `MatchInfo` of `buildInputOrderFromSortDescription`: what was
recorded for a consumed requirement entry. -/
structure MatchInfo where
  source : Option Nat
  fixed_column : Option Nat
  monotonic : Option Match
deriving DecidableEq, Repr

/-- A ghost record of what one turn of the matching loop consumed.  It is not
part of the source; nothing the matcher returns depends on it. -/
inductive Consumed
  /-- The requirement entry at `description_column` matched the sort key column
  at `sort_key`; `appended` tells whether the entry went into the matched
  requirement entries. -/
  | byMatch (description_column sort_key : Nat) (monotonicity : Option Monotonicity) (appended : Bool)
  /-- The sort key column at `sort_key` was skipped as a fixed column. -/
  | fixedKey (sort_key : Nat)
  /-- The requirement entry at `description_column` was consumed as a constant
  or fixed column. -/
  | fixedColumn (description_column : Nat)
deriving DecidableEq, Repr

/-- The requirement entry a turn appended to the matched entries, if it
appended one. -/
def Consumed.appended : Consumed → Option Nat
  | .byMatch description_column _ _ true => some description_column
  | .byMatch _ _ _ false => none
  | .fixedKey _ => none
  | .fixedColumn description_column => some description_column

/-- The local variables of the matching loop of
`buildInputOrderFromSortDescription`, and the ghost record `consumed`. -/
structure MatchState where
  order_key_prefix_descr : SortDescription
  read_direction : Int
  next_description_column : Nat
  next_sort_key : Nat
  can_optimize_virtual_row : Bool
  match_infos : List MatchInfo
  consumed : List Consumed
deriving DecidableEq, Repr

/-- The local variables before the first turn of the loop. -/
def MatchState.init : MatchState :=
  { order_key_prefix_descr := [], read_direction := 0, next_description_column := 0,
    next_sort_key := 0, can_optimize_virtual_row := true, match_infos := [], consumed := [] }

/-- The end of a turn of the loop (from `read_direction == 0 means we can
choose any global direction` on), entered with the cursors already moved:
stop on a direction conflict, else fix the direction, append the entry when it
has a direction, and stop after a match that is not strict.  The second
component tells whether the loop goes on. -/
def reconcileDirection (s : MatchState) (sort_column_description : SortColumnDescription)
    (current_direction : Int) (strict_monotonic : Bool) (event : Bool → Consumed) :
    MatchState × Bool :=
  if current_direction ≠ 0 ∧ s.read_direction ≠ 0 ∧ current_direction ≠ s.read_direction then
    ({ s with consumed := s.consumed ++ [event false] }, false)
  else
    let read_direction := if s.read_direction = 0 then current_direction else s.read_direction
    let order_key_prefix_descr :=
      if current_direction ≠ 0 then s.order_key_prefix_descr ++ [sort_column_description]
      else s.order_key_prefix_descr
    ({ s with
        read_direction := read_direction,
        order_key_prefix_descr := order_key_prefix_descr,
        consumed := s.consumed ++ [event (decide (current_direction ≠ 0))] },
      !(decide (current_direction ≠ 0) && !strict_monotonic))

/-- `reverse_indicator`: -1 when the reverse flags are given and the one of
the key column is set, else 1. -/
def reverseIndicator (sorting_key : KeyDescription) (next_sort_key : Nat) : Int :=
  if sorting_key.reverse_flags.getD next_sort_key false then -1 else 1

/-- `column_is_nullable`: the type of the sort key column is nullable,
low-cardinality-nullable or floating point. -/
def columnIsNullable (sorting_key : KeyDescription) (next_sort_key : Nat) : Bool :=
  isNullableOrLowCardinalityNullable (sorting_key.data_types.getD next_sort_key .Int32)
    || isFloat (sorting_key.data_types.getD next_sort_key .Int32)

/-- One turn of the `while` loop of `buildInputOrderFromSortDescription`, run
with both cursors in range.  `ms` are the matches of the merged graph against
the sort key graph and `fixed_key_columns` the fixed key columns, both
computed before the loop.  The second component tells whether the loop goes
on (`false` for `break`). -/
def matchStep (fixed_columns : FixedColumns) (dag : Option ActionsDAG) (ms : Matches)
    (fixed_key_columns : FixedColumns) (description : SortDescription)
    (sorting_key : KeyDescription) (s : MatchState) : MatchState × Bool :=
  let sorting_key_column := sorting_key.column_names.getD s.next_sort_key ""
  let reverse_indicator := reverseIndicator sorting_key s.next_sort_key
  let sort_column_description := description.getD s.next_description_column default
  if sort_column_description.collator.isSome then (s, false)
  else if columnIsNullable sorting_key s.next_sort_key && sort_column_description.nulls_direction == -1 then
    (s, false)
  else
    match sorting_key.expression.tryFindInOutputs sorting_key_column with
    | none => (s, false)
    | some sort_column_node =>
      match dag with
      | none =>
        if (sorting_key.expression.node sort_column_node).type ≠ .INPUT then (s, false)
        else if sort_column_description.column_name ≠ sorting_key_column then (s, false)
        else
          reconcileDirection
            { s with
                match_infos := s.match_infos ++ [{ source := some sort_column_node, fixed_column := none, monotonic := none }],
                next_description_column := s.next_description_column + 1,
                next_sort_key := s.next_sort_key + 1 }
            sort_column_description
            (sort_column_description.direction * reverse_indicator)
            true
            (Consumed.byMatch s.next_description_column s.next_sort_key none)
      | some dag =>
        match dag.tryFindInOutputs sort_column_description.column_name with
        | none => (s, false)
        | some sort_node =>
          let match_ := ms.entry sort_node
          if match_.node = some sort_column_node then
            let current_direction := sort_column_description.direction * reverse_indicator
            match match_.monotonicity with
            | some monotonicity =>
              reconcileDirection
                { s with
                    match_infos := s.match_infos ++ [{ source := some sort_node, fixed_column := none, monotonic := some match_ }],
                    next_description_column := s.next_description_column + 1,
                    next_sort_key := s.next_sort_key + 1 }
                sort_column_description
                (current_direction * monotonicity.direction)
                monotonicity.strict
                (Consumed.byMatch s.next_description_column s.next_sort_key (some monotonicity))
            | none =>
              reconcileDirection
                { s with
                    match_infos := s.match_infos ++ [{ source := some sort_node, fixed_column := none, monotonic := none }],
                    next_description_column := s.next_description_column + 1,
                    next_sort_key := s.next_sort_key + 1 }
                sort_column_description
                current_direction
                true
                (Consumed.byMatch s.next_description_column s.next_sort_key none)
          else if fixed_key_columns.contains sort_column_node then
            reconcileDirection
              { s with
                  can_optimize_virtual_row := if s.next_sort_key = 0 then false else s.can_optimize_virtual_row,
                  next_sort_key := s.next_sort_key + 1 }
              sort_column_description
              0
              true
              (fun _ => Consumed.fixedKey s.next_sort_key)
          else
            let is_fixed_column := (dag.node sort_node).column.isSome || fixed_columns.contains sort_node
            if !is_fixed_column then (s, false)
            else
              reconcileDirection
                { s with
                    can_optimize_virtual_row :=
                      if (dag.node sort_node).column.isSome then s.can_optimize_virtual_row else false,
                    match_infos := s.match_infos ++ [{ source := some sort_node, fixed_column := some sort_node, monotonic := none }],
                    order_key_prefix_descr := s.order_key_prefix_descr ++ [sort_column_description],
                    next_description_column := s.next_description_column + 1 }
                sort_column_description
                0
                true
                (fun _ => Consumed.fixedColumn s.next_description_column)

/-- The `while` loop of `buildInputOrderFromSortDescription`, bounded by a
number of turns; `matchLoop_fuel` shows that the bound used by the matcher is
never reached. -/
def matchLoop (fixed_columns : FixedColumns) (dag : Option ActionsDAG) (ms : Matches)
    (fixed_key_columns : FixedColumns) (description : SortDescription)
    (sorting_key : KeyDescription) : Nat → MatchState → MatchState
  | 0, s => s
  | fuel + 1, s =>
    if s.next_description_column < description.length
        ∧ s.next_sort_key < sorting_key.column_names.length then
      let r := matchStep fixed_columns dag ms fixed_key_columns description sorting_key s
      if r.2 then matchLoop fixed_columns dag ms fixed_key_columns description sorting_key fuel r.1
      else r.1
    else s

/-! ## The virtual row conversion -/

/-- Modelled from the spec: `ActionsDAG::addInput` (its code is outside the
sources at hand) adds an input node and returns it. -/
def ActionsDAG.addInput (dag : ActionsDAG) (name : String) (type : DataType) : ActionsDAG × Nat :=
  ({ dag with
      nodes := dag.nodes ++ [{ type := .INPUT, result_name := name, result_type := type,
                               column := none, function_base := none, children := [] }],
      inputs := dag.inputs ++ [dag.nodes.length] },
    dag.nodes.length)

/-- Modelled from the spec: `ActionsDAG::addColumn` adds a constant node and
returns it. -/
def ActionsDAG.addColumn (dag : ActionsDAG) (column : Option Int) (type : DataType)
    (name : String) : ActionsDAG × Nat :=
  ({ dag with
      nodes := dag.nodes ++ [{ type := .COLUMN, result_name := name, result_type := type,
                               column := column, function_base := none, children := [] }] },
    dag.nodes.length)

/-- Modelled from the spec: `ActionsDAG::addAlias` adds an alias of `child`
under the name `alias_name` and returns it. -/
def ActionsDAG.addAlias (dag : ActionsDAG) (child : Nat) (alias_name : String) : ActionsDAG × Nat :=
  ({ dag with
      nodes := dag.nodes ++ [{ type := .ALIAS, result_name := alias_name,
                               result_type := (dag.node child).result_type,
                               column := (dag.node child).column,
                               function_base := none, children := [child] }] },
    dag.nodes.length)

/-- Modelled from the spec: `ActionsDAG::addFunction` with an empty result
name adds the application of a function to argument nodes, named after the
function and its arguments, and returns it. -/
def ActionsDAG.addFunction (dag : ActionsDAG) (function_base : Option FunctionBase)
    (children : List Nat) : ActionsDAG × Nat :=
  let name := (function_base.map (fun f => f.name)).getD ""
    ++ "(" ++ ", ".intercalate (children.map (fun c => (dag.node c).result_name)) ++ ")"
  ({ dag with
      nodes := dag.nodes ++ [{ type := .FUNCTION, result_name := name,
                               result_type := (function_base.map (fun f => f.result_type)).getD .Int32,
                               column := none, function_base := function_base,
                               children := children }] },
    dag.nodes.length)

/-- `addMonotonicChain`: rebuild in `dag` the chain of monotonic functions that
leads from the primary key input `input_name` to `node` of the merged graph
`query`.  The `child_match` of a monotonicity is the entry of its `child_node`
in the matches.  The recursion goes down the merged graph, so the number of
its nodes bounds it. -/
def addMonotonicChain (query : ActionsDAG) (ms : Matches) :
    Nat → ActionsDAG → Nat → Match → String → ActionsDAG × Nat
  | 0, dag, node, _, input_name => dag.addInput input_name (query.node node).result_type
  | fuel + 1, dag, node, match_, input_name =>
    match match_.monotonicity with
    | none => dag.addInput input_name (query.node node).result_type
    | some monotonicity =>
      if (query.node node).type = .ALIAS then
        let r := addMonotonicChain query ms fuel dag ((query.node node).children.getD 0 0) match_ input_name
        r.1.addAlias r.2 (query.node node).result_name
      else
        let r := (query.node node).children.foldl
          (fun (acc : ActionsDAG × List Nat) child =>
            if child = monotonicity.child_node then
              let r := addMonotonicChain query ms fuel acc.1 monotonicity.child_node
                (ms.entry monotonicity.child_node) input_name
              (r.1, acc.2 ++ [r.2])
            else
              let r := acc.1.addColumn (query.node child).column (query.node child).result_type
                (query.node child).result_name
              (r.1, acc.2 ++ [r.2]))
          (dag, [])
        r.1.addFunction (query.node node).function_base r.2

/-- The local variables of the loop that builds the virtual row conversion. -/
structure VirtualRowState where
  virtual_row_dag : ActionsDAG
  next_pk_name : Nat
deriving DecidableEq, Repr

/-- One turn of the loop over `match_infos` that builds the virtual row
conversion.  `source_dag` is the graph the recorded nodes belong to: the
merged graph when there is one, else the sort key graph. -/
def virtualRowStep (source_dag : ActionsDAG) (ms : Matches) (pk_column_names : List String)
    (st : VirtualRowState) (info : MatchInfo) : VirtualRowState :=
  match info.fixed_column with
  | some fixed_column =>
    let r := st.virtual_row_dag.addColumn (source_dag.node fixed_column).column
      (source_dag.node fixed_column).result_type (source_dag.node fixed_column).result_name
    { st with virtual_row_dag := { r.1 with outputs := r.1.outputs ++ [r.2] } }
  | none =>
    let source := info.source.getD 0
    let pk_name := pk_column_names.getD st.next_pk_name ""
    let r :=
      match info.monotonic with
      | some match_ => addMonotonicChain source_dag ms source_dag.nodes.length st.virtual_row_dag source match_ pk_name
      | none =>
        let r := st.virtual_row_dag.addInput pk_name (source_dag.node source).result_type
        if pk_name ≠ (source_dag.node source).result_name then
          r.1.addAlias r.2 (source_dag.node source).result_name
        else r
    { virtual_row_dag := { r.1 with outputs := r.1.outputs ++ [r.2] },
      next_pk_name := st.next_pk_name + 1 }

/-- `SortingInputOrder`: the result of the ordered matcher. -/
structure SortingInputOrder where
  input_order : Option InputOrderInfo
  virtual_row_conversion : Option ActionsDAG
deriving DecidableEq, Repr

/-- The local variables of `buildInputOrderFromSortDescription` when its
`while` loop is left.  `ms` stands for `matchTrees(sorting_key_dag.getOutputs(),
*dag)`, whose code is outside the sources at hand; it is read only when there
is a merged graph. -/
def matchFinal (fixed_columns : FixedColumns) (dag : Option ActionsDAG) (ms : Matches)
    (description : SortDescription) (sorting_key : KeyDescription) : MatchState :=
  let fixed_key_columns :=
    match dag with
    | some _ => fixedKeyColumns fixed_columns ms sorting_key.expression
    | none => []
  matchLoop fixed_columns dag ms fixed_key_columns description sorting_key
    (description.length + sorting_key.column_names.length) MatchState.init

/-- `buildInputOrderFromSortDescription`, the matcher for the case when the
order of the keys matters (ORDER BY). -/
def buildInputOrderFromSortDescription (fixed_columns : FixedColumns) (dag : Option ActionsDAG)
    (ms : Matches) (description : SortDescription) (sorting_key : KeyDescription)
    (pk_column_names : List String) (limit : Nat) : SortingInputOrder :=
  let s := matchFinal fixed_columns dag ms description sorting_key
  if s.read_direction = 0 ∨ s.order_key_prefix_descr.isEmpty then
    { input_order := none, virtual_row_conversion := none }
  else
    let can_optimize_virtual_row :=
      if s.order_key_prefix_descr.length < description.length
          ∨ pk_column_names.length < s.next_sort_key then false
      else s.can_optimize_virtual_row
    { input_order := some
        { sort_description_for_merging := s.order_key_prefix_descr,
          used_prefix_of_sorting_key_size := s.next_sort_key,
          direction := s.read_direction,
          limit := limit },
      virtual_row_conversion :=
        if can_optimize_virtual_row then
          some (s.match_infos.foldl
            (virtualRowStep (dag.getD sorting_key.expression) ms pk_column_names)
            { virtual_row_dag := { nodes := [], inputs := [], outputs := [] }, next_pk_name := 0 }).virtual_row_dag
        else none }

/-! ## buildInputOrderFromUnorderedKeys -/

/-- `ReverseMatches`: for a node of the sort key graph, the entry of the
matches (a node of the merged graph and its match) retained for it. -/
abbrev ReverseMatches := List (Nat × (Nat × Match))

/-- The body of the loop over the outputs of the merged graph that fills the
reverse matches: the first entry for a sort key node is kept until a better
one comes (direct match > strict monotonic > monotonic). -/
def reverseMatchesStep (ms : Matches) (reverse_matches : ReverseMatches) (output : Nat) :
    ReverseMatches :=
  let match_ := ms.entry output
  match match_.node with
  | none => reverse_matches
  | some key_node =>
    match reverse_matches.lookup key_node with
    | none => reverse_matches ++ [(key_node, (output, match_))]
    | some prev =>
      let prev_match := prev.2
      let is_better := prev_match.monotonicity.isSome && match_.monotonicity.isNone
      let is_better :=
        if !is_better then
          match prev_match.monotonicity, match_.monotonicity with
          | some prev_monotonicity, some monotonicity => monotonicity.strict && !prev_monotonicity.strict
          | _, _ => false
        else is_better
      if is_better then
        reverse_matches.map (fun e => if e.1 = key_node then (key_node, (output, match_)) else e)
      else reverse_matches

/-- The reverse matches of a merged graph. -/
def buildReverseMatches (dag : ActionsDAG) (ms : Matches) : ReverseMatches :=
  dag.outputs.foldl (reverseMatchesStep ms) []

/-- `SortColumnDescription(column_name, direction)`: the other fields take
their default values. -/
def SortColumnDescription.ofName (column_name : String) (direction : Int) : SortColumnDescription :=
  { column_name := column_name, direction := direction, nulls_direction := 1, collator := none }

/-- A ghost record of what one turn of the loop of the unordered matcher
consumed.  It is not part of the source; nothing the matcher returns depends
on it. -/
inductive ConsumedKey
  /-- The required key `key` matched the sort key column at `sort_key`;
  `appended` tells whether it went into the sort description. -/
  | byMatch (key : String) (sort_key : Nat) (monotonicity : Option Monotonicity) (appended : Bool)
  /-- The sort key column at `sort_key` was skipped as a fixed column. -/
  | fixedKey (sort_key : Nat)
deriving DecidableEq, Repr

/-- The local variables of the loop of `buildInputOrderFromUnorderedKeys`, and
the ghost record `consumed`. -/
structure UnorderedState where
  read_direction : Int
  next_sort_key : Nat
  not_matched_keys : List String
  sort_description : SortDescription
  order_key_prefix_descr : SortDescription
  consumed : List ConsumedKey
deriving DecidableEq, Repr

/-- The local variables before the first turn of the loop; the set of keys
not matched yet holds every required key once. -/
def UnorderedState.init (unordered_keys : List String) : UnorderedState :=
  { read_direction := 0, next_sort_key := 0, not_matched_keys := unordered_keys.eraseDups,
    sort_description := [], order_key_prefix_descr := [], consumed := [] }

/-- The end of a turn of the loop of the unordered matcher, entered with the
sort key cursor already moved.  `group_by_key` is the key `group_by_key_it`
points at.  The second component tells whether the loop goes on. -/
def reconcileUnordered (s : UnorderedState) (sorting_key_column group_by_key : String)
    (current_direction : Int) (strict_monotonic : Bool) (event : Bool → ConsumedKey) :
    UnorderedState × Bool :=
  if current_direction ≠ 0 ∧ s.read_direction ≠ 0 ∧ current_direction ≠ s.read_direction then
    ({ s with consumed := s.consumed ++ [event false] }, false)
  else
    let read_direction :=
      if s.read_direction = 0 ∧ current_direction ≠ 0 then current_direction else s.read_direction
    if current_direction ≠ 0 then
      ({ s with
          read_direction := read_direction,
          sort_description := s.sort_description ++ [SortColumnDescription.ofName group_by_key current_direction],
          order_key_prefix_descr := s.order_key_prefix_descr ++ [SortColumnDescription.ofName group_by_key current_direction],
          not_matched_keys := s.not_matched_keys.filter (fun k => k ≠ group_by_key),
          consumed := s.consumed ++ [event true] },
        strict_monotonic)
    else
      ({ s with
          read_direction := read_direction,
          order_key_prefix_descr := s.order_key_prefix_descr ++ [SortColumnDescription.ofName sorting_key_column 1],
          consumed := s.consumed ++ [event false] },
        true)

/-- One turn of the `while` loop of `buildInputOrderFromUnorderedKeys`, run
with keys left to match and the sort key cursor in range.  The second
component tells whether the loop goes on (`false` for `break`). -/
def unorderedStep (dag : Option ActionsDAG) (reverse_matches : ReverseMatches)
    (fixed_key_columns : FixedColumns) (sorting_key_dag : ActionsDAG)
    (sorting_key_columns : List String) (s : UnorderedState) : UnorderedState × Bool :=
  let sorting_key_column := sorting_key_columns.getD s.next_sort_key ""
  match sorting_key_dag.tryFindInOutputs sorting_key_column with
  | none => (s, false)
  | some sort_column_node =>
    match dag with
    | none =>
      if (sorting_key_dag.node sort_column_node).type ≠ .INPUT then (s, false)
      else if !s.not_matched_keys.contains sorting_key_column then (s, false)
      else
        reconcileUnordered { s with next_sort_key := s.next_sort_key + 1 }
          sorting_key_column sorting_key_column 1 true
          (ConsumedKey.byMatch sorting_key_column s.next_sort_key none)
    | some dag =>
      let skip_or_stop : UnorderedState × Bool :=
        if fixed_key_columns.contains sort_column_node then
          reconcileUnordered { s with next_sort_key := s.next_sort_key + 1 }
            sorting_key_column sorting_key_column 0 true
            (fun _ => ConsumedKey.fixedKey s.next_sort_key)
        else (s, false)
      match reverse_matches.lookup sort_column_node with
      | none => skip_or_stop
      | some found =>
        let group_by_key := (dag.node found.1).result_name
        let match_ := found.2
        if match_.node.isSome ∧ s.not_matched_keys.contains group_by_key then
          match match_.monotonicity with
          | some monotonicity =>
            reconcileUnordered { s with next_sort_key := s.next_sort_key + 1 }
              sorting_key_column group_by_key (1 * monotonicity.direction) monotonicity.strict
              (ConsumedKey.byMatch group_by_key s.next_sort_key (some monotonicity))
          | none =>
            reconcileUnordered { s with next_sort_key := s.next_sort_key + 1 }
              sorting_key_column group_by_key 1 true
              (ConsumedKey.byMatch group_by_key s.next_sort_key none)
        else skip_or_stop

/-- The `while` loop of `buildInputOrderFromUnorderedKeys`, bounded by a number
of turns. -/
def unorderedLoop (dag : Option ActionsDAG) (reverse_matches : ReverseMatches)
    (fixed_key_columns : FixedColumns) (sorting_key_dag : ActionsDAG)
    (sorting_key_columns : List String) : Nat → UnorderedState → UnorderedState
  | 0, s => s
  | fuel + 1, s =>
    if !s.not_matched_keys.isEmpty ∧ s.next_sort_key < sorting_key_columns.length then
      let r := unorderedStep dag reverse_matches fixed_key_columns sorting_key_dag sorting_key_columns s
      if r.2 then
        unorderedLoop dag reverse_matches fixed_key_columns sorting_key_dag sorting_key_columns fuel r.1
      else r.1
    else s

/-- `InputOrder`: the result of the unordered matcher. -/
structure InputOrder where
  input_order : Option InputOrderInfo
  sort_description : SortDescription
deriving DecidableEq, Repr

/-- The local variables of `buildInputOrderFromUnorderedKeys` when its `while`
loop is left.  `ms` stands for `matchTrees(sorting_key_dag.getOutputs(), *dag)`
and is read only when there is a merged graph. -/
def unorderedFinal (fixed_columns : FixedColumns) (dag : Option ActionsDAG) (ms : Matches)
    (unordered_keys : List String) (sorting_key_dag : ActionsDAG)
    (sorting_key_columns : List String) : UnorderedState :=
  let fixed_key_columns :=
    match dag with
    | some _ => fixedKeyColumns fixed_columns ms sorting_key_dag
    | none => []
  let reverse_matches :=
    match dag with
    | some dag => buildReverseMatches dag ms
    | none => []
  unorderedLoop dag reverse_matches fixed_key_columns sorting_key_dag sorting_key_columns
    sorting_key_columns.length (UnorderedState.init unordered_keys)

/-- `buildInputOrderFromUnorderedKeys`, the matcher for the case when the order
of the keys does not matter (GROUP BY, DISTINCT). -/
def buildInputOrderFromUnorderedKeys (fixed_columns : FixedColumns) (dag : Option ActionsDAG)
    (ms : Matches) (unordered_keys : List String) (sorting_key_dag : ActionsDAG)
    (sorting_key_columns : List String) : InputOrder :=
  let s := unorderedFinal fixed_columns dag ms unordered_keys sorting_key_dag sorting_key_columns
  if s.read_direction = 0 ∨ s.sort_description.isEmpty then
    { input_order := none, sort_description := [] }
  else
    { input_order := some
        { sort_description_for_merging := s.order_key_prefix_descr,
          used_prefix_of_sorting_key_size := s.next_sort_key,
          direction := 1,
          limit := 0 },
      sort_description := s.sort_description }

/-! ## The turns of the matching loops, case by case -/

/-- The direction a monotonicity contributes: its own, or 1 for a direct
match. -/
def monotonicDirection (monotonicity : Option Monotonicity) : Int :=
  match monotonicity with
  | some m => m.direction
  | none => 1

/-- Whether a match keeps distinct values distinct: a direct match does, a
monotonic one when it is strict. -/
def monotonicStrict (monotonicity : Option Monotonicity) : Bool :=
  match monotonicity with
  | some m => m.strict
  | none => true

/-- The four ways a turn of the loop of the ordered matcher can go, each with
what the code has checked on the way. -/
inductive MatchTurn (fixed_columns : FixedColumns) (dag : Option ActionsDAG) (ms : Matches)
    (fixed_key_columns : FixedColumns) (description : SortDescription)
    (sorting_key : KeyDescription) (s : MatchState) : MatchState × Bool → Prop
  /-- A `break` before any cursor moved. -/
  | stop : MatchTurn fixed_columns dag ms fixed_key_columns description sorting_key s (s, false)
  /-- The requirement entry matched the sort key column under the cursor. -/
  | matched (sort_column_node source : Nat) (monotonicity : Option Monotonicity)
      (monotonic : Option Match)
      (h_key : sorting_key.expression.tryFindInOutputs
        (sorting_key.column_names.getD s.next_sort_key "") = some sort_column_node)
      (h_collator : (description.getD s.next_description_column default).collator = none)
      (h_nulls : ¬ (columnIsNullable sorting_key s.next_sort_key = true
        ∧ (description.getD s.next_description_column default).nulls_direction = -1))
      (h_source :
        match dag with
        | none =>
          (sorting_key.expression.node sort_column_node).type = .INPUT
          ∧ (description.getD s.next_description_column default).column_name
              = sorting_key.column_names.getD s.next_sort_key ""
          ∧ monotonicity = none ∧ source = sort_column_node
        | some d =>
          d.tryFindInOutputs (description.getD s.next_description_column default).column_name
              = some source
          ∧ (ms.entry source).node = some sort_column_node
          ∧ (ms.entry source).monotonicity = monotonicity) :
      MatchTurn fixed_columns dag ms fixed_key_columns description sorting_key s
        (reconcileDirection
          { s with
              match_infos := s.match_infos ++ [{ source := some source, fixed_column := none, monotonic := monotonic }],
              next_description_column := s.next_description_column + 1,
              next_sort_key := s.next_sort_key + 1 }
          (description.getD s.next_description_column default)
          ((description.getD s.next_description_column default).direction
            * reverseIndicator sorting_key s.next_sort_key * monotonicDirection monotonicity)
          (monotonicStrict monotonicity)
          (Consumed.byMatch s.next_description_column s.next_sort_key monotonicity))
  /-- The sort key column under the cursor was skipped as a fixed column. -/
  | fixedKey (d : ActionsDAG) (sort_column_node sort_node : Nat)
      (h_dag : dag = some d)
      (h_key : sorting_key.expression.tryFindInOutputs
        (sorting_key.column_names.getD s.next_sort_key "") = some sort_column_node)
      (h_collator : (description.getD s.next_description_column default).collator = none)
      (h_node : d.tryFindInOutputs (description.getD s.next_description_column default).column_name
        = some sort_node)
      (h_no_match : (ms.entry sort_node).node ≠ some sort_column_node)
      (h_fixed : sort_column_node ∈ fixed_key_columns) :
      MatchTurn fixed_columns dag ms fixed_key_columns description sorting_key s
        (reconcileDirection
          { s with
              can_optimize_virtual_row := if s.next_sort_key = 0 then false else s.can_optimize_virtual_row,
              next_sort_key := s.next_sort_key + 1 }
          (description.getD s.next_description_column default) 0 true
          (fun _ => Consumed.fixedKey s.next_sort_key))
  /-- The requirement entry was consumed as a constant or a fixed column. -/
  | fixedColumn (d : ActionsDAG) (sort_column_node sort_node : Nat)
      (h_dag : dag = some d)
      (h_key : sorting_key.expression.tryFindInOutputs
        (sorting_key.column_names.getD s.next_sort_key "") = some sort_column_node)
      (h_collator : (description.getD s.next_description_column default).collator = none)
      (h_node : d.tryFindInOutputs (description.getD s.next_description_column default).column_name
        = some sort_node)
      (h_no_match : (ms.entry sort_node).node ≠ some sort_column_node)
      (h_not_fixed_key : sort_column_node ∉ fixed_key_columns)
      (h_fixed : (d.node sort_node).column.isSome = true ∨ sort_node ∈ fixed_columns) :
      MatchTurn fixed_columns dag ms fixed_key_columns description sorting_key s
        (reconcileDirection
          { s with
              can_optimize_virtual_row :=
                if (d.node sort_node).column.isSome then s.can_optimize_virtual_row else false,
              match_infos := s.match_infos ++ [{ source := some sort_node, fixed_column := some sort_node, monotonic := none }],
              order_key_prefix_descr := s.order_key_prefix_descr ++ [description.getD s.next_description_column default],
              next_description_column := s.next_description_column + 1 }
          (description.getD s.next_description_column default) 0 true
          (fun _ => Consumed.fixedColumn s.next_description_column))

/-! ## Concrete tables and queries -/

/-- An input node of type `Int32`. -/
def inputNode (name : String) : Node :=
  { type := .INPUT, result_name := name, result_type := .Int32, column := none,
    function_base := none, children := [] }

/-- A constant node of type `Int32`. -/
def constNode (name : String) (value : Int) : Node :=
  { type := .COLUMN, result_name := name, result_type := .Int32, column := some value,
    function_base := none, children := [] }

/-- The application of a function to argument nodes. -/
def functionNode (function_base : FunctionBase) (name : String) (children : List Nat) : Node :=
  { type := .FUNCTION, result_name := name, result_type := function_base.result_type,
    column := none, function_base := some function_base, children := children }

/-- The function `equals`. -/
def functionEquals : FunctionBase :=
  { name := "equals", result_type := .UInt64, is_injective := false,
    is_deterministic_in_scope_of_query := true }

/-- The function `negate`. -/
def functionNegate : FunctionBase :=
  { name := "negate", result_type := .Int32, is_injective := true,
    is_deterministic_in_scope_of_query := true }

/-- `ORDER BY name ASC`. -/
def ascending (name : String) : SortColumnDescription :=
  { column_name := name, direction := 1, nulls_direction := 1, collator := none }

/-- `ORDER BY name DESC`. -/
def descending (name : String) : SortColumnDescription :=
  { column_name := name, direction := -1, nulls_direction := 1, collator := none }

/-- The sort key `(a, b)` of a table, both columns `Int32`, none reversed. -/
def sortingKeyAB : KeyDescription :=
  { expression := { nodes := [inputNode "a", inputNode "b"], inputs := [0, 1], outputs := [0, 1] },
    column_names := ["a", "b"], reverse_flags := [], data_types := [.Int32, .Int32] }

/-- The sort key `(a DESC, b DESC)` of a table, both columns `Int32` and stored
in reverse. -/
def sortingKeyABReversed : KeyDescription :=
  { sortingKeyAB with reverse_flags := [true, true] }

/-- The sort key `(a DESC, b)` of a table, both columns `Int32`, the first stored
in reverse. -/
def sortingKeyAReversedB : KeyDescription :=
  { sortingKeyAB with reverse_flags := [true, false] }

/-- The sort key `(a)` of a table, `a` of type `Int32`, not reversed. -/
def sortingKeyA : KeyDescription :=
  { expression := { nodes := [inputNode "a"], inputs := [0], outputs := [0] },
    column_names := ["a"], reverse_flags := [], data_types := [.Int32] }

/-- The sort key `(x)` of a table, `x` of type `Float64`. -/
def sortingKeyFloat : KeyDescription :=
  { expression :=
      { nodes := [{ inputNode "x" with result_type := .Float64 }], inputs := [0], outputs := [0] },
    column_names := ["x"], reverse_flags := [], data_types := [.Float64] }

/-- The merged graph of `SELECT * FROM t WHERE a = 5`: the inputs `a` and `b`,
the constant `5` and `equals(a, 5)`. -/
def dagWhereA5 : ActionsDAG :=
  { nodes := [inputNode "a", inputNode "b", constNode "5" 5,
              functionNode functionEquals "equals(a, 5)" [0, 2]],
    inputs := [0, 1], outputs := [3, 0, 1] }

/-- The matches of `dagWhereA5` against the sort key graph of `(a, b)`: `a` and
`b` match the key columns directly, the other nodes do not match. -/
def matchesWhereA5 : Matches :=
  [(0, { node := some 0, monotonicity := none }), (1, { node := some 1, monotonicity := none }),
   (2, default), (3, default)]

/-- The fixed columns of `WHERE a = 5` as the drivers compute them: read off
the filter expression, then enriched over the merged graph. -/
def fixedWhereA5 : FixedColumns :=
  enrichFixedColumns dagWhereA5 (appendFixedColumnsFromFilterExpression dagWhereA5 3 [])

/-- The merged graph of `SELECT negate(a) ...`: the input `a` and `negate(a)`. -/
def dagNegateA : ActionsDAG :=
  { nodes := [inputNode "a", functionNode functionNegate "negate(a)" [0]],
    inputs := [0], outputs := [1, 0] }

/-- The matches of `dagNegateA` against the sort key graph of `(a)`: `a`
matches directly, `negate(a)` through a strictly decreasing function. -/
def matchesNegateA : Matches :=
  [(0, { node := some 0, monotonicity := none }),
   (1, { node := some 0, monotonicity := some { direction := -1, strict := true, child_node := 0 } })]

/-- The function `intDiv`. -/
def functionIntDiv : FunctionBase :=
  { name := "intDiv", result_type := .Int32, is_injective := false,
    is_deterministic_in_scope_of_query := true }

/-- The merged graph of `SELECT intDiv(a, 10), b ...`: the inputs `a` and `b`,
the constant `10` and `intDiv(a, 10)`. -/
def dagIntDivA : ActionsDAG :=
  { nodes := [inputNode "a", inputNode "b", constNode "10" 10,
              functionNode functionIntDiv "intDiv(a, 10)" [0, 2]],
    inputs := [0, 1], outputs := [3, 1] }

/-- The matches of `dagIntDivA` against the sort key graph of `(a, b)`: `a` and
`b` match directly, `intDiv(a, 10)` matches `a` through an increasing function
that is not strict. -/
def matchesIntDivA : Matches :=
  [(0, { node := some 0, monotonicity := none }), (1, { node := some 1, monotonicity := none }),
   (2, default),
   (3, { node := some 0, monotonicity := some { direction := 1, strict := false, child_node := 0 } })]

/-- The merged graph of `SELECT * FROM t WHERE c = 5` over a table with the
columns `a`, `b` and `c`: the three inputs, the constant `5` and
`equals(c, 5)`. -/
def dagWhereC5 : ActionsDAG :=
  { nodes := [inputNode "a", inputNode "b", inputNode "c", constNode "5" 5,
              functionNode functionEquals "equals(c, 5)" [2, 3]],
    inputs := [0, 1, 2], outputs := [4, 0, 1, 2] }

/-- The matches of `dagWhereC5` against the sort key graph of `(a, b)`: `a` and
`b` match the key columns directly, the other nodes do not match. -/
def matchesWhereC5 : Matches :=
  [(0, { node := some 0, monotonicity := none }), (1, { node := some 1, monotonicity := none }),
   (2, default), (3, default), (4, default)]

/-- The fixed columns of `WHERE c = 5` as the drivers compute them. -/
def fixedWhereC5 : FixedColumns :=
  enrichFixedColumns dagWhereC5 (appendFixedColumnsFromFilterExpression dagWhereC5 4 [])

/-! ## What a match means: rows, values and orders -/

/-- An interpretation of the graphs over the rows of a table: the value of a
node of the sort key graph and of a node of the merged graph on a row, the
value of a column of the stream that reaches the sorting step (by name), the
value of a sort key column (by position), and whether a row passes the
filters of the query. -/
structure Interpretation (Row V : Type) where
  keyValue : Nat → Row → V
  queryValue : Nat → Row → V
  columnValue : String → Row → V
  keyColumnValue : Nat → Row → V
  passes : Row → Bool

/-- The rows agree on the first `n` sort key columns. -/
def keysAgree {Row V : Type} (I : Interpretation Row V) (n : Nat) (r₁ r₂ : Row) : Prop :=
  ∀ i < n, I.keyColumnValue i r₁ = I.keyColumnValue i r₂

/-- The sort key column `j` puts `r₁` strictly before `r₂` in storage: the rows
agree on the columns before `j`, and at `j` the value of `r₁` is smaller, or
greater when the column is stored in reverse. -/
def keyBefore {Row V : Type} [LinearOrder V] (I : Interpretation Row V)
    (sorting_key : KeyDescription) (j : Nat) (r₁ r₂ : Row) : Prop :=
  keysAgree I j r₁ r₂
  ∧ (if sorting_key.reverse_flags.getD j false = true
      then I.keyColumnValue j r₂ < I.keyColumnValue j r₁
      else I.keyColumnValue j r₁ < I.keyColumnValue j r₂)

/-- The storage order of a table: lexicographic by the sort key columns, each
ascending, or descending where its reverse flag is set. -/
def storageLE {Row V : Type} [LinearOrder V] (I : Interpretation Row V)
    (sorting_key : KeyDescription) (r₁ r₂ : Row) : Prop :=
  keysAgree I sorting_key.column_names.length r₁ r₂
  ∨ ∃ j < sorting_key.column_names.length, keyBefore I sorting_key j r₁ r₂

/-- The rows agree on every column of a sort description. -/
def entriesAgree {Row V : Type} (I : Interpretation Row V) (descr : SortDescription)
    (r₁ r₂ : Row) : Prop :=
  ∀ e ∈ descr, I.columnValue e.column_name r₁ = I.columnValue e.column_name r₂

/-- The entry puts `r₁` strictly before `r₂`: by a smaller value when its
direction is 1 (ascending), by a greater one otherwise (descending). -/
def entryBefore {Row V : Type} [LinearOrder V] (I : Interpretation Row V)
    (e : SortColumnDescription) (r₁ r₂ : Row) : Prop :=
  if e.direction = 1 then I.columnValue e.column_name r₁ < I.columnValue e.column_name r₂
  else I.columnValue e.column_name r₂ < I.columnValue e.column_name r₁

/-- The sort description puts `r₁` strictly before `r₂`: the rows agree on its
first entries and the next one puts `r₁` strictly before `r₂`. -/
def sortedBefore {Row V : Type} [LinearOrder V] (I : Interpretation Row V)
    (descr : SortDescription) (r₁ r₂ : Row) : Prop :=
  ∃ first e rest, descr = first ++ e :: rest ∧ entriesAgree I first r₁ r₂ ∧ entryBefore I e r₁ r₂

/-- The order of a sort description: lexicographic by its entries. -/
def requirementLE {Row V : Type} [LinearOrder V] (I : Interpretation Row V)
    (descr : SortDescription) (r₁ r₂ : Row) : Prop :=
  entriesAgree I descr r₁ r₂ ∨ sortedBefore I descr r₁ r₂

/-- The interpretation is right about the inputs of the ordered matcher: the
fixed columns and the constants are constant over the rows that pass the
filters, the match records tell how a node of the merged graph is computed
from a node of the sort key graph, the columns of the stream are the outputs
of the merged graph (the columns of the table when there is none), the sort
key columns are the outputs of the sort key graph, whose aliases and
deterministic functions are computed from their operands, and the directions
of the requirement are +1 or -1. -/
structure Interpretation.Correct {Row V : Type} [LinearOrder V] (I : Interpretation Row V)
    (fixed_columns : FixedColumns) (dag : Option ActionsDAG) (ms : Matches)
    (description : SortDescription) (sorting_key : KeyDescription) : Prop where
  fixed : ∀ n ∈ fixed_columns, ∀ r₁ r₂, I.passes r₁ = true → I.passes r₂ = true →
    I.queryValue n r₁ = I.queryValue n r₂
  constant : ∀ d, dag = some d → ∀ n, (d.node n).column.isSome = true →
    ∀ r₁ r₂, I.queryValue n r₁ = I.queryValue n r₂
  matched : ∀ e ∈ ms, ∀ k, e.2.node = some k →
    match e.2.monotonicity with
    | none => ∀ r, I.queryValue e.1 r = I.keyValue k r
    | some m => ∃ f : V → V, (∀ r, I.queryValue e.1 r = f (I.keyValue k r))
        ∧ ((m.direction = 1 ∧ Monotone f) ∨ (m.direction = -1 ∧ Antitone f))
        ∧ (m.strict = true → Function.Injective f)
  output : ∀ d, dag = some d → ∀ name n, d.tryFindInOutputs name = some n →
    ∀ r, I.columnValue name r = I.queryValue n r
  table_column : dag = none → ∀ name k, sorting_key.expression.tryFindInOutputs name = some k →
    (sorting_key.expression.node k).type = .INPUT → ∀ r, I.columnValue name r = I.keyValue k r
  key_column : ∀ i k,
    sorting_key.expression.tryFindInOutputs (sorting_key.column_names.getD i "") = some k →
    ∀ r, I.keyColumnValue i r = I.keyValue k r
  key_constant : ∀ k, (sorting_key.expression.node k).column.isSome = true →
    ∀ r₁ r₂, I.keyValue k r₁ = I.keyValue k r₂
  key_alias : ∀ k child rest, (sorting_key.expression.node k).type = .ALIAS →
    (sorting_key.expression.node k).children = child :: rest →
    ∀ r, I.keyValue k r = I.keyValue child r
  key_function : ∀ k function_base, (sorting_key.expression.node k).type = .FUNCTION →
    (sorting_key.expression.node k).function_base = some function_base →
    function_base.is_deterministic_in_scope_of_query = true →
    ∃ g : List V → V, ∀ r, I.keyValue k r
      = g ((sorting_key.expression.node k).children.map (fun child => I.keyValue child r))
  direction : ∀ e ∈ description, e.direction = 1 ∨ e.direction = -1

/-- What the loop of the ordered matcher has established as long as it goes
on: over the rows that pass the filters, rows that agree on the sort key
columns consumed agree on the matched entries, and rows that a consumed sort
key column puts in strict storage order are put in the same strict order by
the matched entries when the read direction is 1, in the opposite order when
it is -1. -/
def MatchedSoFar {Row V : Type} [LinearOrder V] (I : Interpretation Row V)
    (sorting_key : KeyDescription) (s : MatchState) : Prop :=
  s.next_sort_key ≤ sorting_key.column_names.length
  ∧ (s.read_direction = 0 ∨ s.read_direction = 1 ∨ s.read_direction = -1)
  ∧ ∀ r₁ r₂, I.passes r₁ = true → I.passes r₂ = true →
    (keysAgree I s.next_sort_key r₁ r₂ → entriesAgree I s.order_key_prefix_descr r₁ r₂)
    ∧ ∀ j < s.next_sort_key, keyBefore I sorting_key j r₁ r₂ →
      (s.read_direction = 1 ∧ sortedBefore I s.order_key_prefix_descr r₁ r₂)
      ∨ (s.read_direction = -1 ∧ sortedBefore I s.order_key_prefix_descr r₂ r₁)

/-- What the loop of the ordered matcher has established when it is left: as
`MatchedSoFar`, but rows in strict storage order may agree on the matched
entries. -/
def MatchedAtEnd {Row V : Type} [LinearOrder V] (I : Interpretation Row V)
    (sorting_key : KeyDescription) (s : MatchState) : Prop :=
  s.next_sort_key ≤ sorting_key.column_names.length
  ∧ (s.read_direction = 0 ∨ s.read_direction = 1 ∨ s.read_direction = -1)
  ∧ ∀ r₁ r₂, I.passes r₁ = true → I.passes r₂ = true →
    (keysAgree I s.next_sort_key r₁ r₂ → entriesAgree I s.order_key_prefix_descr r₁ r₂)
    ∧ ∀ j < s.next_sort_key, keyBefore I sorting_key j r₁ r₂ →
      (s.read_direction = 1 → requirementLE I s.order_key_prefix_descr r₁ r₂)
      ∧ (s.read_direction = -1 → requirementLE I s.order_key_prefix_descr r₂ r₁)

/-- The rows `(a, b)` of a table with the sort key `(a, b)`, read with the
filter `a = 5`: what the nodes of the sort key graph and of `dagWhereA5` and
the columns of the stream are worth on a row. -/
def interpretationWhereA5 : Interpretation (Int × Int) Int :=
  { keyValue := fun k r => if k = 0 then r.1 else r.2,
    queryValue := fun n r =>
      if n = 0 then r.1 else if n = 1 then r.2 else if n = 2 then 5
      else if r.1 = 5 then 1 else 0,
    columnValue := fun name r =>
      if name = "a" then r.1 else if name = "b" then r.2
      else if r.1 = 5 then 1 else 0,
    keyColumnValue := fun i r => if i = 0 then r.1 else r.2,
    passes := fun r => r.1 == 5 }

/-- Four rows `(a, b)` in the storage order of the sort key `(a, b)`. -/
def rowsAB : List (Int × Int) := [(4, 9), (5, 1), (5, 3), (6, 0)]

/-- The sort key `(a, b, c)` of a table, all columns `Int32`, none reversed. -/
def sortingKeyABC : KeyDescription :=
  { expression :=
      { nodes := [inputNode "a", inputNode "b", inputNode "c"], inputs := [0, 1, 2],
        outputs := [0, 1, 2] },
    column_names := ["a", "b", "c"], reverse_flags := [], data_types := [.Int32, .Int32, .Int32] }

/-- The merged graph of `SELECT * FROM t WHERE b = 5` over a table with the
columns `a`, `b` and `c`: the three inputs, the constant `5` and
`equals(b, 5)`. -/
def dagWhereB5 : ActionsDAG :=
  { nodes := [inputNode "a", inputNode "b", inputNode "c", constNode "5" 5,
              functionNode functionEquals "equals(b, 5)" [1, 3]],
    inputs := [0, 1, 2], outputs := [4, 0, 1, 2] }

/-- The matches of `dagWhereB5` against the sort key graph of `(a, b, c)`: the
three inputs match the key columns directly, the other nodes do not match. -/
def matchesWhereB5 : Matches :=
  [(0, { node := some 0, monotonicity := none }), (1, { node := some 1, monotonicity := none }),
   (2, { node := some 2, monotonicity := none }), (3, default), (4, default)]

/-- The fixed columns of `WHERE b = 5` as the drivers compute them. -/
def fixedWhereB5 : FixedColumns :=
  enrichFixedColumns dagWhereB5 (appendFixedColumnsFromFilterExpression dagWhereB5 4 [])

/-- A sort key that lists the column `z` although its defining graph only has
the output `a`. -/
def sortingKeyMissing : KeyDescription :=
  { expression := { nodes := [inputNode "a"], inputs := [0], outputs := [0] },
    column_names := ["a", "z"], reverse_flags := [], data_types := [.Int32, .Int32] }

/-- The ranking `Direct match > strict monotonic > monotonic` of the comment in
`buildInputOrderFromUnorderedKeys`, as a number: 2 for a direct match, 1 for a
strict monotonic one, 0 for a monotonic one. -/
def matchRank (match_ : Match) : Nat :=
  match match_.monotonicity with
  | none => 2
  | some monotonicity => if monotonicity.strict then 1 else 0

/-- A merged graph with three outputs that match the sort key column `a`:
`intDiv(a, 2)` (monotonic), `negate(a)` (strict monotonic) and `a` itself. -/
def dagThreeMatches : ActionsDAG :=
  { nodes := [inputNode "a", constNode "2" 2,
      functionNode functionIntDiv "intDiv(a, 2)" [0, 1],
      functionNode functionNegate "negate(a)" [0]],
    inputs := [0], outputs := [2, 3, 0] }

/-- The matches of `dagThreeMatches` against the sort key graph of `(a)`. -/
def matchesThreeMatches : Matches :=
  [(0, { node := some 0, monotonicity := none }),
   (1, default),
   (2, { node := some 0, monotonicity := some { direction := 1, strict := false, child_node := 0 } }),
   (3, { node := some 0, monotonicity := some { direction := -1, strict := true, child_node := 0 } })]

/-- What the loop over the outputs maintains: every output seen that matches a
sort key node finds an entry for that node that ranks at least as high, and
every entry comes from an output seen. -/
def ReverseMatchesInv (ms : Matches) (seen : List Nat) (reverse_matches : ReverseMatches) : Prop :=
  (∀ o ∈ seen, ∀ k, (ms.entry o).node = some k →
    ∃ found, reverse_matches.lookup k = some found
      ∧ matchRank (ms.entry o) ≤ matchRank found.2)
  ∧ (∀ k found, reverse_matches.lookup k = some found →
    found.1 ∈ seen ∧ found.2 = ms.entry found.1 ∧ (ms.entry found.1).node = some k)

/-- A sort key column that is an `INPUT` node of the sort key graph and whose
name belongs to the keys `keys`. -/
def isRequiredInput (sorting_key_dag : ActionsDAG) (keys : List String) (column : String) : Bool :=
  match sorting_key_dag.tryFindInOutputs column with
  | none => false
  | some sort_column_node =>
    decide ((sorting_key_dag.node sort_column_node).type = .INPUT) && keys.contains column

/-- The leading sort key columns the unordered matcher takes without merged
graph when `keys` are left to match: a column taken leaves the keys. -/
def leadingRun (sorting_key_dag : ActionsDAG) : List String → List String → List String
  | _, [] => []
  | keys, column :: columns =>
    if isRequiredInput sorting_key_dag keys column then
      column :: leadingRun sorting_key_dag (keys.filter (fun k => k ≠ column)) columns
    else []

/-- The sort key `(a, b, a)` of a table with the primary key `(a)`: the column
`a` is listed twice. -/
def sortingKeyABA : KeyDescription :=
  { expression := { nodes := [inputNode "a", inputNode "b"], inputs := [0, 1], outputs := [0, 1, 0] },
    column_names := ["a", "b", "a"], reverse_flags := [], data_types := [.Int32, .Int32, .Int32] }

/-- The two rules of `enrichFixedColumns` on a set `S` of nodes: the node `id`
is not a constant and is either an alias whose operand is in `S`, or a
function that is deterministic in the scope of the query and all of whose
arguments are constants or in `S`. -/
def EnrichRule (dag : ActionsDAG) (S : Nat → Prop) (id : Nat) : Prop :=
  (dag.node id).column = none
  ∧ (((dag.node id).type = .ALIAS
      ∧ ∃ child rest, (dag.node id).children = child :: rest ∧ S child)
    ∨ ((dag.node id).type = .FUNCTION
      ∧ (∃ function_base, (dag.node id).function_base = some function_base
          ∧ function_base.is_deterministic_in_scope_of_query = true)
      ∧ ∀ child ∈ (dag.node id).children, (dag.node child).column.isSome = true ∨ S child))

/-- The number of nodes of the graph that are not visited yet. -/
def unvisitedCount (dag : ActionsDAG) (visited : List Nat) : Nat :=
  ((List.range dag.nodes.length).filter (fun v => !visited.contains v)).length

/-- What the traversal of `enrichFixedColumns` maintains in a graph whose
edges go down along `rank`: the stack is a path, the children before
`next_child` are visited, and a visited node that has left the stack has
all its children visited and off the stack, and obeys the two rules. -/
structure EnrichInv (dag : ActionsDAG) (rank : Nat → Nat) (st : EnrichState) : Prop where
  in_range : ∀ v ∈ st.visited, v < dag.nodes.length
  on_stack : ∀ f ∈ st.stack, f.node ∈ st.visited
  path : st.stack.Pairwise (fun top below => rank top.node < rank below.node)
  before : ∀ f ∈ st.stack, ∀ c ∈ (dag.node f.node).children.take f.next_child, c ∈ st.visited
  finished : ∀ v ∈ st.visited, (∀ f ∈ st.stack, f.node ≠ v) →
    (∀ c ∈ (dag.node v).children, c ∈ st.visited ∧ ∀ f ∈ st.stack, f.node ≠ c)
    ∧ (EnrichRule dag (fun k => k ∈ st.fixed_columns) v → v ∈ st.fixed_columns)

/-- A graph with the inputs `a` and `b`, `negate(a)`, the alias `x` of
`negate(a)` and `equals(a, b)`. -/
def dagAliasOfNegate : ActionsDAG :=
  { nodes := [inputNode "a", inputNode "b", functionNode functionNegate "negate(a)" [0],
              { type := .ALIAS, result_name := "x", result_type := .Int32, column := none,
                function_base := none, children := [2] },
              functionNode functionEquals "equals(a, b)" [0, 1]],
    inputs := [0, 1], outputs := [3, 4] }

/-- The node `e` is reached from the node `root` through `and` function nodes
only. -/
inductive AndReachable (dag : ActionsDAG) : Nat → Nat → Prop
  /-- A node is reached from itself. -/
  | here (e : Nat) : AndReachable dag e e
  /-- A node reached from an argument of an `and` node is reached from it. -/
  | through (a arg e : Nat) :
      (dag.node a).type = .FUNCTION →
      (dag.node a).function_base.map (fun f => f.name) = some "and" →
      arg ∈ (dag.node a).children →
      AndReachable dag arg e → AndReachable dag a e

/-- The node `e` is an `equals` function node exactly one of whose arguments,
`x`, is not a constant, all the others being constants. -/
def EqualsFixes (dag : ActionsDAG) (e x : Nat) : Prop :=
  (dag.node e).type = .FUNCTION
  ∧ (dag.node e).function_base.map (fun f => f.name) = some "equals"
  ∧ ∃ before after, (dag.node e).children = before ++ x :: after
    ∧ (dag.node x).column = none
    ∧ ∀ y ∈ before ++ after, (dag.node y).column.isSome = true

/-- The node `n` is `x`, or is reached from `x` by descending through
injective function nodes of one argument. -/
inductive InjectiveDescent (dag : ActionsDAG) : Nat → Nat → Prop
  /-- The node itself. -/
  | here (x : Nat) : InjectiveDescent dag x x
  /-- One function node down. -/
  | down (x child n : Nat) :
      (dag.node x).type = .FUNCTION →
      (dag.node x).children = [child] →
      (dag.node x).function_base.map (fun f => f.is_injective) = some true →
      InjectiveDescent dag child n → InjectiveDescent dag x n

/-- What the filter expression `root` fixes: the non-constant argument of an
`equals` with constants found under its conjunctions, and what lies under it
through injective functions of one argument. -/
def FixedByFilter (dag : ActionsDAG) (root n : Nat) : Prop :=
  ∃ e x, AndReachable dag root e ∧ EqualsFixes dag e x ∧ InjectiveDescent dag x n

/-- The number of child slots of a graph. -/
def childSlots (dag : ActionsDAG) : Nat :=
  (dag.nodes.map (fun node => node.children.length)).sum

/-- The function `and`. -/
def functionAnd : FunctionBase :=
  { name := "and", result_type := .UInt64, is_injective := false,
    is_deterministic_in_scope_of_query := true }

/-- The graph of the filter `negate(a) = 5 AND b = c`: the inputs `a`, `b` and
`c`, the constant `5`, `negate(a)`, the two `equals` and the `and`. -/
def dagAndEquals : ActionsDAG :=
  { nodes := [inputNode "a", inputNode "b", inputNode "c", constNode "5" 5,
              functionNode functionNegate "negate(a)" [0],
              functionNode functionEquals "equals(negate(a), 5)" [4, 3],
              functionNode functionEquals "equals(b, c)" [1, 2],
              functionNode functionAnd "and(equals(negate(a), 5), equals(b, c))" [5, 6]],
    inputs := [0, 1, 2], outputs := [7] }

/-- The length of the matched prefix of a result of the ordered matcher, no
match counting as 0. -/
def matchedLength (result : SortingInputOrder) : Nat :=
  match result.input_order with
  | none => 0
  | some info => info.sort_description_for_merging.length

/-- The merged graph of `SELECT * FROM t WHERE b = 3` over a table with the
columns `a` and `b`: the two inputs, the constant `3` and `equals(b, 3)`. -/
def dagWhereB3 : ActionsDAG :=
  { nodes := [inputNode "a", inputNode "b", constNode "3" 3,
              functionNode functionEquals "equals(b, 3)" [1, 2]],
    inputs := [0, 1], outputs := [3, 0, 1] }

/-- The matches of `dagWhereB3` against the sort key graph of `(a, b)`. -/
def matchesWhereB3 : Matches :=
  [(0, { node := some 0, monotonicity := none }), (1, { node := some 1, monotonicity := none }),
   (2, default), (3, default)]

/-- The fixed columns of `WHERE b = 3` as the drivers compute them. -/
def fixedWhereB3 : FixedColumns :=
  enrichFixedColumns dagWhereB3 (appendFixedColumnsFromFilterExpression dagWhereB3 3 [])

/-- The merged graph of `SELECT ... GROUP BY a, negate(b), intDiv(b, 2)`: the
inputs `a` and `b`, the constant `2`, `negate(b)` and `intDiv(b, 2)`. -/
def dagGroupByThree : ActionsDAG :=
  { nodes := [inputNode "a", inputNode "b", constNode "2" 2,
              functionNode functionNegate "negate(b)" [1],
              functionNode functionIntDiv "intDiv(b, 2)" [1, 2]],
    inputs := [0, 1], outputs := [0, 3, 4] }

/-- The matches of `dagGroupByThree` against the sort key graph of `(a, b)`:
`negate(b)` matches `b` through a strictly decreasing function, `intDiv(b, 2)`
through an increasing function that is not strict. -/
def matchesGroupByThree : Matches :=
  [(0, { node := some 0, monotonicity := none }), (1, { node := some 1, monotonicity := none }),
   (2, default),
   (3, { node := some 1, monotonicity := some { direction := -1, strict := true, child_node := 1 } }),
   (4, { node := some 1, monotonicity := some { direction := 1, strict := false, child_node := 1 } })]

/-- The function `plus`. -/
def functionPlus : FunctionBase :=
  { name := "plus", result_type := .Int32, is_injective := false,
    is_deterministic_in_scope_of_query := true }

/-- The sort key `(x + 1, y + 1)` of a table with the columns `x` and `y`. -/
def sortingKeyPlus : KeyDescription :=
  { expression :=
      { nodes := [inputNode "x", inputNode "y", constNode "1" 1,
                  functionNode functionPlus "plus(x, 1)" [0, 2],
                  functionNode functionPlus "plus(y, 1)" [1, 2]],
        inputs := [0, 1], outputs := [3, 4] },
    column_names := ["plus(x, 1)", "plus(y, 1)"], reverse_flags := [],
    data_types := [.Int32, .Int32] }

/-- The merged graph of `SELECT x, y FROM table WHERE x = 42 ORDER BY x + 1, y + 1`:
the inputs, the constant `1`, `x + 1`, `y + 1`, the constant `42` and
`equals(x, 42)`. -/
def dagWhereX42 : ActionsDAG :=
  { nodes := [inputNode "x", inputNode "y", constNode "1" 1,
              functionNode functionPlus "plus(x, 1)" [0, 2],
              functionNode functionPlus "plus(y, 1)" [1, 2],
              constNode "42" 42,
              functionNode functionEquals "equals(x, 42)" [0, 5]],
    inputs := [0, 1], outputs := [0, 1, 3, 4] }

/-- The matches of `dagWhereX42` against the graph of `sortingKeyPlus`. -/
def matchesWhereX42 : Matches :=
  [(0, { node := some 0, monotonicity := none }), (1, { node := some 1, monotonicity := none }),
   (2, default),
   (3, { node := some 3, monotonicity := none }), (4, { node := some 4, monotonicity := none }),
   (5, default), (6, default)]

/-- The fixed columns of `WHERE x = 42` as the drivers compute them. -/
def fixedWhereX42 : FixedColumns :=
  enrichFixedColumns dagWhereX42 (appendFixedColumnsFromFilterExpression dagWhereX42 6 [])

/-! ## The query plan and its steps -/

/-- `SortingStep::Type`. -/
inductive SortingType
  | Full
  | FinishSorting
  | MergingSorted
deriving DecidableEq, Repr

/-- What the drivers read and set of a `SortingStep`: its type, the sort
description it produces, the description its input is sorted by, its limit
and the two flags `convertToFinishSorting` sets. -/
structure SortingStep where
  type : SortingType
  result_description : SortDescription
  prefix_description : SortDescription
  limit : Nat
  use_buffering : Bool
  apply_virtual_row_conversions : Bool
deriving DecidableEq, Repr

/-- Modelled from the spec: `SortingStep::convertToFinishSorting` (its code is
outside the sources at hand) downgrades the full sort into a merge of sorted
runs over the given prefix. -/
def SortingStep.convertToFinishSorting (sorting : SortingStep)
    (prefix_description : SortDescription) (use_buffering apply_virtual_row_conversions : Bool) :
    SortingStep :=
  { sorting with
      type := .FinishSorting,
      prefix_description := prefix_description,
      use_buffering := use_buffering,
      apply_virtual_row_conversions := apply_virtual_row_conversions }

/-- Modelled from the spec: the constructor of a full `SortingStep` with a
description and a limit. -/
def SortingStep.full (description : SortDescription) (limit : Nat) : SortingStep :=
  { type := .Full, result_description := description, prefix_description := [], limit := limit,
    use_buffering := false, apply_virtual_row_conversions := false }

/-- Modelled from the spec: the constructor of a `SortingStep` that finishes the
sorting of an input sorted by `prefix_description`. -/
def SortingStep.finish (prefix_description result_description : SortDescription) (limit : Nat) :
    SortingStep :=
  { type := .FinishSorting, result_description := result_description,
    prefix_description := prefix_description, limit := limit,
    use_buffering := false, apply_virtual_row_conversions := false }

/-- What the drivers read and set of an `AggregatingStep`. -/
structure AggregatingStep where
  keys : List String
  overflow_row : Bool
  is_grouping_sets : Bool
  explicit_sorting_required : Bool
  sort_description_for_merging : SortDescription
  group_by_sort_description : SortDescription
deriving DecidableEq, Repr

/-- Modelled from the spec: `AggregatingStep::inOrder`, the aggregation consumes
ordered input when it has a sort description for merging. -/
def AggregatingStep.inOrder (aggregating : AggregatingStep) : Bool :=
  !aggregating.sort_description_for_merging.isEmpty

/-- Modelled from the spec: `AggregatingStep::applyOrder` stores the sort
description for merging and the sort description of all the keys. -/
def AggregatingStep.applyOrder (aggregating : AggregatingStep)
    (sort_description_for_merging group_by_sort_description : SortDescription) : AggregatingStep :=
  { aggregating with
      sort_description_for_merging := sort_description_for_merging,
      group_by_sort_description := group_by_sort_description }

/-- What the drivers read and set of a `DistinctStep`. -/
structure DistinctStep where
  is_preliminary : Bool
  column_names : List String
  sort_description : SortDescription
deriving DecidableEq, Repr

/-- Modelled from the spec: `DistinctStep::applyOrder` stores the sort
description. -/
def DistinctStep.applyOrder (distinct : DistinctStep) (sort_description : SortDescription) :
    DistinctStep :=
  { distinct with sort_description := sort_description }

/-- The prewhere filter of a scan (`PrewhereInfo`). -/
structure PrewhereInfo where
  prewhere_actions : ActionsDAG
  prewhere_column_name : String
deriving DecidableEq, Repr

/-- What the drivers read of a `ReadFromMergeTree` step: the sort key and the
primary key of the table, the prewhere filter and the order the scan already
reads in (`getQueryInfo().input_order_info`). -/
structure ReadFromMergeTree where
  sorting_key : KeyDescription
  pk_column_names : List String
  prewhere_info : Option PrewhereInfo
  input_order_info : Option InputOrderInfo
deriving DecidableEq, Repr

/-- What the drivers read of a `ReadFromMerge` step: the sort keys of the
selected tables and the order the scan already reads in. -/
structure ReadFromMerge where
  tables : List KeyDescription
  input_order : Option InputOrderInfo
deriving DecidableEq, Repr

/-- The steps of a query plan the drivers tell apart. -/
inductive Step
  | ReadFromMergeTree (reading : ReadFromMergeTree)
  | ReadFromMerge (merge : ReadFromMerge)
  | ReadFromParallelRemoteReplicas
  | Expression (actions : ActionsDAG)
  | Filter (actions : ActionsDAG) (filter_column_name : String)
  | ArrayJoin (is_left : Bool) (columns : List String)
  | Distinct (distinct : DistinctStep)
  | Sorting (sorting : SortingStep)
  | Aggregating (aggregating : AggregatingStep)
  | Union
  | Other
deriving DecidableEq, Repr

/-- A node of a query plan (`QueryPlan::Node`): a step and the plans of its
inputs. -/
inductive PlanNode
  | mk (step : Step) (children : List PlanNode)
deriving Repr

/-- The step of a node. -/
def PlanNode.step : PlanNode → Step
  | .mk step _ => step

/-- The children of a node. -/
def PlanNode.children : PlanNode → List PlanNode
  | .mk _ children => children

mutual
/-- Equality of plans is decidable. -/
def PlanNode.decEq : (a b : PlanNode) → Decidable (a = b)
  | .mk s1 c1, .mk s2 c2 =>
    if h : s1 = s2 then
      match PlanNode.decEqList c1 c2 with
      | isTrue hc => isTrue (by rw [h, hc])
      | isFalse hc => isFalse (fun h' => hc (PlanNode.mk.inj h').2)
    else isFalse (fun h' => h (PlanNode.mk.inj h').1)
/-- Equality of lists of plans is decidable. -/
def PlanNode.decEqList : (a b : List PlanNode) → Decidable (a = b)
  | [], [] => isTrue rfl
  | [], _ :: _ => isFalse (fun h => List.noConfusion h)
  | _ :: _, [] => isFalse (fun h => List.noConfusion h)
  | a :: as, b :: bs =>
    match PlanNode.decEq a b with
    | isTrue h =>
      match PlanNode.decEqList as bs with
      | isTrue hs => isTrue (by rw [h, hs])
      | isFalse hs => isFalse (fun h' => hs (List.cons.inj h').2)
    | isFalse h => isFalse (fun h' => h (List.cons.inj h').1)
end

instance : DecidableEq PlanNode := PlanNode.decEq

/-- The code the drivers call that lies outside the sources at hand, taken as
parameters: `ActionsDAG::mergeInplace` (the graph given, merged with a second
one), `matchTrees` (the matches of a merged graph against a sort key graph),
and the two `requestReadingInOrder`, which answer with the scan reading in
order, or with nothing when the scan declines and stays as it was. -/
structure External where
  mergeInplace : ActionsDAG → ActionsDAG → ActionsDAG
  matchTrees : ActionsDAG → ActionsDAG → Matches
  requestReadingInOrder :
    ReadFromMergeTree → Nat → Int → Nat → Option ActionsDAG → Option ReadFromMergeTree
  requestReadingInOrderMerge : ReadFromMerge → InputOrderInfo → Option ReadFromMerge

/-- Modelled from the spec: `ActionsDAG::hasArrayJoin`, the graph has an
`ARRAY_JOIN` node. -/
def ActionsDAG.hasArrayJoin (dag : ActionsDAG) : Bool :=
  dag.nodes.any (fun node => node.type = .ARRAY_JOIN)

/-- `checkSupportedReadingStep`: whether the step is a scan the optimization
applies to. -/
def checkSupportedReadingStep (step : Step) (allow_existing_order : Bool) : Bool :=
  match step with
  | .ReadFromMergeTree reading =>
    if !allow_existing_order && reading.input_order_info.isSome then false
    else if reading.sorting_key.column_names.isEmpty then false
    else true
  | .ReadFromMerge merge =>
    if !allow_existing_order
        && (merge.input_order.map (fun order => order.used_prefix_of_sorting_key_size != 0)).getD false
    then false
    else if merge.tables.isEmpty then false
    else merge.tables.all (fun sorting_key => !sorting_key.column_names.isEmpty)
  | _ => false

/-- `findReadingStep`: the scan under a chain of expression, filter, array join
and preliminary distinct steps. -/
def findReadingStep : PlanNode → Bool → Option PlanNode
  | .mk step children, allow_existing_order =>
    if checkSupportedReadingStep step allow_existing_order then some (.mk step children)
    else
      match children with
      | [child] =>
        match step with
        | .Expression _ => findReadingStep child allow_existing_order
        | .Filter _ _ => findReadingStep child allow_existing_order
        | .ArrayJoin _ _ => findReadingStep child allow_existing_order
        | .Distinct distinct =>
          if distinct.is_preliminary then findReadingStep child allow_existing_order else none
        | _ => none
      | _ => none

/-- The plan with the step of the scan `findReadingStep` finds replaced: the
drivers change that step in place through the pointer they hold. -/
def updateReadingStep : PlanNode → Bool → Step → PlanNode
  | .mk step children, allow_existing_order, reading =>
    if checkSupportedReadingStep step allow_existing_order then .mk reading children
    else
      match children with
      | [child] =>
        match step with
        | .Expression _ => .mk step [updateReadingStep child allow_existing_order reading]
        | .Filter _ _ => .mk step [updateReadingStep child allow_existing_order reading]
        | .ArrayJoin _ _ => .mk step [updateReadingStep child allow_existing_order reading]
        | .Distinct distinct =>
          if distinct.is_preliminary then
            .mk step [updateReadingStep child allow_existing_order reading]
          else .mk step children
        | _ => .mk step children
      | _ => .mk step children

/-- `appendExpression`: merge an expression graph into the graph built so far. -/
def appendExpression (env : External) (dag : Option ActionsDAG) (expression : ActionsDAG) :
    ActionsDAG :=
  match dag with
  | some dag => env.mergeInplace dag expression
  | none => expression

/-- The three things `buildSortingDAG` builds: the merged graph, the fixed
columns and the limit. -/
structure SortingDAG where
  dag : Option ActionsDAG
  fixed_columns : FixedColumns
  limit : Nat
deriving DecidableEq, Repr

/-- What `buildSortingDAG` does at a filter (a prewhere filter or a filter
step): the limit is dropped, the filter is merged into the graph and the
columns it fixes are added. -/
def appendFilter (env : External) (acc : SortingDAG) (actions : ActionsDAG)
    (filter_column_name : String) : SortingDAG :=
  let dag := appendExpression env acc.dag actions
  { dag := some dag,
    fixed_columns :=
      match dag.tryFindInOutputs filter_column_name with
      | some filter_expression =>
        appendFixedColumnsFromFilterExpression dag filter_expression acc.fixed_columns
      | none => acc.fixed_columns,
    limit := 0 }

/-- What `buildSortingDAG` does at a step, once it is back from the child. -/
def buildSortingDAGStep (env : External) (step : Step) (acc : SortingDAG) : SortingDAG :=
  match step with
  | .Distinct _ => { acc with limit := 0 }
  | .Expression actions =>
    { acc with
        limit := if actions.hasArrayJoin then 0 else acc.limit,
        dag := some (appendExpression env acc.dag actions) }
  | .Filter actions filter_column_name => appendFilter env acc actions filter_column_name
  | .ArrayJoin is_left array_joined_columns =>
    { acc with
        limit := if !is_left then 0 else acc.limit,
        dag := acc.dag.map (fun dag =>
          { dag with
              outputs := dag.outputs.filter
                (fun output => !array_joined_columns.contains (dag.node output).result_name) }) }
  | _ => acc

/-- `buildSortingDAG`: the merge of the graphs of the filter and expression
steps down to the scan, the columns the filters fix, and the limit, which
is dropped where rows can be lost. -/
def buildSortingDAG (env : External) : PlanNode → SortingDAG → SortingDAG
  | .mk (.ReadFromMergeTree reading) _, acc =>
    match reading.prewhere_info with
    | some prewhere_info =>
      appendFilter env acc prewhere_info.prewhere_actions prewhere_info.prewhere_column_name
    | none => acc
  | .mk step [child], acc => buildSortingDAGStep env step (buildSortingDAG env child acc)
  | .mk _ _, acc => acc

/-! ## The drivers -/

/-- The start of the three `buildInputOrderInfo`: `buildSortingDAG` from an empty
graph, no fixed columns and the limit given, then the fixed columns enriched
when there is a graph and a fixed column. -/
def enrichedSortingDAG (env : External) (node : PlanNode) (limit : Nat) : SortingDAG :=
  let acc := buildSortingDAG env node { dag := none, fixed_columns := [], limit := limit }
  match acc.dag with
  | some dag =>
    if !acc.fixed_columns.isEmpty then
      { acc with fixed_columns := enrichFixedColumns dag acc.fixed_columns }
    else acc
  | none => acc

/-- The matches the matchers compute first: `matchTrees` of the sort key graph
and the merged graph, when there is one. -/
def matchesOf (env : External) (dag : Option ActionsDAG) (sorting_key_dag : ActionsDAG) : Matches :=
  match dag with
  | some dag => env.matchTrees sorting_key_dag dag
  | none => []

/-- `buildInputOrderFromSortDescription` for a `ReadFromMergeTree` scan. -/
def buildInputOrderFromSortDescriptionReading (env : External) (reading : ReadFromMergeTree)
    (fixed_columns : FixedColumns) (dag : Option ActionsDAG) (description : SortDescription)
    (limit : Nat) : SortingInputOrder :=
  buildInputOrderFromSortDescription fixed_columns dag
    (matchesOf env dag reading.sorting_key.expression) description reading.sorting_key
    reading.pk_column_names limit

/-- The loop over the selected tables of `buildInputOrderFromSortDescription`
for a `ReadFromMerge` scan: every table has to give the same order. -/
def sortingOrderOfTables (order_of : KeyDescription → SortingInputOrder) :
    List KeyDescription → SortingInputOrder → SortingInputOrder
  | [], order_info => order_info
  | sorting_key :: tables, order_info =>
    if sorting_key.column_names.isEmpty then
      { input_order := none, virtual_row_conversion := none }
    else
      let table_order_info := order_of sorting_key
      if table_order_info.input_order.isNone then
        { input_order := none, virtual_row_conversion := none }
      else if order_info.input_order.isNone then
        sortingOrderOfTables order_of tables table_order_info
      else if order_info.input_order ≠ table_order_info.input_order then
        { input_order := none, virtual_row_conversion := none }
      else sortingOrderOfTables order_of tables order_info

/-- `buildInputOrderFromSortDescription` for a `ReadFromMerge` scan. -/
def buildInputOrderFromSortDescriptionMerge (env : External) (merge : ReadFromMerge)
    (fixed_columns : FixedColumns) (dag : Option ActionsDAG) (description : SortDescription)
    (limit : Nat) : SortingInputOrder :=
  sortingOrderOfTables
    (fun sorting_key =>
      buildInputOrderFromSortDescription fixed_columns dag
        (matchesOf env dag sorting_key.expression) description sorting_key [] limit)
    merge.tables { input_order := none, virtual_row_conversion := none }

/-- `buildInputOrderFromUnorderedKeys` for a `ReadFromMergeTree` scan. -/
def buildInputOrderFromUnorderedKeysReading (env : External) (reading : ReadFromMergeTree)
    (fixed_columns : FixedColumns) (dag : Option ActionsDAG) (unordered_keys : List String) :
    InputOrder :=
  buildInputOrderFromUnorderedKeys fixed_columns dag
    (matchesOf env dag reading.sorting_key.expression) unordered_keys
    reading.sorting_key.expression reading.sorting_key.column_names

/-- The loop over the selected tables of `buildInputOrderFromUnorderedKeys` for
a `ReadFromMerge` scan. -/
def inputOrderOfTables (order_of : KeyDescription → InputOrder) :
    List KeyDescription → InputOrder → InputOrder
  | [], order_info => order_info
  | sorting_key :: tables, order_info =>
    if sorting_key.column_names.isEmpty then { input_order := none, sort_description := [] }
    else
      let table_order_info := order_of sorting_key
      if table_order_info.input_order.isNone then { input_order := none, sort_description := [] }
      else if order_info.input_order.isNone then
        inputOrderOfTables order_of tables table_order_info
      else if order_info.input_order ≠ table_order_info.input_order then
        { input_order := none, sort_description := [] }
      else inputOrderOfTables order_of tables order_info

/-- `buildInputOrderFromUnorderedKeys` for a `ReadFromMerge` scan. -/
def buildInputOrderFromUnorderedKeysMerge (env : External) (merge : ReadFromMerge)
    (fixed_columns : FixedColumns) (dag : Option ActionsDAG) (unordered_keys : List String) :
    InputOrder :=
  inputOrderOfTables
    (fun sorting_key =>
      buildInputOrderFromUnorderedKeys fixed_columns dag
        (matchesOf env dag sorting_key.expression) unordered_keys
        sorting_key.expression sorting_key.column_names)
    merge.tables { input_order := none, sort_description := [] }

/-- What `buildInputOrderInfo` for a sorting step leaves behind: the order it
returns, `apply_virtual_row`, and the plan under the sorting step, in which
the scan reads in order when it accepted the request. -/
structure SortingRequest where
  input_order : Option InputOrderInfo
  apply_virtual_row : Bool
  node : PlanNode

/-- The order the ordered matcher finds for the plan under a sorting step and
the scan `reading_step`. -/
def sortingInputOrder (env : External) (sorting : SortingStep) (node : PlanNode)
    (reading_step : Step) : SortingInputOrder :=
  let acc := enrichedSortingDAG env node sorting.limit
  match reading_step with
  | .ReadFromMergeTree reading =>
    buildInputOrderFromSortDescriptionReading env reading acc.fixed_columns acc.dag
      sorting.result_description acc.limit
  | .ReadFromMerge merge =>
    buildInputOrderFromSortDescriptionMerge env merge acc.fixed_columns acc.dag
      sorting.result_description acc.limit
  | _ => { input_order := none, virtual_row_conversion := none }

/-- The request to read in order sent to the scan `reading_step`: the scan
reading in order, or nothing when it declines or is no scan. -/
def requestOrder (env : External) (reading_step : Step) (input_order : InputOrderInfo)
    (virtual_row_conversion : Option ActionsDAG) : Option Step :=
  match reading_step with
  | .ReadFromMergeTree reading =>
    (env.requestReadingInOrder reading input_order.used_prefix_of_sorting_key_size
      input_order.direction input_order.limit virtual_row_conversion).map Step.ReadFromMergeTree
  | .ReadFromMerge merge =>
    (env.requestReadingInOrderMerge merge input_order).map Step.ReadFromMerge
  | _ => none

/-- `buildInputOrderInfo` for a sorting step. -/
def buildInputOrderInfoSorting (env : External) (sorting : SortingStep) (apply_virtual_row : Bool)
    (node : PlanNode) : SortingRequest :=
  match findReadingStep node false with
  | none => { input_order := none, apply_virtual_row := apply_virtual_row, node := node }
  | some reading_node =>
    let order_info := sortingInputOrder env sorting node reading_node.step
    match order_info.input_order with
    | some input_order =>
      let apply_virtual_row :=
        match reading_node.step with
        | .ReadFromMergeTree _ => order_info.virtual_row_conversion.isSome
        | _ => apply_virtual_row
      match requestOrder env reading_node.step input_order order_info.virtual_row_conversion with
      | some reading =>
        { input_order := some input_order, apply_virtual_row := apply_virtual_row,
          node := updateReadingStep node false reading }
      | none => { input_order := none, apply_virtual_row := apply_virtual_row, node := node }
    | none => { input_order := none, apply_virtual_row := apply_virtual_row, node := node }

/-- The order the unordered matcher finds for the plan under an aggregating or
distinct step and the scan `reading_step`. -/
def unorderedInputOrder (env : External) (keys : List String) (node : PlanNode)
    (reading_step : Step) : InputOrder :=
  let acc := enrichedSortingDAG env node 0
  match reading_step with
  | .ReadFromMergeTree reading =>
    buildInputOrderFromUnorderedKeysReading env reading acc.fixed_columns acc.dag keys
  | .ReadFromMerge merge =>
    buildInputOrderFromUnorderedKeysMerge env merge acc.fixed_columns acc.dag keys
  | _ => { input_order := none, sort_description := [] }

/-- `buildInputOrderInfo` for an aggregating step: the order, and the plan under
the step, in which the scan reads in order when it accepted the request. -/
def buildInputOrderInfoAggregating (env : External) (aggregating : AggregatingStep)
    (node : PlanNode) : InputOrder × PlanNode :=
  match findReadingStep node false with
  | none => ({ input_order := none, sort_description := [] }, node)
  | some reading_node =>
    let order_info := unorderedInputOrder env aggregating.keys node reading_node.step
    match order_info.input_order with
    | some input_order =>
      match requestOrder env reading_node.step input_order none with
      | some reading => (order_info, updateReadingStep node false reading)
      | none => ({ input_order := none, sort_description := [] }, node)
    | none => (order_info, node)

/-- `canImproveOrderForDistinct`: whether the order found for a distinct step
improves the order the scan already reads in, and the order to ask for, which
takes its direction from the existing one. -/
def canImproveOrderForDistinct (required_order : InputOrder)
    (existing_order : Option InputOrderInfo) : Bool × InputOrder :=
  match required_order.input_order with
  | none => (false, required_order)
  | some required =>
    match existing_order with
    | none => (true, required_order)
    | some existing =>
      if required.used_prefix_of_sorting_key_size ≤ existing.used_prefix_of_sorting_key_size then
        (false, required_order)
      else if required.direction ≠ existing.direction then
        (true,
          { input_order := some
              { sort_description_for_merging := required.sort_description_for_merging,
                used_prefix_of_sorting_key_size := required.used_prefix_of_sorting_key_size,
                direction := existing.direction,
                limit := existing.limit },
            sort_description := required_order.sort_description.map
              (fun column => { column with direction := column.direction * -1 }) })
      else (true, required_order)

/-- The order a scan already reads in (`getInputOrder`). -/
def Step.getInputOrder : Step → Option InputOrderInfo
  | .ReadFromMergeTree reading => reading.input_order_info
  | .ReadFromMerge merge => merge.input_order
  | _ => none

/-- `buildInputOrderInfo` for a distinct step, which may improve the order the
scan already reads in. -/
def buildInputOrderInfoDistinct (env : External) (distinct : DistinctStep) (node : PlanNode) :
    InputOrder × PlanNode :=
  match findReadingStep node true with
  | none => ({ input_order := none, sort_description := [] }, node)
  | some reading_node =>
    let order_info := unorderedInputOrder env distinct.column_names node reading_node.step
    match reading_node.step with
    | .ReadFromMergeTree _ | .ReadFromMerge _ =>
      let improved := canImproveOrderForDistinct order_info reading_node.step.getInputOrder
      if !improved.1 then ({ input_order := none, sort_description := [] }, node)
      else
        match improved.2.input_order with
        | some input_order =>
          match requestOrder env reading_node.step input_order none with
          | some reading => (improved.2, updateReadingStep node true reading)
          | none => ({ input_order := none, sort_description := [] }, node)
        | none => ({ input_order := none, sort_description := [] }, node)
    | _ => ({ input_order := none, sort_description := [] }, node)

/-- `readingFromParallelReplicas`: the leaf reached through the first children
reads from parallel replicas. -/
def readingFromParallelReplicas : PlanNode → Bool
  | .mk step [] => decide (step = .ReadFromParallelRemoteReplicas)
  | .mk _ (child :: _) => readingFromParallelReplicas child

/-- The local variables of the first loop over the children of a union in
`optimizeReadInOrder`, and the children as the requests leave them. -/
structure UnionState where
  infos : List (Option InputOrderInfo)
  children : List PlanNode
  max_sort_descr : Option SortDescription
  use_buffering : Bool
  apply_virtual_row : Bool

/-- One turn of the first loop over the children of a union. -/
def unionChildStep (env : External) (sorting : SortingStep) (st : UnionState) (child : PlanNode) :
    UnionState :=
  let request := buildInputOrderInfoSorting env sorting st.apply_virtual_row child
  match request.input_order with
  | some info =>
    { infos := st.infos ++ [some info],
      children := st.children ++ [request.node],
      max_sort_descr :=
        match st.max_sort_descr with
        | none => some info.sort_description_for_merging
        | some max_sort_descr =>
          if max_sort_descr.length < info.sort_description_for_merging.length then
            some info.sort_description_for_merging
          else some max_sort_descr,
      use_buffering := st.use_buffering || info.limit == 0,
      apply_virtual_row := request.apply_virtual_row }
  | none =>
    { st with
        infos := st.infos ++ [none],
        children := st.children ++ [request.node],
        apply_virtual_row := request.apply_virtual_row }

/-- One turn of the second loop over the children of a union: a child that
does not read in the longest order found gets a sorting step above it. -/
def additionalSorting (sorting : SortingStep) (max_sort_descr : SortDescription)
    (info : Option InputOrderInfo) (child : PlanNode) : PlanNode :=
  match info with
  | none =>
    .mk (.Sorting (SortingStep.full
      (if sorting.limit ≠ 0 then sorting.result_description else max_sort_descr) sorting.limit))
      [child]
  | some info =>
    if info.sort_description_for_merging.length < max_sort_descr.length then
      .mk (.Sorting (SortingStep.finish info.sort_description_for_merging max_sort_descr 0)) [child]
    else child

/-- `optimizeReadInOrder`: read in the order of the sort key under a full
sorting step, and only finish the sorting. -/
def optimizeReadInOrder (env : External) : PlanNode → PlanNode
  | .mk (.Sorting sorting) [child] =>
    if sorting.type ≠ .Full then .mk (.Sorting sorting) [child]
    else
      match child with
      | .mk .Union union_children =>
        if union_children.any readingFromParallelReplicas then .mk (.Sorting sorting) [child]
        else
          let st := union_children.foldl (unionChildStep env sorting)
            { infos := [], children := [], max_sort_descr := none, use_buffering := false,
              apply_virtual_row := false }
          match st.max_sort_descr with
          | none => .mk (.Sorting sorting) [.mk .Union st.children]
          | some max_sort_descr =>
            if max_sort_descr.isEmpty then .mk (.Sorting sorting) [.mk .Union st.children]
            else
              .mk (.Sorting (sorting.convertToFinishSorting max_sort_descr st.use_buffering false))
                [.mk .Union (List.zipWith (additionalSorting sorting max_sort_descr)
                  st.infos st.children)]
      | _ =>
        let request := buildInputOrderInfoSorting env sorting false child
        match request.input_order with
        | some order_info =>
          .mk (.Sorting (sorting.convertToFinishSorting order_info.sort_description_for_merging
            (order_info.limit == 0) request.apply_virtual_row)) [request.node]
        | none => .mk (.Sorting sorting) [request.node]
  | node => node

/-- The loop of `optimizeAggregationInOrder` that appends the other GROUP BY keys
to the sort description. -/
def groupBySortDescription (sort_description : SortDescription) (keys : List String) :
    SortDescription :=
  (keys.foldl
    (fun (acc : List String × SortDescription) key =>
      if acc.1.contains key then acc
      else (acc.1 ++ [key], acc.2 ++ [SortColumnDescription.ofName key 1]))
    (sort_description.map (fun desc => desc.column_name), sort_description)).2

/-- `optimizeAggregationInOrder`: read in the order of the sort key under an
aggregating step. -/
def optimizeAggregationInOrder (env : External) : PlanNode → PlanNode
  | .mk (.Aggregating aggregating) [child] =>
    if (aggregating.inOrder && !aggregating.explicit_sorting_required)
        || aggregating.is_grouping_sets then
      .mk (.Aggregating aggregating) [child]
    else if aggregating.overflow_row then .mk (.Aggregating aggregating) [child]
    else
      let result := buildInputOrderInfoAggregating env aggregating child
      if result.1.input_order.isSome then
        .mk (.Aggregating (aggregating.applyOrder result.1.sort_description
          (groupBySortDescription result.1.sort_description aggregating.keys))) [result.2]
      else .mk (.Aggregating aggregating) [result.2]
  | node => node

/-- `optimizeDistinctInOrder`: read in the order of the sort key under a
preliminary distinct step. -/
def optimizeDistinctInOrder (env : External) : PlanNode → PlanNode
  | .mk (.Distinct distinct) [child] =>
    if !distinct.is_preliminary then .mk (.Distinct distinct) [child]
    else if !distinct.sort_description.isEmpty then .mk (.Distinct distinct) [child]
    else
      let result := buildInputOrderInfoDistinct env distinct child
      if result.1.input_order.isSome then
        .mk (.Distinct (distinct.applyOrder result.1.sort_description)) [result.2]
      else .mk (.Distinct distinct) [result.2]
  | node => node

/-- Whether rows can be lost at a step, so that a limit pushed below it would
be wrong: a filter step, a scan with a prewhere filter, a distinct step, an
expression step with `arrayJoin`, an array join step that is not a LEFT one. -/
def Step.dropsLimit : Step → Bool
  | .Filter _ _ => true
  | .ReadFromMergeTree reading => reading.prewhere_info.isSome
  | .Distinct _ => true
  | .Expression actions => actions.hasArrayJoin
  | .ArrayJoin is_left _ => !is_left
  | _ => false

/-- The steps on the path from a node down to the scan, through the only child
of every node. -/
def pathToScan : PlanNode → List Step
  | .mk (.ReadFromMergeTree reading) _ => [.ReadFromMergeTree reading]
  | .mk step [child] => step :: pathToScan child
  | .mk step _ => [step]

/-- An instance of the code outside the sources at hand for the scenarios: the
expression graph of the only filter or expression step is the merged graph,
the matches are those given, and the scan accepts every request and reads
in the order asked for. -/
def externalAccepting (ms : Matches) : External :=
  { mergeInplace := fun _ expression => expression,
    matchTrees := fun _ _ => ms,
    requestReadingInOrder := fun reading used_prefix direction limit _ =>
      some { reading with
        input_order_info := some
          { sort_description_for_merging := [], used_prefix_of_sorting_key_size := used_prefix,
            direction := direction, limit := limit } },
    requestReadingInOrderMerge := fun merge order => some { merge with input_order := some order } }

/-- The same with a scan that declines every request. -/
def externalDeclining (ms : Matches) : External :=
  { mergeInplace := fun _ expression => expression,
    matchTrees := fun _ _ => ms,
    requestReadingInOrder := fun _ _ _ _ _ => none,
    requestReadingInOrderMerge := fun _ _ => none }

/-- The scan of a table with the sort key and primary key `(a, b)`. -/
def readingAB : ReadFromMergeTree :=
  { sorting_key := sortingKeyAB, pk_column_names := ["a", "b"], prewhere_info := none,
    input_order_info := none }

/-- The plan of `SELECT * FROM t WHERE a = 5` under a sorting, aggregating or
distinct step: the filter step over the scan. -/
def planWhereA5 : PlanNode :=
  .mk (.Filter dagWhereA5 "equals(a, 5)") [.mk (.ReadFromMergeTree readingAB) []]

/-- The plan of `SELECT negate(a) FROM t` under a sorting step: the expression
step over the scan. -/
def planNegateA : PlanNode :=
  .mk (.Expression dagNegateA) [.mk (.ReadFromMergeTree readingAB) []]

/-- An aggregating step with the keys given that is not in order yet. -/
def aggregatingBy (keys : List String) : AggregatingStep :=
  { keys := keys, overflow_row := false, is_grouping_sets := false,
    explicit_sorting_required := false, sort_description_for_merging := [],
    group_by_sort_description := [] }
/-- The scan already reads in order: the condition under which
`checkSupportedReadingStep` refuses a scan when an existing order is not
allowed. -/
def Step.readsInOrder : Step → Bool
  | .ReadFromMergeTree reading => reading.input_order_info.isSome
  | .ReadFromMerge merge =>
    (merge.input_order.map (fun order => order.used_prefix_of_sorting_key_size != 0)).getD false
  | _ => false

/-- The plan of `SELECT * FROM t WHERE a = 5 ORDER BY b LIMIT 10`. -/
def planOrderByB : PlanNode :=
  .mk (.Sorting (SortingStep.full [ascending "b"] 10)) [planWhereA5]

/-- The plan of `SELECT * FROM t WHERE a = 5` with the scan reading in the
order of the first two columns of the sort key. -/
def planWhereA5InOrder : PlanNode :=
  .mk (.Filter dagWhereA5 "equals(a, 5)")
    [.mk (.ReadFromMergeTree
      { readingAB with
          input_order_info := some
            { sort_description_for_merging := [], used_prefix_of_sorting_key_size := 2,
              direction := 1, limit := 0 } }) []]


/-! # Theorems -/

/-- Every turn of the loop of the ordered matcher goes one of the four ways of
`MatchTurn`. -/
theorem matchStep_turn (fixed_columns : FixedColumns) (dag : Option ActionsDAG) (ms : Matches)
    (fixed_key_columns : FixedColumns) (description : SortDescription)
    (sorting_key : KeyDescription) (s : MatchState) :
    MatchTurn fixed_columns dag ms fixed_key_columns description sorting_key s
      (matchStep fixed_columns dag ms fixed_key_columns description sorting_key s) := by
  unfold matchStep
  simp only []
  split
  · exact .stop
  rename_i h_coll
  split
  · exact .stop
  rename_i h_nulls
  split
  · exact .stop
  rename_i sort_column_node h_key
  split
  · -- no dag
    split
    · exact .stop
    rename_i h_input
    split
    · exact .stop
    rename_i h_name
    have := @MatchTurn.matched fixed_columns none ms fixed_key_columns description sorting_key s sort_column_node sort_column_node none none h_key (by simpa using h_coll) (by simpa using h_nulls)
      (by simp only []; refine ⟨by simpa using h_input, by simpa using h_name, ?_, ?_⟩ <;> simp)
    simpa [monotonicDirection, monotonicStrict] using this
  · rename_i d
    split
    · exact .stop
    rename_i sort_node h_node
    split
    · rename_i h_match
      split
      · rename_i monotonicity h_mono
        exact MatchTurn.matched sort_column_node sort_node (some monotonicity) _ h_key (by simpa using h_coll) (by simpa using h_nulls)
          (by simp only []; exact ⟨h_node, h_match, h_mono⟩)
      · rename_i h_mono
        have := @MatchTurn.matched fixed_columns (some d) ms fixed_key_columns description sorting_key s sort_column_node sort_node none none h_key (by simpa using h_coll) (by simpa using h_nulls)
          (by simp only []; exact ⟨h_node, h_match, h_mono⟩)
        simpa [monotonicDirection, monotonicStrict] using this
    · rename_i h_match
      split
      · rename_i h_fk
        exact MatchTurn.fixedKey d sort_column_node sort_node rfl h_key (by simpa using h_coll) h_node h_match (by simpa using h_fk)
      · rename_i h_fk
        split
        · exact .stop
        · rename_i h_fixed
          exact MatchTurn.fixedColumn d sort_column_node sort_node rfl h_key (by simpa using h_coll) h_node h_match (by simpa using h_fk) (by
            cases h_col : (d.node sort_node).column <;> simp_all)
section OrderedLoop

variable (fixed_columns : FixedColumns) (dag : Option ActionsDAG) (ms : Matches)
  (fixed_key_columns : FixedColumns) (description : SortDescription)
  (sorting_key : KeyDescription)

theorem reconcileDirection_frame (s : MatchState) (e : SortColumnDescription) (cd : Int)
    (strict : Bool) (ev : Bool → Consumed) :
    (reconcileDirection s e cd strict ev).1.next_description_column = s.next_description_column
    ∧ (reconcileDirection s e cd strict ev).1.next_sort_key = s.next_sort_key
    ∧ (reconcileDirection s e cd strict ev).1.match_infos = s.match_infos
    ∧ (reconcileDirection s e cd strict ev).1.can_optimize_virtual_row = s.can_optimize_virtual_row := by
  unfold reconcileDirection
  split <;> simp

/-- A turn of the loop never moves a cursor back nor by more than one, and a
turn after which the loop goes on moves at least one cursor. -/
theorem matchStep_cursors (s : MatchState) :
    s.next_description_column ≤
        (matchStep fixed_columns dag ms fixed_key_columns description sorting_key s).1.next_description_column
    ∧ (matchStep fixed_columns dag ms fixed_key_columns description sorting_key s).1.next_description_column
        ≤ s.next_description_column + 1
    ∧ s.next_sort_key ≤
        (matchStep fixed_columns dag ms fixed_key_columns description sorting_key s).1.next_sort_key
    ∧ (matchStep fixed_columns dag ms fixed_key_columns description sorting_key s).1.next_sort_key
        ≤ s.next_sort_key + 1
    ∧ ((matchStep fixed_columns dag ms fixed_key_columns description sorting_key s).2 = true →
        s.next_description_column + s.next_sort_key <
          (matchStep fixed_columns dag ms fixed_key_columns description sorting_key s).1.next_description_column
          + (matchStep fixed_columns dag ms fixed_key_columns description sorting_key s).1.next_sort_key) := by
  have h := matchStep_turn fixed_columns dag ms fixed_key_columns description sorting_key s
  generalize matchStep fixed_columns dag ms fixed_key_columns description sorting_key s = r at h
  cases h with
  | stop => simp
  | matched _ _ _ _ _ _ _ _ => simp only [reconcileDirection_frame]; omega
  | fixedKey _ _ _ _ _ _ _ _ _ => simp only [reconcileDirection_frame]; omega
  | fixedColumn _ _ _ _ _ _ _ _ _ _ => simp only [reconcileDirection_frame]; omega

/-- The bound on the turns of the loop is never reached: from a state whose
cursors leave at most `fuel` moves, one more turn allowed changes nothing. -/
theorem matchLoop_fuel (fuel : Nat) : ∀ s : MatchState,
    (description.length - s.next_description_column)
      + (sorting_key.column_names.length - s.next_sort_key) ≤ fuel →
    matchLoop fixed_columns dag ms fixed_key_columns description sorting_key (fuel + 1) s
      = matchLoop fixed_columns dag ms fixed_key_columns description sorting_key fuel s := by
  induction fuel with
  | zero =>
    intro s h
    have : ¬ (s.next_description_column < description.length
        ∧ s.next_sort_key < sorting_key.column_names.length) := by omega
    simp [matchLoop, this]
  | succ fuel ih =>
    intro s h
    rw [matchLoop, matchLoop]
    split
    · rename_i h_range
      have hc := matchStep_cursors fixed_columns dag ms fixed_key_columns description sorting_key s
      simp only []
      split
      · rename_i h_go
        exact ih _ (by have := hc.2.2.2.2 h_go; omega)
      · rfl
    · rfl

/-- Induction over the loop of the ordered matcher: a property kept by every
turn after which the loop goes on, and that gives `Post` when the loop is left,
gives `Post` of the state the loop ends in. -/
theorem matchLoop_induct (Inv Post : MatchState → Prop)
    (h_turn : ∀ s, Inv s → s.next_description_column < description.length →
      s.next_sort_key < sorting_key.column_names.length →
      ((matchStep fixed_columns dag ms fixed_key_columns description sorting_key s).2 = true →
        Inv (matchStep fixed_columns dag ms fixed_key_columns description sorting_key s).1)
      ∧ ((matchStep fixed_columns dag ms fixed_key_columns description sorting_key s).2 = false →
        Post (matchStep fixed_columns dag ms fixed_key_columns description sorting_key s).1))
    (h_exit : ∀ s, Inv s → ¬ (s.next_description_column < description.length
      ∧ s.next_sort_key < sorting_key.column_names.length) → Post s)
    (fuel : Nat) : ∀ s : MatchState, Inv s →
    (description.length - s.next_description_column)
      + (sorting_key.column_names.length - s.next_sort_key) ≤ fuel →
    Post (matchLoop fixed_columns dag ms fixed_key_columns description sorting_key fuel s) := by
  induction fuel with
  | zero =>
    intro s h_inv h
    rw [matchLoop]
    exact h_exit s h_inv (by omega)
  | succ fuel ih =>
    intro s h_inv h
    rw [matchLoop]
    split
    · rename_i h_range
      have hc := matchStep_cursors fixed_columns dag ms fixed_key_columns description sorting_key s
      have ht := h_turn s h_inv h_range.1 h_range.2
      simp only []
      split
      · rename_i h_go
        exact ih _ (ht.1 h_go) (by have := hc.2.2.2.2 h_go; omega)
      · rename_i h_go
        exact ht.2 (by simpa using h_go)
    · rename_i h_range
      exact h_exit s h_inv h_range

/-- A property kept by every turn of the loop holds of the state the loop ends
in. -/
theorem matchLoop_invariant (Inv : MatchState → Prop)
    (h_turn : ∀ s, Inv s → s.next_description_column < description.length →
      s.next_sort_key < sorting_key.column_names.length →
      Inv (matchStep fixed_columns dag ms fixed_key_columns description sorting_key s).1)
    (fuel : Nat) : ∀ s : MatchState, Inv s →
    Inv (matchLoop fixed_columns dag ms fixed_key_columns description sorting_key fuel s) := by
  induction fuel with
  | zero => intro s h; simpa [matchLoop] using h
  | succ fuel ih =>
    intro s h_inv
    rw [matchLoop]
    split
    · rename_i h_range
      simp only []
      split
      · exact ih _ (h_turn s h_inv h_range.1 h_range.2)
      · exact h_turn s h_inv h_range.1 h_range.2
    · exact h_inv

end OrderedLoop
section OrderedClaims

variable (fixed_columns : FixedColumns) (dag : Option ActionsDAG) (ms : Matches)
  (fixed_key_columns : FixedColumns) (description : SortDescription)
  (sorting_key : KeyDescription)

/-- C6. A requirement entry with `nulls_direction = -1` met while the sort key
column under the cursor has a nullable, low-cardinality-nullable or floating
point type ends the matching at once: the turn leaves every local variable as
it was (the entry is not added to the matched entries, no cursor moves) and
the loop stops in that very state. -/
theorem nulls_first_stops_matching (s : MatchState) (e : SortColumnDescription) (t : DataType)
    (fuel : Nat)
    (h_entry : description[s.next_description_column]? = some e)
    (h_type : sorting_key.data_types[s.next_sort_key]? = some t)
    (h_nullable : isNullableOrLowCardinalityNullable t = true ∨ isFloat t = true)
    (h_nulls : e.nulls_direction = -1) :
    matchStep fixed_columns dag ms fixed_key_columns description sorting_key s = (s, false)
    ∧ matchLoop fixed_columns dag ms fixed_key_columns description sorting_key (fuel + 1) s = s := by
  have h_e : description.getD s.next_description_column default = e := by
    simp [List.getD_eq_getElem?_getD, h_entry]
  have h_t : sorting_key.data_types.getD s.next_sort_key .Int32 = t := by
    simp [List.getD_eq_getElem?_getD, h_type]
  have h_null : columnIsNullable sorting_key s.next_sort_key = true := by
    unfold columnIsNullable
    rw [h_t]
    simpa using h_nullable
  have h_step : matchStep fixed_columns dag ms fixed_key_columns description sorting_key s
      = (s, false) := by
    unfold matchStep
    simp only [h_e, h_null, h_nulls]
    split
    · rfl
    · simp
  refine ⟨h_step, ?_⟩
  rw [matchLoop, h_step]
  simp

end OrderedClaims

/-- C6, at a concrete input: over the sort key `(x)` with `x` of type
`Float64`, `ORDER BY x ASC NULLS FIRST` is not matched. -/
theorem nulls_first_stops_matching_witness :
    matchStep [] none [] [] [{ ascending "x" with nulls_direction := -1 }] sortingKeyFloat
        MatchState.init = (MatchState.init, false)
    ∧ matchLoop [] none [] [] [{ ascending "x" with nulls_direction := -1 }] sortingKeyFloat 2
        MatchState.init = MatchState.init :=
  nulls_first_stops_matching [] none [] [] [{ ascending "x" with nulls_direction := -1 }]
    sortingKeyFloat MatchState.init { ascending "x" with nulls_direction := -1 } .Float64 1
    (by decide) (by decide) (by decide) (by decide)
section OrderedClaims2

variable (fixed_columns : FixedColumns) (dag : Option ActionsDAG) (ms : Matches)
  (fixed_key_columns : FixedColumns) (description : SortDescription)
  (sorting_key : KeyDescription)

theorem reconcileDirection_descr_mem (s : MatchState) (e : SortColumnDescription) (cd : Int)
    (strict : Bool) (ev : Bool → Consumed) (x : SortColumnDescription)
    (h : x ∈ (reconcileDirection s e cd strict ev).1.order_key_prefix_descr) :
    x ∈ s.order_key_prefix_descr ∨ x = e := by
  unfold reconcileDirection at h
  split at h
  · exact Or.inl h
  · simp only [] at h
    split at h
    · simpa using h
    · exact Or.inl h

/-- Every entry a turn of the loop adds to the matched entries is the
requirement entry under the cursor, and it has no collation. -/
theorem matchStep_descr_mem (s : MatchState) (x : SortColumnDescription)
    (h : x ∈ (matchStep fixed_columns dag ms fixed_key_columns description sorting_key
      s).1.order_key_prefix_descr) :
    x ∈ s.order_key_prefix_descr
    ∨ (x = description.getD s.next_description_column default ∧ x.collator = none) := by
  have ht := matchStep_turn fixed_columns dag ms fixed_key_columns description sorting_key s
  generalize matchStep fixed_columns dag ms fixed_key_columns description sorting_key s = r at h ht
  cases ht with
  | stop => exact Or.inl h
  | matched _ _ _ _ _ h_coll _ _ =>
    rcases reconcileDirection_descr_mem _ _ _ _ _ _ h with h | h
    · exact Or.inl h
    · exact Or.inr ⟨h, h ▸ h_coll⟩
  | fixedKey _ _ _ _ _ h_coll _ _ _ =>
    rcases reconcileDirection_descr_mem _ _ _ _ _ _ h with h | h
    · exact Or.inl h
    · exact Or.inr ⟨h, h ▸ h_coll⟩
  | fixedColumn _ _ _ _ _ h_coll _ _ _ _ =>
    rcases reconcileDirection_descr_mem _ _ _ _ _ _ h with h | h
    · simp only [List.mem_append, List.mem_singleton] at h
      rcases h with h | h
      · exact Or.inl h
      · exact Or.inr ⟨h, h ▸ h_coll⟩
    · exact Or.inr ⟨h, h ▸ h_coll⟩

/-- C5. If the first requirement entry uses a collation the ordered matcher
returns no match, and no entry of a returned matched prefix carries a
collation. -/
theorem collation_is_never_matched (pk_column_names : List String) (limit : Nat) :
    (∀ e rest, description = e :: rest → e.collator.isSome = true →
      buildInputOrderFromSortDescription fixed_columns dag ms description sorting_key
        pk_column_names limit = { input_order := none, virtual_row_conversion := none })
    ∧ (∀ info,
      (buildInputOrderFromSortDescription fixed_columns dag ms description sorting_key
        pk_column_names limit).input_order = some info →
      ∀ e ∈ info.sort_description_for_merging, e.collator = none) := by
  constructor
  · intro e rest h_descr h_coll
    have h_final : matchFinal fixed_columns dag ms description sorting_key = MatchState.init := by
      unfold matchFinal
      simp only [h_descr, List.length_cons]
      have h_add : rest.length + 1 + sorting_key.column_names.length
          = (rest.length + sorting_key.column_names.length) + 1 := by omega
      rw [h_add, matchLoop]
      split
      · have h_step : ∀ fk, matchStep fixed_columns dag ms fk (e :: rest) sorting_key MatchState.init
            = (MatchState.init, false) := by
          intro fk
          unfold matchStep
          simp [MatchState.init, h_coll]
        simp [h_step]
      · rfl
    unfold buildInputOrderFromSortDescription
    simp [h_final, MatchState.init]
  · intro info h_info e h_mem
    have h_inv : ∀ x ∈ (matchFinal fixed_columns dag ms description sorting_key).order_key_prefix_descr,
        x.collator = none := by
      unfold matchFinal
      apply matchLoop_invariant _ _ _ _ _ _ (fun s => ∀ x ∈ s.order_key_prefix_descr, x.collator = none)
      · intro s h_s _ _ x hx
        rcases matchStep_descr_mem _ _ _ _ _ _ s x hx with h | h
        · exact h_s x h
        · exact h.2
      · intro x hx
        simp [MatchState.init] at hx
    unfold buildInputOrderFromSortDescription at h_info
    simp only [] at h_info
    split at h_info
    · simp at h_info
    · simp only [Option.some.injEq] at h_info
      subst h_info
      exact h_inv e h_mem

end OrderedClaims2

/-- C5, at a concrete input: `ORDER BY a COLLATE 'x', b` over the sort key
`(a, b)` gives no match. -/
theorem collation_is_never_matched_witness :
    buildInputOrderFromSortDescription [] none []
      [{ ascending "a" with collator := some "x" }, ascending "b"] sortingKeyAB ["a", "b"] 10
      = { input_order := none, virtual_row_conversion := none } :=
  (collation_is_never_matched [] none []
    [{ ascending "a" with collator := some "x" }, ascending "b"] sortingKeyAB ["a", "b"] 10).1
    { ascending "a" with collator := some "x" } [ascending "b"] rfl (by decide)
section NoDag

variable (fixed_columns : FixedColumns) (ms : Matches)
  (fixed_key_columns : FixedColumns) (description : SortDescription)
  (sorting_key : KeyDescription)

/-- Without a merged graph, a requirement entry that names the sort key column
under the cursor, an input of the sort key graph, is matched with the
direction of the entry times the reverse indicator of the key column. -/
theorem matchStep_no_dag (s : MatchState) (k : Nat)
    (h_coll : (description.getD s.next_description_column default).collator = none)
    (h_nulls : ¬ (columnIsNullable sorting_key s.next_sort_key = true
      ∧ (description.getD s.next_description_column default).nulls_direction = -1))
    (h_key : sorting_key.expression.tryFindInOutputs
      (sorting_key.column_names.getD s.next_sort_key "") = some k)
    (h_input : (sorting_key.expression.node k).type = .INPUT)
    (h_name : (description.getD s.next_description_column default).column_name
      = sorting_key.column_names.getD s.next_sort_key "") :
    matchStep fixed_columns none ms fixed_key_columns description sorting_key s
      = reconcileDirection
          { s with
              match_infos := s.match_infos ++ [{ source := some k, fixed_column := none, monotonic := none }],
              next_description_column := s.next_description_column + 1,
              next_sort_key := s.next_sort_key + 1 }
          (description.getD s.next_description_column default)
          ((description.getD s.next_description_column default).direction
            * reverseIndicator sorting_key s.next_sort_key)
          true
          (Consumed.byMatch s.next_description_column s.next_sort_key none) := by
  have h_n : (columnIsNullable sorting_key s.next_sort_key
      && (description.getD s.next_description_column default).nulls_direction == -1) = false := by
    cases h_c : columnIsNullable sorting_key s.next_sort_key
    · simp
    · simp only [Bool.true_and, beq_eq_false_iff_ne, ne_eq]
      intro h
      exact h_nulls ⟨h_c, h⟩
  unfold matchStep
  simp only [h_coll, h_key, h_input, h_name, h_n, Option.isSome_none, Bool.false_eq_true,
    if_false, ne_eq, not_true_eq_false]

/-- C2. Without a merged graph, a requirement whose `n ≥ 1` entries name the
first `n` sort key columns in order, each an input of the sort key graph,
with no collation and no NULLS/NaN conflict, and whose direction times the
reverse flag of the key column (-1 when the flag of the column is set in
`reverse_flags`, else 1) is the same `d` (not 0) for every entry, is matched
in full: the matched prefix is the whole requirement, `n` sort key columns
are consumed, the direction is `d` and the limit is the one passed in. -/
theorem no_dag_full_match (pk_column_names : List String) (limit : Nat) (d : Int)
    (h_n : 1 ≤ description.length)
    (h_len : description.length ≤ sorting_key.column_names.length)
    (h_name : ∀ i < description.length,
      (description.getD i default).column_name = sorting_key.column_names.getD i "")
    (h_input : ∀ i < description.length, ∃ k,
      sorting_key.expression.tryFindInOutputs (sorting_key.column_names.getD i "") = some k
      ∧ (sorting_key.expression.node k).type = .INPUT)
    (h_coll : ∀ i < description.length, (description.getD i default).collator = none)
    (h_nulls : ∀ i < description.length, ¬ (columnIsNullable sorting_key i = true
      ∧ (description.getD i default).nulls_direction = -1))
    (h_dir : ∀ i < description.length,
      (description.getD i default).direction
        * (if sorting_key.reverse_flags.getD i false = true then -1 else 1) = d)
    (h_d : d ≠ 0) :
    (buildInputOrderFromSortDescription fixed_columns none ms description sorting_key
      pk_column_names limit).input_order
      = some { sort_description_for_merging := description,
               used_prefix_of_sorting_key_size := description.length,
               direction := d,
               limit := limit } := by
  have h_indicator : ∀ i < description.length,
      (description.getD i default).direction * reverseIndicator sorting_key i = d :=
    fun i h_i => h_dir i h_i
  have h_final :
      (matchFinal fixed_columns none ms description sorting_key).order_key_prefix_descr = description
      ∧ (matchFinal fixed_columns none ms description sorting_key).next_sort_key = description.length
      ∧ (matchFinal fixed_columns none ms description sorting_key).read_direction = d := by
    unfold matchFinal
    apply matchLoop_induct fixed_columns none ms [] description sorting_key
      (fun s => s.next_sort_key = s.next_description_column
        ∧ s.next_description_column ≤ description.length
        ∧ s.order_key_prefix_descr = description.take s.next_description_column
        ∧ s.read_direction = if s.next_description_column = 0 then 0 else d)
      (fun s => s.order_key_prefix_descr = description
        ∧ s.next_sort_key = description.length ∧ s.read_direction = d)
    · intro s ⟨h_eq, _, h_pre, h_rd⟩ h_r1 _
      obtain ⟨k, h_k, h_in⟩ := h_input _ h_r1
      have h_step := matchStep_no_dag fixed_columns ms [] description sorting_key s k
        (h_coll _ h_r1) (by rw [h_eq]; exact h_nulls _ h_r1) (by rw [h_eq]; exact h_k) h_in
        (by rw [h_eq]; exact h_name _ h_r1)
      rw [h_step, h_eq, h_indicator _ h_r1]
      have h_take : description.take (s.next_description_column + 1)
          = description.take s.next_description_column
            ++ [description.getD s.next_description_column default] := by
        rw [List.take_succ, List.getD_eq_getElem?_getD, List.getElem?_eq_getElem h_r1]
        simp
      have h_no : ¬ (d ≠ 0 ∧ s.read_direction ≠ 0 ∧ d ≠ s.read_direction) := by
        rw [h_rd]
        split <;> simp
      unfold reconcileDirection
      simp only [h_no, if_false]
      refine ⟨fun _ => ⟨?_, ?_, ?_, ?_⟩, fun h => ?_⟩
      · simp
      · simpa using h_r1
      · simp [h_d, h_pre, h_take]
      · rw [h_rd]
        split <;> simp
      · simp [h_d] at h
    · intro s ⟨h_eq, h_le, h_pre, h_rd⟩ h_out
      have h_full : s.next_description_column = description.length := by omega
      refine ⟨?_, ?_, ?_⟩
      · rw [h_pre, h_full, List.take_length]
      · omega
      · rw [h_rd, if_neg (by omega)]
    · simp [MatchState.init]
    · simp [MatchState.init]
  unfold buildInputOrderFromSortDescription
  simp only [h_final.1, h_final.2.1, h_final.2.2]
  have h_ne : description ≠ [] := by
    intro h
    simp [h] at h_n
  simp [h_d, h_ne]

end NoDag

/-- C2, at concrete inputs.  Over the sort key `(a, b)`, both ascending,
`ORDER BY a, b` is matched in full: prefix 2, direction ascending, the limit
kept.  Over the sort key `(a DESC, b DESC)`, stored in reverse, `ORDER BY a, b`
is matched in full with the direction -1, and over the sort key `(a DESC, b)`
so is `ORDER BY a DESC, b` with the direction 1: the direction of an entry is
multiplied by the reverse flag of its key column. -/
theorem no_dag_full_match_witness :
    (buildInputOrderFromSortDescription [] none [] [ascending "a", ascending "b"] sortingKeyAB
      ["a", "b"] 10).input_order
      = some { sort_description_for_merging := [ascending "a", ascending "b"],
               used_prefix_of_sorting_key_size := 2,
               direction := 1,
               limit := 10 }
    ∧ (buildInputOrderFromSortDescription [] none [] [ascending "a", ascending "b"]
        sortingKeyABReversed ["a", "b"] 10).input_order
      = some { sort_description_for_merging := [ascending "a", ascending "b"],
               used_prefix_of_sorting_key_size := 2,
               direction := -1,
               limit := 10 }
    ∧ (buildInputOrderFromSortDescription [] none [] [descending "a", ascending "b"]
        sortingKeyAReversedB ["a", "b"] 10).input_order
      = some { sort_description_for_merging := [descending "a", ascending "b"],
               used_prefix_of_sorting_key_size := 2,
               direction := 1,
               limit := 10 } :=
  ⟨no_dag_full_match [] [] [ascending "a", ascending "b"] sortingKeyAB ["a", "b"] 10 1
      (by decide) (by decide) (by decide) (by decide) (by decide) (by decide) (by decide)
      (by decide),
    no_dag_full_match [] [] [ascending "a", ascending "b"] sortingKeyABReversed ["a", "b"] 10 (-1)
      (by decide) (by decide) (by decide) (by decide) (by decide) (by decide) (by decide)
      (by decide),
    no_dag_full_match [] [] [descending "a", ascending "b"] sortingKeyAReversedB ["a", "b"] 10 1
      (by decide) (by decide) (by decide) (by decide) (by decide) (by decide) (by decide)
      (by decide)⟩

section WithDag

variable (fixed_columns : FixedColumns) (ms : Matches)
  (fixed_key_columns : FixedColumns) (description : SortDescription)
  (sorting_key : KeyDescription)

theorem nulls_guard_false (s : MatchState)
    (h_nulls : ¬ (columnIsNullable sorting_key s.next_sort_key = true
      ∧ (description.getD s.next_description_column default).nulls_direction = -1)) :
    (columnIsNullable sorting_key s.next_sort_key
      && (description.getD s.next_description_column default).nulls_direction == -1) = false := by
  cases h_c : columnIsNullable sorting_key s.next_sort_key
  · simp
  · simp only [Bool.true_and, beq_eq_false_iff_ne, ne_eq]
    intro h
    exact h_nulls ⟨h_c, h⟩

/-- C3. With a merged graph, when the sort key column under the cursor is in
the fixed key set and the requirement column under the cursor does not match
it, the turn moves the sort key cursor by one, leaves the requirement cursor,
the matched entries and the direction as they were, and the loop goes on.
For the sort key `(a, b)`, the filter `a = 5` and the requirement `(b)`, the
matched prefix is `(b)` only and 2 sort key columns are consumed. -/
theorem fixed_key_is_skipped :
    (∀ (fixed_columns : FixedColumns) (d : ActionsDAG) (ms : Matches)
        (fixed_key_columns : FixedColumns) (description : SortDescription)
        (sorting_key : KeyDescription) (s : MatchState) (sort_column_node sort_node : Nat),
      (description.getD s.next_description_column default).collator = none →
      ¬ (columnIsNullable sorting_key s.next_sort_key = true
        ∧ (description.getD s.next_description_column default).nulls_direction = -1) →
      sorting_key.expression.tryFindInOutputs
        (sorting_key.column_names.getD s.next_sort_key "") = some sort_column_node →
      d.tryFindInOutputs (description.getD s.next_description_column default).column_name
        = some sort_node →
      (ms.entry sort_node).node ≠ some sort_column_node →
      sort_column_node ∈ fixed_key_columns →
      (matchStep fixed_columns (some d) ms fixed_key_columns description sorting_key s).1.next_sort_key
          = s.next_sort_key + 1
      ∧ (matchStep fixed_columns (some d) ms fixed_key_columns description sorting_key
          s).1.next_description_column = s.next_description_column
      ∧ (matchStep fixed_columns (some d) ms fixed_key_columns description sorting_key
          s).1.order_key_prefix_descr = s.order_key_prefix_descr
      ∧ (matchStep fixed_columns (some d) ms fixed_key_columns description sorting_key
          s).1.read_direction = s.read_direction
      ∧ (matchStep fixed_columns (some d) ms fixed_key_columns description sorting_key s).2 = true)
    ∧ (buildInputOrderFromSortDescription fixedWhereA5 (some dagWhereA5) matchesWhereA5
        [ascending "b"] sortingKeyAB ["a", "b"] 0).input_order
      = some { sort_description_for_merging := [ascending "b"],
               used_prefix_of_sorting_key_size := 2,
               direction := 1,
               limit := 0 } := by
  constructor
  · intro fixed_columns d ms fixed_key_columns description sorting_key s sort_column_node sort_node
      h_coll h_nulls h_key h_node h_no_match h_fixed
    have h_n := nulls_guard_false description sorting_key s h_nulls
    have h_c : fixed_key_columns.contains sort_column_node = true := by simpa using h_fixed
    have h_step : matchStep fixed_columns (some d) ms fixed_key_columns description sorting_key s
        = reconcileDirection
            { s with
                can_optimize_virtual_row := if s.next_sort_key = 0 then false else s.can_optimize_virtual_row,
                next_sort_key := s.next_sort_key + 1 }
            (description.getD s.next_description_column default) 0 true
            (fun _ => Consumed.fixedKey s.next_sort_key) := by
      unfold matchStep
      simp only [h_coll, h_key, h_node, h_n, h_no_match, h_c, Option.isSome_none,
        Bool.false_eq_true, if_false, if_true]
    rw [h_step]
    simp only [reconcileDirection, ne_eq, not_true_eq_false, false_and, if_false, decide_False,
      Bool.false_and, Bool.not_false, and_true, true_and]
    split
    · rename_i h
      exact h.symm
    · rfl
  · decide

end WithDag

/-- C3, at a concrete input: the first turn of the loop for the sort key
`(a, b)`, the filter `a = 5` and the requirement `(b)` skips `a`. -/
theorem fixed_key_is_skipped_witness :
    (matchStep fixedWhereA5 (some dagWhereA5) matchesWhereA5
        (fixedKeyColumns fixedWhereA5 matchesWhereA5 sortingKeyAB.expression)
        [ascending "b"] sortingKeyAB MatchState.init).1.next_sort_key = 0 + 1
    ∧ (matchStep fixedWhereA5 (some dagWhereA5) matchesWhereA5
        (fixedKeyColumns fixedWhereA5 matchesWhereA5 sortingKeyAB.expression)
        [ascending "b"] sortingKeyAB MatchState.init).1.next_description_column = 0
    ∧ (matchStep fixedWhereA5 (some dagWhereA5) matchesWhereA5
        (fixedKeyColumns fixedWhereA5 matchesWhereA5 sortingKeyAB.expression)
        [ascending "b"] sortingKeyAB MatchState.init).1.order_key_prefix_descr = []
    ∧ (matchStep fixedWhereA5 (some dagWhereA5) matchesWhereA5
        (fixedKeyColumns fixedWhereA5 matchesWhereA5 sortingKeyAB.expression)
        [ascending "b"] sortingKeyAB MatchState.init).1.read_direction = 0
    ∧ (matchStep fixedWhereA5 (some dagWhereA5) matchesWhereA5
        (fixedKeyColumns fixedWhereA5 matchesWhereA5 sortingKeyAB.expression)
        [ascending "b"] sortingKeyAB MatchState.init).2 = true :=
  fixed_key_is_skipped.1 fixedWhereA5 dagWhereA5 matchesWhereA5
    (fixedKeyColumns fixedWhereA5 matchesWhereA5 sortingKeyAB.expression)
    [ascending "b"] sortingKeyAB MatchState.init 0 1
    (by decide) (by decide) (by decide) (by decide) (by decide) (by decide)
/-- With a merged graph, a requirement column whose match is the sort key
column under the cursor is consumed by that match. -/
theorem matchStep_dag_match (fixed_columns : FixedColumns) (d : ActionsDAG) (ms : Matches)
    (fixed_key_columns : FixedColumns) (description : SortDescription)
    (sorting_key : KeyDescription) (s : MatchState) (sort_column_node sort_node : Nat)
    (h_coll : (description.getD s.next_description_column default).collator = none)
    (h_nulls : ¬ (columnIsNullable sorting_key s.next_sort_key = true
      ∧ (description.getD s.next_description_column default).nulls_direction = -1))
    (h_key : sorting_key.expression.tryFindInOutputs
      (sorting_key.column_names.getD s.next_sort_key "") = some sort_column_node)
    (h_node : d.tryFindInOutputs (description.getD s.next_description_column default).column_name
      = some sort_node)
    (h_match : (ms.entry sort_node).node = some sort_column_node) :
    matchStep fixed_columns (some d) ms fixed_key_columns description sorting_key s
      = reconcileDirection
          { s with
              match_infos := s.match_infos ++
                [{ source := some sort_node, fixed_column := none,
                   monotonic := (ms.entry sort_node).monotonicity.map (fun _ => ms.entry sort_node) }],
              next_description_column := s.next_description_column + 1,
              next_sort_key := s.next_sort_key + 1 }
          (description.getD s.next_description_column default)
          ((description.getD s.next_description_column default).direction
            * reverseIndicator sorting_key s.next_sort_key
            * monotonicDirection (ms.entry sort_node).monotonicity)
          (monotonicStrict (ms.entry sort_node).monotonicity)
          (Consumed.byMatch s.next_description_column s.next_sort_key
            (ms.entry sort_node).monotonicity) := by
  have h_n := nulls_guard_false description sorting_key s h_nulls
  unfold matchStep
  simp only [h_coll, h_key, h_node, h_n, h_match, Option.isSome_none, Bool.false_eq_true,
    if_false, if_true]
  cases h_m : (ms.entry sort_node).monotonicity with
  | none => simp [monotonicDirection, monotonicStrict]
  | some m => simp [monotonicDirection, monotonicStrict]

/-- What the end of a turn does with the direction of the key under the
cursor: it becomes the read direction when none was fixed, and the entry is
appended when its direction is not 0 and agrees. -/
theorem reconcileDirection_direction (s : MatchState) (e : SortColumnDescription) (cd : Int)
    (strict : Bool) (ev : Bool → Consumed) :
    (s.read_direction = 0 → (reconcileDirection s e cd strict ev).1.read_direction = cd)
    ∧ (cd ≠ 0 → (s.read_direction = 0 ∨ cd = s.read_direction) →
        (reconcileDirection s e cd strict ev).1.order_key_prefix_descr
            = s.order_key_prefix_descr ++ [e]
        ∧ (reconcileDirection s e cd strict ev).1.read_direction = cd)
    ∧ (cd ≠ 0 → s.read_direction ≠ 0 → cd ≠ s.read_direction →
        (reconcileDirection s e cd strict ev).1.order_key_prefix_descr = s.order_key_prefix_descr
        ∧ (reconcileDirection s e cd strict ev).1.read_direction = s.read_direction
        ∧ (reconcileDirection s e cd strict ev).2 = false) := by
  unfold reconcileDirection
  refine ⟨fun h0 => ?_, fun hcd h => ?_, fun hcd hrd hne => ?_⟩
  · simp [h0]
  · rcases h with h | h
    · simp [h, hcd]
    · simp [← h, hcd]
  · simp [hcd, hrd, hne]

/-- C4. The direction of a requirement entry consumed by a match against a
sort key column is the requirement direction, times -1 when the reverse flag
of the key column is set, times the monotonic direction when the match is
monotonic: that product becomes the read direction when none was fixed yet,
and the entry is appended exactly when the product agrees with the read
direction.  For the sort key `(a)` without reverse flag and the requirement
`negate(a) DESC`, `negate` strictly decreasing, the result is a match with
direction +1. -/
theorem effective_direction_is_product :
    (∀ (fixed_columns : FixedColumns) (d : ActionsDAG) (ms : Matches)
        (fixed_key_columns : FixedColumns) (description : SortDescription)
        (sorting_key : KeyDescription) (s : MatchState) (sort_column_node sort_node : Nat)
        (product : Int),
      (description.getD s.next_description_column default).collator = none →
      ¬ (columnIsNullable sorting_key s.next_sort_key = true
        ∧ (description.getD s.next_description_column default).nulls_direction = -1) →
      sorting_key.expression.tryFindInOutputs
        (sorting_key.column_names.getD s.next_sort_key "") = some sort_column_node →
      d.tryFindInOutputs (description.getD s.next_description_column default).column_name
        = some sort_node →
      (ms.entry sort_node).node = some sort_column_node →
      product = (description.getD s.next_description_column default).direction
        * (if sorting_key.reverse_flags.getD s.next_sort_key false = true then -1 else 1)
        * (match (ms.entry sort_node).monotonicity with
           | some monotonicity => monotonicity.direction
           | none => 1) →
      (s.read_direction = 0 →
        (matchStep fixed_columns (some d) ms fixed_key_columns description sorting_key
          s).1.read_direction = product)
      ∧ (product ≠ 0 → (s.read_direction = 0 ∨ product = s.read_direction) →
        (matchStep fixed_columns (some d) ms fixed_key_columns description sorting_key
          s).1.order_key_prefix_descr
            = s.order_key_prefix_descr ++ [description.getD s.next_description_column default]
        ∧ (matchStep fixed_columns (some d) ms fixed_key_columns description sorting_key
          s).1.read_direction = product)
      ∧ (product ≠ 0 → s.read_direction ≠ 0 → product ≠ s.read_direction →
        (matchStep fixed_columns (some d) ms fixed_key_columns description sorting_key
          s).1.order_key_prefix_descr = s.order_key_prefix_descr
        ∧ (matchStep fixed_columns (some d) ms fixed_key_columns description sorting_key
          s).1.read_direction = s.read_direction
        ∧ (matchStep fixed_columns (some d) ms fixed_key_columns description sorting_key
          s).2 = false))
    ∧ (∀ (fixed_columns : FixedColumns) (ms : Matches)
        (fixed_key_columns : FixedColumns) (description : SortDescription)
        (sorting_key : KeyDescription) (s : MatchState) (sort_column_node : Nat)
        (product : Int),
      (description.getD s.next_description_column default).collator = none →
      ¬ (columnIsNullable sorting_key s.next_sort_key = true
        ∧ (description.getD s.next_description_column default).nulls_direction = -1) →
      sorting_key.expression.tryFindInOutputs
        (sorting_key.column_names.getD s.next_sort_key "") = some sort_column_node →
      (sorting_key.expression.node sort_column_node).type = .INPUT →
      (description.getD s.next_description_column default).column_name
        = sorting_key.column_names.getD s.next_sort_key "" →
      product = (description.getD s.next_description_column default).direction
        * (if sorting_key.reverse_flags.getD s.next_sort_key false = true then -1 else 1) →
      (s.read_direction = 0 →
        (matchStep fixed_columns none ms fixed_key_columns description sorting_key
          s).1.read_direction = product)
      ∧ (product ≠ 0 → (s.read_direction = 0 ∨ product = s.read_direction) →
        (matchStep fixed_columns none ms fixed_key_columns description sorting_key
          s).1.order_key_prefix_descr
            = s.order_key_prefix_descr ++ [description.getD s.next_description_column default]
        ∧ (matchStep fixed_columns none ms fixed_key_columns description sorting_key
          s).1.read_direction = product)
      ∧ (product ≠ 0 → s.read_direction ≠ 0 → product ≠ s.read_direction →
        (matchStep fixed_columns none ms fixed_key_columns description sorting_key
          s).1.order_key_prefix_descr = s.order_key_prefix_descr
        ∧ (matchStep fixed_columns none ms fixed_key_columns description sorting_key
          s).1.read_direction = s.read_direction
        ∧ (matchStep fixed_columns none ms fixed_key_columns description sorting_key
          s).2 = false))
    ∧ (buildInputOrderFromSortDescription [] (some dagNegateA) matchesNegateA
        [descending "negate(a)"] sortingKeyA ["a"] 10).input_order
      = some { sort_description_for_merging := [descending "negate(a)"],
               used_prefix_of_sorting_key_size := 1,
               direction := 1,
               limit := 10 } := by
  refine ⟨?_, ?_, by decide⟩
  · intro fixed_columns d ms fixed_key_columns description sorting_key s sort_column_node
      sort_node product h_coll h_nulls h_key h_node h_match h_product
    rw [matchStep_dag_match fixed_columns d ms fixed_key_columns description sorting_key s
      sort_column_node sort_node h_coll h_nulls h_key h_node h_match]
    have h_eq : product = (description.getD s.next_description_column default).direction
        * reverseIndicator sorting_key s.next_sort_key
        * monotonicDirection (ms.entry sort_node).monotonicity := by
      rw [h_product]
      rfl
    rw [← h_eq]
    have h := reconcileDirection_direction
      { s with
          match_infos := s.match_infos ++
            [{ source := some sort_node, fixed_column := none,
               monotonic := (ms.entry sort_node).monotonicity.map (fun _ => ms.entry sort_node) }],
          next_description_column := s.next_description_column + 1,
          next_sort_key := s.next_sort_key + 1 }
      (description.getD s.next_description_column default) product
      (monotonicStrict (ms.entry sort_node).monotonicity)
      (Consumed.byMatch s.next_description_column s.next_sort_key (ms.entry sort_node).monotonicity)
    exact h
  · intro fixed_columns ms fixed_key_columns description sorting_key s sort_column_node
      product h_coll h_nulls h_key h_input h_name h_product
    rw [matchStep_no_dag fixed_columns ms fixed_key_columns description sorting_key s
      sort_column_node h_coll h_nulls h_key h_input h_name]
    have h_eq : product = (description.getD s.next_description_column default).direction
        * reverseIndicator sorting_key s.next_sort_key := by
      rw [h_product]
      rfl
    rw [← h_eq]
    have h := reconcileDirection_direction
      { s with
          match_infos := s.match_infos ++
            [{ source := some sort_column_node, fixed_column := none, monotonic := none }],
          next_description_column := s.next_description_column + 1,
          next_sort_key := s.next_sort_key + 1 }
      (description.getD s.next_description_column default) product true
      (Consumed.byMatch s.next_description_column s.next_sort_key none)
    exact h

/-- C4, at a concrete input: the first turn of the loop for the sort key `(a)`
and the requirement `negate(a) DESC` fixes the read direction
`-1 * 1 * -1 = 1` and appends the entry. -/
theorem effective_direction_is_product_witness :
    (matchStep [] (some dagNegateA) matchesNegateA [] [descending "negate(a)"] sortingKeyA
      MatchState.init).1.order_key_prefix_descr = [] ++ [descending "negate(a)"]
    ∧ (matchStep [] (some dagNegateA) matchesNegateA [] [descending "negate(a)"] sortingKeyA
      MatchState.init).1.read_direction = 1 :=
  (effective_direction_is_product.1 [] dagNegateA matchesNegateA [] [descending "negate(a)"]
    sortingKeyA MatchState.init 0 1 1
    (by decide) (by decide) (by decide) (by decide) (by decide) (by decide)).2.1
    (by decide) (by decide)
/-- The three ways the end of a turn can go: a direction conflict, an entry
with a direction that agrees, an entry without direction. -/
theorem reconcileDirection_cases (s : MatchState) (e : SortColumnDescription) (cd : Int)
    (strict : Bool) (ev : Bool → Consumed) :
    (cd ≠ 0 ∧ s.read_direction ≠ 0 ∧ cd ≠ s.read_direction
      ∧ reconcileDirection s e cd strict ev
        = ({ s with consumed := s.consumed ++ [ev false] }, false))
    ∨ (cd ≠ 0 ∧ (s.read_direction = 0 ∨ cd = s.read_direction)
      ∧ reconcileDirection s e cd strict ev
        = ({ s with
              read_direction := cd,
              order_key_prefix_descr := s.order_key_prefix_descr ++ [e],
              consumed := s.consumed ++ [ev true] }, strict))
    ∨ (cd = 0
      ∧ reconcileDirection s e cd strict ev
        = ({ s with consumed := s.consumed ++ [ev false] }, true)) := by
  unfold reconcileDirection
  by_cases hcd : cd = 0
  · right; right
    refine ⟨hcd, ?_⟩
    subst hcd
    simp
    intro h
    exact h.symm
  · by_cases hrd : s.read_direction = 0
    · right; left
      refine ⟨hcd, Or.inl hrd, ?_⟩
      simp [hcd, hrd]
    · by_cases hne : cd = s.read_direction
      · right; left
        refine ⟨hcd, Or.inr hne, ?_⟩
        simp [hcd, hrd, hne]
      · left
        refine ⟨hcd, hrd, hne, ?_⟩
        simp [hcd, hrd, hne]

section OrderedLog

variable (fixed_columns : FixedColumns) (dag : Option ActionsDAG) (ms : Matches)
  (fixed_key_columns : FixedColumns) (description : SortDescription)
  (sorting_key : KeyDescription)

/-- The ghost record is faithful, and the directions agree: the matched
entries are the requirement entries recorded as appended, in order, and every
entry appended by a match has the read direction as its direction, which is
then not 0. -/
theorem matchStep_directions (s : MatchState)
    (h_log : s.order_key_prefix_descr
      = (s.consumed.filterMap Consumed.appended).map (fun i => description.getD i default))
    (h_dir : ∀ dc sk mono, Consumed.byMatch dc sk mono true ∈ s.consumed →
      (description.getD dc default).direction * reverseIndicator sorting_key sk
        * monotonicDirection mono = s.read_direction ∧ s.read_direction ≠ 0) :
    (matchStep fixed_columns dag ms fixed_key_columns description sorting_key
        s).1.order_key_prefix_descr
      = ((matchStep fixed_columns dag ms fixed_key_columns description sorting_key
          s).1.consumed.filterMap Consumed.appended).map (fun i => description.getD i default)
    ∧ ∀ dc sk mono, Consumed.byMatch dc sk mono true ∈
        (matchStep fixed_columns dag ms fixed_key_columns description sorting_key s).1.consumed →
      (description.getD dc default).direction * reverseIndicator sorting_key sk
        * monotonicDirection mono
        = (matchStep fixed_columns dag ms fixed_key_columns description sorting_key
            s).1.read_direction
      ∧ (matchStep fixed_columns dag ms fixed_key_columns description sorting_key
            s).1.read_direction ≠ 0 := by
  have ht := matchStep_turn fixed_columns dag ms fixed_key_columns description sorting_key s
  generalize matchStep fixed_columns dag ms fixed_key_columns description sorting_key s = r at ht
  cases ht with
  | stop => exact ⟨h_log, h_dir⟩
  | matched sort_column_node source mono monotonic _ _ _ _ =>
    rcases reconcileDirection_cases
      { s with
          match_infos := s.match_infos ++ [{ source := some source, fixed_column := none, monotonic := monotonic }],
          next_description_column := s.next_description_column + 1,
          next_sort_key := s.next_sort_key + 1 }
      (description.getD s.next_description_column default)
      ((description.getD s.next_description_column default).direction
        * reverseIndicator sorting_key s.next_sort_key * monotonicDirection mono)
      (monotonicStrict mono)
      (Consumed.byMatch s.next_description_column s.next_sort_key mono)
      with ⟨_, _, _, h⟩ | ⟨hcd, hrd, h⟩ | ⟨_, h⟩
    · rw [h]
      refine ⟨by simpa [Consumed.appended] using h_log, ?_⟩
      intro dc sk m hm
      simp only [List.mem_append, List.mem_singleton, Consumed.byMatch.injEq] at hm
      rcases hm with hm | hm
      · exact h_dir dc sk m hm
      · simp at hm
    · rw [h]
      refine ⟨by simp [Consumed.appended, h_log], ?_⟩
      intro dc sk m hm
      simp only [List.mem_append, List.mem_singleton, Consumed.byMatch.injEq] at hm
      rcases hm with hm | ⟨h1, h2, h3, _⟩
      · have := h_dir dc sk m hm
        simp only [] at hrd
        rcases hrd with hrd | hrd
        · exact absurd hrd this.2
        · exact ⟨by rw [this.1, hrd], hcd⟩
      · subst h1 h2 h3
        exact ⟨rfl, hcd⟩
    · rw [h]
      refine ⟨by simpa [Consumed.appended] using h_log, ?_⟩
      intro dc sk m hm
      simp only [List.mem_append, List.mem_singleton, Consumed.byMatch.injEq] at hm
      rcases hm with hm | hm
      · exact h_dir dc sk m hm
      · simp at hm
  | fixedKey _ _ _ _ _ _ _ _ _ =>
    refine ⟨by simpa [reconcileDirection, Consumed.appended] using h_log, ?_⟩
    intro dc sk m hm
    simp only [reconcileDirection, ne_eq, not_true_eq_false, false_and, if_false,
      List.mem_append, List.mem_singleton] at hm
    rcases hm with hm | hm
    · have := h_dir dc sk m hm
      simp only [reconcileDirection, ne_eq, not_true_eq_false, false_and, if_false]
      refine ⟨?_, ?_⟩
      · rw [this.1]; split
        · rename_i h0; exact absurd h0 this.2
        · rfl
      · split
        · rename_i h0; exact absurd h0 this.2
        · exact this.2
    · simp at hm
  | fixedColumn _ _ _ _ _ _ _ _ _ _ =>
    refine ⟨by simp [reconcileDirection, Consumed.appended, h_log], ?_⟩
    intro dc sk m hm
    simp only [reconcileDirection, ne_eq, not_true_eq_false, false_and, if_false,
      List.mem_append, List.mem_singleton] at hm
    rcases hm with hm | hm
    · have := h_dir dc sk m hm
      simp only [reconcileDirection, ne_eq, not_true_eq_false, false_and, if_false]
      refine ⟨?_, ?_⟩
      · rw [this.1]; split
        · rename_i h0; exact absurd h0 this.2
        · rfl
      · split
        · rename_i h0; exact absurd h0 this.2
        · exact this.2
    · simp at hm

end OrderedLog
/-- The three ways the end of a turn of the unordered matcher can go. -/
theorem reconcileUnordered_cases (s : UnorderedState) (sorting_key_column group_by_key : String)
    (cd : Int) (strict : Bool) (ev : Bool → ConsumedKey) :
    (cd ≠ 0 ∧ s.read_direction ≠ 0 ∧ cd ≠ s.read_direction
      ∧ reconcileUnordered s sorting_key_column group_by_key cd strict ev
        = ({ s with consumed := s.consumed ++ [ev false] }, false))
    ∨ (cd ≠ 0 ∧ (s.read_direction = 0 ∨ cd = s.read_direction)
      ∧ reconcileUnordered s sorting_key_column group_by_key cd strict ev
        = ({ s with
              read_direction := cd,
              sort_description := s.sort_description ++ [SortColumnDescription.ofName group_by_key cd],
              order_key_prefix_descr := s.order_key_prefix_descr ++ [SortColumnDescription.ofName group_by_key cd],
              not_matched_keys := s.not_matched_keys.filter (fun k => k ≠ group_by_key),
              consumed := s.consumed ++ [ev true] }, strict))
    ∨ (cd = 0
      ∧ reconcileUnordered s sorting_key_column group_by_key cd strict ev
        = ({ s with
              order_key_prefix_descr := s.order_key_prefix_descr ++ [SortColumnDescription.ofName sorting_key_column 1],
              consumed := s.consumed ++ [ev false] }, true)) := by
  unfold reconcileUnordered
  by_cases hcd : cd = 0
  · right; right
    refine ⟨hcd, ?_⟩
    subst hcd
    simp
  · by_cases hrd : s.read_direction = 0
    · right; left
      refine ⟨hcd, Or.inl hrd, ?_⟩
      simp [hcd, hrd]
    · by_cases hne : cd = s.read_direction
      · right; left
        refine ⟨hcd, Or.inr hne, ?_⟩
        simp [hcd, hrd, hne]
      · left
        refine ⟨hcd, hrd, hne, ?_⟩
        simp [hcd, hrd, hne]

section UnorderedLoop

variable (dag : Option ActionsDAG) (reverse_matches : ReverseMatches)
  (fixed_key_columns : FixedColumns) (sorting_key_dag : ActionsDAG)
  (sorting_key_columns : List String)

/-- Every turn of the loop of the unordered matcher is a `break` before the
cursor moved, the match of a key not matched yet, or the skip of a fixed sort
key column. -/
theorem unorderedStep_turn (s : UnorderedState) :
    unorderedStep dag reverse_matches fixed_key_columns sorting_key_dag sorting_key_columns s
      = (s, false)
    ∨ (∃ group_by_key monotonicity, group_by_key ∈ s.not_matched_keys
      ∧ (monotonicity = none
        ∨ ∃ key_node found, reverse_matches.lookup key_node = some found
          ∧ found.2.monotonicity = monotonicity)
      ∧ unorderedStep dag reverse_matches fixed_key_columns sorting_key_dag sorting_key_columns s
        = reconcileUnordered { s with next_sort_key := s.next_sort_key + 1 }
            (sorting_key_columns.getD s.next_sort_key "") group_by_key
            (monotonicDirection monotonicity) (monotonicStrict monotonicity)
            (ConsumedKey.byMatch group_by_key s.next_sort_key monotonicity))
    ∨ (unorderedStep dag reverse_matches fixed_key_columns sorting_key_dag sorting_key_columns s
        = reconcileUnordered { s with next_sort_key := s.next_sort_key + 1 }
            (sorting_key_columns.getD s.next_sort_key "")
            (sorting_key_columns.getD s.next_sort_key "") 0 true
            (fun _ => ConsumedKey.fixedKey s.next_sort_key)) := by
  unfold unorderedStep
  simp only []
  split
  · exact Or.inl rfl
  rename_i sort_column_node h_key
  split
  · split
    · exact Or.inl rfl
    split
    · exact Or.inl rfl
    rename_i h_in
    right; left
    refine ⟨_, none, by simpa using h_in, Or.inl rfl, ?_⟩
    simp [monotonicDirection, monotonicStrict]
  · rename_i d
    have h_skip : ∀ r : UnorderedState × Bool,
        r = (if fixed_key_columns.contains sort_column_node = true then
              reconcileUnordered { s with next_sort_key := s.next_sort_key + 1 }
                (sorting_key_columns.getD s.next_sort_key "")
                (sorting_key_columns.getD s.next_sort_key "") 0 true
                (fun _ => ConsumedKey.fixedKey s.next_sort_key)
            else (s, false)) →
        r = (s, false)
        ∨ (∃ group_by_key monotonicity, group_by_key ∈ s.not_matched_keys
          ∧ (monotonicity = none
            ∨ ∃ key_node found, reverse_matches.lookup key_node = some found
              ∧ found.2.monotonicity = monotonicity)
          ∧ r = reconcileUnordered { s with next_sort_key := s.next_sort_key + 1 }
                (sorting_key_columns.getD s.next_sort_key "") group_by_key
                (monotonicDirection monotonicity) (monotonicStrict monotonicity)
                (ConsumedKey.byMatch group_by_key s.next_sort_key monotonicity))
        ∨ (r = reconcileUnordered { s with next_sort_key := s.next_sort_key + 1 }
                (sorting_key_columns.getD s.next_sort_key "")
                (sorting_key_columns.getD s.next_sort_key "") 0 true
                (fun _ => ConsumedKey.fixedKey s.next_sort_key)) := by
      intro r hr
      split at hr
      · exact Or.inr (Or.inr hr)
      · exact Or.inl hr
    split
    · exact h_skip _ rfl
    · rename_i found h_found
      split
      · rename_i h_m
        split
        · rename_i monotonicity h_mono
          right; left
          refine ⟨_, some monotonicity, by simpa using h_m.2,
            Or.inr ⟨_, found, h_found, h_mono⟩, ?_⟩
          simp [monotonicDirection, monotonicStrict]
        · right; left
          refine ⟨_, none, by simpa using h_m.2, Or.inl rfl, ?_⟩
          simp [monotonicDirection, monotonicStrict]
      · exact h_skip _ rfl

/-- A property kept by every turn of the loop of the unordered matcher holds
of the state the loop ends in. -/
theorem unorderedLoop_invariant (Inv : UnorderedState → Prop)
    (h_turn : ∀ s, Inv s → s.next_sort_key < sorting_key_columns.length →
      Inv (unorderedStep dag reverse_matches fixed_key_columns sorting_key_dag
        sorting_key_columns s).1)
    (fuel : Nat) : ∀ s : UnorderedState, Inv s →
    Inv (unorderedLoop dag reverse_matches fixed_key_columns sorting_key_dag sorting_key_columns
      fuel s) := by
  induction fuel with
  | zero => intro s h; simpa [unorderedLoop] using h
  | succ fuel ih =>
    intro s h_inv
    rw [unorderedLoop]
    split
    · rename_i h_range
      simp only []
      split
      · exact ih _ (h_turn s h_inv h_range.2)
      · exact h_turn s h_inv h_range.2
    · exact h_inv

/-- In the unordered matcher every entry of the sort description has the read
direction as its direction, which is then not 0. -/
theorem unorderedStep_directions (s : UnorderedState)
    (h_dir : ∀ e ∈ s.sort_description, e.direction = s.read_direction ∧ s.read_direction ≠ 0) :
    ∀ e ∈ (unorderedStep dag reverse_matches fixed_key_columns sorting_key_dag sorting_key_columns
        s).1.sort_description,
      e.direction = (unorderedStep dag reverse_matches fixed_key_columns sorting_key_dag
        sorting_key_columns s).1.read_direction
      ∧ (unorderedStep dag reverse_matches fixed_key_columns sorting_key_dag
        sorting_key_columns s).1.read_direction ≠ 0 := by
  have h_rec : ∀ (gbk skc : String) (cd : Int) (strict : Bool) (ev : Bool → ConsumedKey),
      ∀ e ∈ (reconcileUnordered { s with next_sort_key := s.next_sort_key + 1 } skc gbk cd strict
          ev).1.sort_description,
        e.direction = (reconcileUnordered { s with next_sort_key := s.next_sort_key + 1 } skc gbk
          cd strict ev).1.read_direction
        ∧ (reconcileUnordered { s with next_sort_key := s.next_sort_key + 1 } skc gbk
          cd strict ev).1.read_direction ≠ 0 := by
    intro gbk skc cd strict ev
    rcases reconcileUnordered_cases { s with next_sort_key := s.next_sort_key + 1 } skc gbk cd
      strict ev with ⟨_, _, _, h⟩ | ⟨hcd, hrd, h⟩ | ⟨_, h⟩
    · rw [h]; exact h_dir
    · rw [h]
      intro e he
      simp only [List.mem_append, List.mem_singleton] at he
      rcases he with he | he
      · have := h_dir e he
        simp only [] at hrd
        rcases hrd with hrd | hrd
        · exact absurd hrd this.2
        · exact ⟨by rw [this.1, hrd], hcd⟩
      · subst he
        exact ⟨rfl, hcd⟩
    · rw [h]; exact h_dir
  rcases unorderedStep_turn dag reverse_matches fixed_key_columns sorting_key_dag
    sorting_key_columns s with h | ⟨gbk, mono, _, _, h⟩ | h
  · rw [h]; exact h_dir
  · rw [h]; exact h_rec _ _ _ _ _
  · rw [h]; exact h_rec _ _ _ _ _

end UnorderedLoop
/-- C7. Direction reconciliation.  In every result of the ordered matcher the
matched prefix is made of the requirement entries recorded as appended, and
each of them that was consumed by a match against a sort key column has an
effective direction (requirement direction times reverse indicator times
monotonic direction) equal to the direction reported, which is not 0.  In
every result of the unordered matcher all entries of the sort description
carry one and the same direction. -/
theorem directions_are_reconciled (fixed_columns : FixedColumns) (dag : Option ActionsDAG)
    (ms : Matches) (description : SortDescription) (sorting_key : KeyDescription)
    (pk_column_names : List String) (limit : Nat) (unordered_keys : List String)
    (sorting_key_dag : ActionsDAG) (sorting_key_columns : List String) :
    (∀ info,
      (buildInputOrderFromSortDescription fixed_columns dag ms description sorting_key
        pk_column_names limit).input_order = some info →
      info.sort_description_for_merging
        = (((matchFinal fixed_columns dag ms description sorting_key).consumed.filterMap
            Consumed.appended).map (fun i => description.getD i default))
      ∧ info.direction ≠ 0
      ∧ ∀ description_column sort_key monotonicity,
        Consumed.byMatch description_column sort_key monotonicity true
          ∈ (matchFinal fixed_columns dag ms description sorting_key).consumed →
        (description.getD description_column default).direction
          * reverseIndicator sorting_key sort_key * monotonicDirection monotonicity
          = info.direction)
    ∧ (∀ e₁ ∈ (buildInputOrderFromUnorderedKeys fixed_columns dag ms unordered_keys
          sorting_key_dag sorting_key_columns).sort_description,
        ∀ e₂ ∈ (buildInputOrderFromUnorderedKeys fixed_columns dag ms unordered_keys
          sorting_key_dag sorting_key_columns).sort_description,
        e₁.direction = e₂.direction) := by
  constructor
  · intro info h_info
    have h_inv :
        (matchFinal fixed_columns dag ms description sorting_key).order_key_prefix_descr
          = (((matchFinal fixed_columns dag ms description sorting_key).consumed.filterMap
              Consumed.appended).map (fun i => description.getD i default))
        ∧ ∀ dc sk mono, Consumed.byMatch dc sk mono true
            ∈ (matchFinal fixed_columns dag ms description sorting_key).consumed →
          (description.getD dc default).direction * reverseIndicator sorting_key sk
            * monotonicDirection mono
            = (matchFinal fixed_columns dag ms description sorting_key).read_direction
          ∧ (matchFinal fixed_columns dag ms description sorting_key).read_direction ≠ 0 := by
      unfold matchFinal
      apply matchLoop_invariant _ _ _ _ _ _
        (fun s => s.order_key_prefix_descr
            = (s.consumed.filterMap Consumed.appended).map (fun i => description.getD i default)
          ∧ ∀ dc sk mono, Consumed.byMatch dc sk mono true ∈ s.consumed →
            (description.getD dc default).direction * reverseIndicator sorting_key sk
              * monotonicDirection mono = s.read_direction ∧ s.read_direction ≠ 0)
      · intro s h_s _ _
        exact matchStep_directions _ _ _ _ _ _ s h_s.1 h_s.2
      · simp [MatchState.init]
    unfold buildInputOrderFromSortDescription at h_info
    simp only [] at h_info
    split at h_info
    · simp at h_info
    · rename_i h_some
      simp only [Option.some.injEq] at h_info
      subst h_info
      simp only [not_or] at h_some
      exact ⟨h_inv.1, h_some.1, fun dc sk mono h => (h_inv.2 dc sk mono h).1⟩
  · intro e₁ h₁ e₂ h₂
    have h_inv : ∀ e ∈ (unorderedFinal fixed_columns dag ms unordered_keys sorting_key_dag
          sorting_key_columns).sort_description,
        e.direction = (unorderedFinal fixed_columns dag ms unordered_keys sorting_key_dag
          sorting_key_columns).read_direction
        ∧ (unorderedFinal fixed_columns dag ms unordered_keys sorting_key_dag
          sorting_key_columns).read_direction ≠ 0 := by
      unfold unorderedFinal
      apply unorderedLoop_invariant _ _ _ _ _
        (fun s => ∀ e ∈ s.sort_description,
          e.direction = s.read_direction ∧ s.read_direction ≠ 0)
      · intro s h_s _
        exact unorderedStep_directions _ _ _ _ _ s h_s
      · simp [UnorderedState.init]
    unfold buildInputOrderFromUnorderedKeys at h₁ h₂
    simp only [] at h₁ h₂
    split at h₁
    · simp at h₁
    · rename_i h_some
      rw [if_neg h_some] at h₂
      rw [(h_inv e₁ h₁).1, (h_inv e₂ h₂).1]

/-- C7, at a concrete input: for the sort key `(a)` and `ORDER BY negate(a)
DESC` the entry matched through `negate` has the direction `-1 * 1 * -1`, the
direction 1 reported. -/
theorem directions_are_reconciled_witness :
    (descending "negate(a)").direction * reverseIndicator sortingKeyA 0
      * monotonicDirection (some { direction := -1, strict := true, child_node := 0 }) = 1 :=
  ((directions_are_reconciled [] (some dagNegateA) matchesNegateA [descending "negate(a)"]
    sortingKeyA ["a"] 10 [] sortingKeyA.expression []).1
    { sort_description_for_merging := [descending "negate(a)"],
      used_prefix_of_sorting_key_size := 1, direction := 1, limit := 10 }
    (by decide)).2.2 0 0 (some { direction := -1, strict := true, child_node := 0 }) (by decide)
/-- C8, the code at the failing input.  Over the sort key `(a, b)`, both
ascending, `ORDER BY a ASC, b DESC` without merged graph: the second key
disagrees with the direction fixed by the first and is not appended to the
matched prefix, which is `(a)`; yet the sort key cursor had moved before the
directions were compared, so 2 sort key columns are reported as consumed. -/
theorem direction_conflict_counts_the_key :
    (buildInputOrderFromSortDescription [] none [] [ascending "a", descending "b"] sortingKeyAB
      ["a", "b"] 10).input_order
      = some { sort_description_for_merging := [ascending "a"],
               used_prefix_of_sorting_key_size := 2,
               direction := 1,
               limit := 10 }
    ∧ (matchFinal [] none [] [ascending "a", descending "b"] sortingKeyAB).consumed
      = [Consumed.byMatch 0 0 none true, Consumed.byMatch 1 1 none false] := by
  decide

/-- Looking a key up finds an entry of the list. -/
theorem lookup_mem {α : Type} (l : List (Nat × α)) (k : Nat) (v : α)
    (h : l.lookup k = some v) : (k, v) ∈ l := by
  induction l with
  | nil => simp at h
  | cons x xs ih =>
    obtain ⟨k', v'⟩ := x
    rw [List.lookup_cons] at h
    split at h
    · rename_i hk
      simp only [Option.some.injEq] at h
      simp only [beq_iff_eq] at hk
      subst h hk
      simp
    · exact List.mem_cons_of_mem _ (ih h)

/-- Every entry of the reverse matches is an entry of the matches. -/
theorem buildReverseMatches_entries (dag : ActionsDAG) (ms : Matches) :
    ∀ e ∈ buildReverseMatches dag ms, e.2.2 = ms.entry e.2.1 := by
  unfold buildReverseMatches
  have h_step : ∀ (outputs : List Nat) (acc : ReverseMatches),
      (∀ e ∈ acc, e.2.2 = ms.entry e.2.1) →
      ∀ e ∈ outputs.foldl (reverseMatchesStep ms) acc, e.2.2 = ms.entry e.2.1 := by
    intro outputs
    induction outputs with
    | nil => intro acc h; simpa using h
    | cons o os ih =>
      intro acc h
      rw [List.foldl_cons]
      apply ih
      have h_map : ∀ (b : Bool) (k : Nat),
          ∀ e ∈ (if b = true then
                  acc.map (fun e => if e.1 = k then (k, (o, ms.entry o)) else e)
                else acc),
            e.2.2 = ms.entry e.2.1 := by
        intro b k e he
        cases b with
        | false => exact h e (by simpa using he)
        | true =>
          simp only [if_true, List.mem_map] at he
          obtain ⟨x, hx, hxe⟩ := he
          split at hxe
          · subst hxe; rfl
          · subst hxe; exact h x hx
      unfold reverseMatchesStep
      simp only []
      split
      · exact h
      · split
        · intro e he
          simp only [List.mem_append, List.mem_singleton] at he
          rcases he with he | he
          · exact h e he
          · subst he; rfl
        · exact h_map _ _
  exact h_step _ [] (by simp)
theorem reverseIndicator_ne_zero (sorting_key : KeyDescription) (i : Nat) :
    reverseIndicator sorting_key i ≠ 0 := by
  unfold reverseIndicator
  split <;> decide

theorem getD_mem_of_lt (description : SortDescription) (i : Nat) (h : i < description.length) :
    description.getD i default ∈ description := by
  rw [List.getD_eq_getElem?_getD, List.getElem?_eq_getElem h]
  exact List.getElem_mem h

section OrderedStrict

variable (fixed_columns : FixedColumns) (dag : Option ActionsDAG) (ms : Matches)
  (fixed_key_columns : FixedColumns) (description : SortDescription)
  (sorting_key : KeyDescription)

/-- The direction of a match is not 0 when the requirement directions and the
monotonic directions are not. -/
theorem match_direction_ne_zero (s : MatchState) (sort_column_node source : Nat)
    (monotonicity : Option Monotonicity)
    (h_dir : ∀ e ∈ description, e.direction ≠ 0)
    (h_mono : ∀ node m, (ms.entry node).monotonicity = some m → m.direction ≠ 0)
    (h_range : s.next_description_column < description.length)
    (h_source :
      match dag with
      | none =>
        (sorting_key.expression.node sort_column_node).type = .INPUT
        ∧ (description.getD s.next_description_column default).column_name
            = sorting_key.column_names.getD s.next_sort_key ""
        ∧ monotonicity = none ∧ source = sort_column_node
      | some d =>
        d.tryFindInOutputs (description.getD s.next_description_column default).column_name
            = some source
        ∧ (ms.entry source).node = some sort_column_node
        ∧ (ms.entry source).monotonicity = monotonicity) :
    (description.getD s.next_description_column default).direction
      * reverseIndicator sorting_key s.next_sort_key * monotonicDirection monotonicity ≠ 0 := by
  have h1 := h_dir _ (getD_mem_of_lt description _ h_range)
  have h2 := reverseIndicator_ne_zero sorting_key s.next_sort_key
  have h3 : monotonicDirection monotonicity ≠ 0 := by
    cases monotonicity with
    | none => simp [monotonicDirection]
    | some m =>
      simp only [monotonicDirection]
      cases dag with
      | none => simp at h_source
      | some d => exact h_mono source m h_source.2.2
  exact mul_ne_zero (mul_ne_zero h1 h2) h3

/-- A turn of the ordered matcher and the matches that are not strict: as long
as the loop goes on every match recorded is strict; when the loop is left, a
match that is not strict is the last thing recorded, the sort key cursor
stands right after the key it matched, and its entry, when appended, is the
last of the matched entries. -/
theorem matchStep_strict (s : MatchState)
    (h_dir : ∀ e ∈ description, e.direction ≠ 0)
    (h_mono : ∀ node m, (ms.entry node).monotonicity = some m → m.direction ≠ 0)
    (h_range : s.next_description_column < description.length)
    (h_live : ∀ dc sk m b, Consumed.byMatch dc sk (some m) b ∈ s.consumed → m.strict = true) :
    ((matchStep fixed_columns dag ms fixed_key_columns description sorting_key s).2 = true →
      ∀ dc sk m b, Consumed.byMatch dc sk (some m) b
        ∈ (matchStep fixed_columns dag ms fixed_key_columns description sorting_key s).1.consumed →
        m.strict = true)
    ∧ ((matchStep fixed_columns dag ms fixed_key_columns description sorting_key s).2 = false →
      ∀ dc sk m b, Consumed.byMatch dc sk (some m) b
        ∈ (matchStep fixed_columns dag ms fixed_key_columns description sorting_key s).1.consumed →
        m.strict = false →
        (∃ rest, (matchStep fixed_columns dag ms fixed_key_columns description sorting_key
            s).1.consumed = rest ++ [Consumed.byMatch dc sk (some m) b])
        ∧ (matchStep fixed_columns dag ms fixed_key_columns description sorting_key
            s).1.next_sort_key = sk + 1
        ∧ (b = true → ∃ pre, (matchStep fixed_columns dag ms fixed_key_columns description
            sorting_key s).1.order_key_prefix_descr = pre ++ [description.getD dc default])) := by
  have ht := matchStep_turn fixed_columns dag ms fixed_key_columns description sorting_key s
  generalize matchStep fixed_columns dag ms fixed_key_columns description sorting_key s = r at ht
  cases ht with
  | stop =>
    refine ⟨fun h => by simp at h, fun _ dc sk m b hm hs => ?_⟩
    rw [h_live dc sk m b hm] at hs
    simp at hs
  | matched sort_column_node source mono monotonic _ _ _ h_source =>
    have h_cd := match_direction_ne_zero dag ms description sorting_key s sort_column_node source
      mono h_dir h_mono h_range h_source
    rcases reconcileDirection_cases
      { s with
          match_infos := s.match_infos ++ [{ source := some source, fixed_column := none, monotonic := monotonic }],
          next_description_column := s.next_description_column + 1,
          next_sort_key := s.next_sort_key + 1 }
      (description.getD s.next_description_column default)
      ((description.getD s.next_description_column default).direction
        * reverseIndicator sorting_key s.next_sort_key * monotonicDirection mono)
      (monotonicStrict mono)
      (Consumed.byMatch s.next_description_column s.next_sort_key mono)
      with ⟨_, _, _, h⟩ | ⟨_, _, h⟩ | ⟨h0, _⟩
    · rw [h]
      refine ⟨fun h => by simp at h, fun _ dc sk m b hm hs => ?_⟩
      simp only [List.mem_append, List.mem_singleton, Consumed.byMatch.injEq] at hm
      rcases hm with hm | ⟨h1, h2, h3, h4⟩
      · rw [h_live dc sk m b hm] at hs
        simp at hs
      · subst h1 h2 h4
        rw [← h3]
        exact ⟨⟨_, rfl⟩, rfl, fun hb => by simp at hb⟩
    · rw [h]
      refine ⟨fun h_go dc sk m b hm => ?_, fun _ dc sk m b hm hs => ?_⟩
      · simp only [List.mem_append, List.mem_singleton, Consumed.byMatch.injEq] at hm
        rcases hm with hm | ⟨_, _, h3, _⟩
        · exact h_live dc sk m b hm
        · simp only [] at h_go
          rw [← h3] at h_go
          simpa [monotonicStrict] using h_go
      · simp only [List.mem_append, List.mem_singleton, Consumed.byMatch.injEq] at hm
        rcases hm with hm | ⟨h1, h2, h3, h4⟩
        · rw [h_live dc sk m b hm] at hs
          simp at hs
        · subst h1 h2 h4
          rw [← h3]
          exact ⟨⟨_, rfl⟩, rfl, fun _ => ⟨_, rfl⟩⟩
    · exact absurd h0 h_cd
  | fixedKey _ _ _ _ _ _ _ _ _ =>
    simp only [reconcileDirection, ne_eq, not_true_eq_false, false_and, if_false,
      decide_False, Bool.false_and, Bool.not_false, List.mem_append, List.mem_singleton,
      Bool.true_eq_false, false_implies, and_true]
    intro _ dc sk m b hm
    rcases hm with hm | hm
    · exact h_live dc sk m b hm
    · simp at hm
  | fixedColumn _ _ _ _ _ _ _ _ _ _ =>
    simp only [reconcileDirection, ne_eq, not_true_eq_false, false_and, if_false,
      decide_False, Bool.false_and, Bool.not_false, List.mem_append, List.mem_singleton,
      Bool.true_eq_false, false_implies, and_true]
    intro _ dc sk m b hm
    rcases hm with hm | hm
    · exact h_live dc sk m b hm
    · simp at hm

end OrderedStrict
section UnorderedStrict

variable (dag : Option ActionsDAG) (reverse_matches : ReverseMatches)
  (fixed_key_columns : FixedColumns) (sorting_key_dag : ActionsDAG)
  (sorting_key_columns : List String)

theorem reconcileUnordered_cursor (s : UnorderedState) (skc gbk : String) (cd : Int)
    (strict : Bool) (ev : Bool → ConsumedKey) :
    (reconcileUnordered s skc gbk cd strict ev).1.next_sort_key = s.next_sort_key := by
  rcases reconcileUnordered_cases s skc gbk cd strict ev with ⟨_, _, _, h⟩ | ⟨_, _, h⟩ | ⟨_, h⟩ <;>
    rw [h]

/-- A turn of the unordered matcher never moves the cursor back, and a turn
after which the loop goes on moves it by one. -/
theorem unorderedStep_cursor (s : UnorderedState) :
    s.next_sort_key ≤ (unorderedStep dag reverse_matches fixed_key_columns sorting_key_dag
      sorting_key_columns s).1.next_sort_key
    ∧ ((unorderedStep dag reverse_matches fixed_key_columns sorting_key_dag
      sorting_key_columns s).2 = true →
      (unorderedStep dag reverse_matches fixed_key_columns sorting_key_dag
        sorting_key_columns s).1.next_sort_key = s.next_sort_key + 1) := by
  rcases unorderedStep_turn dag reverse_matches fixed_key_columns sorting_key_dag
    sorting_key_columns s with h | ⟨gbk, mono, _, _, h⟩ | h
  · rw [h]; simp
  · rw [h, reconcileUnordered_cursor]; simp
  · rw [h, reconcileUnordered_cursor]; simp

/-- Induction over the loop of the unordered matcher. -/
theorem unorderedLoop_induct (Inv Post : UnorderedState → Prop)
    (h_turn : ∀ s, Inv s → s.next_sort_key < sorting_key_columns.length →
      ((unorderedStep dag reverse_matches fixed_key_columns sorting_key_dag sorting_key_columns
          s).2 = true →
        Inv (unorderedStep dag reverse_matches fixed_key_columns sorting_key_dag
          sorting_key_columns s).1)
      ∧ ((unorderedStep dag reverse_matches fixed_key_columns sorting_key_dag sorting_key_columns
          s).2 = false →
        Post (unorderedStep dag reverse_matches fixed_key_columns sorting_key_dag
          sorting_key_columns s).1))
    (h_exit : ∀ s, Inv s → ¬ (!s.not_matched_keys.isEmpty
      ∧ s.next_sort_key < sorting_key_columns.length) → Post s)
    (fuel : Nat) : ∀ s : UnorderedState, Inv s →
    sorting_key_columns.length - s.next_sort_key ≤ fuel →
    Post (unorderedLoop dag reverse_matches fixed_key_columns sorting_key_dag sorting_key_columns
      fuel s) := by
  induction fuel with
  | zero =>
    intro s h_inv h
    rw [unorderedLoop]
    exact h_exit s h_inv (by omega)
  | succ fuel ih =>
    intro s h_inv h
    rw [unorderedLoop]
    split
    · rename_i h_range
      have hc := unorderedStep_cursor dag reverse_matches fixed_key_columns sorting_key_dag
        sorting_key_columns s
      have ht := h_turn s h_inv h_range.2
      simp only []
      split
      · rename_i h_go
        exact ih _ (ht.1 h_go) (by have := hc.2 h_go; omega)
      · rename_i h_go
        exact ht.2 (by simpa using h_go)
    · rename_i h_range
      exact h_exit s h_inv h_range

/-- The bound on the turns of the loop of the unordered matcher is never
reached. -/
theorem unorderedLoop_fuel (fuel : Nat) : ∀ s : UnorderedState,
    sorting_key_columns.length - s.next_sort_key ≤ fuel →
    unorderedLoop dag reverse_matches fixed_key_columns sorting_key_dag sorting_key_columns
        (fuel + 1) s
      = unorderedLoop dag reverse_matches fixed_key_columns sorting_key_dag sorting_key_columns
        fuel s := by
  induction fuel with
  | zero =>
    intro s h
    have : ¬ (!s.not_matched_keys.isEmpty
        ∧ s.next_sort_key < sorting_key_columns.length) := by omega
    simp only [unorderedLoop]
    rw [if_neg this]
  | succ fuel ih =>
    intro s h
    rw [unorderedLoop, unorderedLoop]
    split
    · rename_i h_range
      have hc := unorderedStep_cursor dag reverse_matches fixed_key_columns sorting_key_dag
        sorting_key_columns s
      simp only []
      split
      · rename_i h_go
        exact ih _ (by have := hc.2 h_go; omega)
      · rfl
    · rfl

/-- A turn of the unordered matcher and the matches that are not strict. -/
theorem unorderedStep_strict (s : UnorderedState)
    (h_mono : ∀ key_node found m, reverse_matches.lookup key_node = some found →
      found.2.monotonicity = some m → m.direction ≠ 0)
    (h_live : ∀ key sk m b, ConsumedKey.byMatch key sk (some m) b ∈ s.consumed →
      m.strict = true) :
    ((unorderedStep dag reverse_matches fixed_key_columns sorting_key_dag sorting_key_columns
        s).2 = true →
      ∀ key sk m b, ConsumedKey.byMatch key sk (some m) b
        ∈ (unorderedStep dag reverse_matches fixed_key_columns sorting_key_dag sorting_key_columns
            s).1.consumed →
        m.strict = true)
    ∧ ((unorderedStep dag reverse_matches fixed_key_columns sorting_key_dag sorting_key_columns
        s).2 = false →
      ∀ key sk m b, ConsumedKey.byMatch key sk (some m) b
        ∈ (unorderedStep dag reverse_matches fixed_key_columns sorting_key_dag sorting_key_columns
            s).1.consumed →
        m.strict = false →
        (∃ rest, (unorderedStep dag reverse_matches fixed_key_columns sorting_key_dag
            sorting_key_columns s).1.consumed = rest ++ [ConsumedKey.byMatch key sk (some m) b])
        ∧ (unorderedStep dag reverse_matches fixed_key_columns sorting_key_dag
            sorting_key_columns s).1.next_sort_key = sk + 1
        ∧ (b = true → ∃ pre, (unorderedStep dag reverse_matches fixed_key_columns sorting_key_dag
            sorting_key_columns s).1.sort_description
              = pre ++ [SortColumnDescription.ofName key m.direction])) := by
  rcases unorderedStep_turn dag reverse_matches fixed_key_columns sorting_key_dag
    sorting_key_columns s with h | ⟨gbk, mono, _, h_prov, h⟩ | h
  · rw [h]
    refine ⟨fun h => by simp at h, fun _ key sk m b hm hs => ?_⟩
    rw [h_live key sk m b hm] at hs
    simp at hs
  · rw [h]
    have h_cd : monotonicDirection mono ≠ 0 := by
      cases mono with
      | none => simp [monotonicDirection]
      | some m =>
        simp only [monotonicDirection]
        rcases h_prov with h_prov | ⟨k, found, h_l, h_f⟩
        · simp at h_prov
        · exact h_mono k found m h_l h_f
    rcases reconcileUnordered_cases { s with next_sort_key := s.next_sort_key + 1 }
      (sorting_key_columns.getD s.next_sort_key "") gbk (monotonicDirection mono)
      (monotonicStrict mono) (ConsumedKey.byMatch gbk s.next_sort_key mono)
      with ⟨_, _, _, h⟩ | ⟨_, _, h⟩ | ⟨h0, _⟩
    · rw [h]
      refine ⟨fun h => by simp at h, fun _ key sk m b hm hs => ?_⟩
      simp only [List.mem_append, List.mem_singleton, ConsumedKey.byMatch.injEq] at hm
      rcases hm with hm | ⟨h1, h2, h3, h4⟩
      · rw [h_live key sk m b hm] at hs
        simp at hs
      · subst h1 h2 h4
        rw [← h3]
        exact ⟨⟨_, rfl⟩, rfl, fun hb => by simp at hb⟩
    · rw [h]
      refine ⟨fun h_go key sk m b hm => ?_, fun _ key sk m b hm hs => ?_⟩
      · simp only [List.mem_append, List.mem_singleton, ConsumedKey.byMatch.injEq] at hm
        rcases hm with hm | ⟨_, _, h3, _⟩
        · exact h_live key sk m b hm
        · simp only [] at h_go
          rw [← h3] at h_go
          simpa [monotonicStrict] using h_go
      · simp only [List.mem_append, List.mem_singleton, ConsumedKey.byMatch.injEq] at hm
        rcases hm with hm | ⟨h1, h2, h3, h4⟩
        · rw [h_live key sk m b hm] at hs
          simp at hs
        · subst h1 h2 h4 h3
          exact ⟨⟨_, rfl⟩, rfl, fun _ => ⟨_, rfl⟩⟩
    · exact absurd h0 h_cd
  · rw [h]
    simp only [reconcileUnordered, ne_eq, not_true_eq_false, false_and, if_false,
      and_false, List.mem_append, List.mem_singleton,
      Bool.true_eq_false, false_implies, and_true]
    intro _ key sk m b hm
    rcases hm with hm | hm
    · exact h_live key sk m b hm
    · simp at hm

end UnorderedStrict
/-- The entry of a node in the matches is one of the match records, or the
default one, which is not monotonic. -/
theorem entry_direction_ne_zero (ms : Matches)
    (h_mono : ∀ e ∈ ms, ∀ m, e.2.monotonicity = some m → m.direction ≠ 0) :
    ∀ node m, (ms.entry node).monotonicity = some m → m.direction ≠ 0 := by
  intro node m h
  unfold Matches.entry at h
  cases h_l : ms.lookup node with
  | none =>
    rw [h_l] at h
    simp [default] at h
  | some v =>
    rw [h_l] at h
    exact h_mono _ (lookup_mem ms node v h_l) m h

/-- C9. A match that is not strict ends the matching once it is consumed
(requirement directions and monotonic directions not 0).  In every result of
the ordered matcher a requirement entry matched through a monotonic function
that is not strict is the last thing the loop consumed, the number of sort
key columns consumed is the position of the key it matched plus one, and the
entry, when it was appended, is the last of the matched prefix.  The same
holds of the unordered matcher and its sort description. -/
theorem non_strict_match_ends_matching (fixed_columns : FixedColumns) (dag : Option ActionsDAG)
    (ms : Matches) (description : SortDescription) (sorting_key : KeyDescription)
    (pk_column_names : List String) (limit : Nat) (unordered_keys : List String)
    (sorting_key_dag : ActionsDAG) (sorting_key_columns : List String)
    (h_dir : ∀ e ∈ description, e.direction ≠ 0)
    (h_mono : ∀ e ∈ ms, ∀ m, e.2.monotonicity = some m → m.direction ≠ 0) :
    (∀ info,
      (buildInputOrderFromSortDescription fixed_columns dag ms description sorting_key
        pk_column_names limit).input_order = some info →
      ∀ description_column sort_key m appended,
        Consumed.byMatch description_column sort_key (some m) appended
          ∈ (matchFinal fixed_columns dag ms description sorting_key).consumed →
        m.strict = false →
        (∃ rest, (matchFinal fixed_columns dag ms description sorting_key).consumed
          = rest ++ [Consumed.byMatch description_column sort_key (some m) appended])
        ∧ info.used_prefix_of_sorting_key_size = sort_key + 1
        ∧ (appended = true → ∃ pre, info.sort_description_for_merging
            = pre ++ [description.getD description_column default]))
    ∧ (∀ info,
      (buildInputOrderFromUnorderedKeys fixed_columns dag ms unordered_keys sorting_key_dag
        sorting_key_columns).input_order = some info →
      ∀ key sort_key m appended,
        ConsumedKey.byMatch key sort_key (some m) appended
          ∈ (unorderedFinal fixed_columns dag ms unordered_keys sorting_key_dag
              sorting_key_columns).consumed →
        m.strict = false →
        (∃ rest, (unorderedFinal fixed_columns dag ms unordered_keys sorting_key_dag
            sorting_key_columns).consumed
          = rest ++ [ConsumedKey.byMatch key sort_key (some m) appended])
        ∧ info.used_prefix_of_sorting_key_size = sort_key + 1
        ∧ (appended = true → ∃ pre,
            (buildInputOrderFromUnorderedKeys fixed_columns dag ms unordered_keys sorting_key_dag
              sorting_key_columns).sort_description
            = pre ++ [SortColumnDescription.ofName key m.direction])) := by
  have h_mono : ∀ node m, (ms.entry node).monotonicity = some m → m.direction ≠ 0 :=
    entry_direction_ne_zero ms h_mono
  constructor
  · intro info h_info
    have h_post : ∀ dc sk m b, Consumed.byMatch dc sk (some m) b
          ∈ (matchFinal fixed_columns dag ms description sorting_key).consumed →
        m.strict = false →
        (∃ rest, (matchFinal fixed_columns dag ms description sorting_key).consumed
          = rest ++ [Consumed.byMatch dc sk (some m) b])
        ∧ (matchFinal fixed_columns dag ms description sorting_key).next_sort_key = sk + 1
        ∧ (b = true → ∃ pre, (matchFinal fixed_columns dag ms description
            sorting_key).order_key_prefix_descr = pre ++ [description.getD dc default]) := by
      unfold matchFinal
      apply matchLoop_induct _ _ _ _ _ _
        (fun s => ∀ dc sk m b, Consumed.byMatch dc sk (some m) b ∈ s.consumed → m.strict = true)
        (fun s => ∀ dc sk m b, Consumed.byMatch dc sk (some m) b ∈ s.consumed →
          m.strict = false →
          (∃ rest, s.consumed = rest ++ [Consumed.byMatch dc sk (some m) b])
          ∧ s.next_sort_key = sk + 1
          ∧ (b = true → ∃ pre, s.order_key_prefix_descr = pre ++ [description.getD dc default]))
      · intro s h_live h_r _
        exact matchStep_strict _ _ _ _ _ _ s h_dir h_mono h_r h_live
      · intro s h_live _ dc sk m b hm hs
        rw [h_live dc sk m b hm] at hs
        simp at hs
      · simp [MatchState.init]
      · simp [MatchState.init]
    unfold buildInputOrderFromSortDescription at h_info
    simp only [] at h_info
    split at h_info
    · simp at h_info
    · simp only [Option.some.injEq] at h_info
      subst h_info
      exact h_post
  · intro info h_info
    have h_rm : ∀ key_node found m,
        (match dag with
          | some d => buildReverseMatches d ms
          | none => []).lookup key_node = some found →
        found.2.monotonicity = some m → m.direction ≠ 0 := by
      intro k found m h_l h_f
      cases dag with
      | none => simp at h_l
      | some d =>
        have h_e := buildReverseMatches_entries d ms _ (lookup_mem _ _ _ h_l)
        simp only [] at h_e
        rw [h_e] at h_f
        exact h_mono _ m h_f
    have h_post : ∀ key sk m b, ConsumedKey.byMatch key sk (some m) b
          ∈ (unorderedFinal fixed_columns dag ms unordered_keys sorting_key_dag
              sorting_key_columns).consumed →
        m.strict = false →
        (∃ rest, (unorderedFinal fixed_columns dag ms unordered_keys sorting_key_dag
            sorting_key_columns).consumed = rest ++ [ConsumedKey.byMatch key sk (some m) b])
        ∧ (unorderedFinal fixed_columns dag ms unordered_keys sorting_key_dag
            sorting_key_columns).next_sort_key = sk + 1
        ∧ (b = true → ∃ pre, (unorderedFinal fixed_columns dag ms unordered_keys sorting_key_dag
            sorting_key_columns).sort_description
            = pre ++ [SortColumnDescription.ofName key m.direction]) := by
      unfold unorderedFinal
      apply unorderedLoop_induct _ _ _ _ _
        (fun s => ∀ key sk m b, ConsumedKey.byMatch key sk (some m) b ∈ s.consumed →
          m.strict = true)
        (fun s => ∀ key sk m b, ConsumedKey.byMatch key sk (some m) b ∈ s.consumed →
          m.strict = false →
          (∃ rest, s.consumed = rest ++ [ConsumedKey.byMatch key sk (some m) b])
          ∧ s.next_sort_key = sk + 1
          ∧ (b = true → ∃ pre, s.sort_description
              = pre ++ [SortColumnDescription.ofName key m.direction]))
      · intro s h_live _
        exact unorderedStep_strict _ _ _ _ _ s h_rm h_live
      · intro s h_live _ key sk m b hm hs
        rw [h_live key sk m b hm] at hs
        simp at hs
      · simp [UnorderedState.init]
      · simp [UnorderedState.init]
    unfold buildInputOrderFromUnorderedKeys at h_info ⊢
    simp only [] at h_info ⊢
    split at h_info
    · simp at h_info
    · rename_i h_some
      rw [if_neg h_some]
      simp only [Option.some.injEq] at h_info
      subst h_info
      exact h_post

/-- C9, at a concrete input: over the sort key `(a, b)`, for `ORDER BY
intDiv(a, 10), b`, where `intDiv(a, 10)` is an increasing function of `a` that
is not strict, the matching ends with `intDiv(a, 10)`: one sort key column is
consumed and the entry is the last of the matched prefix. -/
theorem non_strict_match_ends_matching_witness :
    (∃ rest, (matchFinal [] (some dagIntDivA) matchesIntDivA
        [ascending "intDiv(a, 10)", ascending "b"] sortingKeyAB).consumed
      = rest ++ [Consumed.byMatch 0 0 (some { direction := 1, strict := false, child_node := 0 }) true])
    ∧ (1 : Nat) = 0 + 1
    ∧ (true = true → ∃ pre, [ascending "intDiv(a, 10)"]
        = pre ++ [([ascending "intDiv(a, 10)", ascending "b"] : SortDescription).getD 0 default]) :=
  (non_strict_match_ends_matching [] (some dagIntDivA) matchesIntDivA
    [ascending "intDiv(a, 10)", ascending "b"] sortingKeyAB ["a", "b"] 10 [] sortingKeyAB.expression
    []
    (by decide)
    (by
      intro e he m hm
      simp only [matchesIntDivA, List.mem_cons, List.mem_singleton, List.not_mem_nil,
        or_false] at he
      rcases he with rfl | rfl | rfl | rfl
      · simp at hm
      · simp at hm
      · simp [default] at hm
      · simp only [Option.some.injEq] at hm
        subst hm
        decide)).1
    { sort_description_for_merging := [ascending "intDiv(a, 10)"],
      used_prefix_of_sorting_key_size := 1, direction := 1, limit := 10 }
    (by decide) 0 0 { direction := 1, strict := false, child_node := 0 } true (by decide) rfl
section OrderedResult

variable (fixed_columns : FixedColumns) (dag : Option ActionsDAG) (ms : Matches)
  (fixed_key_columns : FixedColumns) (description : SortDescription)
  (sorting_key : KeyDescription)

/-- A direction is fixed exactly when a match was consumed, and then the
matched entries are not empty (requirement directions and monotonic
directions not 0). -/
theorem matchStep_established (s : MatchState)
    (h_dir : ∀ e ∈ description, e.direction ≠ 0)
    (h_mono : ∀ node m, (ms.entry node).monotonicity = some m → m.direction ≠ 0)
    (h_range : s.next_description_column < description.length)
    (h_iff : s.read_direction ≠ 0 ↔ ∃ dc sk mono b, Consumed.byMatch dc sk mono b ∈ s.consumed)
    (h_descr : s.read_direction ≠ 0 → s.order_key_prefix_descr ≠ []) :
    ((matchStep fixed_columns dag ms fixed_key_columns description sorting_key s).1.read_direction ≠ 0
      ↔ ∃ dc sk mono b, Consumed.byMatch dc sk mono b
        ∈ (matchStep fixed_columns dag ms fixed_key_columns description sorting_key s).1.consumed)
    ∧ ((matchStep fixed_columns dag ms fixed_key_columns description sorting_key s).1.read_direction ≠ 0
      → (matchStep fixed_columns dag ms fixed_key_columns description sorting_key
          s).1.order_key_prefix_descr ≠ []) := by
  have ht := matchStep_turn fixed_columns dag ms fixed_key_columns description sorting_key s
  generalize matchStep fixed_columns dag ms fixed_key_columns description sorting_key s = r at ht
  cases ht with
  | stop => exact ⟨h_iff, h_descr⟩
  | matched sort_column_node source mono monotonic _ _ _ h_source =>
    have h_cd := match_direction_ne_zero dag ms description sorting_key s sort_column_node source
      mono h_dir h_mono h_range h_source
    rcases reconcileDirection_cases
      { s with
          match_infos := s.match_infos ++ [{ source := some source, fixed_column := none, monotonic := monotonic }],
          next_description_column := s.next_description_column + 1,
          next_sort_key := s.next_sort_key + 1 }
      (description.getD s.next_description_column default)
      ((description.getD s.next_description_column default).direction
        * reverseIndicator sorting_key s.next_sort_key * monotonicDirection mono)
      (monotonicStrict mono)
      (Consumed.byMatch s.next_description_column s.next_sort_key mono)
      with ⟨_, hrd, _, h⟩ | ⟨_, _, h⟩ | ⟨h0, _⟩
    · rw [h]
      refine ⟨⟨fun _ => ⟨s.next_description_column, s.next_sort_key, mono, false, by simp⟩,
        fun _ => hrd⟩, h_descr⟩
    · rw [h]
      refine ⟨⟨fun _ => ⟨s.next_description_column, s.next_sort_key, mono, true, by simp⟩,
        fun _ => h_cd⟩, fun _ => by simp⟩
    · exact absurd h0 h_cd
  | fixedKey _ _ _ _ _ _ _ _ _ =>
    rcases reconcileDirection_cases
      { s with
          can_optimize_virtual_row := if s.next_sort_key = 0 then false else s.can_optimize_virtual_row,
          next_sort_key := s.next_sort_key + 1 }
      (description.getD s.next_description_column default) 0 true
      (fun _ => Consumed.fixedKey s.next_sort_key)
      with ⟨h0, _⟩ | ⟨h0, _⟩ | ⟨_, h⟩
    · simp at h0
    · simp at h0
    · rw [h]
      refine ⟨?_, h_descr⟩
      simp only [List.mem_append, List.mem_singleton]
      rw [h_iff]
      constructor
      · rintro ⟨dc, sk, mono, b, hm⟩
        exact ⟨dc, sk, mono, b, Or.inl hm⟩
      · rintro ⟨dc, sk, mono, b, hm | hm⟩
        · exact ⟨dc, sk, mono, b, hm⟩
        · simp at hm
  | fixedColumn _ _ _ _ _ _ _ _ _ _ =>
    rcases reconcileDirection_cases
      { s with
          can_optimize_virtual_row :=
            if (_ : Option Int).isSome then s.can_optimize_virtual_row else false,
          match_infos := s.match_infos ++ [_],
          order_key_prefix_descr := s.order_key_prefix_descr ++ [description.getD s.next_description_column default],
          next_description_column := s.next_description_column + 1 }
      (description.getD s.next_description_column default) 0 true
      (fun _ => Consumed.fixedColumn s.next_description_column)
      with ⟨h0, _⟩ | ⟨h0, _⟩ | ⟨_, h⟩
    · simp at h0
    · simp at h0
    · rw [h]
      refine ⟨?_, fun _ => by simp⟩
      simp only [List.mem_append, List.mem_singleton]
      rw [h_iff]
      constructor
      · rintro ⟨dc, sk, mono, b, hm⟩
        exact ⟨dc, sk, mono, b, Or.inl hm⟩
      · rintro ⟨dc, sk, mono, b, hm | hm⟩
        · exact ⟨dc, sk, mono, b, hm⟩
        · simp at hm

end OrderedResult

/-- C10. For requirement directions and monotonic directions that are not 0
(in particular +1 or -1), the ordered matcher returns a result if and only
if at least one requirement entry was consumed by a direct or monotonic match
against a sort key column; a requirement whose consumed entries are all
constants or fixed columns yields no match. -/
theorem result_iff_some_match (fixed_columns : FixedColumns) (dag : Option ActionsDAG)
    (ms : Matches) (description : SortDescription) (sorting_key : KeyDescription)
    (pk_column_names : List String) (limit : Nat)
    (h_dir : ∀ e ∈ description, e.direction = 1 ∨ e.direction = -1)
    (h_mono : ∀ e ∈ ms, ∀ m, e.2.monotonicity = some m → m.direction = 1 ∨ m.direction = -1) :
    (buildInputOrderFromSortDescription fixed_columns dag ms description sorting_key
      pk_column_names limit).input_order.isSome = true
    ↔ ∃ description_column sort_key monotonicity appended,
      Consumed.byMatch description_column sort_key monotonicity appended
        ∈ (matchFinal fixed_columns dag ms description sorting_key).consumed := by
  have h_dir' : ∀ e ∈ description, e.direction ≠ 0 := by
    intro e he h0
    rcases h_dir e he with h | h <;> rw [h0] at h <;> simp at h
  have h_mono' : ∀ node m, (ms.entry node).monotonicity = some m → m.direction ≠ 0 := by
    apply entry_direction_ne_zero
    intro e he m hm h0
    rcases h_mono e he m hm with h | h <;> rw [h0] at h <;> simp at h
  have h_inv :
      ((matchFinal fixed_columns dag ms description sorting_key).read_direction ≠ 0
        ↔ ∃ dc sk mono b, Consumed.byMatch dc sk mono b
          ∈ (matchFinal fixed_columns dag ms description sorting_key).consumed)
      ∧ ((matchFinal fixed_columns dag ms description sorting_key).read_direction ≠ 0
        → (matchFinal fixed_columns dag ms description sorting_key).order_key_prefix_descr ≠ []) := by
    unfold matchFinal
    apply matchLoop_invariant _ _ _ _ _ _
      (fun s => (s.read_direction ≠ 0 ↔ ∃ dc sk mono b, Consumed.byMatch dc sk mono b ∈ s.consumed)
        ∧ (s.read_direction ≠ 0 → s.order_key_prefix_descr ≠ []))
    · intro s h_s h_r _
      exact matchStep_established _ _ _ _ _ _ s h_dir' h_mono' h_r h_s.1 h_s.2
    · simp [MatchState.init]
  rw [← h_inv.1]
  unfold buildInputOrderFromSortDescription
  simp only []
  constructor
  · intro h
    split at h
    · simp at h
    · rename_i h_some
      simp only [not_or] at h_some
      exact h_some.1
  · intro h
    have h_ne := h_inv.2 h
    rw [if_neg]
    · simp
    · simp only [not_or]
      refine ⟨h, ?_⟩
      simpa [List.isEmpty_iff] using h_ne

/-- C10, at a concrete input: over the sort key `(a, b)` of a table with a
further column `c`, with the filter `c = 5`, `ORDER BY c` consumes its only
entry as a fixed column and gives no match, since nothing was consumed by a
match. -/
theorem result_iff_some_match_witness :
    ((buildInputOrderFromSortDescription fixedWhereC5 (some dagWhereC5) matchesWhereC5
        [ascending "c"] sortingKeyAB ["a", "b"] 0).input_order.isSome = true
      ↔ ∃ description_column sort_key monotonicity appended,
        Consumed.byMatch description_column sort_key monotonicity appended
          ∈ (matchFinal fixedWhereC5 (some dagWhereC5) matchesWhereC5
              [ascending "c"] sortingKeyAB).consumed)
    ∧ (matchFinal fixedWhereC5 (some dagWhereC5) matchesWhereC5
        [ascending "c"] sortingKeyAB).consumed = [Consumed.fixedColumn 0]
    ∧ (buildInputOrderFromSortDescription fixedWhereC5 (some dagWhereC5) matchesWhereC5
        [ascending "c"] sortingKeyAB ["a", "b"] 0).input_order = none :=
  ⟨result_iff_some_match fixedWhereC5 (some dagWhereC5) matchesWhereC5
      [ascending "c"] sortingKeyAB ["a", "b"] 0 (by decide)
      (by
        intro e he m hm
        simp only [matchesWhereC5, List.mem_cons, List.mem_singleton, List.not_mem_nil,
          or_false] at he
        rcases he with rfl | rfl | rfl | rfl | rfl <;> simp [default] at hm),
    by decide, by decide⟩
section EnrichSound

variable (dag : ActionsDAG) (C : Nat → Prop)

/-- `enrichNode` only adds the node it is given, and only when the node is an
alias of something in the set, or a deterministic function whose arguments
are constants or in the set. -/
theorem enrichNode_sound
    (h_alias : ∀ k child rest, (dag.node k).type = .ALIAS →
      (dag.node k).children = child :: rest → C child → C k)
    (h_function : ∀ k function_base, (dag.node k).type = .FUNCTION →
      (dag.node k).function_base = some function_base →
      function_base.is_deterministic_in_scope_of_query = true →
      (∀ child ∈ (dag.node k).children, (dag.node child).column.isSome = true ∨ C child) → C k)
    (fixed_columns : FixedColumns) (id : Nat) (h : ∀ k ∈ fixed_columns, C k) :
    ∀ k ∈ enrichNode dag fixed_columns id, C k := by
  unfold enrichNode
  simp only []
  split
  · exact h
  split
  · rename_i h_type
    split
    · rename_i child rest h_children
      split
      · rename_i h_in
        intro k hk
        rcases List.mem_insert_iff.mp hk with hk | hk
        · subst hk
          exact h_alias k child rest h_type h_children
            (h child (by simpa using h_in))
        · exact h k hk
      · exact h
    · exact h
  split
  · rename_i h_type
    split
    · rename_i function_base h_fb
      split
      · rename_i h_det
        split
        · rename_i h_all
          intro k hk
          rcases List.mem_insert_iff.mp hk with hk | hk
          · subst hk
            apply h_function k function_base h_type h_fb h_det
            intro child h_child
            have := List.all_eq_true.mp h_all child h_child
            simp only [Bool.or_eq_true] at this
            rcases this with this | this
            · exact Or.inl this
            · exact Or.inr (h child (by simpa using this))
          · exact h k hk
        · exact h
      · exact h
    · exact h
  · exact h

/-- Soundness of `enrichFixedColumns` for any property of nodes that aliases
and deterministic functions inherit from their operands: if it holds of the
columns given, it holds of the columns returned. -/
theorem enrichFixedColumns_sound
    (h_alias : ∀ k child rest, (dag.node k).type = .ALIAS →
      (dag.node k).children = child :: rest → C child → C k)
    (h_function : ∀ k function_base, (dag.node k).type = .FUNCTION →
      (dag.node k).function_base = some function_base →
      function_base.is_deterministic_in_scope_of_query = true →
      (∀ child ∈ (dag.node k).children, (dag.node child).column.isSome = true ∨ C child) → C k)
    (fixed_columns : FixedColumns) (h : ∀ k ∈ fixed_columns, C k) :
    ∀ k ∈ enrichFixedColumns dag fixed_columns, C k := by
  have h_step : ∀ st : EnrichState, (∀ k ∈ st.fixed_columns, C k) →
      ∀ k ∈ (enrichStep dag st).fixed_columns, C k := by
    intro st hst
    unfold enrichStep
    split
    · exact hst
    · simp only []
      split
      · exact hst
      · exact enrichNode_sound dag C h_alias h_function _ _ hst
  have h_while : ∀ (fuel : Nat) (st : EnrichState), (∀ k ∈ st.fixed_columns, C k) →
      ∀ k ∈ (enrichWhile dag fuel st).fixed_columns, C k := by
    intro fuel
    induction fuel with
    | zero => intro st hst; simpa [enrichWhile] using hst
    | succ fuel ih =>
      intro st hst
      rw [enrichWhile]
      split
      · exact hst
      · exact ih _ (h_step st hst)
  have h_root : ∀ (st : EnrichState) (id : Nat), (∀ k ∈ st.fixed_columns, C k) →
      ∀ k ∈ (enrichRoot dag st id).fixed_columns, C k := by
    intro st id hst
    unfold enrichRoot
    split
    · exact hst
    · exact h_while _ _ hst
  have h_fold : ∀ (ids : List Nat) (st : EnrichState), (∀ k ∈ st.fixed_columns, C k) →
      ∀ k ∈ (ids.foldl (enrichRoot dag) st).fixed_columns, C k := by
    intro ids
    induction ids with
    | nil => intro st hst; simpa using hst
    | cons id ids ih =>
      intro st hst
      rw [List.foldl_cons]
      exact ih _ (h_root st id hst)
  unfold enrichFixedColumns
  exact h_fold _ _ h

end EnrichSound
section FixedKeys

variable {Row V : Type} [LinearOrder V] (I : Interpretation Row V)
  (fixed_columns : FixedColumns) (dag : Option ActionsDAG) (ms : Matches)
  (description : SortDescription) (sorting_key : KeyDescription)

/-- The sort key nodes read off the matches of fixed columns are constant over
the rows that pass the filters. -/
theorem fixedKeyColumnsOfMatches_constant
    (h_correct : I.Correct fixed_columns dag ms description sorting_key) :
    ∀ k ∈ fixedKeyColumnsOfMatches fixed_columns ms, ∀ r₁ r₂,
      I.passes r₁ = true → I.passes r₂ = true → I.keyValue k r₁ = I.keyValue k r₂ := by
  unfold fixedKeyColumnsOfMatches
  have h_fold : ∀ (l : List (Nat × Match)) (acc : FixedColumns),
      (∀ e ∈ l, e ∈ ms) →
      (∀ k ∈ acc, ∀ r₁ r₂, I.passes r₁ = true → I.passes r₂ = true →
        I.keyValue k r₁ = I.keyValue k r₂) →
      ∀ k ∈ l.foldl
        (fun fixed_key_columns entry =>
          if entry.2.monotonicity.all (fun m => m.strict) then
            match entry.2.node with
            | some key_node =>
              if fixed_columns.contains entry.1 then fixed_key_columns.insert key_node
              else fixed_key_columns
            | none => fixed_key_columns
          else fixed_key_columns) acc,
        ∀ r₁ r₂, I.passes r₁ = true → I.passes r₂ = true →
          I.keyValue k r₁ = I.keyValue k r₂ := by
    intro l
    induction l with
    | nil => intro acc _ h; simpa using h
    | cons e l ih =>
      intro acc h_sub h_acc
      rw [List.foldl_cons]
      apply ih _ (fun x hx => h_sub x (List.mem_cons_of_mem _ hx))
      split
      · rename_i h_strict
        split
        · rename_i key_node h_node
          split
          · rename_i h_fixed
            intro k hk r₁ r₂ h₁ h₂
            rcases List.mem_insert_iff.mp hk with hk | hk
            · subst hk
              have h_e := h_correct.matched e (h_sub e (List.mem_cons_self _ _)) k h_node
              have h_q := h_correct.fixed e.1 (by simpa using h_fixed) r₁ r₂ h₁ h₂
              cases h_m : e.2.monotonicity with
              | none =>
                rw [h_m] at h_e
                simp only [] at h_e
                rw [← h_e r₁, ← h_e r₂]
                exact h_q
              | some m =>
                rw [h_m] at h_e h_strict
                simp only [] at h_e
                obtain ⟨f, h_f, _, h_inj⟩ := h_e
                apply h_inj (by simpa using h_strict)
                rw [← h_f r₁, ← h_f r₂]
                exact h_q
            · exact h_acc k hk r₁ r₂ h₁ h₂
          · exact h_acc
        · exact h_acc
      · exact h_acc
  exact h_fold ms [] (fun _ h => h) (by simp)

/-- The fixed key columns are constant over the rows that pass the filters. -/
theorem fixedKeyColumns_constant
    (h_correct : I.Correct fixed_columns dag ms description sorting_key) :
    ∀ k ∈ fixedKeyColumns fixed_columns ms sorting_key.expression, ∀ r₁ r₂,
      I.passes r₁ = true → I.passes r₂ = true → I.keyValue k r₁ = I.keyValue k r₂ := by
  unfold fixedKeyColumns
  apply enrichFixedColumns_sound sorting_key.expression
    (fun k => ∀ r₁ r₂, I.passes r₁ = true → I.passes r₂ = true →
      I.keyValue k r₁ = I.keyValue k r₂)
  · intro k child rest h_type h_children h_child r₁ r₂ h₁ h₂
    rw [h_correct.key_alias k child rest h_type h_children r₁,
      h_correct.key_alias k child rest h_type h_children r₂]
    exact h_child r₁ r₂ h₁ h₂
  · intro k function_base h_type h_fb h_det h_children r₁ r₂ h₁ h₂
    obtain ⟨g, h_g⟩ := h_correct.key_function k function_base h_type h_fb h_det
    rw [h_g r₁, h_g r₂]
    congr 1
    apply List.map_congr_left
    intro child h_child
    rcases h_children child h_child with h | h
    · exact h_correct.key_constant child h r₁ r₂
    · exact h r₁ r₂ h₁ h₂
  · exact fixedKeyColumnsOfMatches_constant I fixed_columns dag ms description sorting_key h_correct

end FixedKeys
section AgreeLemmas

variable {Row V : Type} (I : Interpretation Row V)

theorem entriesAgree_symm (descr : SortDescription) (r₁ r₂ : Row)
    (h : entriesAgree I descr r₁ r₂) : entriesAgree I descr r₂ r₁ :=
  fun e he => (h e he).symm

theorem entriesAgree_append (descr : SortDescription) (e : SortColumnDescription) (r₁ r₂ : Row)
    (h : entriesAgree I descr r₁ r₂)
    (h_e : I.columnValue e.column_name r₁ = I.columnValue e.column_name r₂) :
    entriesAgree I (descr ++ [e]) r₁ r₂ := by
  intro x hx
  simp only [List.mem_append, List.mem_singleton] at hx
  rcases hx with hx | hx
  · exact h x hx
  · subst hx; exact h_e

theorem keysAgree_mono (n m : Nat) (h_le : n ≤ m) (r₁ r₂ : Row) (h : keysAgree I m r₁ r₂) :
    keysAgree I n r₁ r₂ :=
  fun i hi => h i (lt_of_lt_of_le hi h_le)

end AgreeLemmas

section OrderLemmas

variable {Row V : Type} [LinearOrder V] (I : Interpretation Row V)

theorem sortedBefore_append (descr : SortDescription) (e : SortColumnDescription) (r₁ r₂ : Row)
    (h : sortedBefore I descr r₁ r₂) : sortedBefore I (descr ++ [e]) r₁ r₂ := by
  obtain ⟨first, x, rest, h_eq, h_agree, h_before⟩ := h
  exact ⟨first, x, rest ++ [e], by simp [h_eq], h_agree, h_before⟩

theorem sortedBefore_last (descr : SortDescription) (e : SortColumnDescription) (r₁ r₂ : Row)
    (h : entriesAgree I descr r₁ r₂) (h_e : entryBefore I e r₁ r₂) :
    sortedBefore I (descr ++ [e]) r₁ r₂ :=
  ⟨descr, e, [], rfl, h, h_e⟩

theorem MatchedSoFar.atEnd (sorting_key : KeyDescription) (s : MatchState)
    (h : MatchedSoFar I sorting_key s) : MatchedAtEnd I sorting_key s := by
  refine ⟨h.1, h.2.1, fun r₁ r₂ h₁ h₂ => ⟨(h.2.2 r₁ r₂ h₁ h₂).1, fun j hj hb => ?_⟩⟩
  rcases (h.2.2 r₁ r₂ h₁ h₂).2 j hj hb with ⟨hd, hs⟩ | ⟨hd, hs⟩
  · refine ⟨fun _ => Or.inr hs, fun h' => ?_⟩
    rw [hd] at h'
    simp at h'
  · refine ⟨fun h' => ?_, fun _ => Or.inr hs⟩
    rw [hd] at h'
    simp at h'

/-- The order a monotonic function of a sort key column gives to two rows that
the column puts in strict storage order: with the product of the requirement
direction, the reverse indicator and the monotonic direction equal to 1 the
entry does not put them in the opposite order, and with the product -1 it
does not put them in the same order. -/
theorem product_order (F : V → V) (edir mdir : Int) (flag : Bool) (a b : V)
    (h_e : edir = 1 ∨ edir = -1)
    (h_F : (mdir = 1 ∧ Monotone F) ∨ (mdir = -1 ∧ Antitone F))
    (h_ab : if flag = true then b < a else a < b) :
    (edir * (if flag = true then -1 else 1) * mdir = 1
      ∨ edir * (if flag = true then -1 else 1) * mdir = -1)
    ∧ (edir * (if flag = true then -1 else 1) * mdir = 1 →
        if edir = 1 then F a ≤ F b else F b ≤ F a)
    ∧ (edir * (if flag = true then -1 else 1) * mdir = -1 →
        if edir = 1 then F b ≤ F a else F a ≤ F b) := by
  cases flag <;> rcases h_e with h_e | h_e <;> rcases h_F with ⟨h_m, h_F⟩ | ⟨h_m, h_F⟩ <;>
    subst h_e h_m <;> simp at h_ab <;>
    refine ⟨by decide, fun h => ?_, fun h => ?_⟩ <;>
    first
      | (exfalso; revert h; decide)
      | (simp only [if_true]; exact h_F (le_of_lt h_ab))
      | (simp only [show ((-1 : Int) = 1) = False from by decide, if_false]
         exact h_F (le_of_lt h_ab))

end OrderLemmas
section MatchedValue

variable {Row V : Type} [LinearOrder V] (I : Interpretation Row V)
  (fixed_columns : FixedColumns) (dag : Option ActionsDAG) (ms : Matches)
  (description : SortDescription) (sorting_key : KeyDescription)

/-- A matched entry of the matches is one of the match records. -/
theorem entry_mem_of_node (node k : Nat) (h : (ms.entry node).node = some k) :
    (node, ms.entry node) ∈ ms := by
  unfold Matches.entry at h ⊢
  cases h_l : ms.lookup node with
  | none =>
    rw [h_l] at h
    simp [default] at h
  | some v =>
    simp only [Option.getD_some]
    exact lookup_mem ms node v h_l

/-- The value of a requirement column consumed by a match is a function of the
value of the sort key column under the cursor, increasing or decreasing as
the monotonic direction tells, and injective when the match is direct or
strict. -/
theorem matched_value
    (s : MatchState) (sort_column_node source : Nat) (monotonicity : Option Monotonicity)
    (h_key : sorting_key.expression.tryFindInOutputs
      (sorting_key.column_names.getD s.next_sort_key "") = some sort_column_node)
    (h_source :
      match dag with
      | none =>
        (sorting_key.expression.node sort_column_node).type = .INPUT
        ∧ (description.getD s.next_description_column default).column_name
            = sorting_key.column_names.getD s.next_sort_key ""
        ∧ monotonicity = none ∧ source = sort_column_node
      | some d =>
        d.tryFindInOutputs (description.getD s.next_description_column default).column_name
            = some source
        ∧ (ms.entry source).node = some sort_column_node
        ∧ (ms.entry source).monotonicity = monotonicity)
    (h_correct : I.Correct fixed_columns dag ms description sorting_key) :
    ∃ F : V → V,
      (∀ r, I.columnValue (description.getD s.next_description_column default).column_name r
        = F (I.keyColumnValue s.next_sort_key r))
      ∧ ((monotonicDirection monotonicity = 1 ∧ Monotone F)
        ∨ (monotonicDirection monotonicity = -1 ∧ Antitone F))
      ∧ (monotonicStrict monotonicity = true → Function.Injective F) := by
  have h_kc := h_correct.key_column s.next_sort_key sort_column_node h_key
  cases dag with
  | none =>
    simp only [] at h_source
    obtain ⟨h_input, h_name, h_mono, _⟩ := h_source
    subst h_mono
    refine ⟨id, fun r => ?_, Or.inl ⟨rfl, monotone_id⟩, fun _ => Function.injective_id⟩
    rw [h_kc r, h_name]
    exact h_correct.table_column rfl _ sort_column_node h_key h_input r
  | some d =>
    simp only [] at h_source
    obtain ⟨h_node, h_match, h_mono⟩ := h_source
    have h_out := h_correct.output d rfl _ source h_node
    have h_rec := h_correct.matched _ (entry_mem_of_node ms source sort_column_node h_match)
      sort_column_node h_match
    simp only [] at h_rec
    rw [h_mono] at h_rec
    cases monotonicity with
    | none =>
      simp only [] at h_rec
      refine ⟨id, fun r => ?_, Or.inl ⟨rfl, monotone_id⟩, fun _ => Function.injective_id⟩
      rw [h_out r, h_rec r, h_kc r]
      rfl
    | some m =>
      simp only [] at h_rec
      obtain ⟨f, h_f, h_dir, h_inj⟩ := h_rec
      refine ⟨f, fun r => ?_, h_dir, h_inj⟩
      rw [h_out r, h_f r, h_kc r]

end MatchedValue
section MatchedOrder

variable {Row V : Type} [LinearOrder V] (I : Interpretation Row V)
  (sorting_key : KeyDescription)

theorem product_sign (edir mdir : Int) (flag : Bool) (h_e : edir = 1 ∨ edir = -1)
    (h_m : mdir = 1 ∨ mdir = -1) :
    edir * (if flag = true then -1 else 1) * mdir = 1
    ∨ edir * (if flag = true then -1 else 1) * mdir = -1 := by
  cases flag <;> rcases h_e with h_e | h_e <;> rcases h_m with h_m | h_m <;> subst h_e h_m <;>
    decide

/-- The order a matched entry gives to two rows that the sort key column it
matched puts in strict storage order. -/
theorem matched_entry_order (e : SortColumnDescription) (F : V → V) (next_sort_key : Nat)
    (mdir : Int)
    (h_val : ∀ r, I.columnValue e.column_name r = F (I.keyColumnValue next_sort_key r))
    (h_e : e.direction = 1 ∨ e.direction = -1)
    (h_F : (mdir = 1 ∧ Monotone F) ∨ (mdir = -1 ∧ Antitone F))
    (r₁ r₂ : Row) (hb : keyBefore I sorting_key next_sort_key r₁ r₂) :
    (e.direction * reverseIndicator sorting_key next_sort_key * mdir = 1 →
      I.columnValue e.column_name r₁ = I.columnValue e.column_name r₂ ∨ entryBefore I e r₁ r₂)
    ∧ (e.direction * reverseIndicator sorting_key next_sort_key * mdir = -1 →
      I.columnValue e.column_name r₁ = I.columnValue e.column_name r₂ ∨ entryBefore I e r₂ r₁)
    ∧ (Function.Injective F →
      I.columnValue e.column_name r₁ ≠ I.columnValue e.column_name r₂) := by
  have h_po := product_order F e.direction mdir (sorting_key.reverse_flags.getD next_sort_key false)
    (I.keyColumnValue next_sort_key r₁) (I.keyColumnValue next_sort_key r₂) h_e h_F hb.2
  have h_rev : reverseIndicator sorting_key next_sort_key
      = if sorting_key.reverse_flags.getD next_sort_key false = true then -1 else 1 := rfl
  rw [h_rev]
  unfold entryBefore
  rw [h_val r₁, h_val r₂]
  refine ⟨fun h => ?_, fun h => ?_, fun h_inj h_eq => ?_⟩
  · have := h_po.2.1 h
    split at this
    · rename_i hd
      rw [if_pos hd]
      rcases lt_or_eq_of_le this with h' | h'
      · exact Or.inr h'
      · exact Or.inl h'
    · rename_i hd
      rw [if_neg hd]
      rcases lt_or_eq_of_le this with h' | h'
      · exact Or.inr h'
      · exact Or.inl h'.symm
  · have := h_po.2.2 h
    split at this
    · rename_i hd
      rw [if_pos hd]
      rcases lt_or_eq_of_le this with h' | h'
      · exact Or.inr h'
      · exact Or.inl h'.symm
    · rename_i hd
      rw [if_neg hd]
      rcases lt_or_eq_of_le this with h' | h'
      · exact Or.inr h'
      · exact Or.inl h'
  · have h_k := h_inj h_eq
    have h_lt := hb.2
    rw [h_k] at h_lt
    split at h_lt <;> exact lt_irrefl _ h_lt

end MatchedOrder
section StepOrder

variable {Row V : Type} [LinearOrder V] (I : Interpretation Row V)
  (fixed_columns : FixedColumns) (dag : Option ActionsDAG) (ms : Matches)
  (fixed_key_columns : FixedColumns) (description : SortDescription)
  (sorting_key : KeyDescription)

/-- A turn of the loop of the ordered matcher keeps what the matched entries
say about the storage order. -/
theorem matchStep_order
    (h_correct : I.Correct fixed_columns dag ms description sorting_key)
    (h_fk : ∀ k ∈ fixed_key_columns, ∀ r₁ r₂, I.passes r₁ = true → I.passes r₂ = true →
      I.keyValue k r₁ = I.keyValue k r₂)
    (s : MatchState) (h_inv : MatchedSoFar I sorting_key s)
    (h_r1 : s.next_description_column < description.length)
    (h_r2 : s.next_sort_key < sorting_key.column_names.length) :
    ((matchStep fixed_columns dag ms fixed_key_columns description sorting_key s).2 = true →
      MatchedSoFar I sorting_key
        (matchStep fixed_columns dag ms fixed_key_columns description sorting_key s).1)
    ∧ ((matchStep fixed_columns dag ms fixed_key_columns description sorting_key s).2 = false →
      MatchedAtEnd I sorting_key
        (matchStep fixed_columns dag ms fixed_key_columns description sorting_key s).1) := by
  obtain ⟨h_le, h_rd, h_rows⟩ := h_inv
  have ht := matchStep_turn fixed_columns dag ms fixed_key_columns description sorting_key s
  generalize matchStep fixed_columns dag ms fixed_key_columns description sorting_key s = r at ht
  cases ht with
  | stop =>
    exact ⟨fun h => by simp at h, fun _ => MatchedSoFar.atEnd I sorting_key s ⟨h_le, h_rd, h_rows⟩⟩
  | matched sort_column_node source mono monotonic h_key _ _ h_source =>
    obtain ⟨F, h_val, h_F, h_inj⟩ := matched_value I fixed_columns dag ms description sorting_key
      s sort_column_node source mono h_key h_source h_correct
    have h_e := h_correct.direction _ (getD_mem_of_lt description _ h_r1)
    have h_sign : (description.getD s.next_description_column default).direction
          * reverseIndicator sorting_key s.next_sort_key * monotonicDirection mono = 1
        ∨ (description.getD s.next_description_column default).direction
          * reverseIndicator sorting_key s.next_sort_key * monotonicDirection mono = -1 :=
      product_sign _ _ _ h_e (by
        rcases h_F with ⟨h, _⟩ | ⟨h, _⟩
        · exact Or.inl h
        · exact Or.inr h)
    have h_ord := matched_entry_order I sorting_key
      (description.getD s.next_description_column default) F s.next_sort_key
      (monotonicDirection mono) h_val h_e h_F
    rcases reconcileDirection_cases
      { s with
          match_infos := s.match_infos ++ [{ source := some source, fixed_column := none, monotonic := monotonic }],
          next_description_column := s.next_description_column + 1,
          next_sort_key := s.next_sort_key + 1 }
      (description.getD s.next_description_column default)
      ((description.getD s.next_description_column default).direction
        * reverseIndicator sorting_key s.next_sort_key * monotonicDirection mono)
      (monotonicStrict mono)
      (Consumed.byMatch s.next_description_column s.next_sort_key mono)
      with ⟨_, _, _, h⟩ | ⟨_, h_agree, h⟩ | ⟨h0, _⟩
    · -- the direction disagrees: nothing is appended
      rw [h]
      refine ⟨fun h => by simp at h, fun _ => ?_⟩
      refine ⟨h_r2, h_rd, fun r₁ r₂ h₁ h₂ => ⟨fun h_k => ?_, fun j hj hb => ?_⟩⟩
      · exact (h_rows r₁ r₂ h₁ h₂).1 (keysAgree_mono I _ _ (Nat.le_succ _) r₁ r₂ h_k)
      · rcases Nat.lt_succ_iff_lt_or_eq.mp hj with hj | hj
        · rcases (h_rows r₁ r₂ h₁ h₂).2 j hj hb with ⟨hd, hs⟩ | ⟨hd, hs⟩
          · refine ⟨fun _ => Or.inr hs, fun h' => ?_⟩
            simp only [] at h'
            rw [hd] at h'
            simp at h'
          · refine ⟨fun h' => ?_, fun _ => Or.inr hs⟩
            simp only [] at h'
            rw [hd] at h'
            simp at h'
        · subst hj
          have h_a := (h_rows r₁ r₂ h₁ h₂).1 hb.1
          exact ⟨fun _ => Or.inl h_a, fun _ => Or.inl (entriesAgree_symm I _ _ _ h_a)⟩
    · -- the direction agrees: the entry is appended
      rw [h]
      simp only [] at h_agree
      have h_A : ∀ r₁ r₂, I.passes r₁ = true → I.passes r₂ = true →
          keysAgree I (s.next_sort_key + 1) r₁ r₂ →
          entriesAgree I (s.order_key_prefix_descr
            ++ [description.getD s.next_description_column default]) r₁ r₂ := by
        intro r₁ r₂ h₁ h₂ h_k
        apply entriesAgree_append
        · exact (h_rows r₁ r₂ h₁ h₂).1 (keysAgree_mono I _ _ (Nat.le_succ _) r₁ r₂ h_k)
        · rw [h_val r₁, h_val r₂, h_k s.next_sort_key (Nat.lt_succ_self _)]
      have h_old : ∀ r₁ r₂, I.passes r₁ = true → I.passes r₂ = true →
          ∀ j < s.next_sort_key, keyBefore I sorting_key j r₁ r₂ →
          ((description.getD s.next_description_column default).direction
              * reverseIndicator sorting_key s.next_sort_key * monotonicDirection mono = 1
            ∧ sortedBefore I (s.order_key_prefix_descr
              ++ [description.getD s.next_description_column default]) r₁ r₂)
          ∨ ((description.getD s.next_description_column default).direction
              * reverseIndicator sorting_key s.next_sort_key * monotonicDirection mono = -1
            ∧ sortedBefore I (s.order_key_prefix_descr
              ++ [description.getD s.next_description_column default]) r₂ r₁) := by
        intro r₁ r₂ h₁ h₂ j hj hb
        rcases (h_rows r₁ r₂ h₁ h₂).2 j hj hb with ⟨hd, hs⟩ | ⟨hd, hs⟩
        · left
          refine ⟨?_, sortedBefore_append I _ _ _ _ hs⟩
          rcases h_agree with h0 | h0
          · rw [hd] at h0; simp at h0
          · rw [h0, hd]
        · right
          refine ⟨?_, sortedBefore_append I _ _ _ _ hs⟩
          rcases h_agree with h0 | h0
          · rw [hd] at h0; simp at h0
          · rw [h0, hd]
      refine ⟨fun h_go => ?_, fun _ => ?_⟩
      · -- a strict match: the loop goes on
        simp only [] at h_go
        have h_injF := h_inj h_go
        refine ⟨h_r2, Or.inr h_sign, fun r₁ r₂ h₁ h₂ => ⟨h_A r₁ r₂ h₁ h₂, fun j hj hb => ?_⟩⟩
        rcases Nat.lt_succ_iff_lt_or_eq.mp hj with hj | hj
        · exact h_old r₁ r₂ h₁ h₂ j hj hb
        · subst hj
          have h_a := (h_rows r₁ r₂ h₁ h₂).1 hb.1
          have h_o := h_ord r₁ r₂ hb
          rcases h_sign with h_s | h_s
          · left
            refine ⟨h_s, ?_⟩
            rcases h_o.1 h_s with h_eq | h_lt
            · exact absurd h_eq (h_o.2.2 h_injF)
            · exact sortedBefore_last I _ _ _ _ h_a h_lt
          · right
            refine ⟨h_s, ?_⟩
            rcases h_o.2.1 h_s with h_eq | h_lt
            · exact absurd h_eq (h_o.2.2 h_injF)
            · exact sortedBefore_last I _ _ _ _ (entriesAgree_symm I _ _ _ h_a) h_lt
      · -- the loop is left
        refine ⟨h_r2, Or.inr h_sign, fun r₁ r₂ h₁ h₂ => ⟨h_A r₁ r₂ h₁ h₂, fun j hj hb => ?_⟩⟩
        rcases Nat.lt_succ_iff_lt_or_eq.mp hj with hj | hj
        · rcases h_old r₁ r₂ h₁ h₂ j hj hb with ⟨hd, hs⟩ | ⟨hd, hs⟩
          · refine ⟨fun _ => Or.inr hs, fun h' => ?_⟩
            simp only [] at h'
            rw [hd] at h'
            simp at h'
          · refine ⟨fun h' => ?_, fun _ => Or.inr hs⟩
            simp only [] at h'
            rw [hd] at h'
            simp at h'
        · subst hj
          have h_a := (h_rows r₁ r₂ h₁ h₂).1 hb.1
          have h_o := h_ord r₁ r₂ hb
          refine ⟨fun h_s => ?_, fun h_s => ?_⟩
          · rcases h_o.1 h_s with h_eq | h_lt
            · exact Or.inl (entriesAgree_append I _ _ _ _ h_a h_eq)
            · exact Or.inr (sortedBefore_last I _ _ _ _ h_a h_lt)
          · rcases h_o.2.1 h_s with h_eq | h_lt
            · exact Or.inl (entriesAgree_append I _ _ _ _ (entriesAgree_symm I _ _ _ h_a) h_eq.symm)
            · exact Or.inr (sortedBefore_last I _ _ _ _ (entriesAgree_symm I _ _ _ h_a) h_lt)
    · rcases h_sign with h_s | h_s <;> rw [h0] at h_s <;> simp at h_s
  | fixedKey d sort_column_node sort_node h_dag h_key _ _ _ h_fixed =>
    rcases reconcileDirection_cases
      { s with
          can_optimize_virtual_row := if s.next_sort_key = 0 then false else s.can_optimize_virtual_row,
          next_sort_key := s.next_sort_key + 1 }
      (description.getD s.next_description_column default) 0 true
      (fun _ => Consumed.fixedKey s.next_sort_key)
      with ⟨h0, _⟩ | ⟨h0, _⟩ | ⟨_, h⟩
    · simp at h0
    · simp at h0
    · rw [h]
      refine ⟨fun _ => ?_, fun h => by simp at h⟩
      refine ⟨h_r2, h_rd, fun r₁ r₂ h₁ h₂ => ⟨fun h_k => ?_, fun j hj hb => ?_⟩⟩
      · exact (h_rows r₁ r₂ h₁ h₂).1 (keysAgree_mono I _ _ (Nat.le_succ _) r₁ r₂ h_k)
      · rcases Nat.lt_succ_iff_lt_or_eq.mp hj with hj | hj
        · exact (h_rows r₁ r₂ h₁ h₂).2 j hj hb
        · subst hj
          exfalso
          have h_lt := hb.2
          rw [h_correct.key_column _ sort_column_node h_key r₁,
            h_correct.key_column _ sort_column_node h_key r₂,
            h_fk sort_column_node h_fixed r₁ r₂ h₁ h₂] at h_lt
          split at h_lt <;> exact lt_irrefl _ h_lt
  | fixedColumn d sort_column_node sort_node h_dag _ _ h_node _ _ h_fixed =>
    rcases reconcileDirection_cases
      { s with
          can_optimize_virtual_row :=
            if (d.node sort_node).column.isSome then s.can_optimize_virtual_row else false,
          match_infos := s.match_infos ++ [{ source := some sort_node, fixed_column := some sort_node, monotonic := none }],
          order_key_prefix_descr := s.order_key_prefix_descr ++ [description.getD s.next_description_column default],
          next_description_column := s.next_description_column + 1 }
      (description.getD s.next_description_column default) 0 true
      (fun _ => Consumed.fixedColumn s.next_description_column)
      with ⟨h0, _⟩ | ⟨h0, _⟩ | ⟨_, h⟩
    · simp at h0
    · simp at h0
    · rw [h]
      refine ⟨fun _ => ?_, fun h => by simp at h⟩
      have h_const : ∀ r₁ r₂, I.passes r₁ = true → I.passes r₂ = true →
          I.columnValue (description.getD s.next_description_column default).column_name r₁
            = I.columnValue (description.getD s.next_description_column default).column_name r₂ := by
        intro r₁ r₂ h₁ h₂
        rw [h_correct.output d h_dag _ sort_node h_node r₁,
          h_correct.output d h_dag _ sort_node h_node r₂]
        rcases h_fixed with h_c | h_c
        · exact h_correct.constant d h_dag sort_node h_c r₁ r₂
        · exact h_correct.fixed sort_node h_c r₁ r₂ h₁ h₂
      refine ⟨h_le, h_rd, fun r₁ r₂ h₁ h₂ => ⟨fun h_k => ?_, fun j hj hb => ?_⟩⟩
      · exact entriesAgree_append I _ _ _ _ ((h_rows r₁ r₂ h₁ h₂).1 h_k) (h_const r₁ r₂ h₁ h₂)
      · rcases (h_rows r₁ r₂ h₁ h₂).2 j hj hb with ⟨hd, hs⟩ | ⟨hd, hs⟩
        · exact Or.inl ⟨hd, sortedBefore_append I _ _ _ _ hs⟩
        · exact Or.inr ⟨hd, sortedBefore_append I _ _ _ _ hs⟩

end StepOrder
/-- C1. Ordering correctness of the ordered matcher.  Let the rows of a table
be stored sorted lexicographically by the sort key (each column ascending, or
descending where its reverse flag is set), and let the match records, the
fixed columns and the graphs mean what the interpretation says.  If
`buildInputOrderFromSortDescription` returns a matched prefix with direction
`d`, then `d` is 1 or -1, and the rows that pass the filters, read in storage
order when `d = 1` and in reverse storage order when `d = -1`, are sorted by
the matched prefix.  Values are compared in one linear order; where NULL and
NaN are placed is not part of this statement. -/
theorem matched_prefix_is_sorted {Row V : Type} [LinearOrder V] (I : Interpretation Row V)
    (fixed_columns : FixedColumns) (dag : Option ActionsDAG) (ms : Matches)
    (description : SortDescription) (sorting_key : KeyDescription)
    (pk_column_names : List String) (limit : Nat) (rows : List Row) (info : InputOrderInfo)
    (h_correct : I.Correct fixed_columns dag ms description sorting_key)
    (h_sorted : rows.Pairwise (storageLE I sorting_key))
    (h_info : (buildInputOrderFromSortDescription fixed_columns dag ms description sorting_key
      pk_column_names limit).input_order = some info) :
    (info.direction = 1
      ∧ (rows.filter I.passes).Pairwise (requirementLE I info.sort_description_for_merging))
    ∨ (info.direction = -1
      ∧ (rows.filter I.passes).reverse.Pairwise
          (requirementLE I info.sort_description_for_merging)) := by
  have h_end : MatchedAtEnd I sorting_key (matchFinal fixed_columns dag ms description sorting_key) := by
    unfold matchFinal
    apply matchLoop_induct _ _ _ _ _ _ (MatchedSoFar I sorting_key) (MatchedAtEnd I sorting_key)
    · intro s h_inv h_r1 h_r2
      apply matchStep_order I fixed_columns dag ms _ description sorting_key h_correct _ s h_inv
        h_r1 h_r2
      cases dag with
      | none => intro k hk; simp at hk
      | some d =>
        exact fixedKeyColumns_constant I fixed_columns (some d) ms description sorting_key h_correct
    · intro s h_inv _
      exact MatchedSoFar.atEnd I sorting_key s h_inv
    · refine ⟨Nat.zero_le _, Or.inl rfl, fun r₁ r₂ _ _ => ⟨fun _ e he => ?_, fun j hj => ?_⟩⟩
      · simp [MatchState.init] at he
      · simp [MatchState.init] at hj
    · simp [MatchState.init]
  obtain ⟨h_le, h_rd, h_rows⟩ := h_end
  have h_pair : ∀ r₁ r₂, I.passes r₁ = true → I.passes r₂ = true →
      storageLE I sorting_key r₁ r₂ →
      ((matchFinal fixed_columns dag ms description sorting_key).read_direction = 1 →
        requirementLE I (matchFinal fixed_columns dag ms description
          sorting_key).order_key_prefix_descr r₁ r₂)
      ∧ ((matchFinal fixed_columns dag ms description sorting_key).read_direction = -1 →
        requirementLE I (matchFinal fixed_columns dag ms description
          sorting_key).order_key_prefix_descr r₂ r₁) := by
    intro r₁ r₂ h₁ h₂ h_st
    have h_of_agree : keysAgree I (matchFinal fixed_columns dag ms description
          sorting_key).next_sort_key r₁ r₂ →
        ((matchFinal fixed_columns dag ms description sorting_key).read_direction = 1 →
          requirementLE I (matchFinal fixed_columns dag ms description
            sorting_key).order_key_prefix_descr r₁ r₂)
        ∧ ((matchFinal fixed_columns dag ms description sorting_key).read_direction = -1 →
          requirementLE I (matchFinal fixed_columns dag ms description
            sorting_key).order_key_prefix_descr r₂ r₁) := by
      intro h_k
      have h_a := (h_rows r₁ r₂ h₁ h₂).1 h_k
      exact ⟨fun _ => Or.inl h_a, fun _ => Or.inl (entriesAgree_symm I _ _ _ h_a)⟩
    rcases h_st with h_k | ⟨j, _, hb⟩
    · exact h_of_agree (keysAgree_mono I _ _ h_le r₁ r₂ h_k)
    · by_cases hj : j < (matchFinal fixed_columns dag ms description sorting_key).next_sort_key
      · exact (h_rows r₁ r₂ h₁ h₂).2 j hj hb
      · exact h_of_agree (keysAgree_mono I _ _ (Nat.le_of_not_lt hj) r₁ r₂ hb.1)
  have h_filtered : (rows.filter I.passes).Pairwise (storageLE I sorting_key) :=
    List.Pairwise.filter _ h_sorted
  unfold buildInputOrderFromSortDescription at h_info
  simp only [] at h_info
  split at h_info
  · simp at h_info
  · rename_i h_some
    simp only [Option.some.injEq] at h_info
    subst h_info
    simp only [not_or] at h_some
    rcases h_rd with h0 | h1 | h1
    · exact absurd h0 h_some.1
    · left
      refine ⟨h1, ?_⟩
      apply List.Pairwise.imp_of_mem _ h_filtered
      intro r₁ r₂ hm₁ hm₂ h_st
      exact (h_pair r₁ r₂ (List.mem_filter.mp hm₁).2 (List.mem_filter.mp hm₂).2 h_st).1 h1
    · right
      refine ⟨h1, ?_⟩
      rw [List.pairwise_reverse]
      apply List.Pairwise.imp_of_mem _ h_filtered
      intro r₁ r₂ hm₁ hm₂ h_st
      exact (h_pair r₁ r₂ (List.mem_filter.mp hm₁).2 (List.mem_filter.mp hm₂).2 h_st).2 h1
theorem tryFindInOutputs_some (dag : ActionsDAG) (name : String) (n : Nat)
    (h : dag.tryFindInOutputs name = some n) :
    n ∈ dag.outputs ∧ (dag.node n).result_name = name := by
  unfold ActionsDAG.tryFindInOutputs at h
  exact ⟨List.mem_of_find?_eq_some h, by simpa using List.find?_some h⟩

/-- The interpretation of the query `WHERE a = 5 ORDER BY b` over the sort key
`(a, b)` is right about the inputs of the matcher. -/
theorem interpretationWhereA5_correct :
    interpretationWhereA5.Correct fixedWhereA5 (some dagWhereA5) matchesWhereA5
      [ascending "b"] sortingKeyAB where
  fixed := by
    intro n hn r₁ r₂ h₁ h₂
    have h_fixed : fixedWhereA5 = [3, 0] := by decide
    rw [h_fixed] at hn
    simp only [interpretationWhereA5, beq_iff_eq] at h₁ h₂
    simp only [List.mem_cons, List.mem_singleton, List.not_mem_nil, or_false] at hn
    rcases hn with rfl | rfl <;> simp [interpretationWhereA5, h₁, h₂]
  constant := by
    intro d hd n hn r₁ r₂
    simp only [Option.some.injEq] at hd
    subst hd
    rcases n with _ | _ | _ | _ | n
    · simp [dagWhereA5, ActionsDAG.node, inputNode] at hn
    · simp [dagWhereA5, ActionsDAG.node, inputNode] at hn
    · simp [interpretationWhereA5]
    · simp [dagWhereA5, ActionsDAG.node, functionNode] at hn
    · simp [dagWhereA5, ActionsDAG.node, default] at hn
  matched := by
    intro e he k hk
    simp only [matchesWhereA5, List.mem_cons, List.mem_singleton, List.not_mem_nil,
      or_false] at he
    rcases he with rfl | rfl | rfl | rfl
    · simp only [Option.some.injEq] at hk
      subst hk
      intro r
      simp [interpretationWhereA5]
    · simp only [Option.some.injEq] at hk
      subst hk
      intro r
      simp [interpretationWhereA5]
    · simp [default] at hk
    · simp [default] at hk
  output := by
    intro d hd name n hn r
    simp only [Option.some.injEq] at hd
    subst hd
    obtain ⟨h_mem, h_name⟩ := tryFindInOutputs_some _ _ _ hn
    simp only [dagWhereA5, List.mem_cons, List.mem_singleton, List.not_mem_nil, or_false] at h_mem
    rcases h_mem with rfl | rfl | rfl <;>
      simp [dagWhereA5, ActionsDAG.node, inputNode, functionNode] at h_name <;>
      subst h_name <;> simp [interpretationWhereA5]
  table_column := by
    intro h
    simp at h
  key_column := by
    intro i k hk r
    obtain ⟨h_mem, h_name⟩ := tryFindInOutputs_some _ _ _ hk
    simp only [sortingKeyAB, List.mem_cons, List.mem_singleton, List.not_mem_nil, or_false] at h_mem
    rcases i with _ | _ | i
    · rcases h_mem with rfl | rfl
      · simp [interpretationWhereA5]
      · simp [sortingKeyAB, ActionsDAG.node, inputNode] at h_name
    · rcases h_mem with rfl | rfl
      · simp [sortingKeyAB, ActionsDAG.node, inputNode] at h_name
      · simp [interpretationWhereA5]
    · rcases h_mem with rfl | rfl <;>
        simp [sortingKeyAB, ActionsDAG.node, inputNode] at h_name
  key_constant := by
    intro k hk
    rcases k with _ | _ | k <;> simp [sortingKeyAB, ActionsDAG.node, inputNode, default] at hk
  key_alias := by
    intro k child rest hk
    rcases k with _ | _ | k <;> simp [sortingKeyAB, ActionsDAG.node, inputNode, default] at hk
  key_function := by
    intro k function_base hk
    rcases k with _ | _ | k <;> simp [sortingKeyAB, ActionsDAG.node, inputNode, default] at hk
  direction := by decide

/-- The four rows are in the storage order of the sort key `(a, b)`. -/
theorem rowsAB_sorted : rowsAB.Pairwise (storageLE interpretationWhereA5 sortingKeyAB) := by
  have h_first : ∀ r₁ r₂ : Int × Int, r₁.1 < r₂.1 →
      storageLE interpretationWhereA5 sortingKeyAB r₁ r₂ := by
    intro r₁ r₂ h
    refine Or.inr ⟨0, by decide, fun i hi => absurd hi (Nat.not_lt_zero i), ?_⟩
    simpa [interpretationWhereA5, sortingKeyAB] using h
  have h_second : ∀ r₁ r₂ : Int × Int, r₁.1 = r₂.1 → r₁.2 < r₂.2 →
      storageLE interpretationWhereA5 sortingKeyAB r₁ r₂ := by
    intro r₁ r₂ h h'
    refine Or.inr ⟨1, by decide, fun i hi => ?_, ?_⟩
    · have : i = 0 := by omega
      subst this
      simpa [interpretationWhereA5] using h
    · simpa [interpretationWhereA5, sortingKeyAB] using h'
  simp only [rowsAB, List.pairwise_cons, List.mem_cons, List.mem_singleton, List.not_mem_nil,
    or_false, List.Pairwise.nil, and_true, forall_eq_or_imp, forall_eq, false_implies,
    implies_true]
  refine ⟨⟨?_, ?_, ?_⟩, ⟨?_, ?_⟩, ?_⟩
  · exact h_first _ _ (by decide)
  · exact h_first _ _ (by decide)
  · exact h_first _ _ (by decide)
  · exact h_second _ _ rfl (by decide)
  · exact h_first _ _ (by decide)
  · exact h_first _ _ (by decide)

/-- C1, at a concrete input: a table with the sort key `(a, b)` holding the
rows `(4, 9), (5, 1), (5, 3), (6, 0)`, read for `WHERE a = 5 ORDER BY b`.  The
matcher reports the prefix `(b)` with direction 1, and the rows that pass the
filter, in storage order, are sorted by `b`. -/
theorem matched_prefix_is_sorted_witness :
    ((1 : Int) = 1
      ∧ (rowsAB.filter interpretationWhereA5.passes).Pairwise
          (requirementLE interpretationWhereA5 [ascending "b"]))
    ∨ ((1 : Int) = -1
      ∧ (rowsAB.filter interpretationWhereA5.passes).reverse.Pairwise
          (requirementLE interpretationWhereA5 [ascending "b"])) :=
  matched_prefix_is_sorted interpretationWhereA5 fixedWhereA5 (some dagWhereA5) matchesWhereA5
    [ascending "b"] sortingKeyAB ["a", "b"] 0 rowsAB
    { sort_description_for_merging := [ascending "b"], used_prefix_of_sorting_key_size := 2,
      direction := 1, limit := 0 }
    interpretationWhereA5_correct rowsAB_sorted (by decide)

/-- X1. The loop of the ordered matcher, as `buildInputOrderFromSortDescription`
runs it, never reaches its bound: any number of further turns allowed gives
the same final state, so the matcher always returns the state in which the
`while` loop of the source is left. -/
theorem matchFinal_fuel (fixed_columns : FixedColumns) (dag : Option ActionsDAG) (ms : Matches)
    (fixed_key_columns : FixedColumns) (description : SortDescription)
    (sorting_key : KeyDescription) (extra : Nat) :
    matchLoop fixed_columns dag ms fixed_key_columns description sorting_key
        (description.length + sorting_key.column_names.length + extra) MatchState.init
      = matchLoop fixed_columns dag ms fixed_key_columns description sorting_key
        (description.length + sorting_key.column_names.length) MatchState.init := by
  induction extra with
  | zero => rfl
  | succ extra ih =>
    rw [← ih, ← Nat.add_assoc]
    exact matchLoop_fuel fixed_columns dag ms fixed_key_columns description sorting_key _ _
      (by simp [MatchState.init])

/-- X2. The loop of the unordered matcher, as `buildInputOrderFromUnorderedKeys`
runs it, never reaches its bound: any number of further turns allowed gives
the same final state. -/
theorem unorderedFinal_fuel (dag : Option ActionsDAG) (reverse_matches : ReverseMatches)
    (fixed_key_columns : FixedColumns) (sorting_key_dag : ActionsDAG)
    (sorting_key_columns : List String) (unordered_keys : List String) (extra : Nat) :
    unorderedLoop dag reverse_matches fixed_key_columns sorting_key_dag sorting_key_columns
        (sorting_key_columns.length + extra) (UnorderedState.init unordered_keys)
      = unorderedLoop dag reverse_matches fixed_key_columns sorting_key_dag sorting_key_columns
        sorting_key_columns.length (UnorderedState.init unordered_keys) := by
  induction extra with
  | zero => rfl
  | succ extra ih =>
    rw [← ih, ← Nat.add_assoc]
    exact unorderedLoop_fuel dag reverse_matches fixed_key_columns sorting_key_dag
      sorting_key_columns _ _ (by simp [UnorderedState.init])
theorem take_succ_getD (description : SortDescription) (i : Nat) (h : i < description.length) :
    description.take (i + 1) = description.take i ++ [description.getD i default] := by
  rw [List.take_succ, List.getD_eq_getElem?_getD, List.getElem?_eq_getElem h]
  simp

section OrderedPrefix

variable (fixed_columns : FixedColumns) (dag : Option ActionsDAG) (ms : Matches)
  (fixed_key_columns : FixedColumns) (description : SortDescription)
  (sorting_key : KeyDescription)

/-- A turn of the ordered matcher and the shape of the matched entries: as long
as the loop goes on they are the requirement entries before the cursor; when
the loop is left they are the first entries of the requirement.  The sort key
cursor stays in range and has moved once a direction is fixed. -/
theorem matchStep_take (s : MatchState)
    (h_dir : ∀ e ∈ description, e.direction ≠ 0)
    (h_mono : ∀ node m, (ms.entry node).monotonicity = some m → m.direction ≠ 0)
    (h_r1 : s.next_description_column < description.length)
    (h_r2 : s.next_sort_key < sorting_key.column_names.length)
    (h_take : s.order_key_prefix_descr = description.take s.next_description_column)
    (h_moved : s.read_direction ≠ 0 → 1 ≤ s.next_sort_key) :
    ((matchStep fixed_columns dag ms fixed_key_columns description sorting_key s).2 = true →
      (matchStep fixed_columns dag ms fixed_key_columns description sorting_key
          s).1.order_key_prefix_descr
        = description.take (matchStep fixed_columns dag ms fixed_key_columns description
            sorting_key s).1.next_description_column
      ∧ (matchStep fixed_columns dag ms fixed_key_columns description sorting_key
          s).1.next_description_column ≤ description.length
      ∧ (matchStep fixed_columns dag ms fixed_key_columns description sorting_key
          s).1.next_sort_key ≤ sorting_key.column_names.length
      ∧ ((matchStep fixed_columns dag ms fixed_key_columns description sorting_key
          s).1.read_direction ≠ 0 →
        1 ≤ (matchStep fixed_columns dag ms fixed_key_columns description sorting_key
          s).1.next_sort_key))
    ∧ ((matchStep fixed_columns dag ms fixed_key_columns description sorting_key s).2 = false →
      (∃ k, k ≤ description.length
        ∧ (matchStep fixed_columns dag ms fixed_key_columns description sorting_key
            s).1.order_key_prefix_descr = description.take k)
      ∧ (matchStep fixed_columns dag ms fixed_key_columns description sorting_key
          s).1.next_sort_key ≤ sorting_key.column_names.length
      ∧ ((matchStep fixed_columns dag ms fixed_key_columns description sorting_key
          s).1.read_direction ≠ 0 →
        1 ≤ (matchStep fixed_columns dag ms fixed_key_columns description sorting_key
          s).1.next_sort_key)) := by
  have h_succ := take_succ_getD description _ h_r1
  have ht := matchStep_turn fixed_columns dag ms fixed_key_columns description sorting_key s
  generalize matchStep fixed_columns dag ms fixed_key_columns description sorting_key s = r at ht
  cases ht with
  | stop =>
    exact ⟨fun h => by simp at h,
      fun _ => ⟨⟨_, Nat.le_of_lt h_r1, h_take⟩, Nat.le_of_lt h_r2, h_moved⟩⟩
  | matched sort_column_node source mono monotonic _ _ _ h_source =>
    have h_cd := match_direction_ne_zero dag ms description sorting_key s sort_column_node source
      mono h_dir h_mono h_r1 h_source
    rcases reconcileDirection_cases
      { s with
          match_infos := s.match_infos ++ [{ source := some source, fixed_column := none, monotonic := monotonic }],
          next_description_column := s.next_description_column + 1,
          next_sort_key := s.next_sort_key + 1 }
      (description.getD s.next_description_column default)
      ((description.getD s.next_description_column default).direction
        * reverseIndicator sorting_key s.next_sort_key * monotonicDirection mono)
      (monotonicStrict mono)
      (Consumed.byMatch s.next_description_column s.next_sort_key mono)
      with ⟨_, _, _, h⟩ | ⟨_, _, h⟩ | ⟨h0, _⟩
    · rw [h]
      exact ⟨fun h => by simp at h,
        fun _ => ⟨⟨_, Nat.le_of_lt h_r1, h_take⟩, h_r2, fun _ => Nat.le_add_left _ _⟩⟩
    · rw [h]
      refine ⟨fun _ => ⟨?_, h_r1, h_r2, fun _ => Nat.le_add_left _ _⟩,
        fun _ => ⟨⟨_, h_r1, ?_⟩, h_r2, fun _ => Nat.le_add_left _ _⟩⟩
      · simp only []
        rw [h_succ, h_take]
      · simp only []
        rw [h_succ, h_take]
    · exact absurd h0 h_cd
  | fixedKey _ _ _ _ _ _ _ _ _ =>
    rcases reconcileDirection_cases
      { s with
          can_optimize_virtual_row := if s.next_sort_key = 0 then false else s.can_optimize_virtual_row,
          next_sort_key := s.next_sort_key + 1 }
      (description.getD s.next_description_column default) 0 true
      (fun _ => Consumed.fixedKey s.next_sort_key)
      with ⟨h0, _⟩ | ⟨h0, _⟩ | ⟨_, h⟩
    · simp at h0
    · simp at h0
    · rw [h]
      exact ⟨fun _ => ⟨h_take, Nat.le_of_lt h_r1, h_r2, fun _ => Nat.le_add_left _ _⟩,
        fun h => by simp at h⟩
  | fixedColumn d _ sort_node _ _ _ _ _ _ _ =>
    rcases reconcileDirection_cases
      { s with
          can_optimize_virtual_row :=
            if (d.node sort_node).column.isSome then s.can_optimize_virtual_row else false,
          match_infos := s.match_infos ++ [{ source := some sort_node, fixed_column := some sort_node, monotonic := none }],
          order_key_prefix_descr := s.order_key_prefix_descr ++ [description.getD s.next_description_column default],
          next_description_column := s.next_description_column + 1 }
      (description.getD s.next_description_column default) 0 true
      (fun _ => Consumed.fixedColumn s.next_description_column)
      with ⟨h0, _⟩ | ⟨h0, _⟩ | ⟨_, h⟩
    · simp at h0
    · simp at h0
    · rw [h]
      refine ⟨fun _ => ⟨?_, h_r1, Nat.le_of_lt h_r2, h_moved⟩, fun h => by simp at h⟩
      simp only []
      rw [h_succ, h_take]

end OrderedPrefix

/-- C11. Whenever the ordered matcher returns a result (requirement directions
and monotonic directions not 0), the matched prefix it reports is exactly the
first `k` entries of the sort requirement, in order and unmodified, for some
`k` with `1 ≤ k ≤` the length of the requirement, and the number of sort key
columns consumed is at least 1 and at most the number of sort key columns. -/
theorem matched_prefix_is_a_prefix (fixed_columns : FixedColumns) (dag : Option ActionsDAG)
    (ms : Matches) (description : SortDescription) (sorting_key : KeyDescription)
    (pk_column_names : List String) (limit : Nat) (info : InputOrderInfo)
    (h_dir : ∀ e ∈ description, e.direction ≠ 0)
    (h_mono : ∀ e ∈ ms, ∀ m, e.2.monotonicity = some m → m.direction ≠ 0)
    (h_info : (buildInputOrderFromSortDescription fixed_columns dag ms description sorting_key
      pk_column_names limit).input_order = some info) :
    (∃ k, 1 ≤ k ∧ k ≤ description.length
      ∧ info.sort_description_for_merging = description.take k)
    ∧ 1 ≤ info.used_prefix_of_sorting_key_size
    ∧ info.used_prefix_of_sorting_key_size ≤ sorting_key.column_names.length := by
  have h_mono' := entry_direction_ne_zero ms h_mono
  have h_post :
      (∃ k, k ≤ description.length
        ∧ (matchFinal fixed_columns dag ms description sorting_key).order_key_prefix_descr
          = description.take k)
      ∧ (matchFinal fixed_columns dag ms description sorting_key).next_sort_key
        ≤ sorting_key.column_names.length
      ∧ ((matchFinal fixed_columns dag ms description sorting_key).read_direction ≠ 0 →
        1 ≤ (matchFinal fixed_columns dag ms description sorting_key).next_sort_key) := by
    unfold matchFinal
    apply matchLoop_induct _ _ _ _ _ _
      (fun s => s.order_key_prefix_descr = description.take s.next_description_column
        ∧ s.next_description_column ≤ description.length
        ∧ s.next_sort_key ≤ sorting_key.column_names.length
        ∧ (s.read_direction ≠ 0 → 1 ≤ s.next_sort_key))
      (fun s => (∃ k, k ≤ description.length ∧ s.order_key_prefix_descr = description.take k)
        ∧ s.next_sort_key ≤ sorting_key.column_names.length
        ∧ (s.read_direction ≠ 0 → 1 ≤ s.next_sort_key))
    · intro s h_s h_r1 h_r2
      exact matchStep_take _ _ _ _ _ _ s h_dir h_mono' h_r1 h_r2 h_s.1 h_s.2.2.2
    · intro s h_s _
      exact ⟨⟨_, h_s.2.1, h_s.1⟩, h_s.2.2.1, h_s.2.2.2⟩
    · simp [MatchState.init]
    · simp [MatchState.init]
  unfold buildInputOrderFromSortDescription at h_info
  simp only [] at h_info
  split at h_info
  · simp at h_info
  · rename_i h_some
    simp only [Option.some.injEq] at h_info
    subst h_info
    simp only [not_or] at h_some
    obtain ⟨⟨k, h_k, h_eq⟩, h_le, h_one⟩ := h_post
    refine ⟨⟨k, ?_, h_k, h_eq⟩, h_one h_some.1, h_le⟩
    rcases k with _ | k
    · rw [h_eq] at h_some
      simp at h_some
    · exact Nat.succ_le_succ (Nat.zero_le _)

/-- C11, at a concrete input: for the sort key `(a, b)` and `ORDER BY
intDiv(a, 10), b` the matched prefix is the first entry of the requirement
and one sort key column is consumed. -/
theorem matched_prefix_is_a_prefix_witness :
    (∃ k, 1 ≤ k ∧ k ≤ 2
      ∧ [ascending "intDiv(a, 10)"]
        = ([ascending "intDiv(a, 10)", ascending "b"] : SortDescription).take k)
    ∧ 1 ≤ 1 ∧ 1 ≤ 2 :=
  matched_prefix_is_a_prefix [] (some dagIntDivA) matchesIntDivA
    [ascending "intDiv(a, 10)", ascending "b"] sortingKeyAB ["a", "b"] 10
    { sort_description_for_merging := [ascending "intDiv(a, 10)"],
      used_prefix_of_sorting_key_size := 1, direction := 1, limit := 10 }
    (by decide)
    (by
      intro e he m hm
      simp only [matchesIntDivA, List.mem_cons, List.mem_singleton, List.not_mem_nil,
        or_false] at he
      rcases he with rfl | rfl | rfl | rfl
      · simp at hm
      · simp at hm
      · simp [default] at hm
      · simp only [Option.some.injEq] at hm
        subst hm
        decide)
    (by decide)
/-- The end of a turn records one thing and leaves the cursors, the recorded
matches and the virtual row flag as they were. -/
theorem reconcileDirection_consumed (s : MatchState) (e : SortColumnDescription) (cd : Int)
    (strict : Bool) (ev : Bool → Consumed) :
    ∃ b, (reconcileDirection s e cd strict ev).1.consumed = s.consumed ++ [ev b] := by
  rcases reconcileDirection_cases s e cd strict ev with ⟨_, _, _, h⟩ | ⟨_, _, h⟩ | ⟨_, h⟩
  · exact ⟨false, by rw [h]⟩
  · exact ⟨true, by rw [h]⟩
  · exact ⟨false, by rw [h]⟩

section VirtualRowFlag

variable (fixed_columns : FixedColumns) (dag : Option ActionsDAG) (ms : Matches)
  (fixed_key_columns : FixedColumns) (description : SortDescription)
  (sorting_key : KeyDescription)

/-- The virtual row flag is still set exactly when no requirement entry was
recorded as a fixed column that is not a constant and the first sort key
column was not skipped as a fixed column. -/
theorem matchStep_virtual_row (s : MatchState)
    (h : s.can_optimize_virtual_row = true
      ↔ (∀ mi ∈ s.match_infos, ∀ n, mi.fixed_column = some n →
          ((dag.getD sorting_key.expression).node n).column.isSome = true)
        ∧ Consumed.fixedKey 0 ∉ s.consumed) :
    (matchStep fixed_columns dag ms fixed_key_columns description sorting_key
        s).1.can_optimize_virtual_row = true
      ↔ (∀ mi ∈ (matchStep fixed_columns dag ms fixed_key_columns description sorting_key
            s).1.match_infos,
          ∀ n, mi.fixed_column = some n →
            ((dag.getD sorting_key.expression).node n).column.isSome = true)
        ∧ Consumed.fixedKey 0 ∉ (matchStep fixed_columns dag ms fixed_key_columns description
            sorting_key s).1.consumed := by
  have ht := matchStep_turn fixed_columns dag ms fixed_key_columns description sorting_key s
  generalize matchStep fixed_columns dag ms fixed_key_columns description sorting_key s = r at ht
  cases ht with
  | stop => exact h
  | matched sort_column_node source mono monotonic _ _ _ _ =>
    obtain ⟨b, h_c⟩ := reconcileDirection_consumed
      { s with
          match_infos := s.match_infos ++ [{ source := some source, fixed_column := none, monotonic := monotonic }],
          next_description_column := s.next_description_column + 1,
          next_sort_key := s.next_sort_key + 1 }
      (description.getD s.next_description_column default)
      ((description.getD s.next_description_column default).direction
        * reverseIndicator sorting_key s.next_sort_key * monotonicDirection mono)
      (monotonicStrict mono)
      (Consumed.byMatch s.next_description_column s.next_sort_key mono)
    rw [h_c]
    simp only [reconcileDirection_frame, List.mem_append, List.mem_singleton, not_or]
    rw [h]
    constructor
    · rintro ⟨h1, h2⟩
      refine ⟨fun mi hmi n hn => ?_, h2, by simp⟩
      rcases hmi with hmi | hmi
      · exact h1 mi hmi n hn
      · subst hmi
        simp at hn
    · rintro ⟨h1, h2, _⟩
      exact ⟨fun mi hmi n hn => h1 mi (Or.inl hmi) n hn, h2⟩
  | fixedKey _ _ _ _ _ _ _ _ _ =>
    obtain ⟨b, h_c⟩ := reconcileDirection_consumed
      { s with
          can_optimize_virtual_row := if s.next_sort_key = 0 then false else s.can_optimize_virtual_row,
          next_sort_key := s.next_sort_key + 1 }
      (description.getD s.next_description_column default) 0 true
      (fun _ => Consumed.fixedKey s.next_sort_key)
    rw [h_c]
    simp only [reconcileDirection_frame, List.mem_append, List.mem_singleton, not_or,
      Consumed.fixedKey.injEq]
    by_cases h0 : s.next_sort_key = 0
    · simp [h0]
    · rw [if_neg h0, h]
      constructor
      · rintro ⟨h1, h2⟩
        exact ⟨h1, h2, fun h' => h0 h'.symm⟩
      · rintro ⟨h1, h2, _⟩
        exact ⟨h1, h2⟩
  | fixedColumn d _ sort_node h_dag _ _ _ _ _ _ =>
    obtain ⟨b, h_c⟩ := reconcileDirection_consumed
      { s with
          can_optimize_virtual_row :=
            if (d.node sort_node).column.isSome then s.can_optimize_virtual_row else false,
          match_infos := s.match_infos ++ [{ source := some sort_node, fixed_column := some sort_node, monotonic := none }],
          order_key_prefix_descr := s.order_key_prefix_descr ++ [description.getD s.next_description_column default],
          next_description_column := s.next_description_column + 1 }
      (description.getD s.next_description_column default) 0 true
      (fun _ => Consumed.fixedColumn s.next_description_column)
    rw [h_c]
    subst h_dag
    simp only [reconcileDirection_frame, List.mem_append, List.mem_singleton, not_or,
      Option.getD_some]
    by_cases h0 : (d.node sort_node).column.isSome = true
    · rw [if_pos h0, h]
      constructor
      · rintro ⟨h1, h2⟩
        refine ⟨fun mi hmi n hn => ?_, h2, by simp⟩
        rcases hmi with hmi | hmi
        · exact h1 mi hmi n hn
        · subst hmi
          simp only [Option.some.injEq] at hn
          subst hn
          exact h0
      · rintro ⟨h1, h2, _⟩
        exact ⟨fun mi hmi n hn => h1 mi (Or.inl hmi) n hn, h2⟩
    · rw [if_neg h0]
      constructor
      · intro h'
        simp at h'
      · rintro ⟨h1, _⟩
        exact absurd (h1 _ (Or.inr rfl) sort_node rfl) h0

end VirtualRowFlag

/-- C13. When the ordered matcher returns a result, it also produces a virtual
row conversion if and only if the matched prefix covers the whole
requirement, no requirement entry was recorded as a fixed column that is not
a constant, the first sort key column was not skipped as a fixed column, and
there are at least as many primary key column names as sort key columns
consumed. -/
theorem virtual_row_iff (fixed_columns : FixedColumns) (dag : Option ActionsDAG)
    (ms : Matches) (description : SortDescription) (sorting_key : KeyDescription)
    (pk_column_names : List String) (limit : Nat) (info : InputOrderInfo)
    (h_info : (buildInputOrderFromSortDescription fixed_columns dag ms description sorting_key
      pk_column_names limit).input_order = some info) :
    (buildInputOrderFromSortDescription fixed_columns dag ms description sorting_key
      pk_column_names limit).virtual_row_conversion.isSome = true
    ↔ description.length ≤ info.sort_description_for_merging.length
      ∧ (∀ mi ∈ (matchFinal fixed_columns dag ms description sorting_key).match_infos,
          ∀ n, mi.fixed_column = some n →
            ((dag.getD sorting_key.expression).node n).column.isSome = true)
      ∧ Consumed.fixedKey 0 ∉ (matchFinal fixed_columns dag ms description sorting_key).consumed
      ∧ info.used_prefix_of_sorting_key_size ≤ pk_column_names.length := by
  have h_inv : (matchFinal fixed_columns dag ms description sorting_key).can_optimize_virtual_row
        = true
      ↔ (∀ mi ∈ (matchFinal fixed_columns dag ms description sorting_key).match_infos,
          ∀ n, mi.fixed_column = some n →
            ((dag.getD sorting_key.expression).node n).column.isSome = true)
        ∧ Consumed.fixedKey 0
          ∉ (matchFinal fixed_columns dag ms description sorting_key).consumed := by
    unfold matchFinal
    apply matchLoop_invariant _ _ _ _ _ _
      (fun s => s.can_optimize_virtual_row = true
        ↔ (∀ mi ∈ s.match_infos, ∀ n, mi.fixed_column = some n →
            ((dag.getD sorting_key.expression).node n).column.isSome = true)
          ∧ Consumed.fixedKey 0 ∉ s.consumed)
    · intro s h_s _ _
      exact matchStep_virtual_row _ _ _ _ _ _ s h_s
    · simp [MatchState.init]
  unfold buildInputOrderFromSortDescription at h_info ⊢
  simp only [] at h_info ⊢
  split at h_info
  · simp at h_info
  · rename_i h_some
    rw [if_neg h_some]
    simp only [Option.some.injEq] at h_info
    subst h_info
    simp only []
    by_cases h_short : (matchFinal fixed_columns dag ms description
          sorting_key).order_key_prefix_descr.length < description.length
        ∨ pk_column_names.length
          < (matchFinal fixed_columns dag ms description sorting_key).next_sort_key
    · rw [if_pos h_short]
      simp only [Bool.false_eq_true, if_false, Option.isSome_none, false_iff, not_and]
      intro h1 _ _
      omega
    · rw [if_neg h_short]
      simp only [not_or, Nat.not_lt] at h_short
      constructor
      · intro h
        have h_can : (matchFinal fixed_columns dag ms description
            sorting_key).can_optimize_virtual_row = true := by
          by_contra h_no
          simp [h_no] at h
        exact ⟨h_short.1, (h_inv.mp h_can).1, (h_inv.mp h_can).2, h_short.2⟩
      · rintro ⟨_, h2, h3, _⟩
        rw [h_inv.mpr ⟨h2, h3⟩]
        simp

/-- C13, at a concrete input: for the sort key `(a, b)`, the primary key
`(a, b)` and `ORDER BY a, b` without merged graph, a virtual row conversion
is produced. -/
theorem virtual_row_iff_witness :
    (buildInputOrderFromSortDescription [] none [] [ascending "a", ascending "b"] sortingKeyAB
      ["a", "b"] 10).virtual_row_conversion.isSome = true
    ↔ 2 ≤ 2
      ∧ (∀ mi ∈ (matchFinal [] none [] [ascending "a", ascending "b"] sortingKeyAB).match_infos,
          ∀ n, mi.fixed_column = some n →
            (((none : Option ActionsDAG).getD sortingKeyAB.expression).node n).column.isSome
              = true)
      ∧ Consumed.fixedKey 0
          ∉ (matchFinal [] none [] [ascending "a", ascending "b"] sortingKeyAB).consumed
      ∧ 2 ≤ 2 :=
  virtual_row_iff [] none [] [ascending "a", ascending "b"] sortingKeyAB ["a", "b"] 10
    { sort_description_for_merging := [ascending "a", ascending "b"],
      used_prefix_of_sorting_key_size := 2, direction := 1, limit := 10 }
    (by decide)
/-- C14, the code at the failing input.  A table with the sort key and primary
key `(a, b, c)`, read for `WHERE b = 5 ORDER BY a, c`: `a` matches the first
key column, `b` is skipped as a fixed column, `c` matches the third key
column, and a virtual row conversion is produced.  Its output `c` is an alias
of the input `b`, the second primary key column, not of the third: the loop
that builds the conversion counts the matched entries only and does not
count the fixed key column skipped between them. -/
theorem virtual_row_takes_the_skipped_key :
    (matchFinal fixedWhereB5 (some dagWhereB5) matchesWhereB5
        [ascending "a", ascending "c"] sortingKeyABC).consumed
      = [Consumed.byMatch 0 0 none true, Consumed.fixedKey 1, Consumed.byMatch 1 2 none true]
    ∧ (buildInputOrderFromSortDescription fixedWhereB5 (some dagWhereB5) matchesWhereB5
        [ascending "a", ascending "c"] sortingKeyABC ["a", "b", "c"] 0).virtual_row_conversion
      = some
          { nodes :=
              [inputNode "a", inputNode "b",
               { type := .ALIAS, result_name := "c", result_type := .Int32, column := none,
                 function_base := none, children := [1] }],
            inputs := [0, 1],
            outputs := [0, 2] } := by
  decide

section MissingColumn

variable (fixed_columns : FixedColumns) (dag : Option ActionsDAG) (ms : Matches)
  (fixed_key_columns : FixedColumns) (description : SortDescription)
  (sorting_key : KeyDescription)

/-- A sort key column that is absent from the outputs of the sort key graph ends
the turn of the ordered matcher before anything is changed. -/
theorem matchStep_missing_column (s : MatchState)
    (h : sorting_key.expression.tryFindInOutputs
      (sorting_key.column_names.getD s.next_sort_key "") = none) :
    matchStep fixed_columns dag ms fixed_key_columns description sorting_key s = (s, false) := by
  unfold matchStep
  simp only [h]
  split
  · rfl
  · split <;> rfl

/-- The sort key cursor of the ordered matcher never passes a sort key column
that is absent from the outputs of the sort key graph. -/
theorem matchLoop_missing_column (i : Nat)
    (h : sorting_key.expression.tryFindInOutputs (sorting_key.column_names.getD i "") = none)
    (fuel : Nat) (s : MatchState) (h_s : s.next_sort_key ≤ i) :
    (matchLoop fixed_columns dag ms fixed_key_columns description sorting_key fuel
      s).next_sort_key ≤ i := by
  apply matchLoop_invariant _ _ _ _ _ _ (fun s => s.next_sort_key ≤ i) _ fuel s h_s
  intro s h_le _ _
  rcases Nat.lt_or_eq_of_le h_le with h_lt | h_eq
  · have := (matchStep_cursors fixed_columns dag ms fixed_key_columns description sorting_key
      s).2.2.2.1
    omega
  · subst h_eq
    rw [matchStep_missing_column _ _ _ _ _ _ s h]

end MissingColumn

section MissingColumnUnordered

variable (dag : Option ActionsDAG) (reverse_matches : ReverseMatches)
  (fixed_key_columns : FixedColumns) (sorting_key_dag : ActionsDAG)
  (sorting_key_columns : List String)

/-- A sort key column that is absent from the outputs of the sort key graph ends
the turn of the unordered matcher before anything is changed. -/
theorem unorderedStep_missing_column (s : UnorderedState)
    (h : sorting_key_dag.tryFindInOutputs (sorting_key_columns.getD s.next_sort_key "") = none) :
    unorderedStep dag reverse_matches fixed_key_columns sorting_key_dag sorting_key_columns s
      = (s, false) := by
  unfold unorderedStep
  simp only [h]

/-- The sort key cursor of the unordered matcher never passes a sort key column
that is absent from the outputs of the sort key graph. -/
theorem unorderedLoop_missing_column (i : Nat)
    (h : sorting_key_dag.tryFindInOutputs (sorting_key_columns.getD i "") = none)
    (fuel : Nat) (s : UnorderedState) (h_s : s.next_sort_key ≤ i) :
    (unorderedLoop dag reverse_matches fixed_key_columns sorting_key_dag sorting_key_columns fuel
      s).next_sort_key ≤ i := by
  apply unorderedLoop_invariant _ _ _ _ _ (fun s => s.next_sort_key ≤ i) _ fuel s h_s
  intro s h_le _
  rcases Nat.lt_or_eq_of_le h_le with h_lt | h_eq
  · rcases unorderedStep_turn dag reverse_matches fixed_key_columns sorting_key_dag
      sorting_key_columns s with h' | ⟨_, _, _, _, h'⟩ | h'
    · rw [h']; exact h_le
    · rw [h', reconcileUnordered_cursor]; exact h_lt
    · rw [h', reconcileUnordered_cursor]; exact h_lt
  · subst h_eq
    rw [unorderedStep_missing_column _ _ _ _ _ s h]

end MissingColumnUnordered

/-- C15, as the code has it.  If the declared sort key lists, at position `i`,
a column that is absent from the outputs of its own defining graph, neither
matcher reports an error: the turn that meets the column leaves every local
variable as it was and ends the loop (`break`), and the matcher returns the
match or no match established before that column, so that at most `i` sort
key columns are reported as consumed. -/
theorem missing_key_column_stops_matching (fixed_columns : FixedColumns)
    (dag : Option ActionsDAG) (ms : Matches) (description : SortDescription)
    (sorting_key : KeyDescription) (pk_column_names : List String) (limit : Nat)
    (unordered_keys : List String) (i : Nat)
    (h : sorting_key.expression.tryFindInOutputs (sorting_key.column_names.getD i "") = none) :
    (∀ fixed_key_columns (s : MatchState), s.next_sort_key = i →
      matchStep fixed_columns dag ms fixed_key_columns description sorting_key s = (s, false))
    ∧ (∀ reverse_matches fixed_key_columns (s : UnorderedState), s.next_sort_key = i →
      unorderedStep dag reverse_matches fixed_key_columns sorting_key.expression
        sorting_key.column_names s = (s, false))
    ∧ (∀ info,
      (buildInputOrderFromSortDescription fixed_columns dag ms description sorting_key
        pk_column_names limit).input_order = some info →
      info.used_prefix_of_sorting_key_size ≤ i)
    ∧ (∀ info,
      (buildInputOrderFromUnorderedKeys fixed_columns dag ms unordered_keys
        sorting_key.expression sorting_key.column_names).input_order = some info →
      info.used_prefix_of_sorting_key_size ≤ i) := by
  refine ⟨fun fk s h_s => ?_, fun rm fk s h_s => ?_, fun info h_info => ?_, fun info h_info => ?_⟩
  · subst h_s
    exact matchStep_missing_column _ _ _ _ _ _ s h
  · subst h_s
    exact unorderedStep_missing_column _ _ _ _ _ s h
  · have h_le : (matchFinal fixed_columns dag ms description sorting_key).next_sort_key ≤ i := by
      unfold matchFinal
      exact matchLoop_missing_column _ _ _ _ _ _ i h _ _ (Nat.zero_le _)
    unfold buildInputOrderFromSortDescription at h_info
    simp only [] at h_info
    split at h_info
    · simp at h_info
    · simp only [Option.some.injEq] at h_info
      subst h_info
      exact h_le
  · have h_le : (unorderedFinal fixed_columns dag ms unordered_keys sorting_key.expression
        sorting_key.column_names).next_sort_key ≤ i := by
      unfold unorderedFinal
      exact unorderedLoop_missing_column _ _ _ _ _ i h _ _ (Nat.zero_le _)
    unfold buildInputOrderFromUnorderedKeys at h_info
    simp only [] at h_info
    split at h_info
    · simp at h_info
    · simp only [Option.some.injEq] at h_info
      subst h_info
      exact h_le

/-- C15, at a concrete input: for a sort key that lists `a` and the absent
column `z` and for `ORDER BY a, z`, the turn after the match of `a` changes
nothing and ends the loop, and one sort key column is reported as consumed. -/
theorem missing_key_column_stops_matching_witness :
    matchStep [] none [] [] [ascending "a", ascending "z"] sortingKeyMissing
        (matchStep [] none [] [] [ascending "a", ascending "z"] sortingKeyMissing
          MatchState.init).1
      = ((matchStep [] none [] [] [ascending "a", ascending "z"] sortingKeyMissing
          MatchState.init).1, false)
    ∧ (1 : Nat) ≤ 1 :=
  ⟨(missing_key_column_stops_matching [] none [] [ascending "a", ascending "z"]
      sortingKeyMissing ["a", "z"] 10 ["a", "z"] 1 (by decide)).1 []
      (matchStep [] none [] [] [ascending "a", ascending "z"] sortingKeyMissing
        MatchState.init).1 (by decide),
    (missing_key_column_stops_matching [] none [] [ascending "a", ascending "z"]
      sortingKeyMissing ["a", "z"] 10 ["a", "z"] 1 (by decide)).2.2.1
      { sort_description_for_merging := [ascending "a"], used_prefix_of_sorting_key_size := 1,
        direction := 1, limit := 10 }
      (by decide)⟩

/-- C15, a sort key for which the claim fails.  The sort key lists `a` and a
column `z` that is absent from the outputs of its defining graph.  For `ORDER
BY a, z` the ordered matcher returns a match, the prefix `(a)` read in
direction 1, and for `GROUP BY a, z` the unordered matcher returns a match
with the sort description `(a)`: both return an ordinary result, and no error
is reported. -/
theorem missing_key_column_is_no_error :
    (buildInputOrderFromSortDescription [] none [] [ascending "a", ascending "z"]
      sortingKeyMissing ["a", "z"] 10).input_order
      = some { sort_description_for_merging := [ascending "a"],
               used_prefix_of_sorting_key_size := 1, direction := 1, limit := 10 }
    ∧ buildInputOrderFromUnorderedKeys [] none [] ["a", "z"] sortingKeyMissing.expression
        sortingKeyMissing.column_names
      = { input_order := some
            { sort_description_for_merging := [SortColumnDescription.ofName "a" 1],
              used_prefix_of_sorting_key_size := 1, direction := 1, limit := 0 },
          sort_description := [SortColumnDescription.ofName "a" 1] } := by
  decide
theorem mem_eraseDups_loop (as bs : List String) (x : String) :
    x ∈ List.eraseDups.loop as bs ↔ x ∈ as ∨ x ∈ bs := by
  induction as generalizing bs with
  | nil => simp [List.eraseDups.loop]
  | cons a as ih =>
    rw [List.eraseDups.loop]
    split
    · rename_i h_in
      rw [ih]
      have h_a : a ∈ bs := by simpa using h_in
      constructor
      · rintro (h | h)
        · exact Or.inl (List.mem_cons_of_mem _ h)
        · exact Or.inr h
      · rintro (h | h)
        · rcases List.mem_cons.mp h with h | h
          · subst h; exact Or.inr h_a
          · exact Or.inl h
        · exact Or.inr h
    · rw [ih]
      simp only [List.mem_cons]
      constructor
      · rintro (h | h | h)
        · exact Or.inl (Or.inr h)
        · exact Or.inl (Or.inl h)
        · exact Or.inr h
      · rintro ((h | h) | h)
        · exact Or.inr (Or.inl h)
        · exact Or.inl h
        · exact Or.inr (Or.inr h)

/-- The set of keys not matched yet holds the required keys at the start. -/
theorem mem_eraseDups (as : List String) (x : String) : x ∈ as.eraseDups ↔ x ∈ as := by
  unfold List.eraseDups
  rw [mem_eraseDups_loop]
  simp

section UnorderedCover

variable (dag : Option ActionsDAG) (reverse_matches : ReverseMatches)
  (fixed_key_columns : FixedColumns) (sorting_key_dag : ActionsDAG)
  (sorting_key_columns : List String) (unordered_keys : List String)

/-- A turn of the unordered matcher keeps the sort description within the
required keys: its columns are required keys, pairwise different and no
longer in the set of keys not matched yet, and there are at most as many as
sort key columns consumed. -/
theorem unorderedStep_covers (s : UnorderedState)
    (h_keys : ∀ e ∈ s.sort_description, e.column_name ∈ unordered_keys)
    (h_nodup : (s.sort_description.map (fun e => e.column_name)).Nodup)
    (h_gone : ∀ e ∈ s.sort_description, e.column_name ∉ s.not_matched_keys)
    (h_left : ∀ k ∈ s.not_matched_keys, k ∈ unordered_keys)
    (h_len : s.sort_description.length ≤ s.next_sort_key) :
    (∀ e ∈ (unorderedStep dag reverse_matches fixed_key_columns sorting_key_dag
        sorting_key_columns s).1.sort_description, e.column_name ∈ unordered_keys)
    ∧ ((unorderedStep dag reverse_matches fixed_key_columns sorting_key_dag
        sorting_key_columns s).1.sort_description.map (fun e => e.column_name)).Nodup
    ∧ (∀ e ∈ (unorderedStep dag reverse_matches fixed_key_columns sorting_key_dag
        sorting_key_columns s).1.sort_description,
      e.column_name ∉ (unorderedStep dag reverse_matches fixed_key_columns sorting_key_dag
        sorting_key_columns s).1.not_matched_keys)
    ∧ (∀ k ∈ (unorderedStep dag reverse_matches fixed_key_columns sorting_key_dag
        sorting_key_columns s).1.not_matched_keys, k ∈ unordered_keys)
    ∧ (unorderedStep dag reverse_matches fixed_key_columns sorting_key_dag
        sorting_key_columns s).1.sort_description.length
      ≤ (unorderedStep dag reverse_matches fixed_key_columns sorting_key_dag
        sorting_key_columns s).1.next_sort_key := by
  have h_rec : ∀ (gbk skc : String) (cd : Int) (strict : Bool) (ev : Bool → ConsumedKey),
      gbk ∈ s.not_matched_keys ∨ cd = 0 →
      (∀ e ∈ (reconcileUnordered { s with next_sort_key := s.next_sort_key + 1 } skc gbk cd strict
          ev).1.sort_description, e.column_name ∈ unordered_keys)
      ∧ ((reconcileUnordered { s with next_sort_key := s.next_sort_key + 1 } skc gbk cd strict
          ev).1.sort_description.map (fun e => e.column_name)).Nodup
      ∧ (∀ e ∈ (reconcileUnordered { s with next_sort_key := s.next_sort_key + 1 } skc gbk cd
          strict ev).1.sort_description,
        e.column_name ∉ (reconcileUnordered { s with next_sort_key := s.next_sort_key + 1 } skc
          gbk cd strict ev).1.not_matched_keys)
      ∧ (∀ k ∈ (reconcileUnordered { s with next_sort_key := s.next_sort_key + 1 } skc gbk cd
          strict ev).1.not_matched_keys, k ∈ unordered_keys)
      ∧ (reconcileUnordered { s with next_sort_key := s.next_sort_key + 1 } skc gbk cd strict
          ev).1.sort_description.length
        ≤ (reconcileUnordered { s with next_sort_key := s.next_sort_key + 1 } skc gbk cd strict
          ev).1.next_sort_key := by
    intro gbk skc cd strict ev h_in
    rcases reconcileUnordered_cases { s with next_sort_key := s.next_sort_key + 1 } skc gbk cd
      strict ev with ⟨_, _, _, h⟩ | ⟨hcd, _, h⟩ | ⟨_, h⟩
    · rw [h]
      exact ⟨h_keys, h_nodup, h_gone, h_left, Nat.le_succ_of_le h_len⟩
    · rw [h]
      have h_gbk : gbk ∈ s.not_matched_keys := by
        rcases h_in with h_in | h_in
        · exact h_in
        · exact absurd h_in hcd
      refine ⟨?_, ?_, ?_, ?_, ?_⟩
      · intro e he
        simp only [List.mem_append, List.mem_singleton] at he
        rcases he with he | he
        · exact h_keys e he
        · subst he
          exact h_left gbk h_gbk
      · simp only [List.map_append, List.map_cons, List.map_nil]
        rw [List.nodup_append]
        refine ⟨h_nodup, List.nodup_singleton _, ?_⟩
        intro x hx hx'
        simp only [List.mem_singleton] at hx'
        subst hx'
        obtain ⟨e, he, h_eq⟩ := List.mem_map.mp hx
        apply h_gone e he
        rw [h_eq]
        exact h_gbk
      · intro e he
        simp only [List.mem_append, List.mem_singleton] at he
        simp only [List.mem_filter, not_and]
        rcases he with he | he
        · intro h_mem
          exact absurd h_mem (h_gone e he)
        · subst he
          intro _
          simp [SortColumnDescription.ofName]
      · intro k hk
        exact h_left k (List.mem_filter.mp hk).1
      · simp only [List.length_append, List.length_singleton]
        exact Nat.succ_le_succ h_len
    · rw [h]
      exact ⟨h_keys, h_nodup, h_gone, h_left, Nat.le_succ_of_le h_len⟩
  rcases unorderedStep_turn dag reverse_matches fixed_key_columns sorting_key_dag
    sorting_key_columns s with h | ⟨gbk, mono, h_in, _, h⟩ | h
  · rw [h]
    exact ⟨h_keys, h_nodup, h_gone, h_left, h_len⟩
  · rw [h]
    exact h_rec _ _ _ _ _ (Or.inl h_in)
  · rw [h]
    exact h_rec _ _ _ _ _ (Or.inr rfl)

end UnorderedCover

/-- C20. Whenever `buildInputOrderFromUnorderedKeys` returns a result, the sort
description it returns covers only matched keys: it is not empty, every
column in it is one of the required keys, no key appears twice, its length
is at most the number of sort key columns consumed, and the `InputOrderInfo`
reports the direction +1 and the limit 0. -/
theorem unordered_result_covers_matched_keys (fixed_columns : FixedColumns)
    (dag : Option ActionsDAG) (ms : Matches) (unordered_keys : List String)
    (sorting_key_dag : ActionsDAG) (sorting_key_columns : List String) (info : InputOrderInfo)
    (h_info : (buildInputOrderFromUnorderedKeys fixed_columns dag ms unordered_keys
      sorting_key_dag sorting_key_columns).input_order = some info) :
    (buildInputOrderFromUnorderedKeys fixed_columns dag ms unordered_keys sorting_key_dag
      sorting_key_columns).sort_description ≠ []
    ∧ (∀ e ∈ (buildInputOrderFromUnorderedKeys fixed_columns dag ms unordered_keys
        sorting_key_dag sorting_key_columns).sort_description, e.column_name ∈ unordered_keys)
    ∧ ((buildInputOrderFromUnorderedKeys fixed_columns dag ms unordered_keys sorting_key_dag
        sorting_key_columns).sort_description.map (fun e => e.column_name)).Nodup
    ∧ (buildInputOrderFromUnorderedKeys fixed_columns dag ms unordered_keys sorting_key_dag
        sorting_key_columns).sort_description.length ≤ info.used_prefix_of_sorting_key_size
    ∧ info.direction = 1
    ∧ info.limit = 0 := by
  have h_inv :
      (∀ e ∈ (unorderedFinal fixed_columns dag ms unordered_keys sorting_key_dag
          sorting_key_columns).sort_description, e.column_name ∈ unordered_keys)
      ∧ ((unorderedFinal fixed_columns dag ms unordered_keys sorting_key_dag
          sorting_key_columns).sort_description.map (fun e => e.column_name)).Nodup
      ∧ (∀ e ∈ (unorderedFinal fixed_columns dag ms unordered_keys sorting_key_dag
          sorting_key_columns).sort_description,
        e.column_name ∉ (unorderedFinal fixed_columns dag ms unordered_keys sorting_key_dag
          sorting_key_columns).not_matched_keys)
      ∧ (∀ k ∈ (unorderedFinal fixed_columns dag ms unordered_keys sorting_key_dag
          sorting_key_columns).not_matched_keys, k ∈ unordered_keys)
      ∧ (unorderedFinal fixed_columns dag ms unordered_keys sorting_key_dag
          sorting_key_columns).sort_description.length
        ≤ (unorderedFinal fixed_columns dag ms unordered_keys sorting_key_dag
          sorting_key_columns).next_sort_key := by
    unfold unorderedFinal
    apply unorderedLoop_invariant _ _ _ _ _
      (fun s => (∀ e ∈ s.sort_description, e.column_name ∈ unordered_keys)
        ∧ (s.sort_description.map (fun e => e.column_name)).Nodup
        ∧ (∀ e ∈ s.sort_description, e.column_name ∉ s.not_matched_keys)
        ∧ (∀ k ∈ s.not_matched_keys, k ∈ unordered_keys)
        ∧ s.sort_description.length ≤ s.next_sort_key)
    · intro s h_s _
      exact unorderedStep_covers _ _ _ _ _ _ s h_s.1 h_s.2.1 h_s.2.2.1 h_s.2.2.2.1 h_s.2.2.2.2
    · refine ⟨by simp [UnorderedState.init], by simp [UnorderedState.init],
        by simp [UnorderedState.init], ?_, by simp [UnorderedState.init]⟩
      intro k hk
      exact (mem_eraseDups _ _).mp hk
  unfold buildInputOrderFromUnorderedKeys at h_info ⊢
  simp only [] at h_info ⊢
  split at h_info
  · simp at h_info
  · rename_i h_some
    rw [if_neg h_some]
    simp only [Option.some.injEq] at h_info
    subst h_info
    simp only [not_or] at h_some
    refine ⟨?_, h_inv.1, h_inv.2.1, h_inv.2.2.2.2, rfl, rfl⟩
    intro h_nil
    have h_empty : (unorderedFinal fixed_columns dag ms unordered_keys sorting_key_dag
        sorting_key_columns).sort_description = [] := h_nil
    rw [h_empty] at h_some
    simp at h_some

/-- C20, at a concrete input: `GROUP BY c, a` over the sort key `(a, b)`
without merged graph returns the sort description `(a)`. -/
theorem unordered_result_covers_matched_keys_witness :
    (buildInputOrderFromUnorderedKeys [] none [] ["c", "a"] sortingKeyAB.expression
      sortingKeyAB.column_names).sort_description ≠ []
    ∧ (∀ e ∈ (buildInputOrderFromUnorderedKeys [] none [] ["c", "a"] sortingKeyAB.expression
        sortingKeyAB.column_names).sort_description, e.column_name ∈ ["c", "a"])
    ∧ ((buildInputOrderFromUnorderedKeys [] none [] ["c", "a"] sortingKeyAB.expression
        sortingKeyAB.column_names).sort_description.map (fun e => e.column_name)).Nodup
    ∧ (buildInputOrderFromUnorderedKeys [] none [] ["c", "a"] sortingKeyAB.expression
        sortingKeyAB.column_names).sort_description.length ≤ 1
    ∧ (1 : Int) = 1
    ∧ (0 : Nat) = 0 :=
  unordered_result_covers_matched_keys [] none [] ["c", "a"] sortingKeyAB.expression
    sortingKeyAB.column_names
    { sort_description_for_merging := [SortColumnDescription.ofName "a" 1],
      used_prefix_of_sorting_key_size := 1, direction := 1, limit := 0 }
    (by decide)

theorem lookup_append_single {β : Type} (l : List (Nat × β)) (k k' : Nat) (v : β) :
    (l ++ [(k, v)]).lookup k' =
      match l.lookup k' with
      | some x => some x
      | none => if k' = k then some v else none := by
  induction l with
  | nil =>
    simp only [List.nil_append, List.lookup]
    by_cases h : k' = k
    · subst h; simp
    · have : (k' == k) = false := by simpa using h
      simp [this, h]
  | cons e es ih =>
    obtain ⟨a, b⟩ := e
    simp only [List.cons_append, List.lookup]
    cases h : k' == a with
    | true => simp
    | false => simpa using ih

theorem lookup_map_replace {β : Type} (l : List (Nat × β)) (k k' : Nat) (v : β) :
    (l.map (fun e => if e.1 = k then (k, v) else e)).lookup k' =
      if k' = k then (l.lookup k).map (fun _ => v) else l.lookup k' := by
  induction l with
  | nil => simp
  | cons e es ih =>
    obtain ⟨a, b⟩ := e
    rw [List.map_cons]
    by_cases h_a : a = k
    · subst h_a
      rw [if_pos rfl]
      by_cases h : k' = a
      · subst h
        simp [List.lookup]
      · have h_ne : (k' == a) = false := by simpa using h
        simp only [List.lookup, h_ne, if_neg h]
        rw [ih, if_neg h]
    · rw [if_neg h_a]
      by_cases h : k' = k
      · subst h
        have h_ne : (k' == a) = false := by
          simp only [beq_eq_false_iff_ne, ne_eq]
          exact fun h => h_a h.symm
        simp only [List.lookup, h_ne, if_true]
        rw [ih, if_pos rfl]
      · simp only [List.lookup, if_neg h]
        cases h_b : k' == a with
        | true => rfl
        | false =>
          simp only []
          rw [ih, if_neg h]

/-- The test `is_better` of the loop that fills the reverse matches holds
exactly when the new match ranks strictly higher than the one retained. -/
theorem is_better_iff_rank (prev_match match_ : Match) :
    (let is_better := prev_match.monotonicity.isSome && match_.monotonicity.isNone
     if !is_better then
       match prev_match.monotonicity, match_.monotonicity with
       | some prev_monotonicity, some monotonicity => monotonicity.strict && !prev_monotonicity.strict
       | _, _ => false
     else is_better) = true
    ↔ matchRank prev_match < matchRank match_ := by
  obtain ⟨n1, m1⟩ := prev_match
  obtain ⟨n2, m2⟩ := match_
  cases m1 with
  | none =>
    cases m2 with
    | none => simp [matchRank]
    | some b =>
      simp only [matchRank]
      cases b.strict <;> simp
  | some a =>
    cases m2 with
    | none =>
      simp only [matchRank]
      cases a.strict <;> simp
    | some b =>
      simp only [matchRank]
      cases a.strict <;> cases b.strict <;> simp

section ReverseMatches

variable (ms : Matches)

theorem reverseMatchesStep_inv (seen : List Nat) (reverse_matches : ReverseMatches) (o : Nat)
    (h : ReverseMatchesInv ms seen reverse_matches) :
    ReverseMatchesInv ms (seen ++ [o]) (reverseMatchesStep ms reverse_matches o) := by
  obtain ⟨h_best, h_from⟩ := h
  unfold reverseMatchesStep
  simp only []
  split
  · rename_i h_none
    refine ⟨?_, ?_⟩
    · intro o' ho' k hk
      rcases List.mem_append.mp ho' with ho' | ho'
      · exact h_best o' ho' k hk
      · simp only [List.mem_singleton] at ho'
        subst ho'
        rw [h_none] at hk
        exact absurd hk (by simp)
    · intro k found h_found
      obtain ⟨h1, h2, h3⟩ := h_from k found h_found
      exact ⟨List.mem_append_left _ h1, h2, h3⟩
  · rename_i key_node h_key
    split
    · rename_i h_lookup
      refine ⟨?_, ?_⟩
      · intro o' ho' k hk
        rcases List.mem_append.mp ho' with ho' | ho'
        · obtain ⟨found, h_found, h_rank⟩ := h_best o' ho' k hk
          refine ⟨found, ?_, h_rank⟩
          rw [lookup_append_single, h_found]
        · simp only [List.mem_singleton] at ho'
          subst ho'
          rw [h_key] at hk
          simp only [Option.some.injEq] at hk
          subst hk
          refine ⟨(o', ms.entry o'), ?_, le_refl _⟩
          rw [lookup_append_single, h_lookup]
          simp
      · intro k found h_found
        rw [lookup_append_single] at h_found
        cases h_k : List.lookup k reverse_matches with
        | some x =>
          rw [h_k] at h_found
          simp only [Option.some.injEq] at h_found
          subst h_found
          obtain ⟨h1, h2, h3⟩ := h_from k x h_k
          exact ⟨List.mem_append_left _ h1, h2, h3⟩
        | none =>
          rw [h_k] at h_found
          simp only [] at h_found
          split at h_found
          · rename_i h_eq
            simp only [Option.some.injEq] at h_found
            subst h_found
            subst h_eq
            exact ⟨by simp, rfl, h_key⟩
          · exact absurd h_found (by simp)
    · rename_i prev h_lookup
      have h_prev := h_from key_node prev h_lookup
      have h_iff := is_better_iff_rank prev.2 (ms.entry o)
      simp only [] at h_iff
      by_cases h_lt : matchRank prev.2 < matchRank (ms.entry o)
      · rw [if_pos (h_iff.mpr h_lt)]
        refine ⟨?_, ?_⟩
        · intro o' ho' k hk
          rcases List.mem_append.mp ho' with ho' | ho'
          · obtain ⟨found, h_found, h_rank⟩ := h_best o' ho' k hk
            rw [lookup_map_replace]
            by_cases h_k : k = key_node
            · subst h_k
              rw [if_pos rfl, h_lookup]
              refine ⟨(o, ms.entry o), rfl, ?_⟩
              rw [h_lookup] at h_found
              simp only [Option.some.injEq] at h_found
              subst h_found
              exact le_of_lt (lt_of_le_of_lt h_rank h_lt)
            · rw [if_neg h_k]
              exact ⟨found, h_found, h_rank⟩
          · simp only [List.mem_singleton] at ho'
            subst ho'
            rw [h_key] at hk
            simp only [Option.some.injEq] at hk
            subst hk
            rw [lookup_map_replace, if_pos rfl, h_lookup]
            exact ⟨(o', ms.entry o'), rfl, le_refl _⟩
        · intro k found h_found
          rw [lookup_map_replace] at h_found
          split at h_found
          · rename_i h_k
            subst h_k
            rw [h_lookup] at h_found
            simp only [Option.map_some', Option.some.injEq] at h_found
            subst h_found
            exact ⟨by simp, rfl, h_key⟩
          · obtain ⟨h1, h2, h3⟩ := h_from k found h_found
            exact ⟨List.mem_append_left _ h1, h2, h3⟩
      · rw [if_neg (fun h_better => h_lt (h_iff.mp h_better))]
        have h_le : matchRank (ms.entry o) ≤ matchRank prev.2 := Nat.le_of_not_lt h_lt
        refine ⟨?_, ?_⟩
        · intro o' ho' k hk
          rcases List.mem_append.mp ho' with ho' | ho'
          · exact h_best o' ho' k hk
          · simp only [List.mem_singleton] at ho'
            subst ho'
            rw [h_key] at hk
            simp only [Option.some.injEq] at hk
            subst hk
            exact ⟨prev, h_lookup, h_le⟩
        · intro k found h_found
          obtain ⟨h1, h2, h3⟩ := h_from k found h_found
          exact ⟨List.mem_append_left _ h1, h2, h3⟩

theorem reverseMatches_foldl_inv (outputs seen : List Nat) (reverse_matches : ReverseMatches)
    (h : ReverseMatchesInv ms seen reverse_matches) :
    ReverseMatchesInv ms (seen ++ outputs)
      (outputs.foldl (reverseMatchesStep ms) reverse_matches) := by
  induction outputs generalizing seen reverse_matches with
  | nil => simpa using h
  | cons o os ih =>
    rw [List.foldl_cons]
    have h_next := ih (seen ++ [o]) _ (reverseMatchesStep_inv ms seen reverse_matches o h)
    simpa using h_next

end ReverseMatches

/-- C19. For every sort key graph node `k` matched by an output `o` of the
merged graph, the reverse index of `buildInputOrderFromUnorderedKeys` holds an
entry for `k`; the entry is an output of the merged graph that matches `k`,
with its match, and it is best under the ranking direct match > strict
monotonic match > non-strict monotonic match: `o` does not rank strictly
higher than it. -/
theorem reverse_index_holds_best_match (dag : ActionsDAG) (ms : Matches) (o k : Nat)
    (h_output : o ∈ dag.outputs) (h_match : (ms.entry o).node = some k) :
    ∃ found, (buildReverseMatches dag ms).lookup k = some found
      ∧ found.1 ∈ dag.outputs
      ∧ found.2 = ms.entry found.1
      ∧ (ms.entry found.1).node = some k
      ∧ ¬ matchRank found.2 < matchRank (ms.entry o) := by
  have h_inv := reverseMatches_foldl_inv ms dag.outputs [] []
    ⟨by simp, by simp⟩
  simp only [List.nil_append] at h_inv
  obtain ⟨found, h_found, h_rank⟩ := h_inv.1 o h_output k h_match
  obtain ⟨h1, h2, h3⟩ := h_inv.2 k found h_found
  exact ⟨found, h_found, h1, h2, h3, Nat.not_lt.mpr h_rank⟩

/-- C19, at a concrete input: of the outputs `intDiv(a, 2)`, `negate(a)` and `a`
that match the sort key column `a`, the direct match is retained. -/
theorem reverse_index_holds_best_match_witness :
    (buildReverseMatches dagThreeMatches matchesThreeMatches).lookup 0
      = some (0, { node := some 0, monotonicity := none })
    ∧ ∃ found, (buildReverseMatches dagThreeMatches matchesThreeMatches).lookup 0 = some found
      ∧ found.1 ∈ dagThreeMatches.outputs
      ∧ found.2 = matchesThreeMatches.entry found.1
      ∧ (matchesThreeMatches.entry found.1).node = some 0
      ∧ ¬ matchRank found.2 < matchRank (matchesThreeMatches.entry 3) :=
  ⟨by decide,
    reverse_index_holds_best_match dagThreeMatches matchesThreeMatches 3 0 (by decide) (by decide)⟩

theorem takeWhile_agree {α : Type} (p q : α → Bool) (l : List α)
    (h : ∀ x ∈ l, p x = q x) : l.takeWhile p = l.takeWhile q := by
  induction l with
  | nil => rfl
  | cons x xs ih =>
    simp only [List.takeWhile_cons]
    rw [h x (List.mem_cons_self _ _), ih (fun y hy => h y (List.mem_cons_of_mem _ hy))]

theorem isRequiredInput_agree (sorting_key_dag : ActionsDAG) (keys keys' : List String)
    (column : String) (h : column ∈ keys ↔ column ∈ keys') :
    isRequiredInput sorting_key_dag keys column = isRequiredInput sorting_key_dag keys' column := by
  unfold isRequiredInput
  have h_contains : keys.contains column = keys'.contains column := by
    rw [Bool.eq_iff_iff]
    simpa using h
  rw [h_contains]

/-- Over pairwise different sort key columns the columns taken are the longest
run of leading columns that are inputs with a name among the keys. -/
theorem leadingRun_eq_takeWhile (sorting_key_dag : ActionsDAG) (keys columns : List String)
    (h_nodup : columns.Nodup) :
    leadingRun sorting_key_dag keys columns
      = columns.takeWhile (isRequiredInput sorting_key_dag keys) := by
  induction columns generalizing keys with
  | nil => rfl
  | cons c cs ih =>
    rw [leadingRun, List.takeWhile_cons]
    obtain ⟨h_c, h_cs⟩ := List.nodup_cons.mp h_nodup
    cases h_good : isRequiredInput sorting_key_dag keys c with
    | false => simp
    | true =>
      simp only [if_true]
      rw [ih _ h_cs]
      congr 1
      apply takeWhile_agree
      intro x hx
      apply isRequiredInput_agree
      have h_ne : x ≠ c := fun h_eq => h_c (h_eq ▸ hx)
      simp [h_ne]

section UnorderedNoDag

variable (reverse_matches : ReverseMatches) (fixed_key_columns : FixedColumns)
  (sorting_key_dag : ActionsDAG) (sorting_key_columns : List String)

/-- Without merged graph, a turn of the unordered matcher takes the sort key
column under the cursor if it is an input with a name among the keys left,
and ends the loop otherwise. -/
theorem unorderedStep_no_dag (s : UnorderedState)
    (h_direction : s.read_direction = 0 ∨ s.read_direction = 1) :
    unorderedStep none reverse_matches fixed_key_columns sorting_key_dag sorting_key_columns s
      = if isRequiredInput sorting_key_dag s.not_matched_keys
            (sorting_key_columns.getD s.next_sort_key "") then
          ({ s with
              next_sort_key := s.next_sort_key + 1,
              read_direction := 1,
              sort_description := s.sort_description
                ++ [SortColumnDescription.ofName (sorting_key_columns.getD s.next_sort_key "") 1],
              order_key_prefix_descr := s.order_key_prefix_descr
                ++ [SortColumnDescription.ofName (sorting_key_columns.getD s.next_sort_key "") 1],
              not_matched_keys := s.not_matched_keys.filter
                (fun k => k ≠ sorting_key_columns.getD s.next_sort_key ""),
              consumed := s.consumed
                ++ [ConsumedKey.byMatch (sorting_key_columns.getD s.next_sort_key "")
                      s.next_sort_key none true] }, true)
        else (s, false) := by
  unfold unorderedStep isRequiredInput
  simp only []
  cases h_find : sorting_key_dag.tryFindInOutputs (sorting_key_columns.getD s.next_sort_key "") with
  | none => simp
  | some n =>
    simp only []
    by_cases h_type : (sorting_key_dag.node n).type = .INPUT
    · by_cases h_in : s.not_matched_keys.contains (sorting_key_columns.getD s.next_sort_key "") = true
      · simp only [h_type, h_in, ne_eq, not_true_eq_false, if_false, Bool.not_true,
          decide_True, Bool.and_self, if_true]
        rcases reconcileUnordered_cases { s with next_sort_key := s.next_sort_key + 1 }
          (sorting_key_columns.getD s.next_sort_key "")
          (sorting_key_columns.getD s.next_sort_key "") 1 true
          (ConsumedKey.byMatch (sorting_key_columns.getD s.next_sort_key "") s.next_sort_key none)
          with ⟨_, h_ne, h_conflict, _⟩ | ⟨_, _, h⟩ | ⟨h0, _⟩
        · exfalso
          rcases h_direction with h | h
          · exact h_ne h
          · exact h_conflict h.symm
        · rw [h]
          simp
        · exact absurd h0 (by decide)
      · have h_out : s.not_matched_keys.contains (sorting_key_columns.getD s.next_sort_key "")
            = false := Bool.eq_false_iff.mpr h_in
        simp only [h_type, h_out, ne_eq, not_true_eq_false, if_false, Bool.not_false, if_true,
          decide_True, Bool.and_false, Bool.false_eq_true]
    · simp [h_type]

/-- Without merged graph the loop of the unordered matcher takes the columns
of `leadingRun` from the cursor on. -/
theorem unorderedLoop_no_dag (fuel : Nat) (s : UnorderedState)
    (h_direction : s.read_direction = 0 ∨ s.read_direction = 1)
    (h_fuel : sorting_key_columns.length ≤ s.next_sort_key + fuel) :
    (unorderedLoop none reverse_matches fixed_key_columns sorting_key_dag sorting_key_columns
        fuel s).sort_description
      = s.sort_description ++
        (leadingRun sorting_key_dag s.not_matched_keys
          (sorting_key_columns.drop s.next_sort_key)).map (fun c => SortColumnDescription.ofName c 1)
    ∧ (unorderedLoop none reverse_matches fixed_key_columns sorting_key_dag sorting_key_columns
        fuel s).order_key_prefix_descr
      = s.order_key_prefix_descr ++
        (leadingRun sorting_key_dag s.not_matched_keys
          (sorting_key_columns.drop s.next_sort_key)).map (fun c => SortColumnDescription.ofName c 1)
    ∧ (unorderedLoop none reverse_matches fixed_key_columns sorting_key_dag sorting_key_columns
        fuel s).next_sort_key
      = s.next_sort_key +
        (leadingRun sorting_key_dag s.not_matched_keys
          (sorting_key_columns.drop s.next_sort_key)).length
    ∧ (unorderedLoop none reverse_matches fixed_key_columns sorting_key_dag sorting_key_columns
        fuel s).read_direction
      = if leadingRun sorting_key_dag s.not_matched_keys
            (sorting_key_columns.drop s.next_sort_key) = [] then s.read_direction else 1 := by
  induction fuel generalizing s with
  | zero =>
    have h_drop : sorting_key_columns.drop s.next_sort_key = [] :=
      List.drop_eq_nil_iff.mpr (by omega)
    simp [unorderedLoop, h_drop, leadingRun]
  | succ fuel ih =>
    rw [unorderedLoop]
    by_cases h_cond : (!s.not_matched_keys.isEmpty) = true
        ∧ s.next_sort_key < sorting_key_columns.length
    · rw [if_pos h_cond]
      obtain ⟨_, h_lt⟩ := h_cond
      have h_drop : sorting_key_columns.drop s.next_sort_key
          = sorting_key_columns.getD s.next_sort_key ""
            :: sorting_key_columns.drop (s.next_sort_key + 1) := by
        rw [List.drop_eq_getElem_cons h_lt]
        congr 1
        simp [List.getD_eq_getElem?_getD, List.getElem?_eq_getElem h_lt]
      simp only []
      rw [unorderedStep_no_dag _ _ _ _ s h_direction, h_drop, leadingRun]
      cases h_good : isRequiredInput sorting_key_dag s.not_matched_keys
          (sorting_key_columns.getD s.next_sort_key "") with
      | false => simp
      | true =>
        simp only [if_true]
        have h_next := ih
          { s with
              next_sort_key := s.next_sort_key + 1,
              read_direction := 1,
              sort_description := s.sort_description
                ++ [SortColumnDescription.ofName (sorting_key_columns.getD s.next_sort_key "") 1],
              order_key_prefix_descr := s.order_key_prefix_descr
                ++ [SortColumnDescription.ofName (sorting_key_columns.getD s.next_sort_key "") 1],
              not_matched_keys := s.not_matched_keys.filter
                (fun k => k ≠ sorting_key_columns.getD s.next_sort_key ""),
              consumed := s.consumed
                ++ [ConsumedKey.byMatch (sorting_key_columns.getD s.next_sort_key "")
                      s.next_sort_key none true] }
          (Or.inr rfl) (by simp only []; omega)
        simp only [] at h_next
        obtain ⟨h1, h2, h3, h4⟩ := h_next
        rw [h1, h2, h3, h4]
        refine ⟨by simp, by simp, by simp; omega, ?_⟩
        split <;> simp
    · rw [if_neg h_cond]
      have h_run : leadingRun sorting_key_dag s.not_matched_keys
          (sorting_key_columns.drop s.next_sort_key) = [] := by
        by_cases h_lt : s.next_sort_key < sorting_key_columns.length
        · have h_empty : s.not_matched_keys = [] := by
            by_contra h_ne
            apply h_cond
            refine ⟨?_, h_lt⟩
            cases h_keys : s.not_matched_keys with
            | nil => exact absurd h_keys h_ne
            | cons k ks => rfl
          rw [List.drop_eq_getElem_cons h_lt, leadingRun, h_empty]
          simp [isRequiredInput]
          split <;> simp
        · rw [List.drop_eq_nil_iff.mpr (by omega)]
          rfl
      simp [h_run]

end UnorderedNoDag

/-- C18, amended. With no merged graph and pairwise different sort key column
names, `buildInputOrderFromUnorderedKeys` matches exactly the longest run of
leading sort key columns that are `INPUT` nodes and whose names belong to the
required keys, whatever the order of the keys: the sort description lists
those columns in sort key order, and when the run is not empty the number of
sort key columns consumed is their count (an empty run gives no result). -/
theorem unordered_no_dag_longest_run (fixed_columns : FixedColumns) (ms : Matches)
    (unordered_keys : List String) (sorting_key_dag : ActionsDAG)
    (sorting_key_columns : List String) (h_nodup : sorting_key_columns.Nodup) :
    buildInputOrderFromUnorderedKeys fixed_columns none ms unordered_keys sorting_key_dag
        sorting_key_columns
      = if sorting_key_columns.takeWhile (isRequiredInput sorting_key_dag unordered_keys) = [] then
          { input_order := none, sort_description := [] }
        else
          { input_order := some
              { sort_description_for_merging :=
                  (sorting_key_columns.takeWhile (isRequiredInput sorting_key_dag unordered_keys)).map
                    (fun c => SortColumnDescription.ofName c 1),
                used_prefix_of_sorting_key_size :=
                  (sorting_key_columns.takeWhile
                    (isRequiredInput sorting_key_dag unordered_keys)).length,
                direction := 1,
                limit := 0 },
            sort_description :=
              (sorting_key_columns.takeWhile (isRequiredInput sorting_key_dag unordered_keys)).map
                (fun c => SortColumnDescription.ofName c 1) } := by
  have h_run : leadingRun sorting_key_dag unordered_keys.eraseDups sorting_key_columns
      = sorting_key_columns.takeWhile (isRequiredInput sorting_key_dag unordered_keys) := by
    rw [leadingRun_eq_takeWhile _ _ _ h_nodup]
    apply takeWhile_agree
    intro x _
    exact isRequiredInput_agree _ _ _ _ (mem_eraseDups _ _)
  obtain ⟨h1, h2, h3, h4⟩ := unorderedLoop_no_dag [] [] sorting_key_dag sorting_key_columns
    sorting_key_columns.length (UnorderedState.init unordered_keys) (Or.inl rfl)
    (by simp [UnorderedState.init])
  simp only [UnorderedState.init, List.drop_zero, List.nil_append, Nat.zero_add] at h1 h2 h3 h4
  rw [h_run] at h1 h2 h3 h4
  unfold buildInputOrderFromUnorderedKeys unorderedFinal
  simp only [UnorderedState.init]
  rw [h1, h2, h3, h4]
  by_cases h_empty : sorting_key_columns.takeWhile (isRequiredInput sorting_key_dag unordered_keys)
      = []
  · simp [h_empty]
  · simp [h_empty]

/-- C18, amended, at the scenario of the claim: `GROUP BY c, a` over the sort key
`(a, b)` gives the sort description `(a)` with one sort key column consumed. -/
theorem unordered_no_dag_longest_run_witness :
    sortingKeyAB.column_names.Nodup
    ∧ buildInputOrderFromUnorderedKeys [] none [] ["c", "a"] sortingKeyAB.expression
        sortingKeyAB.column_names
      = { input_order := some
            { sort_description_for_merging := [SortColumnDescription.ofName "a" 1],
              used_prefix_of_sorting_key_size := 1, direction := 1, limit := 0 },
          sort_description := [SortColumnDescription.ofName "a" 1] } :=
  ⟨by decide,
    (unordered_no_dag_longest_run [] [] ["c", "a"] sortingKeyAB.expression
      sortingKeyAB.column_names (by decide)).trans (by decide)⟩

/-- C18 as stated fails when the sort key lists a column twice: over the sort
key `(a, b, a)`, `GROUP BY a, b` has a run of three leading columns that are
inputs with a name among the required keys, and the matcher returns the sort
description `(a, b)` with two sort key columns consumed. -/
theorem unordered_no_dag_repeated_column :
    sortingKeyABA.column_names.takeWhile (isRequiredInput sortingKeyABA.expression ["a", "b"])
      = ["a", "b", "a"]
    ∧ buildInputOrderFromUnorderedKeys [] none [] ["a", "b"] sortingKeyABA.expression
        sortingKeyABA.column_names
      = { input_order := some
            { sort_description_for_merging :=
                [SortColumnDescription.ofName "a" 1, SortColumnDescription.ofName "b" 1],
              used_prefix_of_sorting_key_size := 2, direction := 1, limit := 0 },
          sort_description :=
            [SortColumnDescription.ofName "a" 1, SortColumnDescription.ofName "b" 1] } := by
  decide

section EnrichClosure

variable (dag : ActionsDAG)

/-- A node a rule applies to is a node of the graph. -/
theorem enrichRule_in_range (S : Nat → Prop) (id : Nat) (h : EnrichRule dag S id) :
    id < dag.nodes.length := by
  by_contra h_out
  have h_default : dag.node id = default := by
    unfold ActionsDAG.node
    rw [List.getD_eq_default]
    omega
  obtain ⟨_, ⟨h_type, _⟩ | ⟨h_type, _⟩⟩ := h
  · rw [h_default] at h_type
    exact absurd h_type (by decide)
  · rw [h_default] at h_type
    exact absurd h_type (by decide)

/-- The rules are monotone in the set. -/
theorem enrichRule_mono (S T : Nat → Prop) (id : Nat)
    (h_sub : ∀ c ∈ (dag.node id).children, S c → T c) (h : EnrichRule dag S id) :
    EnrichRule dag T id := by
  obtain ⟨h_col, ⟨h_type, child, rest, h_children, h_child⟩ | ⟨h_type, h_fb, h_all⟩⟩ := h
  · refine ⟨h_col, Or.inl ⟨h_type, child, rest, h_children, ?_⟩⟩
    exact h_sub child (by rw [h_children]; exact List.mem_cons_self _ _) h_child
  · refine ⟨h_col, Or.inr ⟨h_type, h_fb, ?_⟩⟩
    intro c hc
    rcases h_all c hc with h | h
    · exact Or.inl h
    · exact Or.inr (h_sub c hc h)

/-- `enrichNode` adds the node exactly when one of the two rules applies. -/
theorem enrichNode_rule (fixed_columns : FixedColumns) (id : Nat) :
    (EnrichRule dag (fun k => k ∈ fixed_columns) id
      ∧ enrichNode dag fixed_columns id = fixed_columns.insert id)
    ∨ (¬ EnrichRule dag (fun k => k ∈ fixed_columns) id
      ∧ enrichNode dag fixed_columns id = fixed_columns) := by
  unfold enrichNode EnrichRule
  simp only []
  cases h_col : (dag.node id).column with
  | some v => right; simp
  | none =>
    simp only [Option.isSome_none, Bool.false_eq_true, if_false, true_and]
    by_cases h_alias : (dag.node id).type = .ALIAS
    · simp only [h_alias, if_true, true_and]
      cases h_children : (dag.node id).children with
      | nil => right; simp
      | cons child rest =>
        simp only []
        by_cases h_in : fixed_columns.contains child = true
        · left
          rw [if_pos h_in]
          refine ⟨Or.inl ⟨child, rest, rfl, by simpa using h_in⟩, rfl⟩
        · right
          rw [if_neg h_in]
          refine ⟨?_, rfl⟩
          rintro (⟨c, r, h_eq, h_mem⟩ | ⟨h_f, _⟩)
          · simp only [List.cons.injEq] at h_eq
            obtain ⟨h_eq, _⟩ := h_eq
            subst h_eq
            exact h_in (by simpa using h_mem)
          · exact absurd h_f (by decide)
    · simp only [h_alias, if_false, false_and, false_or]
      by_cases h_function : (dag.node id).type = .FUNCTION
      · simp only [h_function, if_true, true_and]
        cases h_fb : (dag.node id).function_base with
        | none => right; simp
        | some function_base =>
          simp only []
          by_cases h_det : function_base.is_deterministic_in_scope_of_query = true
          · rw [if_pos h_det]
            by_cases h_all : ((dag.node id).children.all
                (fun child => (dag.node child).column.isSome || fixed_columns.contains child)) = true
            · left
              rw [if_pos h_all]
              refine ⟨⟨⟨function_base, rfl, h_det⟩, ?_⟩, rfl⟩
              intro c hc
              have := List.all_eq_true.mp h_all c hc
              simpa using this
            · right
              rw [if_neg h_all]
              refine ⟨?_, rfl⟩
              rintro ⟨_, h⟩
              apply h_all
              rw [List.all_eq_true]
              intro c hc
              simpa using h c hc
          · right
            rw [if_neg h_det]
            refine ⟨?_, rfl⟩
            rintro ⟨⟨f, h_eq, h_f⟩, _⟩
            simp only [Option.some.injEq] at h_eq
            subst h_eq
            exact h_det h_f
      · right
        simp [h_function]

end EnrichClosure
section EnrichTraversal

/-- The children up to the position `skipVisited` reaches are those before
`next_child` and a run of visited ones. -/
theorem skipVisited_take (children visited : List Nat) (next_child : Nat) :
    children.take (skipVisited children visited next_child)
      = children.take next_child
        ++ (children.drop next_child).takeWhile (fun c => visited.contains c) := by
  unfold skipVisited
  rw [List.take_add]
  congr 1
  exact (List.prefix_iff_eq_take.mp (List.takeWhile_prefix _)).symm

theorem takeWhile_stops {α : Type} (p : α → Bool) (l : List α) (d : α)
    (h : (l.takeWhile p).length < l.length) :
    p (l.getD (l.takeWhile p).length d) = false := by
  induction l with
  | nil => simp at h
  | cons x xs ih =>
    cases h_x : p x with
    | false => simp [List.takeWhile_cons, h_x]
    | true =>
      simp only [List.takeWhile_cons, h_x, if_true, List.length_cons, Nat.succ_lt_succ_iff] at h
      simp only [List.takeWhile_cons, h_x, if_true, List.length_cons, List.getD_cons_succ]
      exact ih h

/-- The child `skipVisited` stops at is not visited. -/
theorem skipVisited_stops (children visited : List Nat) (next_child : Nat)
    (h : skipVisited children visited next_child < children.length) :
    children.getD (skipVisited children visited next_child) 0 ∉ visited := by
  unfold skipVisited at h ⊢
  have h_lt : ((children.drop next_child).takeWhile (fun c => visited.contains c)).length
      < (children.drop next_child).length := by
    rw [List.length_drop]
    omega
  have h_stop := takeWhile_stops (fun c => visited.contains c) (children.drop next_child) 0 h_lt
  have h_get : (children.drop next_child).getD
      ((children.drop next_child).takeWhile (fun c => visited.contains c)).length 0
      = children.getD
        (next_child + ((children.drop next_child).takeWhile (fun c => visited.contains c)).length)
        0 := by
    simp [List.getD_eq_getElem?_getD, List.getElem?_drop]
  rw [h_get] at h_stop
  intro h_mem
  have h_in : visited.contains (children.getD
      (next_child + ((children.drop next_child).takeWhile (fun c => visited.contains c)).length)
      0) = true := List.elem_eq_true_of_mem h_mem
  exact absurd (h_in.symm.trans h_stop) (by decide)

theorem getD_mem_children (children : List Nat) (k : Nat) (h : k < children.length) :
    children.getD k 0 ∈ children := by
  rw [List.getD_eq_getElem?_getD, List.getElem?_eq_getElem h]
  exact List.getElem_mem h

theorem take_succ_getD_zero (children : List Nat) (k : Nat) (h : k < children.length) :
    children.take (k + 1) = children.take k ++ [children.getD k 0] := by
  rw [List.take_succ, List.getD_eq_getElem?_getD, List.getElem?_eq_getElem h]
  rfl

/-- Visiting a node of the graph leaves fewer nodes to visit. -/
theorem unvisitedCount_visit (dag : ActionsDAG) (visited : List Nat) (c : Nat)
    (h_range : c < dag.nodes.length) (h_new : c ∉ visited) :
    unvisitedCount dag (c :: visited) < unvisitedCount dag visited := by
  unfold unvisitedCount
  have h_gen : ∀ l : List Nat,
      (l.filter (fun v => !(c :: visited).contains v)).length
        ≤ (l.filter (fun v => !visited.contains v)).length
      ∧ (c ∈ l → (l.filter (fun v => !(c :: visited).contains v)).length
        < (l.filter (fun v => !visited.contains v)).length) := by
    intro l
    induction l with
    | nil => simp
    | cons x xs ih =>
      obtain ⟨ih_le, ih_lt⟩ := ih
      by_cases h_x : x = c
      · subst h_x
        have h1 : (!(x :: visited).contains x) = false := by simp
        have h2 : (!visited.contains x) = true := by simpa using h_new
        simp only [List.filter_cons, h1, h2, Bool.false_eq_true, if_false, if_true,
          List.length_cons]
        exact ⟨Nat.le_succ_of_le ih_le, fun _ => Nat.lt_succ_of_le ih_le⟩
      · have h_same : (!(c :: visited).contains x) = (!visited.contains x) := by
          simp [h_x]
        have h_tail : c ∈ x :: xs → c ∈ xs := by
          intro h_mem
          rcases List.mem_cons.mp h_mem with h | h
          · exact absurd h.symm h_x
          · exact h
        cases h_v : (!visited.contains x) with
        | true =>
          simp only [List.filter_cons, h_same, h_v, if_true, List.length_cons]
          exact ⟨Nat.succ_le_succ ih_le, fun h_mem => Nat.succ_lt_succ (ih_lt (h_tail h_mem))⟩
        | false =>
          simp only [List.filter_cons, h_same, h_v, Bool.false_eq_true, if_false]
          exact ⟨ih_le, fun h_mem => ih_lt (h_tail h_mem)⟩
  exact (h_gen _).2 (List.mem_range.mpr h_range)

end EnrichTraversal
section EnrichInvariant

variable (dag : ActionsDAG) (rank : Nat → Nat)

/-- `enrichNode` keeps the columns it is given and adds at most the node. -/
theorem enrichNode_mem (fixed_columns : FixedColumns) (id k : Nat) :
    (k ∈ fixed_columns → k ∈ enrichNode dag fixed_columns id)
    ∧ (k ∈ enrichNode dag fixed_columns id → k = id ∨ k ∈ fixed_columns) := by
  rcases enrichNode_rule dag fixed_columns id with ⟨_, h⟩ | ⟨_, h⟩
  · rw [h]
    exact ⟨fun hk => List.mem_insert_iff.mpr (Or.inr hk), fun hk => List.mem_insert_iff.mp hk⟩
  · rw [h]
    exact ⟨fun hk => hk, Or.inr⟩

/-- A turn of the traversal on a non-empty stack keeps `EnrichInv`, keeps what
is visited and fixed, and brings the end of the traversal nearer. -/
theorem enrichStep_inv
    (h_children : ∀ id < dag.nodes.length, ∀ c ∈ (dag.node id).children,
      c < dag.nodes.length ∧ rank c < rank id)
    (st : EnrichState) (h_stack : st.stack ≠ []) (h_inv : EnrichInv dag rank st) :
    EnrichInv dag rank (enrichStep dag st)
    ∧ 2 * unvisitedCount dag (enrichStep dag st).visited + (enrichStep dag st).stack.length
        < 2 * unvisitedCount dag st.visited + st.stack.length
    ∧ (∀ v ∈ st.visited, v ∈ (enrichStep dag st).visited)
    ∧ (∀ k ∈ st.fixed_columns, k ∈ (enrichStep dag st).fixed_columns) := by
  obtain ⟨stack, visited, fixed_columns⟩ := st
  cases stack with
  | nil => exact absurd rfl h_stack
  | cons frame rest =>
    obtain ⟨h_range, h_on, h_path, h_before, h_finished⟩ := h_inv
    simp only [] at h_range h_on h_path h_before h_finished
    have h_node_visited : frame.node ∈ visited := h_on frame (List.mem_cons_self _ _)
    have h_node_range : frame.node < dag.nodes.length := h_range _ h_node_visited
    have h_below : ∀ g ∈ rest, rank frame.node < rank g.node := (List.pairwise_cons.mp h_path).1
    have h_rest_path := (List.pairwise_cons.mp h_path).2
    have h_taken : ∀ c ∈ (dag.node frame.node).children.take
        (skipVisited (dag.node frame.node).children visited frame.next_child), c ∈ visited := by
      intro c hc
      rw [skipVisited_take] at hc
      rcases List.mem_append.mp hc with hc | hc
      · exact h_before frame (List.mem_cons_self _ _) c hc
      · have := (List.mem_takeWhile_imp hc)
        simpa using this
    unfold enrichStep
    simp only []
    split
    · rename_i h_lt
      have h_child_mem := getD_mem_children _ _ h_lt
      have h_child_new := skipVisited_stops _ visited frame.next_child h_lt
      obtain ⟨h_child_range, h_child_rank⟩ := h_children _ h_node_range _ h_child_mem
      refine ⟨⟨?_, ?_, ?_, ?_, ?_⟩, ?_, ?_, ?_⟩
      · intro v hv
        rcases List.mem_cons.mp hv with hv | hv
        · rw [hv]; exact h_child_range
        · exact h_range v hv
      · intro f hf
        rcases List.mem_cons.mp hf with hf | hf
        · rw [hf]; exact List.mem_cons_self _ _
        · rcases List.mem_cons.mp hf with hf | hf
          · rw [hf]; exact List.mem_cons_of_mem _ h_node_visited
          · exact List.mem_cons_of_mem _ (h_on f (List.mem_cons_of_mem _ hf))
      · refine List.pairwise_cons.mpr ⟨?_, List.pairwise_cons.mpr ⟨h_below, h_rest_path⟩⟩
        intro g hg
        rcases List.mem_cons.mp hg with hg | hg
        · rw [hg]; exact h_child_rank
        · exact lt_trans h_child_rank (h_below g hg)
      · intro f hf c hc
        rcases List.mem_cons.mp hf with hf | hf
        · rw [hf] at hc
          simp at hc
        · rcases List.mem_cons.mp hf with hf | hf
          · rw [hf] at hc
            simp only [] at hc
            rw [take_succ_getD_zero _ _ h_lt] at hc
            rcases List.mem_append.mp hc with hc | hc
            · exact List.mem_cons_of_mem _ (h_taken c hc)
            · rw [List.mem_singleton.mp hc]
              exact List.mem_cons_self _ _
          · exact List.mem_cons_of_mem _ (h_before f (List.mem_cons_of_mem _ hf) c hc)
      · intro v hv h_off
        have h_ne_child : v ≠ (dag.node frame.node).children.getD
            (skipVisited (dag.node frame.node).children visited frame.next_child) 0 :=
          fun h => h_off _ (List.mem_cons_self _ _) h.symm
        have hv_old : v ∈ visited := by
          rcases List.mem_cons.mp hv with hv | hv
          · exact absurd hv h_ne_child
          · exact hv
        have h_off_old : ∀ f ∈ frame :: rest, f.node ≠ v := by
          intro f hf
          rcases List.mem_cons.mp hf with hf | hf
          · rw [hf]
            have h_second := h_off _ (List.mem_cons_of_mem _ (List.mem_cons_self _ _))
            exact h_second
          · exact h_off f (List.mem_cons_of_mem _ (List.mem_cons_of_mem _ hf))
        obtain ⟨h_kids, h_rule⟩ := h_finished v hv_old h_off_old
        refine ⟨?_, h_rule⟩
        intro c hc
        obtain ⟨hc_visited, hc_off⟩ := h_kids c hc
        refine ⟨List.mem_cons_of_mem _ hc_visited, ?_⟩
        intro f hf
        rcases List.mem_cons.mp hf with hf | hf
        · rw [hf]
          intro h_eq
          simp only [] at h_eq
          exact h_child_new (h_eq ▸ hc_visited)
        · rcases List.mem_cons.mp hf with hf | hf
          · rw [hf]
            exact hc_off frame (List.mem_cons_self _ _)
          · exact hc_off f (List.mem_cons_of_mem _ hf)
      · have := unvisitedCount_visit dag visited _ h_child_range h_child_new
        simp only [List.length_cons]
        omega
      · intro v hv
        exact List.mem_cons_of_mem _ hv
      · intro k hk
        exact hk
    · rename_i h_ge
      have h_all_visited : ∀ c ∈ (dag.node frame.node).children, c ∈ visited := by
        intro c hc
        apply h_taken c
        rw [List.take_of_length_le (Nat.le_of_not_lt h_ge)]
        exact hc
      refine ⟨⟨h_range, ?_, h_rest_path, ?_, ?_⟩, ?_, ?_, ?_⟩
      · intro f hf
        exact h_on f (List.mem_cons_of_mem _ hf)
      · intro f hf
        exact h_before f (List.mem_cons_of_mem _ hf)
      · intro v hv h_off
        simp only [] at h_off hv ⊢
        by_cases h_v : v = frame.node
        · subst h_v
          refine ⟨?_, ?_⟩
          · intro c hc
            refine ⟨h_all_visited c hc, ?_⟩
            intro g hg h_eq
            have h1 := (h_children _ h_node_range c hc).2
            have h2 := h_below g hg
            rw [h_eq] at h2
            omega
          · intro h_rule
            rcases enrichNode_rule dag fixed_columns frame.node with ⟨_, h⟩ | ⟨h_not, h⟩
            · rw [h]
              exact List.mem_insert_iff.mpr (Or.inl rfl)
            · rw [h] at h_rule
              exact absurd h_rule h_not
        · have h_off_old : ∀ f ∈ frame :: rest, f.node ≠ v := by
            intro f hf
            rcases List.mem_cons.mp hf with hf | hf
            · rw [hf]
              exact fun h => h_v h.symm
            · exact h_off f hf
          obtain ⟨h_kids, h_rule⟩ := h_finished v hv h_off_old
          refine ⟨?_, ?_⟩
          · intro c hc
            obtain ⟨hc_visited, hc_off⟩ := h_kids c hc
            exact ⟨hc_visited, fun f hf => hc_off f (List.mem_cons_of_mem _ hf)⟩
          · intro h_new
            apply (enrichNode_mem dag fixed_columns frame.node v).1
            apply h_rule
            apply enrichRule_mono dag _ _ v ?_ h_new
            intro c hc hc_fixed
            rcases (enrichNode_mem dag fixed_columns frame.node c).2 hc_fixed with h | h
            · exact absurd h.symm ((h_kids c hc).2 frame (List.mem_cons_self _ _))
            · exact h
      · simp only [List.length_cons]
        omega
      · intro v hv
        exact hv
      · intro k hk
        exact (enrichNode_mem dag fixed_columns frame.node k).1 hk

end EnrichInvariant
section EnrichLoops

variable (dag : ActionsDAG) (rank : Nat → Nat)

/-- The inner loop of `enrichFixedColumns` ends with an empty stack when it is
given at least as many turns as twice the nodes left to visit plus the
height of the stack. -/
theorem enrichWhile_inv
    (h_children : ∀ id < dag.nodes.length, ∀ c ∈ (dag.node id).children,
      c < dag.nodes.length ∧ rank c < rank id)
    (fuel : Nat) (st : EnrichState) (h_inv : EnrichInv dag rank st)
    (h_fuel : 2 * unvisitedCount dag st.visited + st.stack.length ≤ fuel) :
    (enrichWhile dag fuel st).stack = []
    ∧ EnrichInv dag rank (enrichWhile dag fuel st)
    ∧ (∀ v ∈ st.visited, v ∈ (enrichWhile dag fuel st).visited)
    ∧ (∀ k ∈ st.fixed_columns, k ∈ (enrichWhile dag fuel st).fixed_columns) := by
  induction fuel generalizing st with
  | zero =>
    have h_len : st.stack.length = 0 := by omega
    exact ⟨List.length_eq_zero.mp h_len, h_inv, fun _ h => h, fun _ h => h⟩
  | succ fuel ih =>
    rw [enrichWhile]
    split
    · rename_i h_empty
      exact ⟨List.isEmpty_iff.mp h_empty, h_inv, fun _ h => h, fun _ h => h⟩
    · rename_i h_empty
      have h_stack : st.stack ≠ [] := fun h => h_empty (List.isEmpty_iff.mpr h)
      obtain ⟨h_next, h_measure, h_visited, h_fixed⟩ :=
        enrichStep_inv dag rank h_children st h_stack h_inv
      obtain ⟨h1, h2, h3, h4⟩ := ih (enrichStep dag st) h_next (by omega)
      exact ⟨h1, h2, fun v hv => h3 v (h_visited v hv), fun k hk => h4 k (h_fixed k hk)⟩

theorem unvisitedCount_le (visited : List Nat) : unvisitedCount dag visited ≤ dag.nodes.length := by
  unfold unvisitedCount
  calc ((List.range dag.nodes.length).filter (fun v => !visited.contains v)).length
      ≤ (List.range dag.nodes.length).length := List.length_filter_le _ _
    _ = dag.nodes.length := List.length_range _

/-- The body of the loop over the nodes, entered with an empty stack, ends
with an empty stack and the node visited. -/
theorem enrichRoot_inv
    (h_children : ∀ id < dag.nodes.length, ∀ c ∈ (dag.node id).children,
      c < dag.nodes.length ∧ rank c < rank id)
    (st : EnrichState) (id : Nat) (h_id : id < dag.nodes.length)
    (h_inv : EnrichInv dag rank st) (h_stack : st.stack = []) :
    (enrichRoot dag st id).stack = []
    ∧ EnrichInv dag rank (enrichRoot dag st id)
    ∧ id ∈ (enrichRoot dag st id).visited
    ∧ (∀ v ∈ st.visited, v ∈ (enrichRoot dag st id).visited)
    ∧ (∀ k ∈ st.fixed_columns, k ∈ (enrichRoot dag st id).fixed_columns) := by
  unfold enrichRoot
  split
  · rename_i h_seen
    exact ⟨h_stack, h_inv, by simpa using h_seen, fun _ h => h, fun _ h => h⟩
  · rename_i h_seen
    have h_new : id ∉ st.visited := by simpa using h_seen
    obtain ⟨h_range, _, _, _, h_finished⟩ := h_inv
    have h_start : EnrichInv dag rank
        { stack := [{ node := id, next_child := 0 }], visited := id :: st.visited,
          fixed_columns := st.fixed_columns } := by
      refine ⟨?_, ?_, ?_, ?_, ?_⟩
      · intro v hv
        rcases List.mem_cons.mp hv with hv | hv
        · rw [hv]; exact h_id
        · exact h_range v hv
      · intro f hf
        rw [List.mem_singleton.mp hf]
        exact List.mem_cons_self _ _
      · exact List.pairwise_singleton _ _
      · intro f hf c hc
        rw [List.mem_singleton.mp hf] at hc
        simp at hc
      · intro v hv h_off
        have h_ne : v ≠ id := fun h => h_off _ (List.mem_singleton.mpr rfl) h.symm
        have hv_old : v ∈ st.visited := by
          rcases List.mem_cons.mp hv with hv | hv
          · exact absurd hv h_ne
          · exact hv
        obtain ⟨h_kids, h_rule⟩ := h_finished v hv_old (by rw [h_stack]; simp)
        refine ⟨?_, h_rule⟩
        intro c hc
        refine ⟨List.mem_cons_of_mem _ (h_kids c hc).1, ?_⟩
        intro f hf h_eq
        rw [List.mem_singleton.mp hf] at h_eq
        simp only [] at h_eq
        exact h_new (h_eq ▸ (h_kids c hc).1)
    have h_count := unvisitedCount_le dag (id :: st.visited)
    obtain ⟨h1, h2, h3, h4⟩ := enrichWhile_inv dag rank h_children (2 * dag.nodes.length + 1) _
      h_start (by simp only [List.length_singleton]; omega)
    exact ⟨h1, h2, h3 id (List.mem_cons_self _ _),
      fun v hv => h3 v (List.mem_cons_of_mem _ hv), h4⟩

/-- The loop over the nodes of the graph ends every traversal with an empty
stack and visits the nodes it is run over. -/
theorem enrichRoots_inv
    (h_children : ∀ id < dag.nodes.length, ∀ c ∈ (dag.node id).children,
      c < dag.nodes.length ∧ rank c < rank id)
    (ids : List Nat) (h_ids : ∀ id ∈ ids, id < dag.nodes.length) (st : EnrichState)
    (h_inv : EnrichInv dag rank st) (h_stack : st.stack = []) :
    (ids.foldl (enrichRoot dag) st).stack = []
    ∧ EnrichInv dag rank (ids.foldl (enrichRoot dag) st)
    ∧ (∀ id ∈ ids, id ∈ (ids.foldl (enrichRoot dag) st).visited)
    ∧ (∀ v ∈ st.visited, v ∈ (ids.foldl (enrichRoot dag) st).visited)
    ∧ (∀ k ∈ st.fixed_columns, k ∈ (ids.foldl (enrichRoot dag) st).fixed_columns) := by
  induction ids generalizing st with
  | nil => exact ⟨h_stack, h_inv, by simp, fun _ h => h, fun _ h => h⟩
  | cons id ids ih =>
    rw [List.foldl_cons]
    obtain ⟨h1, h2, h3, h4, h5⟩ := enrichRoot_inv dag rank h_children st id
      (h_ids id (List.mem_cons_self _ _)) h_inv h_stack
    obtain ⟨g1, g2, g3, g4, g5⟩ := ih (fun x hx => h_ids x (List.mem_cons_of_mem _ hx))
      (enrichRoot dag st id) h2 h1
    refine ⟨g1, g2, ?_, fun v hv => g4 v (h4 v hv), fun k hk => g5 k (h5 k hk)⟩
    intro x hx
    rcases List.mem_cons.mp hx with hx | hx
    · rw [hx]; exact g4 id h3
    · exact g3 x hx

/-- Any set that holds the columns given and obeys the two rules holds the
columns `enrichFixedColumns` returns. -/
theorem enrichFixedColumns_least (S : Nat → Prop) (fixed_columns : FixedColumns)
    (h_given : ∀ k ∈ fixed_columns, S k) (h_closed : ∀ id, EnrichRule dag S id → S id) :
    ∀ k ∈ enrichFixedColumns dag fixed_columns, S k := by
  have h_node : ∀ (fixed : FixedColumns) (id : Nat), (∀ k ∈ fixed, S k) →
      ∀ k ∈ enrichNode dag fixed id, S k := by
    intro fixed id h k hk
    rcases enrichNode_rule dag fixed id with ⟨h_rule, h_eq⟩ | ⟨_, h_eq⟩
    · rw [h_eq] at hk
      rcases List.mem_insert_iff.mp hk with hk | hk
      · rw [hk]
        exact h_closed id (enrichRule_mono dag _ S id (fun c _ hc => h c hc) h_rule)
      · exact h k hk
    · rw [h_eq] at hk
      exact h k hk
  have h_step : ∀ st : EnrichState, (∀ k ∈ st.fixed_columns, S k) →
      ∀ k ∈ (enrichStep dag st).fixed_columns, S k := by
    intro st hst
    unfold enrichStep
    split
    · exact hst
    · simp only []
      split
      · exact hst
      · exact h_node _ _ hst
  have h_while : ∀ (fuel : Nat) (st : EnrichState), (∀ k ∈ st.fixed_columns, S k) →
      ∀ k ∈ (enrichWhile dag fuel st).fixed_columns, S k := by
    intro fuel
    induction fuel with
    | zero => intro st hst; simpa [enrichWhile] using hst
    | succ fuel ih =>
      intro st hst
      rw [enrichWhile]
      split
      · exact hst
      · exact ih _ (h_step st hst)
  have h_root : ∀ (st : EnrichState) (id : Nat), (∀ k ∈ st.fixed_columns, S k) →
      ∀ k ∈ (enrichRoot dag st id).fixed_columns, S k := by
    intro st id hst
    unfold enrichRoot
    split
    · exact hst
    · exact h_while _ _ hst
  have h_fold : ∀ (ids : List Nat) (st : EnrichState), (∀ k ∈ st.fixed_columns, S k) →
      ∀ k ∈ (ids.foldl (enrichRoot dag) st).fixed_columns, S k := by
    intro ids
    induction ids with
    | nil => intro st hst; simpa using hst
    | cons id ids ih =>
      intro st hst
      rw [List.foldl_cons]
      exact ih _ (h_root st id hst)
  unfold enrichFixedColumns
  exact h_fold _ _ h_given

end EnrichLoops

/-- C17. In a graph without cycles (the children of a node are nodes of the
graph, lower in `rank`) and for every set `F` given, `enrichFixedColumns`
terminates (each traversal of its loop over the nodes ends with an empty
stack within the turns allowed) and returns the least superset of `F`
closed under the two rules `EnrichRule`: no element of `F` is removed, the
result obeys the rules, every set that holds `F` and obeys the rules holds
the result, and a node that is added is one a rule applies to. -/
theorem enrichFixedColumns_least_closed (dag : ActionsDAG) (rank : Nat → Nat)
    (fixed_columns : FixedColumns)
    (h_children : ∀ id < dag.nodes.length, ∀ c ∈ (dag.node id).children,
      c < dag.nodes.length ∧ rank c < rank id) :
    (∀ roots, (((List.range dag.nodes.length).take roots).foldl (enrichRoot dag)
        { stack := [], visited := [], fixed_columns := fixed_columns }).stack = [])
    ∧ (∀ k ∈ fixed_columns, k ∈ enrichFixedColumns dag fixed_columns)
    ∧ (∀ id, EnrichRule dag (fun k => k ∈ enrichFixedColumns dag fixed_columns) id →
        id ∈ enrichFixedColumns dag fixed_columns)
    ∧ (∀ S : Nat → Prop, (∀ k ∈ fixed_columns, S k) → (∀ id, EnrichRule dag S id → S id) →
        ∀ k ∈ enrichFixedColumns dag fixed_columns, S k)
    ∧ (∀ k ∈ enrichFixedColumns dag fixed_columns,
        k ∈ fixed_columns
        ∨ EnrichRule dag (fun k => k ∈ enrichFixedColumns dag fixed_columns) k) := by
  have h_init : EnrichInv dag rank
      { stack := [], visited := [], fixed_columns := fixed_columns } :=
    ⟨by simp, by simp, List.Pairwise.nil, by simp, by simp⟩
  have h_kept : ∀ k ∈ fixed_columns, k ∈ enrichFixedColumns dag fixed_columns :=
    (enrichRoots_inv dag rank h_children (List.range dag.nodes.length)
      (fun id hid => List.mem_range.mp hid) _ h_init rfl).2.2.2.2
  have h_closed : ∀ id, EnrichRule dag (fun k => k ∈ enrichFixedColumns dag fixed_columns) id →
      id ∈ enrichFixedColumns dag fixed_columns := by
    intro id h_rule
    have h_id := enrichRule_in_range dag _ id h_rule
    obtain ⟨h_stack, h_inv, h_all, _, _⟩ := enrichRoots_inv dag rank h_children
      (List.range dag.nodes.length) (fun id hid => List.mem_range.mp hid) _ h_init rfl
    exact (h_inv.finished id (h_all id (List.mem_range.mpr h_id))
      (by rw [h_stack]; simp)).2 h_rule
  refine ⟨?_, h_kept, h_closed, ?_, ?_⟩
  · intro roots
    exact (enrichRoots_inv dag rank h_children _
      (fun id hid => List.mem_range.mp (List.mem_of_mem_take hid)) _ h_init rfl).1
  · intro S h_given h_rules
    exact enrichFixedColumns_least dag S fixed_columns h_given h_rules
  · intro k hk
    have h_least := enrichFixedColumns_least dag
      (fun k => k ∈ enrichFixedColumns dag fixed_columns
        ∧ (k ∈ fixed_columns
          ∨ EnrichRule dag (fun k => k ∈ enrichFixedColumns dag fixed_columns) k))
      fixed_columns (fun k hk => ⟨h_kept k hk, Or.inl hk⟩)
      (by
        intro id h_rule
        have h_rule_result : EnrichRule dag
            (fun k => k ∈ enrichFixedColumns dag fixed_columns) id :=
          enrichRule_mono dag _ _ id (fun c _ hc => hc.1) h_rule
        exact ⟨h_closed id h_rule_result, Or.inr h_rule_result⟩)
    exact (h_least k hk).2

/-- C17, at a concrete input: with `a` fixed in `dagAliasOfNegate`, `negate(a)`
and its alias `x` are added and `equals(a, b)` is not. -/
theorem enrichFixedColumns_least_closed_witness :
    enrichFixedColumns dagAliasOfNegate [0] = [3, 2, 0]
    ∧ ((∀ roots, (((List.range dagAliasOfNegate.nodes.length).take roots).foldl
          (enrichRoot dagAliasOfNegate)
          { stack := [], visited := [], fixed_columns := [0] }).stack = [])
      ∧ (∀ k ∈ [0], k ∈ enrichFixedColumns dagAliasOfNegate [0])
      ∧ (∀ id, EnrichRule dagAliasOfNegate (fun k => k ∈ enrichFixedColumns dagAliasOfNegate [0]) id →
          id ∈ enrichFixedColumns dagAliasOfNegate [0])
      ∧ (∀ S : Nat → Prop, (∀ k ∈ [0], S k) → (∀ id, EnrichRule dagAliasOfNegate S id → S id) →
          ∀ k ∈ enrichFixedColumns dagAliasOfNegate [0], S k)
      ∧ (∀ k ∈ enrichFixedColumns dagAliasOfNegate [0],
          k ∈ [0]
          ∨ EnrichRule dagAliasOfNegate
              (fun k => k ∈ enrichFixedColumns dagAliasOfNegate [0]) k)) :=
  ⟨by decide, enrichFixedColumns_least_closed dagAliasOfNegate (fun id => id) [0] (by decide)⟩

section FilterFixes

variable (dag : ActionsDAG) (rank : Nat → Nat)

theorem injectiveDescent_iff (x n : Nat) :
    InjectiveDescent dag x n ↔
      n = x ∨ ((dag.node x).type = .FUNCTION
        ∧ (dag.node x).function_base.map (fun f => f.is_injective) = some true
        ∧ ∃ child, (dag.node x).children = [child] ∧ InjectiveDescent dag child n) := by
  constructor
  · intro h
    cases h with
    | here => exact Or.inl rfl
    | down _ child _ h1 h2 h3 h4 => exact Or.inr ⟨h1, h3, child, h2, h4⟩
  · rintro (h | ⟨h1, h3, child, h2, h4⟩)
    · rw [h]; exact InjectiveDescent.here x
    · exact InjectiveDescent.down x child n h1 h2 h3 h4

/-- The loop over the chain of injective functions, started at a node of rank
below the turns allowed, adds what lies under the node through injective
functions of one argument. -/
theorem injectiveChain_mem
    (h_children : ∀ id < dag.nodes.length, ∀ c ∈ (dag.node id).children,
      c < dag.nodes.length ∧ rank c < rank id)
    (fuel : Nat) (x : Nat) (fixed_columns : FixedColumns)
    (h_x : x < dag.nodes.length) (h_fuel : rank x < fuel) (n : Nat) :
    n ∈ injectiveChain dag fuel x (fixed_columns.insert x)
      ↔ n ∈ fixed_columns ∨ InjectiveDescent dag x n := by
  induction fuel generalizing x fixed_columns with
  | zero => omega
  | succ fuel ih =>
    rw [injectiveChain, injectiveDescent_iff]
    simp only []
    split
    · rename_i h_cond
      obtain ⟨h_type, h_len, h_inj⟩ := h_cond
      obtain ⟨child, h_child⟩ := List.length_eq_one.mp h_len
      have h_get : (dag.node x).children.getD 0 0 = child := by rw [h_child]; rfl
      have h_mem : child ∈ (dag.node x).children := by rw [h_child]; exact List.mem_singleton.mpr rfl
      obtain ⟨h_range, h_rank⟩ := h_children x h_x child h_mem
      rw [h_get, ih child (fixed_columns.insert x) h_range (by omega)]
      have h_inj_some : (dag.node x).function_base.map (fun f => f.is_injective) = some true := by
        cases h_fb : (dag.node x).function_base with
        | none => rw [h_fb] at h_inj; simp at h_inj
        | some f => rw [h_fb] at h_inj; simpa using h_inj
      constructor
      · rintro (h | h)
        · rcases List.mem_insert_iff.mp h with h | h
          · exact Or.inr (Or.inl h)
          · exact Or.inl h
        · exact Or.inr (Or.inr ⟨h_type, h_inj_some, child, h_child, h⟩)
      · rintro (h | h | ⟨_, _, c, h_c, h⟩)
        · exact Or.inl (List.mem_insert_iff.mpr (Or.inr h))
        · exact Or.inl (List.mem_insert_iff.mpr (Or.inl h))
        · rw [h_child] at h_c
          simp only [List.cons.injEq, and_true] at h_c
          rw [h_c]
          exact Or.inr h
    · rename_i h_cond
      constructor
      · intro h
        rcases List.mem_insert_iff.mp h with h | h
        · exact Or.inr (Or.inl h)
        · exact Or.inl h
      · rintro (h | h | ⟨h_type, h_inj, c, h_c, _⟩)
        · exact List.mem_insert_iff.mpr (Or.inr h)
        · exact List.mem_insert_iff.mpr (Or.inl h)
        · exfalso
          apply h_cond
          refine ⟨h_type, by rw [h_c]; rfl, ?_⟩
          rw [h_inj]
          rfl

end FilterFixes
section FilterShapes

variable (dag : ActionsDAG)

theorem filter_eq_singleton (p : Nat → Bool) (l : List Nat) (h : (l.filter p).length = 1) :
    ∃ x before after, l = before ++ x :: after ∧ p x = true
      ∧ (∀ y ∈ before ++ after, p y = false) ∧ l.filter p = [x] := by
  induction l with
  | nil => simp at h
  | cons a l ih =>
    cases h_a : p a with
    | true =>
      rw [List.filter_cons_of_pos h_a] at h ⊢
      simp only [List.length_cons, Nat.succ_eq_add_one, Nat.add_left_eq_self] at h
      have h_nil : l.filter p = [] := List.length_eq_zero.mp h
      refine ⟨a, [], l, rfl, h_a, ?_, by rw [h_nil]⟩
      intro y hy
      simp only [List.nil_append] at hy
      have := List.filter_eq_nil_iff.mp h_nil y hy
      simpa using this
    | false =>
      have h_neg : ¬ p a = true := by simp [h_a]
      rw [List.filter_cons_of_neg h_neg] at h ⊢
      obtain ⟨x, before, after, h_l, h_x, h_rest, h_filter⟩ := ih h
      refine ⟨x, a :: before, after, by rw [h_l]; rfl, h_x, ?_, h_filter⟩
      intro y hy
      simp only [List.cons_append, List.mem_cons] at hy
      rcases hy with hy | hy
      · rw [hy]; exact h_a
      · exact h_rest y hy

theorem length_filter_split (p : Nat → Bool) (l : List Nat) :
    l.length = (l.filter p).length + (l.filter (fun c => !p c)).length := by
  induction l with
  | nil => rfl
  | cons a l ih =>
    cases h_a : p a with
    | true =>
      simp only [List.filter_cons, h_a, if_true, Bool.not_true, Bool.false_eq_true, if_false,
        List.length_cons]
      omega
    | false =>
      simp only [List.filter_cons, h_a, if_true, Bool.not_false, Bool.false_eq_true, if_false,
        List.length_cons]
      omega

/-- The test of the `equals` branch holds exactly when one argument is not a
constant and all the others are. -/
theorem equals_test_iff (children : List Nat) (x : Nat) :
    ((children.filter (fun child => (dag.node child).column.isNone)).getLast? = some x
      ∧ (children.filter (fun child => (dag.node child).column.isSome)).length + 1
        = children.length)
    ↔ ∃ before after, children = before ++ x :: after
        ∧ (dag.node x).column = none
        ∧ ∀ y ∈ before ++ after, (dag.node y).column.isSome = true := by
  have h_not : (fun child => (dag.node child).column.isSome)
      = (fun c => !(fun child => (dag.node child).column.isNone) c) := by
    funext c
    simp only []
    cases h_c : (dag.node c).column <;> rfl
  constructor
  · rintro ⟨h_last, h_count⟩
    have h_split := length_filter_split (fun child => (dag.node child).column.isNone) children
    rw [← h_not] at h_split
    have h_one : (children.filter (fun child => (dag.node child).column.isNone)).length = 1 := by
      omega
    obtain ⟨x', before, after, h_l, h_x, h_rest, h_filter⟩ := filter_eq_singleton _ _ h_one
    rw [h_filter] at h_last
    simp only [List.getLast?_singleton, Option.some.injEq] at h_last
    subst h_last
    refine ⟨before, after, h_l, by simpa using h_x, ?_⟩
    intro y hy
    have := h_rest y hy
    cases h_c : (dag.node y).column with
    | none => rw [h_c] at this; simp at this
    | some v => rfl
  · rintro ⟨before, after, h_l, h_x, h_rest⟩
    have h_before : ∀ y ∈ before, (dag.node y).column.isSome = true :=
      fun y hy => h_rest y (List.mem_append_left _ hy)
    have h_after : ∀ y ∈ after, (dag.node y).column.isSome = true :=
      fun y hy => h_rest y (List.mem_append_right _ hy)
    have h_none : ∀ l : List Nat, (∀ y ∈ l, (dag.node y).column.isSome = true) →
        l.filter (fun child => (dag.node child).column.isNone) = []
        ∧ l.filter (fun child => (dag.node child).column.isSome) = l := by
      intro l hl
      refine ⟨List.filter_eq_nil_iff.mpr ?_, List.filter_eq_self.mpr hl⟩
      intro y hy
      have := hl y hy
      cases h_c : (dag.node y).column with
      | none => rw [h_c] at this; simp at this
      | some v => simp
    rw [h_l]
    simp only [List.filter_append, List.filter_cons, h_x, Option.isNone_none, if_true,
      Option.isSome_none, Bool.false_eq_true, if_false, (h_none before h_before).1,
      (h_none before h_before).2, (h_none after h_after).1, (h_none after h_after).2,
      List.nil_append, List.getLast?_singleton, List.length_append, List.length_cons, true_and]
    omega

theorem andReachable_iff (a e : Nat) :
    AndReachable dag a e ↔
      e = a ∨ ((dag.node a).type = .FUNCTION
        ∧ (dag.node a).function_base.map (fun f => f.name) = some "and"
        ∧ ∃ arg ∈ (dag.node a).children, AndReachable dag arg e) := by
  constructor
  · intro h
    cases h with
    | here => exact Or.inl rfl
    | through _ arg _ h1 h2 h3 h4 => exact Or.inr ⟨h1, h2, arg, h3, h4⟩
  · rintro (h | ⟨h1, h2, arg, h3, h4⟩)
    · rw [h]; exact AndReachable.here a
    · exact AndReachable.through a arg e h1 h2 h3 h4

/-- The function name the loop reads is `name` exactly when the node has a
function of that name. -/
theorem function_name_iff (id : Nat) (name : String) (h_name : name ≠ "") :
    ((dag.node id).function_base.map (fun f => f.name)).getD "" = name
      ↔ (dag.node id).function_base.map (fun f => f.name) = some name := by
  cases (dag.node id).function_base with
  | none =>
    simp only [Option.map_none', Option.getD_none]
    constructor
    · intro h; exact absurd h.symm h_name
    · intro h; exact absurd h (by simp)
  | some f => simp

/-- An `and` node fixes what its arguments fix. -/
theorem fixedByFilter_and (id n : Nat) (h_type : (dag.node id).type = .FUNCTION)
    (h_name : (dag.node id).function_base.map (fun f => f.name) = some "and") :
    FixedByFilter dag id n ↔ ∃ arg ∈ (dag.node id).children, FixedByFilter dag arg n := by
  constructor
  · rintro ⟨e, x, h_reach, h_equals, h_descent⟩
    rcases (andReachable_iff dag id e).mp h_reach with h | ⟨_, _, arg, h_arg, h_reach⟩
    · subst h
      obtain ⟨_, h_eq, _⟩ := h_equals
      rw [h_name] at h_eq
      exact absurd h_eq (by decide)
    · exact ⟨arg, h_arg, e, x, h_reach, h_equals, h_descent⟩
  · rintro ⟨arg, h_arg, e, x, h_reach, h_equals, h_descent⟩
    exact ⟨e, x, AndReachable.through id arg e h_type h_name h_arg h_reach, h_equals, h_descent⟩

/-- A node that is not an `and` node fixes what it fixes as an `equals`. -/
theorem fixedByFilter_leaf (id n : Nat)
    (h_not_and : ¬ ((dag.node id).type = .FUNCTION
      ∧ (dag.node id).function_base.map (fun f => f.name) = some "and")) :
    FixedByFilter dag id n ↔ ∃ x, EqualsFixes dag id x ∧ InjectiveDescent dag x n := by
  constructor
  · rintro ⟨e, x, h_reach, h_equals, h_descent⟩
    rcases (andReachable_iff dag id e).mp h_reach with h | ⟨h1, h2, _⟩
    · subst h
      exact ⟨x, h_equals, h_descent⟩
    · exact absurd ⟨h1, h2⟩ h_not_and
  · rintro ⟨x, h_equals, h_descent⟩
    exact ⟨id, x, AndReachable.here id, h_equals, h_descent⟩

end FilterShapes
section FilterLoop

variable (dag : ActionsDAG) (rank : Nat → Nat)

theorem children_le_childSlots (id : Nat) (h_id : id < dag.nodes.length) :
    (dag.node id).children.length ≤ childSlots dag := by
  unfold childSlots ActionsDAG.node
  have h_gen : ∀ (l : List Node) (i : Nat), i < l.length →
      (l.getD i default).children.length ≤ (l.map (fun node => node.children.length)).sum := by
    intro l
    induction l with
    | nil => intro i hi; simp at hi
    | cons a l ih =>
      intro i hi
      cases i with
      | zero => simp
      | succ i =>
        simp only [List.getD_cons_succ, List.map_cons, List.sum_cons]
        have := ih i (by simpa using hi)
        omega
  exact h_gen _ _ h_id

theorem filterExpressionLoop_empty (fuel : Nat) (fixed_columns : FixedColumns) :
    filterExpressionLoop dag fuel ([], fixed_columns) = ([], fixed_columns) := by
  cases fuel <;> simp [filterExpressionLoop]

theorem filterExpressionLoop_turn (fuel : Nat) (id : Nat) (stack : List Nat)
    (fixed_columns : FixedColumns) :
    filterExpressionLoop dag (fuel + 1) (id :: stack, fixed_columns)
      = filterExpressionLoop dag fuel (filterExpressionStep dag (id :: stack, fixed_columns)) := by
  rw [filterExpressionLoop]
  simp

/-- The turn of the loop on an `and` node pushes its arguments. -/
theorem filterExpressionStep_and (id : Nat) (stack : List Nat) (fixed_columns : FixedColumns)
    (h_type : (dag.node id).type = .FUNCTION)
    (h_name : (dag.node id).function_base.map (fun f => f.name) = some "and") :
    filterExpressionStep dag (id :: stack, fixed_columns)
      = ((dag.node id).children.reverse ++ stack, fixed_columns) := by
  have h_and := (function_name_iff dag id "and" (by decide)).mpr h_name
  unfold filterExpressionStep
  simp only [h_type, h_and, if_true]

/-- The turn of the loop on a node that is not an `and` node pops it and adds
what it fixes as an `equals`. -/
theorem filterExpressionStep_leaf
    (h_children : ∀ id < dag.nodes.length, ∀ c ∈ (dag.node id).children,
      c < dag.nodes.length ∧ rank c < rank id)
    (h_bound : ∀ id < dag.nodes.length, rank id < dag.nodes.length)
    (id : Nat) (h_id : id < dag.nodes.length) (stack : List Nat) (fixed_columns : FixedColumns)
    (h_not_and : ¬ ((dag.node id).type = .FUNCTION
      ∧ (dag.node id).function_base.map (fun f => f.name) = some "and")) :
    ∃ fixed, filterExpressionStep dag (id :: stack, fixed_columns) = (stack, fixed)
      ∧ ∀ n, n ∈ fixed ↔ n ∈ fixed_columns ∨ FixedByFilter dag id n := by
  have h_nothing : (∀ x, ¬ EqualsFixes dag id x) →
      ∀ n, n ∈ fixed_columns ↔ n ∈ fixed_columns ∨ FixedByFilter dag id n := by
    intro h_none n
    rw [fixedByFilter_leaf dag id n h_not_and]
    constructor
    · exact Or.inl
    · rintro (h | ⟨x, h_x, _⟩)
      · exact h
      · exact absurd h_x (h_none x)
  unfold filterExpressionStep
  simp only []
  by_cases h_type : (dag.node id).type = .FUNCTION
  · rw [if_pos h_type]
    have h_name_and : ¬ ((dag.node id).function_base.map (fun f => f.name)).getD "" = "and" :=
      fun h => h_not_and ⟨h_type, (function_name_iff dag id "and" (by decide)).mp h⟩
    rw [if_neg h_name_and]
    by_cases h_equals : ((dag.node id).function_base.map (fun f => f.name)).getD "" = "equals"
    · rw [if_pos h_equals]
      have h_name := (function_name_iff dag id "equals" (by decide)).mp h_equals
      cases h_last : ((dag.node id).children.filter
          (fun child => (dag.node child).column.isNone)).getLast? with
      | none =>
        refine ⟨fixed_columns, rfl, h_nothing ?_⟩
        rintro x ⟨_, _, h_shape⟩
        have := ((equals_test_iff dag _ x).mpr h_shape).1
        rw [h_last] at this
        exact absurd this (by simp)
      | some x =>
        simp only []
        by_cases h_count : ((dag.node id).children.filter
            (fun child => (dag.node child).column.isSome)).length + 1
              = (dag.node id).children.length
        · rw [if_pos h_count]
          refine ⟨_, rfl, ?_⟩
          intro n
          have h_shape := (equals_test_iff dag _ x).mp ⟨h_last, h_count⟩
          have h_mem : x ∈ (dag.node id).children := by
            obtain ⟨before, after, h_eq, _⟩ := h_shape
            rw [h_eq]
            simp
          obtain ⟨h_x, _⟩ := h_children id h_id x h_mem
          rw [injectiveChain_mem dag rank h_children _ x fixed_columns h_x (h_bound x h_x) n,
            fixedByFilter_leaf dag id n h_not_and]
          constructor
          · rintro (h | h)
            · exact Or.inl h
            · exact Or.inr ⟨x, ⟨h_type, h_name, h_shape⟩, h⟩
          · rintro (h | ⟨x', ⟨_, _, h_shape'⟩, h⟩)
            · exact Or.inl h
            · have := ((equals_test_iff dag _ x').mpr h_shape').1
              rw [h_last] at this
              simp only [Option.some.injEq] at this
              rw [this]
              exact Or.inr h
        · rw [if_neg h_count]
          refine ⟨fixed_columns, rfl, h_nothing ?_⟩
          rintro x' ⟨_, _, h_shape⟩
          exact h_count ((equals_test_iff dag _ x').mpr h_shape).2
    · rw [if_neg h_equals]
      refine ⟨fixed_columns, rfl, h_nothing ?_⟩
      rintro x ⟨_, h_name, _⟩
      exact h_equals ((function_name_iff dag id "equals" (by decide)).mpr h_name)
  · rw [if_neg h_type]
    refine ⟨fixed_columns, rfl, h_nothing ?_⟩
    rintro x ⟨h, _⟩
    exact h_type h

/-- The loop works a node off the stack within `(childSlots + 2) ^ r` turns
when the rank of the node is below `r`, and adds what the node fixes. -/
theorem filterExpressionLoop_run
    (h_children : ∀ id < dag.nodes.length, ∀ c ∈ (dag.node id).children,
      c < dag.nodes.length ∧ rank c < rank id)
    (h_bound : ∀ id < dag.nodes.length, rank id < dag.nodes.length)
    (r : Nat) :
    ∀ id, id < dag.nodes.length → rank id < r → ∀ (stack : List Nat) (fixed_columns : FixedColumns),
      ∃ turns fixed, turns ≤ (childSlots dag + 2) ^ r
        ∧ (∀ k, filterExpressionLoop dag (turns + k) (id :: stack, fixed_columns)
            = filterExpressionLoop dag k (stack, fixed))
        ∧ ∀ n, n ∈ fixed ↔ n ∈ fixed_columns ∨ FixedByFilter dag id n := by
  induction r with
  | zero => intro id _ h; omega
  | succ r ih =>
    have h_list : ∀ l : List Nat, (∀ c ∈ l, c < dag.nodes.length ∧ rank c < r) →
        ∀ (stack : List Nat) (fixed_columns : FixedColumns),
        ∃ turns fixed, turns ≤ l.length * (childSlots dag + 2) ^ r
          ∧ (∀ k, filterExpressionLoop dag (turns + k) (l ++ stack, fixed_columns)
              = filterExpressionLoop dag k (stack, fixed))
          ∧ ∀ n, n ∈ fixed ↔ n ∈ fixed_columns ∨ ∃ c ∈ l, FixedByFilter dag c n := by
      intro l
      induction l with
      | nil =>
        intro _ stack fixed_columns
        exact ⟨0, fixed_columns, by simp, by simp, by simp⟩
      | cons a l ih_l =>
        intro h_l stack fixed_columns
        obtain ⟨h_a, h_a_rank⟩ := h_l a (List.mem_cons_self _ _)
        obtain ⟨t1, f1, h_t1, h_run1, h_mem1⟩ := ih a h_a h_a_rank (l ++ stack) fixed_columns
        obtain ⟨t2, f2, h_t2, h_run2, h_mem2⟩ :=
          ih_l (fun c hc => h_l c (List.mem_cons_of_mem _ hc)) stack f1
        refine ⟨t1 + t2, f2, ?_, ?_, ?_⟩
        · simp only [List.length_cons, Nat.succ_mul]
          omega
        · intro k
          rw [List.cons_append, Nat.add_assoc, h_run1, h_run2]
        · intro n
          rw [h_mem2, h_mem1]
          simp only [List.mem_cons, exists_eq_or_imp]
          tauto
    intro id h_id h_rank stack fixed_columns
    by_cases h_and : (dag.node id).type = .FUNCTION
        ∧ (dag.node id).function_base.map (fun f => f.name) = some "and"
    · obtain ⟨h_type, h_name⟩ := h_and
      obtain ⟨t, f, h_t, h_run, h_mem⟩ := h_list (dag.node id).children.reverse
        (by
          intro c hc
          obtain ⟨h1, h2⟩ := h_children id h_id c (List.mem_reverse.mp hc)
          exact ⟨h1, by omega⟩)
        stack fixed_columns
      refine ⟨t + 1, f, ?_, ?_, ?_⟩
      · have h_len := children_le_childSlots dag id h_id
        rw [List.length_reverse] at h_t
        have h_pos : 1 ≤ (childSlots dag + 2) ^ r := Nat.one_le_pow _ _ (by omega)
        calc t + 1 ≤ (dag.node id).children.length * (childSlots dag + 2) ^ r
              + (childSlots dag + 2) ^ r := by omega
          _ ≤ childSlots dag * (childSlots dag + 2) ^ r + 2 * (childSlots dag + 2) ^ r := by
              have := Nat.mul_le_mul_right ((childSlots dag + 2) ^ r) h_len
              omega
          _ = (childSlots dag + 2) ^ (r + 1) := by ring
      · intro k
        rw [Nat.add_right_comm, filterExpressionLoop_turn,
          filterExpressionStep_and dag id stack fixed_columns h_type h_name, h_run]
      · intro n
        rw [h_mem, fixedByFilter_and dag id n h_type h_name]
        simp only [List.mem_reverse]
    · obtain ⟨f, h_step, h_mem⟩ := filterExpressionStep_leaf dag rank h_children h_bound id h_id
        stack fixed_columns h_and
      refine ⟨1, f, Nat.one_le_pow _ _ (by omega), ?_, h_mem⟩
      intro k
      rw [Nat.add_comm, filterExpressionLoop_turn, h_step]

end FilterLoop

/-- C16. In a graph without cycles (the children of a node are nodes of the
graph, lower in `rank`, and ranks are below the number of nodes),
`appendFixedColumnsFromFilterExpression` ends with an empty stack within the
turns allowed, and a node `n` is in the set it returns if and only if `n`
was in the set given or there is an `equals` function node reached from the
filter expression through `and` function nodes only, exactly one of whose
arguments `x` is not a constant while all the others are, and `n` is `x` or
is reached from `x` through injective function nodes of one argument. -/
theorem filter_fixes_exactly (dag : ActionsDAG) (rank : Nat → Nat) (filter_expression : Nat)
    (fixed_columns : FixedColumns)
    (h_children : ∀ id < dag.nodes.length, ∀ c ∈ (dag.node id).children,
      c < dag.nodes.length ∧ rank c < rank id)
    (h_bound : ∀ id < dag.nodes.length, rank id < dag.nodes.length)
    (h_root : filter_expression < dag.nodes.length) :
    (filterExpressionLoop dag
      (((dag.nodes.map (fun node => node.children.length)).sum + 2) ^ (dag.nodes.length + 1))
      ([filter_expression], fixed_columns)).1 = []
    ∧ ∀ n, n ∈ appendFixedColumnsFromFilterExpression dag filter_expression fixed_columns
      ↔ n ∈ fixed_columns
        ∨ ∃ e x, AndReachable dag filter_expression e ∧ EqualsFixes dag e x
            ∧ InjectiveDescent dag x n := by
  obtain ⟨t, f, h_t, h_run, h_mem⟩ := filterExpressionLoop_run dag rank h_children h_bound
    dag.nodes.length filter_expression h_root (h_bound _ h_root) [] fixed_columns
  have h_fuel : t ≤ (childSlots dag + 2) ^ (dag.nodes.length + 1) :=
    le_trans h_t (Nat.pow_le_pow_right (by omega) (Nat.le_succ _))
  have h_final : filterExpressionLoop dag
      (((dag.nodes.map (fun node => node.children.length)).sum + 2) ^ (dag.nodes.length + 1))
      ([filter_expression], fixed_columns) = ([], f) := by
    have h_split : ((dag.nodes.map (fun node => node.children.length)).sum + 2)
        ^ (dag.nodes.length + 1)
        = t + ((childSlots dag + 2) ^ (dag.nodes.length + 1) - t) := by
      unfold childSlots at h_fuel ⊢
      omega
    rw [h_split, h_run, filterExpressionLoop_empty]
  refine ⟨by rw [h_final], ?_⟩
  intro n
  unfold appendFixedColumnsFromFilterExpression
  rw [h_final]
  exact h_mem n

/-- C16, at a concrete input: the filter `negate(a) = 5 AND b = c` fixes
`negate(a)` and, `negate` being injective, `a`; `equals(b, c)` fixes nothing. -/
theorem filter_fixes_exactly_witness :
    appendFixedColumnsFromFilterExpression dagAndEquals 7 [] = [0, 4]
    ∧ ((filterExpressionLoop dagAndEquals
        (((dagAndEquals.nodes.map (fun node => node.children.length)).sum + 2)
          ^ (dagAndEquals.nodes.length + 1))
        ([7], [])).1 = []
      ∧ ∀ n, n ∈ appendFixedColumnsFromFilterExpression dagAndEquals 7 []
        ↔ n ∈ ([] : FixedColumns)
          ∨ ∃ e x, AndReachable dagAndEquals 7 e ∧ EqualsFixes dagAndEquals e x
              ∧ InjectiveDescent dagAndEquals x n) :=
  ⟨by decide,
    filter_fixes_exactly dagAndEquals (fun id => id) 7 [] (by decide) (by decide) (by decide)⟩

section FixedMonotone

/-- More fixed columns give more fixed key columns read off the matches. -/
theorem fixedKeyColumnsOfMatches_mono (fixed_columns fixed_columns' : FixedColumns) (ms : Matches)
    (h_sub : ∀ k ∈ fixed_columns, k ∈ fixed_columns') :
    ∀ k ∈ fixedKeyColumnsOfMatches fixed_columns ms,
      k ∈ fixedKeyColumnsOfMatches fixed_columns' ms := by
  unfold fixedKeyColumnsOfMatches
  have h_fold : ∀ (l : List (Nat × Match)) (acc acc' : FixedColumns),
      (∀ k ∈ acc, k ∈ acc') →
      ∀ k ∈ l.foldl
        (fun fixed_key_columns entry =>
          if entry.2.monotonicity.all (fun m => m.strict) then
            match entry.2.node with
            | some key_node =>
              if fixed_columns.contains entry.1 then fixed_key_columns.insert key_node
              else fixed_key_columns
            | none => fixed_key_columns
          else fixed_key_columns) acc,
        k ∈ l.foldl
          (fun fixed_key_columns entry =>
            if entry.2.monotonicity.all (fun m => m.strict) then
              match entry.2.node with
              | some key_node =>
                if fixed_columns'.contains entry.1 then fixed_key_columns.insert key_node
                else fixed_key_columns
              | none => fixed_key_columns
            else fixed_key_columns) acc' := by
    intro l
    induction l with
    | nil => intro acc acc' h; simpa using h
    | cons e l ih =>
      intro acc acc' h
      rw [List.foldl_cons, List.foldl_cons]
      apply ih
      split
      · cases h_node : e.2.node with
        | none => exact h
        | some key_node =>
          simp only []
          by_cases h_in : fixed_columns.contains e.1 = true
          · have h_in' : fixed_columns'.contains e.1 = true := by
              have := h_sub e.1 (by simpa using h_in)
              simpa using this
            rw [if_pos h_in, if_pos h_in']
            intro k hk
            rcases List.mem_insert_iff.mp hk with hk | hk
            · exact List.mem_insert_iff.mpr (Or.inl hk)
            · exact List.mem_insert_iff.mpr (Or.inr (h k hk))
          · rw [if_neg h_in]
            intro k hk
            split
            · exact List.mem_insert_iff.mpr (Or.inr (h k hk))
            · exact h k hk
      · exact h
  exact h_fold ms [] [] (fun _ h => h)

/-- `enrichNode` is monotone in the set. -/
theorem enrichNode_mono (dag : ActionsDAG) (fixed_columns fixed_columns' : FixedColumns) (id : Nat)
    (h_sub : ∀ k ∈ fixed_columns, k ∈ fixed_columns') :
    ∀ k ∈ enrichNode dag fixed_columns id, k ∈ enrichNode dag fixed_columns' id := by
  intro k hk
  rcases enrichNode_rule dag fixed_columns id with ⟨h_rule, h_eq⟩ | ⟨_, h_eq⟩
  · have h_rule' : EnrichRule dag (fun k => k ∈ fixed_columns') id :=
      enrichRule_mono dag _ _ id (fun c _ hc => h_sub c hc) h_rule
    rcases enrichNode_rule dag fixed_columns' id with ⟨_, h_eq'⟩ | ⟨h_not, _⟩
    · rw [h_eq] at hk
      rw [h_eq']
      rcases List.mem_insert_iff.mp hk with hk | hk
      · exact List.mem_insert_iff.mpr (Or.inl hk)
      · exact List.mem_insert_iff.mpr (Or.inr (h_sub k hk))
    · exact absurd h_rule' h_not
  · rw [h_eq] at hk
    exact (enrichNode_mem dag fixed_columns' id k).1 (h_sub k hk)

/-- `enrichFixedColumns` is monotone in the set it is given: the traversal does
not depend on the set. -/
theorem enrichFixedColumns_mono (dag : ActionsDAG) (fixed_columns fixed_columns' : FixedColumns)
    (h_sub : ∀ k ∈ fixed_columns, k ∈ fixed_columns') :
    ∀ k ∈ enrichFixedColumns dag fixed_columns, k ∈ enrichFixedColumns dag fixed_columns' := by
  have h_step : ∀ (stack : List Frame) (visited : List Nat) (fixed fixed' : FixedColumns),
      (∀ k ∈ fixed, k ∈ fixed') →
      (enrichStep dag { stack := stack, visited := visited, fixed_columns := fixed }).stack
        = (enrichStep dag { stack := stack, visited := visited, fixed_columns := fixed' }).stack
      ∧ (enrichStep dag { stack := stack, visited := visited, fixed_columns := fixed }).visited
        = (enrichStep dag { stack := stack, visited := visited, fixed_columns := fixed' }).visited
      ∧ ∀ k ∈ (enrichStep dag
          { stack := stack, visited := visited, fixed_columns := fixed }).fixed_columns,
        k ∈ (enrichStep dag
          { stack := stack, visited := visited, fixed_columns := fixed' }).fixed_columns := by
    intro stack visited fixed fixed' h
    unfold enrichStep
    cases stack with
    | nil => exact ⟨rfl, rfl, h⟩
    | cons frame rest =>
      simp only []
      split
      · exact ⟨rfl, rfl, h⟩
      · exact ⟨rfl, rfl, enrichNode_mono dag fixed fixed' frame.node h⟩
  have h_while : ∀ (fuel : Nat) (stack : List Frame) (visited : List Nat)
      (fixed fixed' : FixedColumns), (∀ k ∈ fixed, k ∈ fixed') →
      (enrichWhile dag fuel { stack := stack, visited := visited, fixed_columns := fixed }).visited
        = (enrichWhile dag fuel
            { stack := stack, visited := visited, fixed_columns := fixed' }).visited
      ∧ ∀ k ∈ (enrichWhile dag fuel
          { stack := stack, visited := visited, fixed_columns := fixed }).fixed_columns,
        k ∈ (enrichWhile dag fuel
          { stack := stack, visited := visited, fixed_columns := fixed' }).fixed_columns := by
    intro fuel
    induction fuel with
    | zero => intro stack visited fixed fixed' h; exact ⟨rfl, h⟩
    | succ fuel ih =>
      intro stack visited fixed fixed' h
      rw [enrichWhile, enrichWhile]
      simp only []
      split
      · exact ⟨rfl, h⟩
      · obtain ⟨h1, h2, h3⟩ := h_step stack visited fixed fixed' h
        have h_next := ih
          (enrichStep dag { stack := stack, visited := visited, fixed_columns := fixed }).stack
          (enrichStep dag { stack := stack, visited := visited, fixed_columns := fixed }).visited
          (enrichStep dag { stack := stack, visited := visited, fixed_columns := fixed }).fixed_columns
          (enrichStep dag { stack := stack, visited := visited, fixed_columns := fixed' }).fixed_columns
          h3
        have h_left : enrichStep dag { stack := stack, visited := visited, fixed_columns := fixed }
            = { stack := (enrichStep dag
                  { stack := stack, visited := visited, fixed_columns := fixed }).stack,
                visited := (enrichStep dag
                  { stack := stack, visited := visited, fixed_columns := fixed }).visited,
                fixed_columns := (enrichStep dag
                  { stack := stack, visited := visited, fixed_columns := fixed }).fixed_columns } := rfl
        have h_right : enrichStep dag { stack := stack, visited := visited, fixed_columns := fixed' }
            = { stack := (enrichStep dag
                  { stack := stack, visited := visited, fixed_columns := fixed }).stack,
                visited := (enrichStep dag
                  { stack := stack, visited := visited, fixed_columns := fixed }).visited,
                fixed_columns := (enrichStep dag
                  { stack := stack, visited := visited, fixed_columns := fixed' }).fixed_columns } := by
          rw [h1, h2]
        rw [h_left, h_right]
        exact h_next
  have h_root : ∀ (st st' : EnrichState) (id : Nat), st.visited = st'.visited →
      (∀ k ∈ st.fixed_columns, k ∈ st'.fixed_columns) →
      (enrichRoot dag st id).visited = (enrichRoot dag st' id).visited
      ∧ ∀ k ∈ (enrichRoot dag st id).fixed_columns, k ∈ (enrichRoot dag st' id).fixed_columns := by
    intro st st' id h_visited h
    unfold enrichRoot
    rw [← h_visited]
    split
    · exact ⟨h_visited, h⟩
    · exact h_while _ _ _ _ _ h
  have h_fold : ∀ (ids : List Nat) (st st' : EnrichState), st.visited = st'.visited →
      (∀ k ∈ st.fixed_columns, k ∈ st'.fixed_columns) →
      ∀ k ∈ (ids.foldl (enrichRoot dag) st).fixed_columns,
        k ∈ (ids.foldl (enrichRoot dag) st').fixed_columns := by
    intro ids
    induction ids with
    | nil => intro st st' _ h; simpa using h
    | cons id ids ih =>
      intro st st' h_visited h
      rw [List.foldl_cons, List.foldl_cons]
      obtain ⟨h1, h2⟩ := h_root st st' id h_visited h
      exact ih _ _ h1 h2
  unfold enrichFixedColumns
  exact h_fold _ _ _ rfl h_sub

/-- More fixed columns give more fixed key columns. -/
theorem fixedKeyColumns_mono (fixed_columns fixed_columns' : FixedColumns) (ms : Matches)
    (sorting_key_dag : ActionsDAG) (h_sub : ∀ k ∈ fixed_columns, k ∈ fixed_columns') :
    ∀ k ∈ fixedKeyColumns fixed_columns ms sorting_key_dag,
      k ∈ fixedKeyColumns fixed_columns' ms sorting_key_dag := by
  unfold fixedKeyColumns
  exact enrichFixedColumns_mono _ _ _ (fixedKeyColumnsOfMatches_mono _ _ ms h_sub)

end FixedMonotone
section Transparent

variable (fixed_columns fixed_columns' : FixedColumns) (dag : Option ActionsDAG) (ms : Matches)
  (fixed_key_columns fixed_key_columns' : FixedColumns) (description : SortDescription)
  (sorting_key : KeyDescription)

/-- The end of a turn without direction records the turn and goes on. -/
theorem reconcileDirection_zero (s : MatchState) (e : SortColumnDescription) (strict : Bool)
    (ev : Bool → Consumed) :
    reconcileDirection s e 0 strict ev
      = ({ s with consumed := s.consumed ++ [ev false] }, true) := by
  rcases reconcileDirection_cases s e 0 strict ev with ⟨h0, _⟩ | ⟨h0, _⟩ | ⟨_, h⟩
  · exact absurd rfl h0
  · exact absurd rfl h0
  · exact h

/-- With more fixed columns a turn of the ordered matcher from the same state
goes the same way, unless the turn with fewer ended the loop leaving the
state as it was or consumed a requirement entry as a constant or fixed
column. -/
theorem matchStep_lockstep (s : MatchState)
    (h_keys : ∀ k ∈ fixed_key_columns, k ∈ fixed_key_columns') :
    matchStep fixed_columns' dag ms fixed_key_columns' description sorting_key s
      = matchStep fixed_columns dag ms fixed_key_columns description sorting_key s
    ∨ matchStep fixed_columns dag ms fixed_key_columns description sorting_key s = (s, false)
    ∨ ∃ d, (matchStep fixed_columns dag ms fixed_key_columns description sorting_key s).1.consumed
        = s.consumed ++ [Consumed.fixedColumn d] := by
  unfold matchStep
  simp only []
  by_cases h_coll : (description.getD s.next_description_column default).collator.isSome = true
  · right; left
    simp only [if_pos h_coll]
  simp only [if_neg h_coll]
  by_cases h_nulls : (columnIsNullable sorting_key s.next_sort_key
      && (description.getD s.next_description_column default).nulls_direction == -1) = true
  · right; left
    simp only [if_pos h_nulls]
  simp only [if_neg h_nulls]
  cases h_key : sorting_key.expression.tryFindInOutputs
      (sorting_key.column_names.getD s.next_sort_key "") with
  | none => right; left; rfl
  | some sort_column_node =>
    simp only []
    cases dag with
    | none => left; rfl
    | some d =>
      simp only []
      cases h_node : d.tryFindInOutputs
          (description.getD s.next_description_column default).column_name with
      | none => right; left; rfl
      | some sort_node =>
        simp only []
        by_cases h_match : (ms.entry sort_node).node = some sort_column_node
        · left
          simp only [if_pos h_match]
        simp only [if_neg h_match]
        by_cases h_fk : fixed_key_columns.contains sort_column_node = true
        · have h_fk' : fixed_key_columns'.contains sort_column_node = true := by
            have := h_keys sort_column_node (by simpa using h_fk)
            simpa using this
          left
          simp only [if_pos h_fk, if_pos h_fk']
        simp only [if_neg h_fk]
        by_cases h_fixed : ((d.node sort_node).column.isSome
            || fixed_columns.contains sort_node) = true
        · right; right
          refine ⟨s.next_description_column, ?_⟩
          simp only [h_fixed, Bool.not_true, Bool.false_eq_true, if_false]
          rw [reconcileDirection_zero]
        · right; left
          simp only [h_fixed, Bool.not_false, if_true]

/-- A turn of the ordered matcher extends the matched prefix and the record
of what was consumed, and keeps a direction once it is set. -/
theorem matchStep_grows (s : MatchState) :
    s.order_key_prefix_descr.length
      ≤ (matchStep fixed_columns dag ms fixed_key_columns description
          sorting_key s).1.order_key_prefix_descr.length
    ∧ (s.read_direction ≠ 0 →
        (matchStep fixed_columns dag ms fixed_key_columns description
          sorting_key s).1.read_direction ≠ 0)
    ∧ (∀ c ∈ s.consumed,
        c ∈ (matchStep fixed_columns dag ms fixed_key_columns description
          sorting_key s).1.consumed) := by
  have h_rec : ∀ (s' : MatchState) (e : SortColumnDescription) (cd : Int) (strict : Bool)
      (ev : Bool → Consumed),
      s.order_key_prefix_descr.length ≤ s'.order_key_prefix_descr.length →
      s'.read_direction = s.read_direction → s'.consumed = s.consumed →
      s.order_key_prefix_descr.length
        ≤ (reconcileDirection s' e cd strict ev).1.order_key_prefix_descr.length
      ∧ (s.read_direction ≠ 0 → (reconcileDirection s' e cd strict ev).1.read_direction ≠ 0)
      ∧ (∀ c ∈ s.consumed, c ∈ (reconcileDirection s' e cd strict ev).1.consumed) := by
    intro s' e cd strict ev h_len h_rd h_log
    rcases reconcileDirection_cases s' e cd strict ev with ⟨_, _, _, h⟩ | ⟨hcd, _, h⟩ | ⟨_, h⟩
    · rw [h]
      refine ⟨h_len, fun h0 => by simpa [h_rd] using h0, ?_⟩
      intro c hc
      simp only [List.mem_append]
      exact Or.inl (h_log ▸ hc)
    · rw [h]
      refine ⟨?_, fun _ => hcd, ?_⟩
      · simp only [List.length_append, List.length_singleton]
        omega
      · intro c hc
        simp only [List.mem_append]
        exact Or.inl (h_log ▸ hc)
    · rw [h]
      refine ⟨h_len, fun h0 => by simpa [h_rd] using h0, ?_⟩
      intro c hc
      simp only [List.mem_append]
      exact Or.inl (h_log ▸ hc)
  have h_turn := matchStep_turn fixed_columns dag ms fixed_key_columns description sorting_key s
  generalize matchStep fixed_columns dag ms fixed_key_columns description sorting_key s = r
    at h_turn
  cases h_turn with
  | stop => exact ⟨le_refl _, fun h => h, fun _ h => h⟩
  | matched => exact h_rec _ _ _ _ _ (le_refl _) rfl rfl
  | fixedKey => exact h_rec _ _ _ _ _ (le_refl _) rfl rfl
  | fixedColumn =>
    exact h_rec _ _ _ _ _ (by simp) rfl rfl

/-- The loop of the ordered matcher extends the matched prefix and the record
of what was consumed, and keeps a direction once it is set. -/
theorem matchLoop_grows (fuel : Nat) (s : MatchState) :
    s.order_key_prefix_descr.length
      ≤ (matchLoop fixed_columns dag ms fixed_key_columns description sorting_key
          fuel s).order_key_prefix_descr.length
    ∧ (s.read_direction ≠ 0 →
        (matchLoop fixed_columns dag ms fixed_key_columns description sorting_key
          fuel s).read_direction ≠ 0)
    ∧ (∀ c ∈ s.consumed,
        c ∈ (matchLoop fixed_columns dag ms fixed_key_columns description sorting_key
          fuel s).consumed) := by
  apply matchLoop_invariant _ _ _ _ _ _
    (fun t => s.order_key_prefix_descr.length ≤ t.order_key_prefix_descr.length
      ∧ (s.read_direction ≠ 0 → t.read_direction ≠ 0)
      ∧ (∀ c ∈ s.consumed, c ∈ t.consumed))
  · intro t h_t _ _
    obtain ⟨h1, h2, h3⟩ := matchStep_grows fixed_columns dag ms fixed_key_columns description
      sorting_key t
    exact ⟨le_trans h_t.1 h1, fun h => h2 (h_t.2.1 h), fun c hc => h3 c (h_t.2.2 c hc)⟩
  · exact ⟨le_refl _, fun h => h, fun _ h => h⟩

/-- With more fixed columns the loop of the ordered matcher ends with a
matched prefix at least as long, and with a direction if it had one, as long
as the loop with fewer consumes no requirement entry as a constant or fixed
column. -/
theorem matchLoop_transparent
    (h_keys : ∀ k ∈ fixed_key_columns, k ∈ fixed_key_columns') (fuel : Nat) (s : MatchState)
    (h_log : ∀ d, Consumed.fixedColumn d ∉
      (matchLoop fixed_columns dag ms fixed_key_columns description sorting_key fuel s).consumed) :
    (matchLoop fixed_columns dag ms fixed_key_columns description sorting_key
        fuel s).order_key_prefix_descr.length
      ≤ (matchLoop fixed_columns' dag ms fixed_key_columns' description sorting_key
        fuel s).order_key_prefix_descr.length
    ∧ ((matchLoop fixed_columns dag ms fixed_key_columns description sorting_key
          fuel s).read_direction ≠ 0 →
        (matchLoop fixed_columns' dag ms fixed_key_columns' description sorting_key
          fuel s).read_direction ≠ 0) := by
  induction fuel generalizing s with
  | zero => exact ⟨le_refl _, fun h => h⟩
  | succ fuel ih =>
    rw [matchLoop] at h_log ⊢
    rw [matchLoop]
    by_cases h_cond : s.next_description_column < description.length
        ∧ s.next_sort_key < sorting_key.column_names.length
    · rw [if_pos h_cond] at h_log ⊢
      rw [if_pos h_cond]
      simp only [] at h_log ⊢
      rcases matchStep_lockstep fixed_columns fixed_columns' dag ms fixed_key_columns
        fixed_key_columns' description sorting_key s h_keys with h_same | h_stop | ⟨d, h_fixed⟩
      · rw [h_same]
        split
        · rename_i h_on
          rw [if_pos h_on] at h_log
          exact ih _ h_log
        · exact ⟨le_refl _, fun h => h⟩
      · rw [h_stop]
        simp only [Bool.false_eq_true, if_false]
        obtain ⟨g1, g2, _⟩ := matchStep_grows fixed_columns' dag ms fixed_key_columns'
          description sorting_key s
        split
        · obtain ⟨l1, l2, _⟩ := matchLoop_grows fixed_columns' dag ms fixed_key_columns'
            description sorting_key fuel
            (matchStep fixed_columns' dag ms fixed_key_columns' description sorting_key s).1
          exact ⟨le_trans g1 l1, fun h => l2 (g2 h)⟩
        · exact ⟨g1, g2⟩
      · exfalso
        have h_in : Consumed.fixedColumn d ∈
            (matchStep fixed_columns dag ms fixed_key_columns description sorting_key s).1.consumed := by
          rw [h_fixed]
          simp
        split at h_log
        · exact h_log d ((matchLoop_grows fixed_columns dag ms fixed_key_columns description
            sorting_key fuel _).2.2 _ h_in)
        · exact h_log d h_in
    · rw [if_neg h_cond]
      rw [if_neg h_cond]
      exact ⟨le_refl _, fun h => h⟩

end Transparent

/-- C12, amended. As long as the run without the predicate consumes no
requirement entry as a constant or fixed column, running the ordered matcher
with more fixed columns (a leading sort key column pinned by an equality
predicate) yields a matched prefix at least as long as without them, no match
counting as length 0. -/
theorem fixed_column_skip_is_transparent (fixed_columns fixed_columns' : FixedColumns)
    (dag : Option ActionsDAG) (ms : Matches) (description : SortDescription)
    (sorting_key : KeyDescription) (pk_column_names : List String) (limit : Nat)
    (h_more : ∀ k ∈ fixed_columns, k ∈ fixed_columns')
    (h_log : ∀ d, Consumed.fixedColumn d ∉
      (matchFinal fixed_columns dag ms description sorting_key).consumed) :
    matchedLength (buildInputOrderFromSortDescription fixed_columns dag ms description
        sorting_key pk_column_names limit)
      ≤ matchedLength (buildInputOrderFromSortDescription fixed_columns' dag ms description
        sorting_key pk_column_names limit) := by
  have h_keys : ∀ k ∈ (match dag with
        | some _ => fixedKeyColumns fixed_columns ms sorting_key.expression
        | none => []),
      k ∈ (match dag with
        | some _ => fixedKeyColumns fixed_columns' ms sorting_key.expression
        | none => []) := by
    cases dag with
    | none => exact fun _ h => h
    | some d => exact fixedKeyColumns_mono _ _ ms _ h_more
  obtain ⟨h_len, h_rd⟩ := matchLoop_transparent fixed_columns fixed_columns' dag ms _ _
    description sorting_key h_keys
    (description.length + sorting_key.column_names.length) MatchState.init h_log
  unfold matchedLength buildInputOrderFromSortDescription
  simp only []
  have h_fold : ∀ F, matchLoop F dag ms
      (match dag with
        | some _ => fixedKeyColumns F ms sorting_key.expression
        | none => [])
      description sorting_key (description.length + sorting_key.column_names.length)
      MatchState.init = matchFinal F dag ms description sorting_key := fun _ => rfl
  rw [h_fold] at h_len h_rd
  rw [h_fold] at h_len h_rd
  by_cases h_none : (matchFinal fixed_columns dag ms description sorting_key).read_direction = 0
      ∨ (matchFinal fixed_columns dag ms description sorting_key).order_key_prefix_descr.isEmpty
        = true
  · rw [if_pos h_none]
    exact Nat.zero_le _
  · rw [if_neg h_none]
    simp only [not_or] at h_none
    obtain ⟨h_dir, h_nonempty⟩ := h_none
    have h_pos : 0 < (matchFinal fixed_columns dag ms description
        sorting_key).order_key_prefix_descr.length := by
      cases h_l : (matchFinal fixed_columns dag ms description sorting_key).order_key_prefix_descr with
      | nil => rw [h_l] at h_nonempty; simp at h_nonempty
      | cons _ _ => simp
    have h_some : ¬ ((matchFinal fixed_columns' dag ms description sorting_key).read_direction = 0
        ∨ (matchFinal fixed_columns' dag ms description sorting_key).order_key_prefix_descr.isEmpty
          = true) := by
      rintro (h | h)
      · exact h_rd h_dir h
      · rw [List.isEmpty_iff] at h
        rw [h] at h_len
        simp only [List.length_nil] at h_len
        omega
    rw [if_neg h_some]
    exact h_len

/-- C12, amended, at a concrete input: `ORDER BY b` over the sort key `(a, b)`
matches nothing without a predicate and `(b)` once `WHERE a = 5` pins `a`. -/
theorem fixed_column_skip_is_transparent_witness :
    matchedLength (buildInputOrderFromSortDescription [] (some dagWhereA5)
        matchesWhereA5 [ascending "b"] sortingKeyAB ["a", "b"] 0) = 0
    ∧ matchedLength (buildInputOrderFromSortDescription fixedWhereA5 (some dagWhereA5)
        matchesWhereA5 [ascending "b"] sortingKeyAB ["a", "b"] 0) = 1
    ∧ matchedLength (buildInputOrderFromSortDescription [] (some dagWhereA5)
          matchesWhereA5 [ascending "b"] sortingKeyAB ["a", "b"] 0)
        ≤ matchedLength (buildInputOrderFromSortDescription fixedWhereA5 (some dagWhereA5)
          matchesWhereA5 [ascending "b"] sortingKeyAB ["a", "b"] 0) :=
  ⟨by decide, by decide,
    fixed_column_skip_is_transparent [] fixedWhereA5 (some dagWhereA5)
      matchesWhereA5 [ascending "b"] sortingKeyAB ["a", "b"] 0
      (fun k hk => absurd hk (List.not_mem_nil k))
      (by
        intro d h
        have h_log : (matchFinal [] (some dagWhereA5) matchesWhereA5
            [ascending "b"] sortingKeyAB).consumed = [] := by decide
        rw [h_log] at h
        simp at h)⟩

/-- C12 as stated fails: for `WHERE b = 3 ORDER BY b, a` over the sort key
`(a, b)` the matched prefix is `(b, a)`, of length 2; with the leading sort key
column `a` pinned as well (the node 0 of the merged graph, which matches it,
added to the fixed columns) the matched prefix is `(b)`, of length 1. -/
theorem fixed_column_skip_shortens :
    (matchesWhereB3.entry 0).node
      = sortingKeyAB.expression.tryFindInOutputs (sortingKeyAB.column_names.getD 0 "")
    ∧ matchedLength (buildInputOrderFromSortDescription fixedWhereB3 (some dagWhereB3)
        matchesWhereB3 [ascending "b", ascending "a"] sortingKeyAB ["a", "b"] 0) = 2
    ∧ matchedLength (buildInputOrderFromSortDescription (0 :: fixedWhereB3) (some dagWhereB3)
        matchesWhereB3 [ascending "b", ascending "a"] sortingKeyAB ["a", "b"] 0) = 1 := by
  decide

/-- C30, the code at the failing input.  Over the sort key `(a, b)`,
`GROUP BY a, negate(b)`: `negate(b)` reads `b` in reverse, which disagrees with
the direction fixed by `a`, and nothing is appended for the sort key column
`b`; yet the sort key cursor had moved before the directions were compared,
so the read-order sort description has 1 entry and 2 sort key columns are
reported as consumed. -/
theorem unordered_conflict_counts_the_key :
    (buildInputOrderFromUnorderedKeys [] (some dagGroupByThree) matchesGroupByThree
        ["a", "negate(b)"] sortingKeyAB.expression sortingKeyAB.column_names).input_order
      = some { sort_description_for_merging := [SortColumnDescription.ofName "a" 1],
               used_prefix_of_sorting_key_size := 2,
               direction := 1,
               limit := 0 }
    ∧ (unorderedFinal [] (some dagGroupByThree) matchesGroupByThree
        ["a", "negate(b)"] sortingKeyAB.expression sortingKeyAB.column_names).consumed
      = [ConsumedKey.byMatch "a" 0 none true,
         ConsumedKey.byMatch "negate(b)" 1
           (some { direction := -1, strict := true, child_node := 1 }) false] := by
  decide

section ReverseMatchTurn

variable (d : ActionsDAG) (reverse_matches : ReverseMatches)
  (fixed_key_columns : FixedColumns) (sorting_key_dag : ActionsDAG)
  (sorting_key_columns : List String)

/-- C21, amended. In a turn of the walk of the unordered matcher with a merged
graph, if the match retained in the reverse index for the sort key column
under the cursor is that of a required key not consumed yet, with a direction
that agrees with the direction established so far, then the turn takes the
key out of the keys left, appends it with that direction to the sort
description and moves the cursor; the walk goes on after it unless the
match is monotonic without being strict. -/
theorem retained_match_is_consumed (s : UnorderedState) (sort_column_node : Nat)
    (found : Nat × Match)
    (h_key : sorting_key_dag.tryFindInOutputs (sorting_key_columns.getD s.next_sort_key "")
      = some sort_column_node)
    (h_found : reverse_matches.lookup sort_column_node = some found)
    (h_node : found.2.node.isSome = true)
    (h_left : (d.node found.1).result_name ∈ s.not_matched_keys)
    (h_direction : monotonicDirection found.2.monotonicity ≠ 0)
    (h_agree : s.read_direction = 0
      ∨ monotonicDirection found.2.monotonicity = s.read_direction) :
    unorderedStep (some d) reverse_matches fixed_key_columns sorting_key_dag
        sorting_key_columns s
      = ({ s with
            next_sort_key := s.next_sort_key + 1,
            read_direction := monotonicDirection found.2.monotonicity,
            sort_description := s.sort_description
              ++ [SortColumnDescription.ofName (d.node found.1).result_name
                    (monotonicDirection found.2.monotonicity)],
            order_key_prefix_descr := s.order_key_prefix_descr
              ++ [SortColumnDescription.ofName (d.node found.1).result_name
                    (monotonicDirection found.2.monotonicity)],
            not_matched_keys := s.not_matched_keys.filter
              (fun k => k ≠ (d.node found.1).result_name),
            consumed := s.consumed
              ++ [ConsumedKey.byMatch (d.node found.1).result_name s.next_sort_key
                    found.2.monotonicity true] },
          monotonicStrict found.2.monotonicity) := by
  have h_contains : s.not_matched_keys.contains (d.node found.1).result_name = true :=
    List.elem_eq_true_of_mem h_left
  have h_cond : found.2.node.isSome = true
      ∧ s.not_matched_keys.contains (d.node found.1).result_name = true := ⟨h_node, h_contains⟩
  unfold unorderedStep
  simp only [h_key, h_found, if_pos h_cond]
  cases h_m : found.2.monotonicity with
  | none =>
    simp only []
    rw [h_m] at h_agree
    rcases reconcileUnordered_cases { s with next_sort_key := s.next_sort_key + 1 }
      (sorting_key_columns.getD s.next_sort_key "") (d.node found.1).result_name 1 true
      (ConsumedKey.byMatch (d.node found.1).result_name s.next_sort_key none)
      with ⟨_, h_set, h_conflict, _⟩ | ⟨_, _, h⟩ | ⟨h0, _⟩
    · exfalso
      rcases h_agree with h | h
      · exact h_set h
      · exact h_conflict h
    · rw [h]
      simp [monotonicDirection, monotonicStrict]
    · exact absurd h0 (by decide)
  | some m =>
    simp only []
    rw [h_m] at h_agree h_direction
    simp only [monotonicDirection] at h_agree h_direction
    rcases reconcileUnordered_cases { s with next_sort_key := s.next_sort_key + 1 }
      (sorting_key_columns.getD s.next_sort_key "") (d.node found.1).result_name
      (1 * m.direction) m.strict
      (ConsumedKey.byMatch (d.node found.1).result_name s.next_sort_key (some m))
      with ⟨_, h_set, h_conflict, _⟩ | ⟨_, _, h⟩ | ⟨h0, _⟩
    · exfalso
      rcases h_agree with h | h
      · exact h_set h
      · exact h_conflict (by rw [Int.one_mul]; exact h)
    · rw [h]
      simp [monotonicDirection, monotonicStrict]
    · rw [Int.one_mul] at h0
      exact absurd h0 h_direction

end ReverseMatchTurn

/-- C21, amended, at a concrete input: over the sort key `(a, b)`, the first turn
of `GROUP BY a, negate(b), intDiv(b, 2)` consumes `a`. -/
theorem retained_match_is_consumed_witness :
    unorderedStep (some dagGroupByThree)
        (buildReverseMatches dagGroupByThree matchesGroupByThree) []
        sortingKeyAB.expression sortingKeyAB.column_names
        (UnorderedState.init ["a", "negate(b)", "intDiv(b, 2)"])
      = ({ read_direction := 1, next_sort_key := 1,
            not_matched_keys := ["negate(b)", "intDiv(b, 2)"],
            sort_description := [SortColumnDescription.ofName "a" 1],
            order_key_prefix_descr := [SortColumnDescription.ofName "a" 1],
            consumed := [ConsumedKey.byMatch "a" 0 none true] }, true) :=
  (retained_match_is_consumed dagGroupByThree
    (buildReverseMatches dagGroupByThree matchesGroupByThree) []
    sortingKeyAB.expression sortingKeyAB.column_names
    (UnorderedState.init ["a", "negate(b)", "intDiv(b, 2)"]) 0
    (0, { node := some 0, monotonicity := none })
    (by decide) (by decide) (by decide) (by decide) (by decide) (by decide)).trans (by decide)

/-- C21 as stated fails: over the sort key `(a, b)`, in the walk of
`GROUP BY a, negate(b), intDiv(b, 2)` the key `intDiv(b, 2)` is not consumed
when the walk reaches the sort key column `b`, has a match record for `b`
and the direction 1 established by `a`; the reverse index retains the strict
match of `negate(b)`, whose direction is -1, and the walk stops at `b` with
only `a` in the sort description. -/
theorem compatible_match_is_not_consumed :
    (matchesGroupByThree.entry 4).node
      = sortingKeyAB.expression.tryFindInOutputs (sortingKeyAB.column_names.getD 1 "")
    ∧ monotonicDirection (matchesGroupByThree.entry 4).monotonicity = 1
    ∧ (unorderedLoop (some dagGroupByThree)
        (buildReverseMatches dagGroupByThree matchesGroupByThree) []
        sortingKeyAB.expression sortingKeyAB.column_names 1
        (UnorderedState.init ["a", "negate(b)", "intDiv(b, 2)"])).read_direction = 1
    ∧ (unorderedLoop (some dagGroupByThree)
        (buildReverseMatches dagGroupByThree matchesGroupByThree) []
        sortingKeyAB.expression sortingKeyAB.column_names 1
        (UnorderedState.init ["a", "negate(b)", "intDiv(b, 2)"])).not_matched_keys
      = ["negate(b)", "intDiv(b, 2)"]
    ∧ (unorderedFinal [] (some dagGroupByThree) matchesGroupByThree
        ["a", "negate(b)", "intDiv(b, 2)"] sortingKeyAB.expression
        sortingKeyAB.column_names).sort_description = [SortColumnDescription.ofName "a" 1]
    ∧ (unorderedFinal [] (some dagGroupByThree) matchesGroupByThree
        ["a", "negate(b)", "intDiv(b, 2)"] sortingKeyAB.expression
        sortingKeyAB.column_names).not_matched_keys = ["negate(b)", "intDiv(b, 2)"] := by
  decide

/-- C28. With a merged graph, a requirement column whose match record points at
the sort key column under the cursor is consumed as an ordering match,
whatever the fixed columns and the fixed key columns are: both cursors move,
the turn is recorded as a match and ends as `reconcileDirection` says for
the direction of the entry times the reverse indicator times the direction
of the monotonicity; so the skip of a fixed column is tried only when there
is no such match.  For the sort key `(x + 1, y + 1)` and
`WHERE x = 42 ORDER BY x + 1, y + 1`, where `x + 1` is fixed in the merged graph
and in the sort key graph, the matched prefix has length 2 and both sort key
columns are consumed. -/
theorem match_comes_before_fixed_skip :
    (∀ (fixed_columns : FixedColumns) (d : ActionsDAG) (ms : Matches)
        (fixed_key_columns : FixedColumns) (description : SortDescription)
        (sorting_key : KeyDescription) (s : MatchState) (sort_column_node sort_node : Nat),
      (description.getD s.next_description_column default).collator = none →
      ¬ (columnIsNullable sorting_key s.next_sort_key = true
        ∧ (description.getD s.next_description_column default).nulls_direction = -1) →
      sorting_key.expression.tryFindInOutputs
        (sorting_key.column_names.getD s.next_sort_key "") = some sort_column_node →
      d.tryFindInOutputs (description.getD s.next_description_column default).column_name
        = some sort_node →
      (ms.entry sort_node).node = some sort_column_node →
      matchStep fixed_columns (some d) ms fixed_key_columns description sorting_key s
          = reconcileDirection
              { s with
                  match_infos := s.match_infos ++
                    [{ source := some sort_node, fixed_column := none,
                       monotonic := (ms.entry sort_node).monotonicity.map
                         (fun _ => ms.entry sort_node) }],
                  next_description_column := s.next_description_column + 1,
                  next_sort_key := s.next_sort_key + 1 }
              (description.getD s.next_description_column default)
              ((description.getD s.next_description_column default).direction
                * reverseIndicator sorting_key s.next_sort_key
                * monotonicDirection (ms.entry sort_node).monotonicity)
              (monotonicStrict (ms.entry sort_node).monotonicity)
              (Consumed.byMatch s.next_description_column s.next_sort_key
                (ms.entry sort_node).monotonicity)
      ∧ (matchStep fixed_columns (some d) ms fixed_key_columns description sorting_key
          s).1.next_description_column = s.next_description_column + 1
      ∧ (matchStep fixed_columns (some d) ms fixed_key_columns description sorting_key
          s).1.next_sort_key = s.next_sort_key + 1
      ∧ ∃ appended,
          (matchStep fixed_columns (some d) ms fixed_key_columns description sorting_key
            s).1.consumed
          = s.consumed ++ [Consumed.byMatch s.next_description_column s.next_sort_key
              (ms.entry sort_node).monotonicity appended])
    ∧ 3 ∈ fixedWhereX42
    ∧ 3 ∈ fixedKeyColumns fixedWhereX42 matchesWhereX42 sortingKeyPlus.expression
    ∧ (buildInputOrderFromSortDescription fixedWhereX42 (some dagWhereX42) matchesWhereX42
        [ascending "plus(x, 1)", ascending "plus(y, 1)"] sortingKeyPlus
        ["plus(x, 1)", "plus(y, 1)"] 0).input_order
      = some { sort_description_for_merging := [ascending "plus(x, 1)", ascending "plus(y, 1)"],
               used_prefix_of_sorting_key_size := 2,
               direction := 1,
               limit := 0 }
    ∧ (matchFinal fixedWhereX42 (some dagWhereX42) matchesWhereX42
        [ascending "plus(x, 1)", ascending "plus(y, 1)"] sortingKeyPlus).consumed
      = [Consumed.byMatch 0 0 none true, Consumed.byMatch 1 1 none true] := by
  refine ⟨?_, by decide, by decide, by decide, by decide⟩
  intro fixed_columns d ms fixed_key_columns description sorting_key s sort_column_node sort_node
    h_coll h_nulls h_key h_node h_match
  have h_step := matchStep_dag_match fixed_columns d ms fixed_key_columns description
    sorting_key s sort_column_node sort_node h_coll h_nulls h_key h_node h_match
  refine ⟨h_step, ?_, ?_, ?_⟩
  · rw [h_step]
    exact (reconcileDirection_frame _ _ _ _ _).1
  · rw [h_step]
    exact (reconcileDirection_frame _ _ _ _ _).2.1
  · rw [h_step]
    rcases reconcileDirection_cases
      { s with
          match_infos := s.match_infos ++
            [{ source := some sort_node, fixed_column := none,
               monotonic := (ms.entry sort_node).monotonicity.map (fun _ => ms.entry sort_node) }],
          next_description_column := s.next_description_column + 1,
          next_sort_key := s.next_sort_key + 1 }
      (description.getD s.next_description_column default)
      ((description.getD s.next_description_column default).direction
        * reverseIndicator sorting_key s.next_sort_key
        * monotonicDirection (ms.entry sort_node).monotonicity)
      (monotonicStrict (ms.entry sort_node).monotonicity)
      (Consumed.byMatch s.next_description_column s.next_sort_key
        (ms.entry sort_node).monotonicity) with ⟨_, _, _, h⟩ | ⟨_, _, h⟩ | ⟨_, h⟩
    · exact ⟨false, by rw [h]⟩
    · exact ⟨true, by rw [h]⟩
    · exact ⟨false, by rw [h]⟩

/-- C28, at a concrete input: the first turn for the sort key `(x + 1, y + 1)` and
`WHERE x = 42 ORDER BY x + 1, y + 1` consumes `x + 1` as a match. -/
theorem match_comes_before_fixed_skip_witness :
    (matchStep fixedWhereX42 (some dagWhereX42) matchesWhereX42
        (fixedKeyColumns fixedWhereX42 matchesWhereX42 sortingKeyPlus.expression)
        [ascending "plus(x, 1)", ascending "plus(y, 1)"] sortingKeyPlus
        MatchState.init).1.next_description_column = 0 + 1
    ∧ (matchStep fixedWhereX42 (some dagWhereX42) matchesWhereX42
        (fixedKeyColumns fixedWhereX42 matchesWhereX42 sortingKeyPlus.expression)
        [ascending "plus(x, 1)", ascending "plus(y, 1)"] sortingKeyPlus
        MatchState.init).1.next_sort_key = 0 + 1 :=
  ⟨(match_comes_before_fixed_skip.1 fixedWhereX42 dagWhereX42 matchesWhereX42
      (fixedKeyColumns fixedWhereX42 matchesWhereX42 sortingKeyPlus.expression)
      [ascending "plus(x, 1)", ascending "plus(y, 1)"] sortingKeyPlus MatchState.init 3 3
      (by decide) (by decide) (by decide) (by decide) (by decide)).2.1,
   (match_comes_before_fixed_skip.1 fixedWhereX42 dagWhereX42 matchesWhereX42
      (fixedKeyColumns fixedWhereX42 matchesWhereX42 sortingKeyPlus.expression)
      [ascending "plus(x, 1)", ascending "plus(y, 1)"] sortingKeyPlus MatchState.init 3 3
      (by decide) (by decide) (by decide) (by decide) (by decide)).2.2.1⟩

section VirtualRowShape

variable (query : ActionsDAG) (ms : Matches)

/-- Rebuilding a chain of monotonic functions adds nodes only: the outputs of
the graph are as they were. -/
theorem addMonotonicChain_outputs (fuel : Nat) (dag : ActionsDAG) (node : Nat) (match_ : Match)
    (input_name : String) :
    (addMonotonicChain query ms fuel dag node match_ input_name).1.outputs = dag.outputs := by
  induction fuel generalizing dag node match_ with
  | zero => rfl
  | succ fuel ih =>
    rw [addMonotonicChain]
    cases h_m : match_.monotonicity with
    | none => rfl
    | some monotonicity =>
      simp only []
      split
      · simp only [ActionsDAG.addAlias]
        exact ih _ _ _
      · simp only [ActionsDAG.addFunction]
        have h_fold : ∀ (children : List Nat) (acc : ActionsDAG × List Nat),
            (children.foldl
              (fun (acc : ActionsDAG × List Nat) child =>
                if child = monotonicity.child_node then
                  ((addMonotonicChain query ms fuel acc.1 monotonicity.child_node
                      (ms.entry monotonicity.child_node) input_name).1,
                    acc.2 ++ [(addMonotonicChain query ms fuel acc.1 monotonicity.child_node
                      (ms.entry monotonicity.child_node) input_name).2])
                else
                  ((acc.1.addColumn (query.node child).column (query.node child).result_type
                      (query.node child).result_name).1,
                    acc.2 ++ [(acc.1.addColumn (query.node child).column
                      (query.node child).result_type (query.node child).result_name).2]))
              acc).1.outputs = acc.1.outputs := by
          intro children
          induction children with
          | nil => intro acc; rfl
          | cons c cs ih_c =>
            intro acc
            rw [List.foldl_cons, ih_c]
            split
            · exact ih _ _ _
            · rfl
        exact h_fold _ _

/-- A turn of the loop that builds the virtual row conversion adds one output,
and moves to the next primary key column name when the entry is not a fixed
column. -/
theorem virtualRowStep_shape (pk_column_names : List String) (st : VirtualRowState)
    (info : MatchInfo) :
    (virtualRowStep query ms pk_column_names st info).virtual_row_dag.outputs.length
      = st.virtual_row_dag.outputs.length + 1
    ∧ (virtualRowStep query ms pk_column_names st info).next_pk_name
      = st.next_pk_name + (if info.fixed_column.isNone then 1 else 0) := by
  unfold virtualRowStep
  cases h_fixed : info.fixed_column with
  | some fixed_column =>
    simp [ActionsDAG.addColumn]
  | none =>
    simp only [Option.isNone_none, if_true, and_true, List.length_append, List.length_singleton,
      Nat.add_right_cancel_iff]
    cases h_mono : info.monotonic with
    | some match_ =>
      simp only []
      rw [addMonotonicChain_outputs]
    | none =>
      simp only []
      split <;> simp [ActionsDAG.addAlias, ActionsDAG.addInput]

/-- The loop that builds the virtual row conversion adds one output per entry
and uses one primary key column name per entry that is not a fixed column. -/
theorem virtualRow_foldl_shape (pk_column_names : List String) (infos : List MatchInfo)
    (st : VirtualRowState) :
    (infos.foldl (virtualRowStep query ms pk_column_names) st).virtual_row_dag.outputs.length
      = st.virtual_row_dag.outputs.length + infos.length
    ∧ (infos.foldl (virtualRowStep query ms pk_column_names) st).next_pk_name
      = st.next_pk_name + (infos.filter (fun info => info.fixed_column.isNone)).length := by
  induction infos generalizing st with
  | nil => simp
  | cons info infos ih =>
    rw [List.foldl_cons]
    obtain ⟨h1, h2⟩ := ih (virtualRowStep query ms pk_column_names st info)
    obtain ⟨g1, g2⟩ := virtualRowStep_shape query ms pk_column_names st info
    rw [h1, h2, g1, g2]
    cases h_fixed : info.fixed_column with
    | some n =>
      simp [List.filter_cons, h_fixed]
      omega
    | none =>
      simp [List.filter_cons, h_fixed]
      omega

end VirtualRowShape
section MatchInfos

variable (fixed_columns : FixedColumns) (dag : Option ActionsDAG) (ms : Matches)
  (fixed_key_columns : FixedColumns) (description : SortDescription)
  (sorting_key : KeyDescription)

/-- The end of a turn appends at most one entry to the matched entries. -/
theorem reconcileDirection_length (s : MatchState) (e : SortColumnDescription) (cd : Int)
    (strict : Bool) (ev : Bool → Consumed) :
    (reconcileDirection s e cd strict ev).1.order_key_prefix_descr.length
      ≤ s.order_key_prefix_descr.length + 1 := by
  rcases reconcileDirection_cases s e cd strict ev with ⟨_, _, _, h⟩ | ⟨_, _, h⟩ | ⟨_, h⟩
  · rw [h]; exact Nat.le_succ _
  · rw [h]; simp
  · rw [h]; exact Nat.le_succ _

/-- A turn of the loop of the ordered matcher records one `MatchInfo` per
requirement entry it moves over, at most one matched entry per record, and at
most one record that is not a fixed column per sort key column it moves
over. -/
theorem matchStep_infos (s : MatchState)
    (h_range : s.next_description_column < description.length)
    (h_infos : s.match_infos.length = s.next_description_column)
    (h_descr : s.order_key_prefix_descr.length ≤ s.match_infos.length)
    (h_keys : (s.match_infos.filter (fun info => info.fixed_column.isNone)).length
      ≤ s.next_sort_key) :
    (matchStep fixed_columns dag ms fixed_key_columns description sorting_key s).1.match_infos.length
      = (matchStep fixed_columns dag ms fixed_key_columns description sorting_key
          s).1.next_description_column
    ∧ (matchStep fixed_columns dag ms fixed_key_columns description sorting_key
        s).1.order_key_prefix_descr.length
      ≤ (matchStep fixed_columns dag ms fixed_key_columns description sorting_key
          s).1.match_infos.length
    ∧ ((matchStep fixed_columns dag ms fixed_key_columns description sorting_key
        s).1.match_infos.filter (fun info => info.fixed_column.isNone)).length
      ≤ (matchStep fixed_columns dag ms fixed_key_columns description sorting_key s).1.next_sort_key
    ∧ (matchStep fixed_columns dag ms fixed_key_columns description sorting_key
        s).1.next_description_column ≤ description.length := by
  have h_turn := matchStep_turn fixed_columns dag ms fixed_key_columns description sorting_key s
  generalize matchStep fixed_columns dag ms fixed_key_columns description sorting_key s = r
    at h_turn
  cases h_turn with
  | stop => exact ⟨h_infos, h_descr, h_keys, Nat.le_of_lt h_range⟩
  | matched sort_column_node source monotonicity monotonic =>
    have h_len := reconcileDirection_length
      { s with
          match_infos := s.match_infos ++
            [{ source := some source, fixed_column := none, monotonic := monotonic }],
          next_description_column := s.next_description_column + 1,
          next_sort_key := s.next_sort_key + 1 }
      (description.getD s.next_description_column default)
      ((description.getD s.next_description_column default).direction
        * reverseIndicator sorting_key s.next_sort_key * monotonicDirection monotonicity)
      (monotonicStrict monotonicity)
      (Consumed.byMatch s.next_description_column s.next_sort_key monotonicity)
    simp only [reconcileDirection_frame] at h_len ⊢
    simp only [List.length_append, List.length_singleton, List.filter_append, List.filter_cons,
      Option.isNone_none, if_true, List.filter_nil, List.length_cons, List.length_nil]
    refine ⟨by omega, by omega, by omega, by omega⟩
  | fixedKey d sort_column_node sort_node =>
    have h_len := (reconcileDirection_zero
      { s with
          can_optimize_virtual_row :=
            if s.next_sort_key = 0 then false else s.can_optimize_virtual_row,
          next_sort_key := s.next_sort_key + 1 }
      (description.getD s.next_description_column default) true
      (fun _ => Consumed.fixedKey s.next_sort_key))
    rw [h_len]
    simp only []
    refine ⟨h_infos, h_descr, by omega, Nat.le_of_lt h_range⟩
  | fixedColumn d sort_column_node sort_node =>
    have h_len := (reconcileDirection_zero
      { s with
          can_optimize_virtual_row :=
            if (d.node sort_node).column.isSome then s.can_optimize_virtual_row else false,
          match_infos := s.match_infos ++
            [{ source := some sort_node, fixed_column := some sort_node, monotonic := none }],
          order_key_prefix_descr := s.order_key_prefix_descr
            ++ [description.getD s.next_description_column default],
          next_description_column := s.next_description_column + 1 }
      (description.getD s.next_description_column default) true
      (fun _ => Consumed.fixedColumn s.next_description_column))
    rw [h_len]
    simp only [List.length_append, List.length_singleton, List.filter_append, List.filter_cons,
      Option.isNone_some, Bool.false_eq_true, if_false, List.filter_nil, List.length_nil]
    refine ⟨by omega, by omega, by omega, by omega⟩

/-- The state the loop of the ordered matcher ends in has one `MatchInfo` per
requirement entry moved over, at most one matched entry per record, at most
one record that is not a fixed column per sort key column moved over, and
only constants among the records of fixed columns if the virtual row is still
allowed. -/
theorem matchFinal_infos :
    (matchFinal fixed_columns dag ms description sorting_key).match_infos.length
      = (matchFinal fixed_columns dag ms description sorting_key).next_description_column
    ∧ (matchFinal fixed_columns dag ms description sorting_key).order_key_prefix_descr.length
      ≤ (matchFinal fixed_columns dag ms description sorting_key).match_infos.length
    ∧ ((matchFinal fixed_columns dag ms description sorting_key).match_infos.filter
        (fun info => info.fixed_column.isNone)).length
      ≤ (matchFinal fixed_columns dag ms description sorting_key).next_sort_key
    ∧ (matchFinal fixed_columns dag ms description sorting_key).next_description_column
      ≤ description.length
    ∧ ((matchFinal fixed_columns dag ms description sorting_key).can_optimize_virtual_row = true →
      ∀ mi ∈ (matchFinal fixed_columns dag ms description sorting_key).match_infos,
        ∀ n, mi.fixed_column = some n →
          ((dag.getD sorting_key.expression).node n).column.isSome = true) := by
  unfold matchFinal
  simp only []
  have h_inv := matchLoop_invariant fixed_columns dag ms
    (match dag with
      | some _ => fixedKeyColumns fixed_columns ms sorting_key.expression
      | none => [])
    description sorting_key
    (fun s => s.match_infos.length = s.next_description_column
      ∧ s.order_key_prefix_descr.length ≤ s.match_infos.length
      ∧ (s.match_infos.filter (fun info => info.fixed_column.isNone)).length ≤ s.next_sort_key
      ∧ s.next_description_column ≤ description.length
      ∧ (s.can_optimize_virtual_row = true
        ↔ (∀ mi ∈ s.match_infos, ∀ n, mi.fixed_column = some n →
            ((dag.getD sorting_key.expression).node n).column.isSome = true)
          ∧ Consumed.fixedKey 0 ∉ s.consumed))
    (by
      intro s h_s h_r1 _
      obtain ⟨h1, h2, h3, _, h5⟩ := h_s
      obtain ⟨g1, g2, g3, g4⟩ := matchStep_infos fixed_columns dag ms _ description sorting_key
        s h_r1 h1 h2 h3
      exact ⟨g1, g2, g3, g4, matchStep_virtual_row fixed_columns dag ms _ description
        sorting_key s h5⟩)
    (description.length + sorting_key.column_names.length) MatchState.init
    (by simp [MatchState.init])
  obtain ⟨h1, h2, h3, h4, h5⟩ := h_inv
  exact ⟨h1, h2, h3, h4, fun h => (h5.mp h).1⟩

end MatchInfos
/-- C29. Whenever the ordered matcher builds a virtual row conversion, every
index into the primary key column names used while building it is within
bounds, every recorded entry that is a fixed column carries a constant, the
conversion has as many outputs as the sort requirement has entries, and
there are as many recorded entries as entries in the matched prefix. -/
theorem virtual_row_construction_is_safe (fixed_columns : FixedColumns)
    (dag : Option ActionsDAG) (ms : Matches) (description : SortDescription)
    (sorting_key : KeyDescription) (pk_column_names : List String) (limit : Nat)
    (conversion : ActionsDAG)
    (h_conversion : (buildInputOrderFromSortDescription fixed_columns dag ms description
      sorting_key pk_column_names limit).virtual_row_conversion = some conversion) :
    (∀ before info after,
      (matchFinal fixed_columns dag ms description sorting_key).match_infos
        = before ++ info :: after →
      info.fixed_column = none →
      (before.foldl (virtualRowStep (dag.getD sorting_key.expression) ms pk_column_names)
        { virtual_row_dag := { nodes := [], inputs := [], outputs := [] },
          next_pk_name := 0 }).next_pk_name < pk_column_names.length)
    ∧ (∀ mi ∈ (matchFinal fixed_columns dag ms description sorting_key).match_infos,
        ∀ n, mi.fixed_column = some n →
          ((dag.getD sorting_key.expression).node n).column.isSome = true)
    ∧ conversion.outputs.length = description.length
    ∧ (matchFinal fixed_columns dag ms description sorting_key).match_infos.length
      = (matchFinal fixed_columns dag ms description sorting_key).order_key_prefix_descr.length
    ∧ (matchFinal fixed_columns dag ms description sorting_key).order_key_prefix_descr.length
      = description.length := by
  obtain ⟨h_infos, h_descr, h_keys, h_range, h_const⟩ :=
    matchFinal_infos fixed_columns dag ms description sorting_key
  unfold buildInputOrderFromSortDescription at h_conversion
  simp only [] at h_conversion
  by_cases h_none : (matchFinal fixed_columns dag ms description sorting_key).read_direction = 0
      ∨ (matchFinal fixed_columns dag ms description sorting_key).order_key_prefix_descr.isEmpty
        = true
  · rw [if_pos h_none] at h_conversion
    exact absurd h_conversion (by simp)
  rw [if_neg h_none] at h_conversion
  simp only [] at h_conversion
  by_cases h_sizes : (matchFinal fixed_columns dag ms description
        sorting_key).order_key_prefix_descr.length < description.length
      ∨ pk_column_names.length
        < (matchFinal fixed_columns dag ms description sorting_key).next_sort_key
  · rw [if_pos h_sizes] at h_conversion
    exact absurd h_conversion (by simp)
  rw [if_neg h_sizes] at h_conversion
  by_cases h_can : (matchFinal fixed_columns dag ms description
      sorting_key).can_optimize_virtual_row = true
  · rw [if_pos h_can] at h_conversion
    simp only [Option.some.injEq] at h_conversion
    simp only [not_or, Nat.not_lt] at h_sizes
    obtain ⟨h_full, h_pk⟩ := h_sizes
    have h_length : (matchFinal fixed_columns dag ms description sorting_key).match_infos.length
        = description.length := by omega
    refine ⟨?_, h_const h_can, ?_, by omega, by omega⟩
    · intro before info after h_split h_info
      rw [(virtualRow_foldl_shape _ ms pk_column_names before _).2]
      have h_count : ((before ++ info :: after).filter
          (fun info => info.fixed_column.isNone)).length
          = (before.filter (fun info => info.fixed_column.isNone)).length
            + 1 + (after.filter (fun info => info.fixed_column.isNone)).length := by
        simp [List.filter_append, List.filter_cons, h_info]
        omega
      rw [← h_split] at h_count
      simp only [Nat.zero_add]
      omega
    · rw [← h_conversion, (virtualRow_foldl_shape _ ms pk_column_names _ _).1]
      simp only [List.length_nil, Nat.zero_add]
      exact h_length
  · rw [if_neg h_can] at h_conversion
    exact absurd h_conversion (by simp)

/-- C29, at a concrete input: `ORDER BY a, b` over the sort key and primary key
`(a, b)` builds a conversion with two outputs. -/
theorem virtual_row_construction_is_safe_witness :
    (∀ before info after,
      (matchFinal [] none [] [ascending "a", ascending "b"] sortingKeyAB).match_infos
        = before ++ info :: after →
      info.fixed_column = none →
      (before.foldl (virtualRowStep ((none : Option ActionsDAG).getD sortingKeyAB.expression) []
          ["a", "b"])
        { virtual_row_dag := { nodes := [], inputs := [], outputs := [] },
          next_pk_name := 0 }).next_pk_name < ["a", "b"].length)
    ∧ (∀ mi ∈ (matchFinal [] none [] [ascending "a", ascending "b"] sortingKeyAB).match_infos,
        ∀ n, mi.fixed_column = some n →
          (((none : Option ActionsDAG).getD sortingKeyAB.expression).node n).column.isSome = true)
    ∧ ({ nodes := [inputNode "a", inputNode "b"], inputs := [0, 1],
         outputs := [0, 1] } : ActionsDAG).outputs.length
      = [ascending "a", ascending "b"].length
    ∧ (matchFinal [] none [] [ascending "a", ascending "b"] sortingKeyAB).match_infos.length
      = (matchFinal [] none [] [ascending "a", ascending "b"]
          sortingKeyAB).order_key_prefix_descr.length
    ∧ (matchFinal [] none [] [ascending "a", ascending "b"]
          sortingKeyAB).order_key_prefix_descr.length
      = [ascending "a", ascending "b"].length :=
  virtual_row_construction_is_safe [] none [] [ascending "a", ascending "b"] sortingKeyAB
    ["a", "b"] 10 { nodes := [inputNode "a", inputNode "b"], inputs := [0, 1], outputs := [0, 1] }
    (by decide)

section SortingDAGLimit

variable (env : External)

/-- A filter drops the limit. -/
theorem appendFilter_limit (acc : SortingDAG) (actions : ActionsDAG) (name : String) :
    (appendFilter env acc actions name).limit = 0 := rfl

/-- Back from the child, a step that can lose rows drops the limit and any
other step keeps it. -/
theorem buildSortingDAGStep_limit (step : Step) (acc : SortingDAG)
    (h_scan : ∀ reading, step ≠ .ReadFromMergeTree reading) :
    (buildSortingDAGStep env step acc).limit = if step.dropsLimit then 0 else acc.limit := by
  cases step with
  | ReadFromMergeTree reading => exact absurd rfl (h_scan reading)
  | ArrayJoin is_left columns => cases is_left <;> rfl
  | Expression actions =>
    simp only [buildSortingDAGStep, Step.dropsLimit]
  | _ => rfl

/-- The limit `buildSortingDAG` returns is the limit given or 0. -/
theorem buildSortingDAG_limit_cases (node : PlanNode) (acc : SortingDAG) :
    (buildSortingDAG env node acc).limit = acc.limit
    ∨ (buildSortingDAG env node acc).limit = 0 := by
  induction node, acc using buildSortingDAG.induct env with
  | case1 reading children acc prewhere_info h =>
    right
    simp only [buildSortingDAG, h]
    rfl
  | case2 reading children acc h =>
    left
    simp only [buildSortingDAG, h]
  | case3 step child acc h_scan ih =>
    have h_eq : buildSortingDAG env (.mk step [child]) acc
        = buildSortingDAGStep env step (buildSortingDAG env child acc) := by
      cases step with
      | ReadFromMergeTree reading => exact absurd rfl (h_scan reading)
      | _ => simp only [buildSortingDAG]
    rw [h_eq, buildSortingDAGStep_limit env step _ (fun reading h => h_scan reading h)]
    split
    · exact Or.inr rfl
    · exact ih
  | case4 step children acc h_scan h_children =>
    left
    have h_eq : buildSortingDAG env (.mk step children) acc = acc := by
      cases step with
      | ReadFromMergeTree reading => exact absurd rfl (h_scan reading)
      | _ =>
        cases children with
        | nil => simp only [buildSortingDAG]
        | cons c cs =>
          cases cs with
          | nil => exact absurd rfl (h_children c)
          | cons c2 cs2 => simp only [buildSortingDAG]
    rw [h_eq]

end SortingDAGLimit
section SortingDAGPath

variable (env : External)

theorem buildSortingDAG_chain (step : Step) (child : PlanNode) (acc : SortingDAG)
    (h_scan : ∀ reading, step ≠ .ReadFromMergeTree reading) :
    buildSortingDAG env (.mk step [child]) acc
      = buildSortingDAGStep env step (buildSortingDAG env child acc) := by
  cases step with
  | ReadFromMergeTree reading => exact absurd rfl (h_scan reading)
  | _ => simp only [buildSortingDAG]

theorem pathToScan_chain (step : Step) (child : PlanNode)
    (h_scan : ∀ reading, step ≠ .ReadFromMergeTree reading) :
    pathToScan (.mk step [child]) = step :: pathToScan child := by
  cases step with
  | ReadFromMergeTree reading => exact absurd rfl (h_scan reading)
  | _ => simp only [pathToScan]

/-- A step `checkSupportedReadingStep` accepts is a scan. -/
theorem checkSupportedReadingStep_scan (step : Step) (allow_existing_order : Bool)
    (h : checkSupportedReadingStep step allow_existing_order = true) :
    (∃ reading, step = .ReadFromMergeTree reading) ∨ (∃ merge, step = .ReadFromMerge merge) := by
  cases step with
  | ReadFromMergeTree reading => exact Or.inl ⟨reading, rfl⟩
  | ReadFromMerge merge => exact Or.inr ⟨merge, rfl⟩
  | _ => simp [checkSupportedReadingStep] at h

/-- Over a path that leads to a scan, which has no children, the limit
`buildSortingDAG` returns is 0 when a step of the path can lose rows, and the
limit given otherwise. -/
theorem buildSortingDAG_limit_path (node : PlanNode) (allow_existing_order : Bool) :
    ∀ (reading_step : Step) (acc : SortingDAG),
      findReadingStep node allow_existing_order = some (.mk reading_step []) →
      (buildSortingDAG env node acc).limit
        = if (pathToScan node).any Step.dropsLimit then 0 else acc.limit := by
  have h_chain : ∀ (step : Step) (child : PlanNode) (acc : SortingDAG),
      (∀ reading, step ≠ .ReadFromMergeTree reading) →
      (buildSortingDAG env child acc).limit
        = (if (pathToScan child).any Step.dropsLimit then 0 else acc.limit) →
      (buildSortingDAG env (.mk step [child]) acc).limit
        = if (pathToScan (.mk step [child])).any Step.dropsLimit then 0 else acc.limit := by
    intro step child acc h_scan ih
    rw [buildSortingDAG_chain env step child acc h_scan, pathToScan_chain step child h_scan,
      buildSortingDAGStep_limit env step _ h_scan, ih, List.any_cons]
    cases step.dropsLimit <;> simp
  induction node, allow_existing_order using findReadingStep.induct with
  | case1 step children allow h_supported =>
    intro reading_step acc h_find
    unfold findReadingStep at h_find
    rw [if_pos h_supported] at h_find
    simp only [Option.some.injEq, PlanNode.mk.injEq] at h_find
    obtain ⟨_, h_children⟩ := h_find
    subst h_children
    rcases checkSupportedReadingStep_scan step allow h_supported with ⟨reading, h⟩ | ⟨merge, h⟩
    · subst h
      cases h_prewhere : reading.prewhere_info with
      | none => simp [buildSortingDAG, pathToScan, Step.dropsLimit, h_prewhere]
      | some prewhere_info =>
        simp [buildSortingDAG, pathToScan, Step.dropsLimit, h_prewhere, appendFilter_limit]
    · subst h
      simp [buildSortingDAG, pathToScan, Step.dropsLimit]
  | case2 allow child actions h_not ih =>
    intro reading_step acc h_find
    unfold findReadingStep at h_find
    rw [if_neg h_not] at h_find
    exact h_chain _ child acc (fun _ h => Step.noConfusion h) (ih reading_step acc h_find)
  | case3 allow child actions name h_not ih =>
    intro reading_step acc h_find
    unfold findReadingStep at h_find
    rw [if_neg h_not] at h_find
    exact h_chain _ child acc (fun _ h => Step.noConfusion h) (ih reading_step acc h_find)
  | case4 allow child is_left columns h_not ih =>
    intro reading_step acc h_find
    unfold findReadingStep at h_find
    rw [if_neg h_not] at h_find
    exact h_chain _ child acc (fun _ h => Step.noConfusion h) (ih reading_step acc h_find)
  | case5 allow child distinct h_preliminary h_not ih =>
    intro reading_step acc h_find
    unfold findReadingStep at h_find
    rw [if_neg h_not] at h_find
    simp only [h_preliminary, if_true] at h_find
    exact h_chain _ child acc (fun _ h => Step.noConfusion h) (ih reading_step acc h_find)
  | case6 allow child distinct h_preliminary h_not =>
    intro reading_step acc h_find
    unfold findReadingStep at h_find
    rw [if_neg h_not] at h_find
    simp [h_preliminary] at h_find
  | case7 step allow h_not child h1 h2 h3 h4 =>
    intro reading_step acc h_find
    unfold findReadingStep at h_find
    rw [if_neg h_not] at h_find
    cases step with
    | Expression actions => exact absurd rfl (h1 actions)
    | Filter actions name => exact absurd rfl (h2 actions name)
    | ArrayJoin is_left columns => exact absurd rfl (h3 is_left columns)
    | Distinct distinct => exact absurd rfl (h4 distinct)
    | _ => simp at h_find
  | case8 step children allow h_not h_children =>
    intro reading_step acc h_find
    unfold findReadingStep at h_find
    rw [if_neg h_not] at h_find
    cases children with
    | nil => simp at h_find
    | cons c cs =>
      cases cs with
      | nil => exact absurd rfl (h_children c)
      | cons c2 cs2 => simp at h_find

end SortingDAGPath

/-- C22. The limit `buildSortingDAG` returns is the limit it was given or 0.
Over a path from the step that needs the order down to a scan (a node
without children that `findReadingStep` finds), it is 0 when the path has a
filter step, a scan with a prewhere filter, a distinct step, an expression
step with `arrayJoin` or an array join step that is not a LEFT one, and the
limit given when it has none of them. -/
theorem sorting_dag_limit (env : External) (node : PlanNode) (acc : SortingDAG) :
    ((buildSortingDAG env node acc).limit = acc.limit
      ∨ (buildSortingDAG env node acc).limit = 0)
    ∧ ∀ allow_existing_order reading_step,
        findReadingStep node allow_existing_order = some (.mk reading_step []) →
        ((∃ step ∈ pathToScan node, step.dropsLimit = true) →
          (buildSortingDAG env node acc).limit = 0)
        ∧ ((∀ step ∈ pathToScan node, step.dropsLimit = false) →
          (buildSortingDAG env node acc).limit = acc.limit) := by
  refine ⟨buildSortingDAG_limit_cases env node acc, ?_⟩
  intro allow reading_step h_find
  have h := buildSortingDAG_limit_path env node allow reading_step acc h_find
  constructor
  · rintro ⟨step, h_mem, h_drops⟩
    rw [h, if_pos (List.any_eq_true.mpr ⟨step, h_mem, h_drops⟩)]
  · intro h_none
    rw [h, if_neg]
    intro h_any
    obtain ⟨step, h_mem, h_drops⟩ := List.any_eq_true.mp h_any
    rw [h_none step h_mem] at h_drops
    exact absurd h_drops (by decide)

/-- C22, at concrete inputs: under the filter of `WHERE a = 5` the limit 10 is
dropped; under the expression step of `SELECT negate(a)` it is kept. -/
theorem sorting_dag_limit_witness :
    (buildSortingDAG (externalAccepting []) planWhereA5
        { dag := none, fixed_columns := [], limit := 10 }).limit = 0
    ∧ (buildSortingDAG (externalAccepting []) planNegateA
        { dag := none, fixed_columns := [], limit := 10 }).limit = 10 :=
  ⟨((sorting_dag_limit (externalAccepting []) planWhereA5
      { dag := none, fixed_columns := [], limit := 10 }).2 false (.ReadFromMergeTree readingAB)
      (by decide)).1 ⟨.Filter dagWhereA5 "equals(a, 5)", by decide, rfl⟩,
   ((sorting_dag_limit (externalAccepting []) planNegateA
      { dag := none, fixed_columns := [], limit := 10 }).2 false (.ReadFromMergeTree readingAB)
      (by decide)).2 (by decide)⟩

/-- C24. `optimizeAggregationInOrder` leaves the plan, the aggregating step and
the scan under it, as it was whenever the aggregation already consumes
ordered input (it is in order and needs no explicit sorting), or uses
grouping sets, or asks for the overflow row. -/
theorem aggregation_in_order_is_skipped (env : External) (aggregating : AggregatingStep)
    (children : List PlanNode)
    (h_skip : (aggregating.inOrder = true ∧ aggregating.explicit_sorting_required = false)
      ∨ aggregating.is_grouping_sets = true
      ∨ aggregating.overflow_row = true) :
    optimizeAggregationInOrder env (.mk (.Aggregating aggregating) children)
      = .mk (.Aggregating aggregating) children := by
  cases children with
  | nil => rfl
  | cons child rest =>
    cases rest with
    | cons second others => rfl
    | nil =>
      unfold optimizeAggregationInOrder
      rcases h_skip with ⟨h_in_order, h_explicit⟩ | h_sets | h_overflow
      · simp [h_in_order, h_explicit]
      · simp [h_sets]
      · simp only [h_overflow, if_true]
        split <;> rfl

/-- C24, at a concrete input: with grouping sets, `GROUP BY b` over the plan of
`WHERE a = 5` is left as it was, though the scan accepts every request. -/
theorem aggregation_in_order_is_skipped_witness :
    optimizeAggregationInOrder (externalAccepting matchesWhereA5)
        (.mk (.Aggregating { aggregatingBy ["b"] with is_grouping_sets := true }) [planWhereA5])
      = .mk (.Aggregating { aggregatingBy ["b"] with is_grouping_sets := true }) [planWhereA5]
    ∧ optimizeAggregationInOrder (externalAccepting matchesWhereA5)
        (.mk (.Aggregating (aggregatingBy ["b"])) [planWhereA5])
      ≠ .mk (.Aggregating (aggregatingBy ["b"])) [planWhereA5] :=
  ⟨aggregation_in_order_is_skipped (externalAccepting matchesWhereA5)
      { aggregatingBy ["b"] with is_grouping_sets := true } [planWhereA5]
      (Or.inr (Or.inl rfl)),
    by decide⟩

/-- C26. Against an order the scan already reads in, `canImproveOrderForDistinct`
accepts the order found for the distinct step if and only if it consumes
strictly more sort key columns; the order it then leaves to be handed to the
scan has the direction of the existing order and the count of consumed sort
key columns of the new order, and the direction of every column of the sort
description is flipped when the direction of the new order differed.  So
an order the distinct driver returns over a scan that reads in order
consumes strictly more sort key columns than the existing order, in its
direction. -/
theorem distinct_only_improves :
    (∀ (required_order : InputOrder) (required existing : InputOrderInfo),
      required_order.input_order = some required →
      ((canImproveOrderForDistinct required_order (some existing)).1 = true
        ↔ existing.used_prefix_of_sorting_key_size < required.used_prefix_of_sorting_key_size)
      ∧ ((canImproveOrderForDistinct required_order (some existing)).1 = true →
        ∃ handed, (canImproveOrderForDistinct required_order (some existing)).2.input_order
            = some handed
          ∧ handed.direction = existing.direction
          ∧ handed.used_prefix_of_sorting_key_size = required.used_prefix_of_sorting_key_size
          ∧ (canImproveOrderForDistinct required_order (some existing)).2.sort_description
            = if required.direction ≠ existing.direction then
                required_order.sort_description.map
                  (fun column => { column with direction := column.direction * -1 })
              else required_order.sort_description))
    ∧ (∀ (env : External) (distinct : DistinctStep) (node reading_node : PlanNode)
        (existing returned : InputOrderInfo),
      findReadingStep node true = some reading_node →
      reading_node.step.getInputOrder = some existing →
      (buildInputOrderInfoDistinct env distinct node).1.input_order = some returned →
      existing.used_prefix_of_sorting_key_size < returned.used_prefix_of_sorting_key_size
      ∧ returned.direction = existing.direction) := by
  have h_first : ∀ (required_order : InputOrder) (required existing : InputOrderInfo),
      required_order.input_order = some required →
      ((canImproveOrderForDistinct required_order (some existing)).1 = true
        ↔ existing.used_prefix_of_sorting_key_size < required.used_prefix_of_sorting_key_size)
      ∧ ((canImproveOrderForDistinct required_order (some existing)).1 = true →
        ∃ handed, (canImproveOrderForDistinct required_order (some existing)).2.input_order
            = some handed
          ∧ handed.direction = existing.direction
          ∧ handed.used_prefix_of_sorting_key_size = required.used_prefix_of_sorting_key_size
          ∧ (canImproveOrderForDistinct required_order (some existing)).2.sort_description
            = if required.direction ≠ existing.direction then
                required_order.sort_description.map
                  (fun column => { column with direction := column.direction * -1 })
              else required_order.sort_description) := by
    intro required_order required existing h_required
    unfold canImproveOrderForDistinct
    simp only [h_required]
    by_cases h_le : required.used_prefix_of_sorting_key_size
        ≤ existing.used_prefix_of_sorting_key_size
    · rw [if_pos h_le]
      refine ⟨⟨fun h => absurd h (by simp), fun h => absurd h (Nat.not_lt.mpr h_le)⟩,
        fun h => absurd h (by simp)⟩
    · rw [if_neg h_le]
      by_cases h_dir : required.direction ≠ existing.direction
      · rw [if_pos h_dir, if_pos h_dir]
        exact ⟨⟨fun _ => Nat.lt_of_not_le h_le, fun _ => rfl⟩,
          fun _ => ⟨_, rfl, rfl, rfl, rfl⟩⟩
      · rw [if_neg h_dir, if_neg h_dir]
        refine ⟨⟨fun _ => Nat.lt_of_not_le h_le, fun _ => rfl⟩,
          fun _ => ⟨required, h_required, ?_, rfl, rfl⟩⟩
        exact not_not.mp h_dir
  refine ⟨h_first, ?_⟩
  intro env distinct node reading_node existing returned h_find h_existing h_returned
  unfold buildInputOrderInfoDistinct at h_returned
  simp only [h_find, h_existing] at h_returned
  have h_scan : ∀ (improved : Bool × InputOrder) (result : InputOrder × PlanNode),
      improved = canImproveOrderForDistinct
        (unorderedInputOrder env distinct.column_names node reading_node.step) (some existing) →
      result = (if (!improved.1) = true then ({ input_order := none, sort_description := [] }, node)
          else
            match improved.2.input_order with
            | some input_order =>
              match requestOrder env reading_node.step input_order none with
              | some reading => (improved.2, updateReadingStep node true reading)
              | none => ({ input_order := none, sort_description := [] }, node)
            | none => ({ input_order := none, sort_description := [] }, node)) →
      result.1.input_order = some returned →
      existing.used_prefix_of_sorting_key_size < returned.used_prefix_of_sorting_key_size
        ∧ returned.direction = existing.direction := by
    intro improved result h_improved h_result h_some
    cases h_req : (unorderedInputOrder env distinct.column_names node
        reading_node.step).input_order with
    | none =>
      have h_false : improved.1 = false := by
        rw [h_improved]
        unfold canImproveOrderForDistinct
        simp only [h_req]
      rw [h_false] at h_result
      simp only [Bool.not_false, if_true] at h_result
      rw [h_result] at h_some
      exact absurd h_some (by simp)
    | some required =>
      obtain ⟨h_iff, h_handed⟩ := h_first _ required existing h_req
      rw [← h_improved] at h_iff h_handed
      cases h_can : improved.1 with
      | false =>
        rw [h_can] at h_result
        simp only [Bool.not_false, if_true] at h_result
        rw [h_result] at h_some
        exact absurd h_some (by simp)
      | true =>
        obtain ⟨handed, h_order, h_direction, h_used, _⟩ := h_handed h_can
        rw [h_can, h_order] at h_result
        simp only [Bool.not_true, Bool.false_eq_true, if_false] at h_result
        cases h_request : requestOrder env reading_node.step handed none with
        | none =>
          rw [h_request] at h_result
          rw [h_result] at h_some
          exact absurd h_some (by simp)
        | some reading =>
          rw [h_request] at h_result
          rw [h_result] at h_some
          simp only [] at h_some
          rw [h_order] at h_some
          simp only [Option.some.injEq] at h_some
          subst h_some
          exact ⟨by rw [h_used]; exact h_iff.mp h_can, h_direction⟩
  cases h_step : reading_node.step with
  | ReadFromMergeTree reading =>
    rw [h_step] at h_returned h_scan
    exact h_scan _ _ rfl rfl h_returned
  | ReadFromMerge merge =>
    rw [h_step] at h_returned h_scan
    exact h_scan _ _ rfl rfl h_returned
  | _ =>
    rw [h_step] at h_returned
    exact absurd h_returned (by simp)

/-- C26, at a concrete input: against an existing order that consumes 1 sort
key column in direction -1, a new order that consumes 2 in direction 1 is
accepted and handed on with direction -1 and its columns flipped. -/
theorem distinct_only_improves_witness :
    ((canImproveOrderForDistinct
        { input_order := some { sort_description_for_merging := [ascending "a", ascending "b"],
                                used_prefix_of_sorting_key_size := 2, direction := 1, limit := 0 },
          sort_description := [ascending "a", ascending "b"] }
        (some { sort_description_for_merging := [], used_prefix_of_sorting_key_size := 1,
                direction := -1, limit := 0 })).1 = true
      ↔ 1 < 2)
    ∧ canImproveOrderForDistinct
        { input_order := some { sort_description_for_merging := [ascending "a", ascending "b"],
                                used_prefix_of_sorting_key_size := 2, direction := 1, limit := 0 },
          sort_description := [ascending "a", ascending "b"] }
        (some { sort_description_for_merging := [], used_prefix_of_sorting_key_size := 1,
                direction := -1, limit := 0 })
      = (true,
          { input_order := some { sort_description_for_merging := [ascending "a", ascending "b"],
                                  used_prefix_of_sorting_key_size := 2, direction := -1,
                                  limit := 0 },
            sort_description := [descending "a", descending "b"] }) :=
  ⟨(distinct_only_improves.1
      { input_order := some { sort_description_for_merging := [ascending "a", ascending "b"],
                              used_prefix_of_sorting_key_size := 2, direction := 1, limit := 0 },
        sort_description := [ascending "a", ascending "b"] }
      { sort_description_for_merging := [ascending "a", ascending "b"],
        used_prefix_of_sorting_key_size := 2, direction := 1, limit := 0 }
      { sort_description_for_merging := [], used_prefix_of_sorting_key_size := 1,
        direction := -1, limit := 0 } rfl).1,
    by decide⟩

section UnorderedDrivers

/-- The sort description the unordered matcher returns names required keys,
each once. -/
theorem buildInputOrderFromUnorderedKeys_covers (fixed_columns : FixedColumns)
    (dag : Option ActionsDAG) (ms : Matches) (unordered_keys : List String)
    (sorting_key_dag : ActionsDAG) (sorting_key_columns : List String) :
    (∀ e ∈ (buildInputOrderFromUnorderedKeys fixed_columns dag ms unordered_keys
        sorting_key_dag sorting_key_columns).sort_description, e.column_name ∈ unordered_keys)
    ∧ ((buildInputOrderFromUnorderedKeys fixed_columns dag ms unordered_keys sorting_key_dag
        sorting_key_columns).sort_description.map (fun e => e.column_name)).Nodup := by
  have h_inv :
      (∀ e ∈ (unorderedFinal fixed_columns dag ms unordered_keys sorting_key_dag
          sorting_key_columns).sort_description, e.column_name ∈ unordered_keys)
      ∧ ((unorderedFinal fixed_columns dag ms unordered_keys sorting_key_dag
          sorting_key_columns).sort_description.map (fun e => e.column_name)).Nodup
      ∧ (∀ e ∈ (unorderedFinal fixed_columns dag ms unordered_keys sorting_key_dag
          sorting_key_columns).sort_description,
        e.column_name ∉ (unorderedFinal fixed_columns dag ms unordered_keys sorting_key_dag
          sorting_key_columns).not_matched_keys)
      ∧ (∀ k ∈ (unorderedFinal fixed_columns dag ms unordered_keys sorting_key_dag
          sorting_key_columns).not_matched_keys, k ∈ unordered_keys)
      ∧ (unorderedFinal fixed_columns dag ms unordered_keys sorting_key_dag
          sorting_key_columns).sort_description.length
        ≤ (unorderedFinal fixed_columns dag ms unordered_keys sorting_key_dag
          sorting_key_columns).next_sort_key := by
    unfold unorderedFinal
    apply unorderedLoop_invariant _ _ _ _ _
      (fun s => (∀ e ∈ s.sort_description, e.column_name ∈ unordered_keys)
        ∧ (s.sort_description.map (fun e => e.column_name)).Nodup
        ∧ (∀ e ∈ s.sort_description, e.column_name ∉ s.not_matched_keys)
        ∧ (∀ k ∈ s.not_matched_keys, k ∈ unordered_keys)
        ∧ s.sort_description.length ≤ s.next_sort_key)
    · intro s h_s _
      exact unorderedStep_covers _ _ _ _ _ _ s h_s.1 h_s.2.1 h_s.2.2.1 h_s.2.2.2.1 h_s.2.2.2.2
    · refine ⟨by simp [UnorderedState.init], by simp [UnorderedState.init],
        by simp [UnorderedState.init], ?_, by simp [UnorderedState.init]⟩
      intro k hk
      exact (mem_eraseDups _ _).mp hk
  unfold buildInputOrderFromUnorderedKeys
  simp only []
  split
  · simp
  · exact ⟨h_inv.1, h_inv.2.1⟩

/-- The loop over the tables of a `ReadFromMerge` scan returns no order, the
order it started with, or the order of a table. -/
theorem inputOrderOfTables_cases (order_of : KeyDescription → InputOrder)
    (tables : List KeyDescription) (order_info : InputOrder) :
    inputOrderOfTables order_of tables order_info = { input_order := none, sort_description := [] }
    ∨ inputOrderOfTables order_of tables order_info = order_info
    ∨ ∃ sorting_key, inputOrderOfTables order_of tables order_info = order_of sorting_key := by
  induction tables generalizing order_info with
  | nil => exact Or.inr (Or.inl rfl)
  | cons sorting_key tables ih =>
    rw [inputOrderOfTables]
    split
    · exact Or.inl rfl
    simp only []
    split
    · exact Or.inl rfl
    split
    · rcases ih (order_of sorting_key) with h | h | h
      · exact Or.inl h
      · exact Or.inr (Or.inr ⟨sorting_key, h⟩)
      · exact Or.inr (Or.inr h)
    split
    · exact Or.inl rfl
    · exact ih order_info

/-- The sort description the unordered matcher finds for a plan names
required keys, each once. -/
theorem unorderedInputOrder_covers (env : External) (keys : List String) (node : PlanNode)
    (reading_step : Step) :
    (∀ e ∈ (unorderedInputOrder env keys node reading_step).sort_description,
      e.column_name ∈ keys)
    ∧ ((unorderedInputOrder env keys node reading_step).sort_description.map
        (fun e => e.column_name)).Nodup := by
  unfold unorderedInputOrder
  simp only []
  cases reading_step with
  | ReadFromMergeTree reading =>
    exact buildInputOrderFromUnorderedKeys_covers _ _ _ _ _ _
  | ReadFromMerge merge =>
    simp only [buildInputOrderFromUnorderedKeysMerge]
    rcases inputOrderOfTables_cases
      (fun sorting_key =>
        buildInputOrderFromUnorderedKeys (enrichedSortingDAG env node 0).fixed_columns
          (enrichedSortingDAG env node 0).dag
          (matchesOf env (enrichedSortingDAG env node 0).dag sorting_key.expression) keys
          sorting_key.expression sorting_key.column_names)
      merge.tables { input_order := none, sort_description := [] } with h | h | ⟨sorting_key, h⟩
    · rw [h]; simp
    · rw [h]; simp
    · rw [h]
      exact buildInputOrderFromUnorderedKeys_covers _ _ _ _ _ _
  | _ => simp

/-- The order `buildInputOrderInfo` returns for an aggregating step is no order
or the order the unordered matcher finds. -/
theorem buildInputOrderInfoAggregating_covers (env : External) (aggregating : AggregatingStep)
    (node : PlanNode) :
    (∀ e ∈ (buildInputOrderInfoAggregating env aggregating node).1.sort_description,
      e.column_name ∈ aggregating.keys)
    ∧ ((buildInputOrderInfoAggregating env aggregating node).1.sort_description.map
        (fun e => e.column_name)).Nodup := by
  unfold buildInputOrderInfoAggregating
  cases h_find : findReadingStep node false with
  | none => simp
  | some reading_node =>
    simp only []
    cases h_order : (unorderedInputOrder env aggregating.keys node
        reading_node.step).input_order with
    | none =>
      simp only []
      exact unorderedInputOrder_covers env aggregating.keys node reading_node.step
    | some input_order =>
      simp only []
      cases requestOrder env reading_node.step input_order none with
      | none => simp
      | some reading =>
        simp only []
        exact unorderedInputOrder_covers env aggregating.keys node reading_node.step

/-- Over pairwise different keys, the loop that appends the other GROUP BY keys
appends the keys that are not in the sort description, in their order. -/
theorem groupBySortDescription_eq (sort_description : SortDescription) (keys : List String)
    (h_nodup : keys.Nodup) :
    groupBySortDescription sort_description keys
      = sort_description
        ++ (keys.filter (fun key =>
              !(sort_description.map (fun desc => desc.column_name)).contains key)).map
            (fun key => SortColumnDescription.ofName key 1) := by
  unfold groupBySortDescription
  have h_fold : ∀ (keys : List String) (used : List String) (acc : SortDescription),
      keys.Nodup →
      keys.foldl
        (fun (acc : List String × SortDescription) key =>
          if acc.1.contains key then acc
          else (acc.1 ++ [key], acc.2 ++ [SortColumnDescription.ofName key 1]))
        (used, acc)
      = (used ++ keys.filter (fun key => !used.contains key),
         acc ++ (keys.filter (fun key => !used.contains key)).map
            (fun key => SortColumnDescription.ofName key 1)) := by
    intro keys
    induction keys with
    | nil => intro used acc _; simp
    | cons key keys ih =>
      intro used acc h_nodup
      obtain ⟨h_key, h_keys⟩ := List.nodup_cons.mp h_nodup
      rw [List.foldl_cons]
      by_cases h_used : used.contains key = true
      · simp only [h_used, if_true]
        rw [ih used acc h_keys]
        have h_mem : key ∈ used := by simpa using h_used
        simp [List.filter_cons, h_mem]
      · simp only [h_used, Bool.false_eq_true, if_false]
        rw [ih _ _ h_keys]
        have h_same : keys.filter (fun k => !(used ++ [key]).contains k)
            = keys.filter (fun k => !used.contains k) := by
          apply List.filter_congr
          intro k hk
          have h_ne : k ≠ key := fun h => h_key (h ▸ hk)
          simp [h_ne]
        rw [h_same]
        have h_mem : key ∉ used := by simpa using h_used
        simp [List.filter_cons, h_mem]
  rw [h_fold keys _ _ h_nodup]

end UnorderedDrivers

/-- C25. On a match `optimizeAggregationInOrder` gives the aggregating step the
sort description of the matched keys as its sort description for merging,
and as its sort description of all the keys one that starts with it; for
pairwise different GROUP BY keys that one is the matched keys followed by the
other keys in their order, and names every key exactly once. -/
theorem aggregation_sort_descriptions (env : External) (aggregating : AggregatingStep)
    (child : PlanNode)
    (h_order : aggregating.inOrder = false ∨ aggregating.explicit_sorting_required = true)
    (h_sets : aggregating.is_grouping_sets = false)
    (h_overflow : aggregating.overflow_row = false)
    (h_match : (buildInputOrderInfoAggregating env aggregating child).1.input_order.isSome
      = true) :
    ∃ applied,
      optimizeAggregationInOrder env (.mk (.Aggregating aggregating) [child])
        = .mk (.Aggregating applied) [(buildInputOrderInfoAggregating env aggregating child).2]
      ∧ applied.sort_description_for_merging
        = (buildInputOrderInfoAggregating env aggregating child).1.sort_description
      ∧ applied.sort_description_for_merging <+: applied.group_by_sort_description
      ∧ (aggregating.keys.Nodup →
        applied.group_by_sort_description
          = applied.sort_description_for_merging
            ++ (aggregating.keys.filter (fun key =>
                !(applied.sort_description_for_merging.map
                  (fun desc => desc.column_name)).contains key)).map
              (fun key => SortColumnDescription.ofName key 1)
        ∧ (applied.group_by_sort_description.map (fun desc => desc.column_name)).Nodup
        ∧ ∀ key, key ∈ applied.group_by_sort_description.map (fun desc => desc.column_name)
            ↔ key ∈ aggregating.keys) := by
  obtain ⟨h_keys, h_once⟩ := buildInputOrderInfoAggregating_covers env aggregating child
  refine ⟨aggregating.applyOrder
    (buildInputOrderInfoAggregating env aggregating child).1.sort_description
    (groupBySortDescription
      (buildInputOrderInfoAggregating env aggregating child).1.sort_description
      aggregating.keys), ?_, rfl, ?_, ?_⟩
  · unfold optimizeAggregationInOrder
    have h_first : ((aggregating.inOrder && !aggregating.explicit_sorting_required)
        || aggregating.is_grouping_sets) = false := by
      rw [h_sets]
      rcases h_order with h | h
      · rw [h]; rfl
      · rw [h]; simp
    simp only [h_first, h_overflow, h_match, Bool.false_eq_true, if_false, if_true]
  · simp only [AggregatingStep.applyOrder]
    unfold groupBySortDescription
    have h_fold : ∀ (keys : List String) (used : List String) (acc : SortDescription),
        acc <+: (keys.foldl
          (fun (acc : List String × SortDescription) key =>
            if acc.1.contains key then acc
            else (acc.1 ++ [key], acc.2 ++ [SortColumnDescription.ofName key 1]))
          (used, acc)).2 := by
      intro keys
      induction keys with
      | nil => intro used acc; exact List.prefix_refl _
      | cons key keys ih =>
        intro used acc
        rw [List.foldl_cons]
        split
        · exact ih used acc
        · exact List.IsPrefix.trans (List.prefix_append _ _) (ih _ _)
    exact h_fold _ _ _
  · intro h_nodup
    simp only [AggregatingStep.applyOrder]
    rw [groupBySortDescription_eq _ _ h_nodup]
    refine ⟨rfl, ?_, ?_⟩
    · rw [List.map_append, List.nodup_append]
      refine ⟨h_once, ?_, ?_⟩
      · rw [List.map_map]
        have h_id : ((fun desc : SortColumnDescription => desc.column_name)
            ∘ fun key => SortColumnDescription.ofName key 1) = id := by
          funext key
          rfl
        rw [h_id, List.map_id]
        exact List.Nodup.filter _ h_nodup
      · intro key h_left h_right
        rw [List.map_map] at h_right
        obtain ⟨k, h_k, h_eq⟩ := List.mem_map.mp h_right
        have h_key : k = key := h_eq
        subst h_key
        have h_out := (List.mem_filter.mp h_k).2
        simp only [Bool.not_eq_true', List.contains_eq_any_beq, List.any_eq_false] at h_out
        obtain ⟨e, h_e, h_name⟩ := List.mem_map.mp h_left
        exact h_out e.column_name (List.mem_map.mpr ⟨e, h_e, rfl⟩) (by simp [h_name])
    · intro key
      rw [List.map_append, List.mem_append, List.map_map]
      constructor
      · rintro (h | h)
        · obtain ⟨e, h_e, h_name⟩ := List.mem_map.mp h
          rw [← h_name]
          exact h_keys e h_e
        · obtain ⟨k, h_k, h_eq⟩ := List.mem_map.mp h
          have h_key : k = key := h_eq
          rw [← h_key]
          exact (List.mem_filter.mp h_k).1
      · intro h
        by_cases h_in : key ∈ (buildInputOrderInfoAggregating env aggregating
            child).1.sort_description.map (fun desc => desc.column_name)
        · exact Or.inl h_in
        · right
          refine List.mem_map.mpr ⟨key, List.mem_filter.mpr ⟨h, ?_⟩, rfl⟩
          simpa using h_in
/-- C25, at a concrete input: `GROUP BY z, b` over the plan of `WHERE a = 5` and the
sort key `(a, b)` reads in the order of `b` and groups by `(b, z)`. -/
theorem aggregation_sort_descriptions_witness :
    (optimizeAggregationInOrder (externalAccepting matchesWhereA5)
        (.mk (.Aggregating (aggregatingBy ["z", "b"])) [planWhereA5])).step
      = .Aggregating
          { aggregatingBy ["z", "b"] with
              sort_description_for_merging := [SortColumnDescription.ofName "b" 1],
              group_by_sort_description :=
                [SortColumnDescription.ofName "b" 1, SortColumnDescription.ofName "z" 1] }
    ∧ ∃ applied,
      optimizeAggregationInOrder (externalAccepting matchesWhereA5)
          (.mk (.Aggregating (aggregatingBy ["z", "b"])) [planWhereA5])
        = .mk (.Aggregating applied)
            [(buildInputOrderInfoAggregating (externalAccepting matchesWhereA5)
              (aggregatingBy ["z", "b"]) planWhereA5).2]
      ∧ applied.sort_description_for_merging
        = (buildInputOrderInfoAggregating (externalAccepting matchesWhereA5)
            (aggregatingBy ["z", "b"]) planWhereA5).1.sort_description
      ∧ applied.sort_description_for_merging <+: applied.group_by_sort_description
      ∧ ((aggregatingBy ["z", "b"]).keys.Nodup →
        applied.group_by_sort_description
          = applied.sort_description_for_merging
            ++ ((aggregatingBy ["z", "b"]).keys.filter (fun key =>
                !(applied.sort_description_for_merging.map
                  (fun desc => desc.column_name)).contains key)).map
              (fun key => SortColumnDescription.ofName key 1)
        ∧ (applied.group_by_sort_description.map (fun desc => desc.column_name)).Nodup
        ∧ ∀ key, key ∈ applied.group_by_sort_description.map (fun desc => desc.column_name)
            ↔ key ∈ (aggregatingBy ["z", "b"]).keys) :=
  ⟨by decide,
    aggregation_sort_descriptions (externalAccepting matchesWhereA5) (aggregatingBy ["z", "b"])
      planWhereA5 (Or.inl rfl) rfl rfl (by decide)⟩

section SortingDriver

variable (env : External)

/-- `buildInputOrderInfo` for a sorting step returns the order the ordered
matcher finds, with the scan reading in order in the plan, when there is a
scan, the matcher finds an order and the scan accepts the request; in every
other case it returns no order and leaves the plan as it was. -/
theorem buildInputOrderInfoSorting_cases (sorting : SortingStep) (apply_virtual_row : Bool)
    (node : PlanNode) :
    (∃ reading_node input_order reading,
      findReadingStep node false = some reading_node
      ∧ (sortingInputOrder env sorting node reading_node.step).input_order = some input_order
      ∧ requestOrder env reading_node.step input_order
          (sortingInputOrder env sorting node reading_node.step).virtual_row_conversion
        = some reading
      ∧ (buildInputOrderInfoSorting env sorting apply_virtual_row node).input_order
        = some input_order
      ∧ (buildInputOrderInfoSorting env sorting apply_virtual_row node).apply_virtual_row
        = (match reading_node.step with
          | .ReadFromMergeTree _ =>
            (sortingInputOrder env sorting node reading_node.step).virtual_row_conversion.isSome
          | _ => apply_virtual_row)
      ∧ (buildInputOrderInfoSorting env sorting apply_virtual_row node).node
        = updateReadingStep node false reading)
    ∨ ((¬ ∃ reading_node input_order reading,
        findReadingStep node false = some reading_node
        ∧ (sortingInputOrder env sorting node reading_node.step).input_order = some input_order
        ∧ requestOrder env reading_node.step input_order
            (sortingInputOrder env sorting node reading_node.step).virtual_row_conversion
          = some reading)
      ∧ (buildInputOrderInfoSorting env sorting apply_virtual_row node).input_order = none
      ∧ (buildInputOrderInfoSorting env sorting apply_virtual_row node).node = node) := by
  unfold buildInputOrderInfoSorting
  cases h_find : findReadingStep node false with
  | none =>
    right
    refine ⟨?_, rfl, rfl⟩
    rintro ⟨_, _, _, h, _⟩
    exact absurd h (by simp)
  | some reading_node =>
    simp only []
    cases h_order : (sortingInputOrder env sorting node reading_node.step).input_order with
    | none =>
      right
      refine ⟨?_, rfl, rfl⟩
      rintro ⟨rn, _, _, h, h', _⟩
      simp only [Option.some.injEq] at h
      subst h
      rw [h_order] at h'
      exact absurd h' (by simp)
    | some input_order =>
      simp only []
      cases h_request : requestOrder env reading_node.step input_order
          (sortingInputOrder env sorting node reading_node.step).virtual_row_conversion with
      | none =>
        right
        refine ⟨?_, rfl, rfl⟩
        rintro ⟨rn, io, _, h, h', h''⟩
        simp only [Option.some.injEq] at h
        subst h
        rw [h_order] at h'
        simp only [Option.some.injEq] at h'
        subst h'
        rw [h_request] at h''
        exact absurd h'' (by simp)
      | some reading =>
        left
        exact ⟨reading_node, input_order, reading, rfl, h_order, h_request, rfl, rfl, rfl⟩

/-- Under a full sorting step whose only child is not a union,
`optimizeReadInOrder` asks for the order once and converts the step when it
gets one. -/
theorem optimizeReadInOrder_single (sorting : SortingStep) (child : PlanNode)
    (h_full : sorting.type = .Full) (h_union : child.step ≠ .Union) :
    optimizeReadInOrder env (.mk (.Sorting sorting) [child])
      = match (buildInputOrderInfoSorting env sorting false child).input_order with
        | some order_info =>
          .mk (.Sorting (sorting.convertToFinishSorting order_info.sort_description_for_merging
            (order_info.limit == 0)
            (buildInputOrderInfoSorting env sorting false child).apply_virtual_row))
            [(buildInputOrderInfoSorting env sorting false child).node]
        | none => .mk (.Sorting sorting) [(buildInputOrderInfoSorting env sorting false child).node] := by
  obtain ⟨step, children⟩ := child
  have h_type : ¬ sorting.type ≠ .Full := fun h => h h_full
  cases step with
  | Union => exact absurd rfl h_union
  | _ => simp only [optimizeReadInOrder, if_neg h_type]

end SortingDriver

/-- C23. For a full sorting step whose only child is not a union: when there is
a scan under it, the ordered matcher finds an order and the scan accepts the
request to read in it, `optimizeReadInOrder` converts the step into one that
finishes the sorting of runs sorted by the matched prefix, over a plan in
which the scan reads in order; in every other case, the matcher finding no
order or the scan declining, the plan is left as it was.  So the step is
converted if and only if the matcher finds an order and the scan accepts. -/
theorem sort_is_converted_iff_match_and_accept (env : External) (sorting : SortingStep)
    (child : PlanNode) (h_full : sorting.type = .Full) (h_union : child.step ≠ .Union) :
    (∀ reading_node input_order reading,
      findReadingStep child false = some reading_node →
      (sortingInputOrder env sorting child reading_node.step).input_order = some input_order →
      requestOrder env reading_node.step input_order
          (sortingInputOrder env sorting child reading_node.step).virtual_row_conversion
        = some reading →
      optimizeReadInOrder env (.mk (.Sorting sorting) [child])
        = .mk (.Sorting (sorting.convertToFinishSorting input_order.sort_description_for_merging
            (input_order.limit == 0)
            (match reading_node.step with
              | .ReadFromMergeTree _ =>
                (sortingInputOrder env sorting child
                  reading_node.step).virtual_row_conversion.isSome
              | _ => false)))
            [updateReadingStep child false reading])
    ∧ ((¬ ∃ reading_node input_order reading,
          findReadingStep child false = some reading_node
          ∧ (sortingInputOrder env sorting child reading_node.step).input_order
            = some input_order
          ∧ requestOrder env reading_node.step input_order
              (sortingInputOrder env sorting child reading_node.step).virtual_row_conversion
            = some reading) →
        optimizeReadInOrder env (.mk (.Sorting sorting) [child]) = .mk (.Sorting sorting) [child])
    ∧ ((∃ converted, (optimizeReadInOrder env (.mk (.Sorting sorting) [child])).step
            = .Sorting converted ∧ converted.type = .FinishSorting)
        ↔ ∃ reading_node input_order reading,
          findReadingStep child false = some reading_node
          ∧ (sortingInputOrder env sorting child reading_node.step).input_order
            = some input_order
          ∧ requestOrder env reading_node.step input_order
              (sortingInputOrder env sorting child reading_node.step).virtual_row_conversion
            = some reading) := by
  have h_single := optimizeReadInOrder_single env sorting child h_full h_union
  rcases buildInputOrderInfoSorting_cases env sorting false child with
    ⟨reading_node, input_order, reading, h_find, h_order, h_request, h1, h2, h3⟩
    | ⟨h_none, h1, h3⟩
  · rw [h1, h2, h3] at h_single
    simp only [] at h_single
    refine ⟨?_, ?_, ?_⟩
    · intro rn io rd g_find g_order g_request
      rw [h_find] at g_find
      simp only [Option.some.injEq] at g_find
      subst g_find
      rw [h_order] at g_order
      simp only [Option.some.injEq] at g_order
      subst g_order
      rw [h_request] at g_request
      simp only [Option.some.injEq] at g_request
      subst g_request
      exact h_single
    · intro h_not
      exact absurd ⟨reading_node, input_order, reading, h_find, h_order, h_request⟩ h_not
    · constructor
      · intro _
        exact ⟨reading_node, input_order, reading, h_find, h_order, h_request⟩
      · intro _
        rw [h_single]
        exact ⟨_, rfl, rfl⟩
  · rw [h1, h3] at h_single
    simp only [] at h_single
    refine ⟨?_, fun _ => h_single, ?_⟩
    · intro rn io rd g_find g_order g_request
      exact absurd ⟨rn, io, rd, g_find, g_order, g_request⟩ h_none
    · constructor
      · rintro ⟨converted, h_step, h_type⟩
        rw [h_single] at h_step
        simp only [PlanNode.step, Step.Sorting.injEq] at h_step
        rw [← h_step, h_full] at h_type
        exact absurd h_type (by decide)
      · intro h
        exact absurd h h_none

/-- C23, at concrete inputs: `ORDER BY b LIMIT 10` over the plan of `WHERE a = 5`
and the sort key `(a, b)` finishes the sorting of runs sorted by `(b)` when
the scan accepts the request, and is left as it was when the scan declines. -/
theorem sort_is_converted_iff_match_and_accept_witness :
    optimizeReadInOrder (externalAccepting matchesWhereA5)
        (.mk (.Sorting (SortingStep.full [ascending "b"] 10)) [planWhereA5])
      = .mk (.Sorting
          { SortingStep.full [ascending "b"] 10 with
              type := .FinishSorting, prefix_description := [ascending "b"],
              use_buffering := true })
          [.mk (.Filter dagWhereA5 "equals(a, 5)")
            [.mk (.ReadFromMergeTree
              { readingAB with
                  input_order_info := some
                    { sort_description_for_merging := [], used_prefix_of_sorting_key_size := 2,
                      direction := 1, limit := 0 } }) []]]
    ∧ optimizeReadInOrder (externalDeclining matchesWhereA5)
        (.mk (.Sorting (SortingStep.full [ascending "b"] 10)) [planWhereA5])
      = .mk (.Sorting (SortingStep.full [ascending "b"] 10)) [planWhereA5] :=
  ⟨by decide,
    (sort_is_converted_iff_match_and_accept (externalDeclining matchesWhereA5)
      (SortingStep.full [ascending "b"] 10) planWhereA5 rfl (by decide)).2.1
      (by
        rintro ⟨reading_node, input_order, reading, h_find, _, h_request⟩
        have h_node : reading_node = .mk (.ReadFromMergeTree readingAB) [] := by
          have h : findReadingStep planWhereA5 false
              = some (.mk (.ReadFromMergeTree readingAB) []) := by decide
          rw [h] at h_find
          exact (Option.some.inj h_find).symm
        subst h_node
        simp [requestOrder, PlanNode.step, externalDeclining] at h_request)⟩

/-- The ordered matcher returns an order only with a read-order description
that is not empty. -/
theorem buildInputOrderFromSortDescription_nonempty (fixed_columns : FixedColumns)
    (dag : Option ActionsDAG) (ms : Matches) (description : SortDescription)
    (sorting_key : KeyDescription) (pk_column_names : List String) (limit : Nat)
    (info : InputOrderInfo)
    (h_some : (buildInputOrderFromSortDescription fixed_columns dag ms description sorting_key
      pk_column_names limit).input_order = some info) :
    info.sort_description_for_merging ≠ [] := by
  unfold buildInputOrderFromSortDescription at h_some
  simp only [] at h_some
  split at h_some
  · exact absurd h_some (by simp)
  · rename_i h_not
    simp only [Option.some.injEq] at h_some
    subst h_some
    intro h_nil
    apply h_not
    right
    simp only [] at h_nil
    rw [h_nil]
    rfl

/-- What holds of every order a table gives and of the order at the start
holds of the order the loop over the tables returns. -/
theorem sortingOrderOfTables_some (order_of : KeyDescription → SortingInputOrder)
    (holds : InputOrderInfo → Prop)
    (h_table : ∀ sorting_key info, (order_of sorting_key).input_order = some info → holds info)
    (tables : List KeyDescription) (order_info : SortingInputOrder)
    (h_start : ∀ info, order_info.input_order = some info → holds info)
    (info : InputOrderInfo)
    (h_some : (sortingOrderOfTables order_of tables order_info).input_order = some info) :
    holds info := by
  induction tables generalizing order_info with
  | nil => exact h_start info h_some
  | cons sorting_key tables ih =>
    rw [sortingOrderOfTables] at h_some
    split at h_some
    · exact absurd h_some (by simp)
    simp only [] at h_some
    split at h_some
    · exact absurd h_some (by simp)
    split at h_some
    · exact ih _ (h_table sorting_key) h_some
    split at h_some
    · exact absurd h_some (by simp)
    · exact ih _ h_start h_some

/-- The order the ordered matcher finds under a sorting step has a read-order
description that is not empty. -/
theorem sortingInputOrder_nonempty (env : External) (sorting : SortingStep) (node : PlanNode)
    (reading_step : Step) (info : InputOrderInfo)
    (h_some : (sortingInputOrder env sorting node reading_step).input_order = some info) :
    info.sort_description_for_merging ≠ [] := by
  unfold sortingInputOrder at h_some
  simp only [] at h_some
  split at h_some
  · exact buildInputOrderFromSortDescription_nonempty _ _ _ _ _ _ _ info h_some
  · unfold buildInputOrderFromSortDescriptionMerge at h_some
    refine sortingOrderOfTables_some _ (fun info => info.sort_description_for_merging ≠ [])
      ?_ _ _ ?_ info h_some
    · intro sorting_key info h
      exact buildInputOrderFromSortDescription_nonempty _ _ _ _ _ _ _ info h
    · intro info h
      exact absurd h (by simp)
  · exact absurd h_some (by simp)

/-- An order `buildInputOrderInfo` returns for a sorting step has a read-order
description that is not empty. -/
theorem buildInputOrderInfoSorting_nonempty (env : External) (sorting : SortingStep)
    (apply_virtual_row : Bool) (node : PlanNode) (info : InputOrderInfo)
    (h_some : (buildInputOrderInfoSorting env sorting apply_virtual_row node).input_order
      = some info) :
    info.sort_description_for_merging ≠ [] := by
  rcases buildInputOrderInfoSorting_cases env sorting apply_virtual_row node with
    ⟨reading_node, input_order, reading, _, h_order, _, h1, _, _⟩ | ⟨_, h1, _⟩
  · rw [h1] at h_some
    simp only [Option.some.injEq] at h_some
    subst h_some
    exact sortingInputOrder_nonempty env sorting node reading_node.step _ h_order
  · rw [h1] at h_some
    exact absurd h_some (by simp)

/-- A turn of the first loop over the children of a union keeps this: as long
as no child gave an order the children are as they were, and the longest
read-order description found is not empty. -/
theorem unionChildStep_invariant (env : External) (sorting : SortingStep) (st : UnionState)
    (seen : List PlanNode) (child : PlanNode)
    (h_none : st.max_sort_descr = none → st.children = seen)
    (h_some : ∀ max_sort_descr, st.max_sort_descr = some max_sort_descr → max_sort_descr ≠ []) :
    ((unionChildStep env sorting st child).max_sort_descr = none →
      (unionChildStep env sorting st child).children = seen ++ [child])
    ∧ ∀ max_sort_descr, (unionChildStep env sorting st child).max_sort_descr = some max_sort_descr →
      max_sort_descr ≠ [] := by
  unfold unionChildStep
  simp only []
  cases h_request : (buildInputOrderInfoSorting env sorting st.apply_virtual_row child).input_order with
  | none =>
    simp only []
    have h_node : (buildInputOrderInfoSorting env sorting st.apply_virtual_row child).node
        = child := by
      rcases buildInputOrderInfoSorting_cases env sorting st.apply_virtual_row child with
        ⟨_, _, _, _, _, _, h1, _, _⟩ | ⟨_, _, h3⟩
      · rw [h1] at h_request
        exact absurd h_request (by simp)
      · exact h3
    refine ⟨?_, h_some⟩
    intro h
    rw [h_none h, h_node]
  | some info =>
    simp only []
    have h_info := buildInputOrderInfoSorting_nonempty env sorting st.apply_virtual_row child
      info h_request
    cases h_max : st.max_sort_descr with
    | none =>
      simp only []
      refine ⟨fun h => absurd h (by simp), ?_⟩
      intro m h
      simp only [Option.some.injEq] at h
      rw [← h]
      exact h_info
    | some max_sort_descr =>
      simp only []
      refine ⟨?_, ?_⟩
      · intro h
        split at h <;> exact absurd h (by simp)
      · intro m h
        split at h
        · simp only [Option.some.injEq] at h
          rw [← h]
          exact h_info
        · simp only [Option.some.injEq] at h
          rw [← h]
          exact h_some max_sort_descr h_max

/-- The first loop over the children of a union keeps the invariant of its
turns. -/
theorem unionChildStep_foldl (env : External) (sorting : SortingStep)
    (children : List PlanNode) (st : UnionState) (seen : List PlanNode)
    (h_none : st.max_sort_descr = none → st.children = seen)
    (h_some : ∀ max_sort_descr, st.max_sort_descr = some max_sort_descr → max_sort_descr ≠ []) :
    ((children.foldl (unionChildStep env sorting) st).max_sort_descr = none →
      (children.foldl (unionChildStep env sorting) st).children = seen ++ children)
    ∧ ∀ max_sort_descr,
      (children.foldl (unionChildStep env sorting) st).max_sort_descr = some max_sort_descr →
      max_sort_descr ≠ [] := by
  induction children generalizing st seen with
  | nil =>
    simp only [List.foldl_nil, List.append_nil]
    exact ⟨h_none, h_some⟩
  | cons child children ih =>
    simp only [List.foldl_cons]
    have h_step := unionChildStep_invariant env sorting st seen child h_none h_some
    have h := ih (unionChildStep env sorting st child) (seen ++ [child]) h_step.1 h_step.2
    simpa using h

/-- A sorting step that is not a full sort is left as it is. -/
theorem optimizeReadInOrder_not_full (env : External) (sorting : SortingStep) (child : PlanNode)
    (h_type : sorting.type ≠ .Full) :
    optimizeReadInOrder env (.mk (.Sorting sorting) [child]) = .mk (.Sorting sorting) [child] := by
  simp only [optimizeReadInOrder, if_pos h_type]

/-- `optimizeReadInOrder` either leaves the plan as it is or returns a sorting
step that finishes the sorting. -/
theorem optimizeReadInOrder_shape (env : External) (node : PlanNode) :
    optimizeReadInOrder env node = node
    ∨ ∃ converted rewritten,
      optimizeReadInOrder env node = .mk (.Sorting converted) [rewritten]
      ∧ converted.type = .FinishSorting := by
  obtain ⟨step, children⟩ := node
  by_cases h_shape : ∃ sorting child, step = .Sorting sorting ∧ children = [child]
  · obtain ⟨sorting, child, h_step, h_children⟩ := h_shape
    subst h_step
    subst h_children
    by_cases h_type : sorting.type ≠ .Full
    · exact Or.inl (optimizeReadInOrder_not_full env sorting child h_type)
    · have h_full : sorting.type = .Full := not_not.mp h_type
      by_cases h_union : child.step = .Union
      · obtain ⟨child_step, union_children⟩ := child
        simp only [PlanNode.step] at h_union
        subst h_union
        simp only [optimizeReadInOrder, if_neg h_type]
        split
        · exact Or.inl rfl
        · have h_fold := unionChildStep_foldl env sorting union_children
            { infos := [], children := [], max_sort_descr := none, use_buffering := false,
              apply_virtual_row := false } [] (fun _ => rfl) (fun _ h => absurd h (by simp))
          simp only [List.nil_append] at h_fold
          split
          · rename_i h_max
            rw [h_fold.1 h_max]
            exact Or.inl rfl
          · rename_i max_sort_descr h_max
            have h_nonempty := h_fold.2 max_sort_descr h_max
            have h_empty : ¬ max_sort_descr.isEmpty = true := by
              simpa using h_nonempty
            rw [if_neg h_empty]
            exact Or.inr ⟨_, _, rfl, rfl⟩
      · rw [optimizeReadInOrder_single env sorting child h_full h_union]
        rcases buildInputOrderInfoSorting_cases env sorting false child with
          ⟨_, _, _, _, _, _, h1, _, _⟩ | ⟨_, h1, h3⟩
        · rw [h1]
          exact Or.inr ⟨_, _, rfl, rfl⟩
        · rw [h1, h3]
          exact Or.inl rfl
  · left
    cases step with
    | Sorting sorting =>
      cases children with
      | nil => rfl
      | cons child children =>
        cases children with
        | nil => exact absurd ⟨_, _, rfl, rfl⟩ h_shape
        | cons _ _ => rfl
    | _ => rfl

/-- A scan `checkSupportedReadingStep` takes when an existing order is not
allowed is taken when it is allowed too. -/
theorem checkSupportedReadingStep_allow (step : Step)
    (h : checkSupportedReadingStep step false = true) :
    checkSupportedReadingStep step true = true := by
  cases step <;> simp_all [checkSupportedReadingStep]

/-- A scan `checkSupportedReadingStep` takes when an existing order is allowed
and that already reads in order is refused when it is not allowed. -/
theorem checkSupportedReadingStep_readsInOrder (step : Step)
    (h_reads : step.readsInOrder = true) :
    checkSupportedReadingStep step false = false := by
  cases step <;> simp_all [checkSupportedReadingStep, Step.readsInOrder]

/-- When the scan under the plan already reads in order, `findReadingStep`
finds no scan unless an existing order is allowed. -/
theorem findReadingStep_readsInOrder (node reading_node : PlanNode)
    (h_find : findReadingStep node true = some reading_node)
    (h_reads : reading_node.step.readsInOrder = true) :
    findReadingStep node false = none := by
  refine findReadingStep.induct
    (fun node allow => allow = true → ∀ reading_node,
      findReadingStep node true = some reading_node →
      reading_node.step.readsInOrder = true → findReadingStep node false = none)
    ?_ ?_ ?_ ?_ ?_ ?_ ?_ ?_ node true rfl reading_node h_find h_reads
  · intro step children allow h_check h_allow found g_find g_reads
    subst h_allow
    unfold findReadingStep at g_find
    rw [if_pos h_check] at g_find
    simp only [Option.some.injEq] at g_find
    subst g_find
    simp only [PlanNode.step] at g_reads
    have h_refused := checkSupportedReadingStep_readsInOrder step g_reads
    unfold findReadingStep
    rw [h_refused]
    cases step with
    | ReadFromMergeTree reading => cases children with
      | nil => rfl
      | cons child children => cases children <;> rfl
    | ReadFromMerge merge => cases children with
      | nil => rfl
      | cons child children => cases children <;> rfl
    | _ => simp [Step.readsInOrder] at g_reads
  · intro allow child actions _ ih h_allow found g_find g_reads
    subst h_allow
    unfold findReadingStep at g_find ⊢
    simp only [checkSupportedReadingStep] at g_find ⊢
    exact ih rfl found g_find g_reads
  · intro allow child actions filter_column_name _ ih h_allow found g_find g_reads
    subst h_allow
    unfold findReadingStep at g_find ⊢
    simp only [checkSupportedReadingStep] at g_find ⊢
    exact ih rfl found g_find g_reads
  · intro allow child is_left columns _ ih h_allow found g_find g_reads
    subst h_allow
    unfold findReadingStep at g_find ⊢
    simp only [checkSupportedReadingStep] at g_find ⊢
    exact ih rfl found g_find g_reads
  · intro allow child distinct h_preliminary _ ih h_allow found g_find g_reads
    subst h_allow
    unfold findReadingStep at g_find ⊢
    simp only [checkSupportedReadingStep, h_preliminary] at g_find ⊢
    exact ih rfl found g_find g_reads
  · intro allow child distinct h_preliminary _ h_allow found g_find _
    subst h_allow
    unfold findReadingStep at g_find
    simp [checkSupportedReadingStep, h_preliminary] at g_find
  · intro step allow h_check child h1 h2 h3 h4 h_allow found g_find _
    subst h_allow
    unfold findReadingStep at g_find
    rw [if_neg h_check] at g_find
    cases step with
    | Expression actions => exact absurd rfl (fun h => h1 actions h)
    | Filter actions name => exact absurd rfl (fun h => h2 actions name h)
    | ArrayJoin is_left columns => exact absurd rfl (fun h => h3 is_left columns h)
    | Distinct distinct => exact absurd rfl (fun h => h4 distinct h)
    | _ => simp at g_find
  · intro step children allow h_check h_children h_allow found g_find _
    subst h_allow
    unfold findReadingStep at g_find
    rw [if_neg h_check] at g_find
    cases children with
    | nil => simp at g_find
    | cons child children =>
      cases children with
      | nil => exact absurd rfl (fun h => h_children child h)
      | cons _ _ => simp at g_find

/-- C27. Idempotence of the sort driver: `optimizeReadInOrder` applied to a plan
it has returned returns that plan, so the second application leaves the
prefix the sorting step finishes from and the order the scan reads in as the
first application set them; a sorting step that is not a full sort is left
as it is; and under a plan whose scan already reads in order
`buildInputOrderInfo` finds no order and leaves the plan as it is. -/
theorem read_in_order_is_idempotent (env : External) :
    (∀ node,
      optimizeReadInOrder env (optimizeReadInOrder env node) = optimizeReadInOrder env node)
    ∧ (∀ sorting child, sorting.type ≠ .Full →
      optimizeReadInOrder env (.mk (.Sorting sorting) [child]) = .mk (.Sorting sorting) [child])
    ∧ (∀ sorting apply_virtual_row child reading_node,
      findReadingStep child true = some reading_node →
      reading_node.step.readsInOrder = true →
      (buildInputOrderInfoSorting env sorting apply_virtual_row child).input_order = none
      ∧ (buildInputOrderInfoSorting env sorting apply_virtual_row child).node = child)
    ∧ (∀ node first first_child second second_child,
      optimizeReadInOrder env node = .mk (.Sorting first) [first_child] →
      optimizeReadInOrder env (optimizeReadInOrder env node)
        = .mk (.Sorting second) [second_child] →
      second.type = first.type
      ∧ second.prefix_description = first.prefix_description
      ∧ (findReadingStep second_child true).map (fun scan => scan.step.getInputOrder)
        = (findReadingStep first_child true).map (fun scan => scan.step.getInputOrder)) := by
  have h_idempotent : ∀ node,
      optimizeReadInOrder env (optimizeReadInOrder env node) = optimizeReadInOrder env node := by
    intro node
    rcases optimizeReadInOrder_shape env node with h | ⟨converted, rewritten, h, h_type⟩
    · rw [h, h]
    · rw [h]
      apply optimizeReadInOrder_not_full
      rw [h_type]
      decide
  refine ⟨h_idempotent, ?_, ?_, ?_⟩
  · intro sorting child h_type
    exact optimizeReadInOrder_not_full env sorting child h_type
  · intro sorting apply_virtual_row child reading_node h_find h_reads
    have h_none := findReadingStep_readsInOrder child reading_node h_find h_reads
    unfold buildInputOrderInfoSorting
    rw [h_none]
    exact ⟨rfl, rfl⟩
  · intro node first first_child second second_child h_first h_second
    rw [h_idempotent node, h_first] at h_second
    simp only [PlanNode.mk.injEq, Step.Sorting.injEq, List.cons.injEq, and_true] at h_second
    obtain ⟨h_step, h_child⟩ := h_second
    subst h_step
    subst h_child
    exact ⟨rfl, rfl, rfl⟩

/-- C27, at a concrete input: the plan of `WHERE a = 5 ORDER BY b LIMIT 10` over
the sort key `(a, b)` is rewritten by the first application and left as it
is by the second, and under the rewritten plan no order is found. -/
theorem read_in_order_is_idempotent_witness :
    optimizeReadInOrder (externalAccepting matchesWhereA5)
        (optimizeReadInOrder (externalAccepting matchesWhereA5) planOrderByB)
      = optimizeReadInOrder (externalAccepting matchesWhereA5) planOrderByB
    ∧ optimizeReadInOrder (externalAccepting matchesWhereA5) planOrderByB
      = .mk (.Sorting
          { SortingStep.full [ascending "b"] 10 with
              type := .FinishSorting, prefix_description := [ascending "b"],
              use_buffering := true })
          [planWhereA5InOrder]
    ∧ findReadingStep planWhereA5InOrder true = some (.mk (.ReadFromMergeTree
        { readingAB with
            input_order_info := some
              { sort_description_for_merging := [], used_prefix_of_sorting_key_size := 2,
                direction := 1, limit := 0 } }) [])
    ∧ (buildInputOrderInfoSorting (externalAccepting matchesWhereA5)
        (SortingStep.full [ascending "b"] 10) false planWhereA5InOrder).input_order = none :=
  ⟨(read_in_order_is_idempotent (externalAccepting matchesWhereA5)).1 planOrderByB,
    by decide, by decide,
    ((read_in_order_is_idempotent (externalAccepting matchesWhereA5)).2.2.1
      (SortingStep.full [ascending "b"] 10) false planWhereA5InOrder _
      (by decide : findReadingStep planWhereA5InOrder true = some (.mk (.ReadFromMergeTree
        { readingAB with
            input_order_info := some
              { sort_description_for_merging := [], used_prefix_of_sorting_key_size := 2,
                direction := 1, limit := 0 } }) []))
      (by decide)).1⟩


end DB
